import Mathlib

/-!
# PVRTC / PVRTC-II texture decompression

A shallow embedding of `extlib/PowerVR/PVRTDecompress.cpp` and a verification of
properties of its components: the colour extractor, the modulation unpacker, the
neighbour-averaging resolver, the bilinear interpolator, the pixel compositor, the
Morton/linear twiddler and the toroidal block walker.

Conventions of the embedding.

* `uint32_t` values are natural numbers; every operation that can leave the range
  is followed by an explicit reduction modulo `2 ^ 32` (`u32`).
* `uint8_t` channels are natural numbers; every narrowing assignment is an explicit
  reduction modulo `256` (`u8`, `toU8`).
* `int32_t` values are integers.  The only signed arithmetic of the decoder is done
  on values derived from 8-bit channels and small weights, whose magnitude stays far
  below `2 ^ 31`.
* C arrays are total functions from indices to elements; a store is `setAt` /
  `Grid.set`.  Uninitialised local arrays are parameters of the function that
  declares them, so their initial contents are arbitrary.
* `for` loops with a counter running from `0` are `forLoop`; the `while` loop of
  `TwiddleUV` runs on fuel and yields `none` when the fuel is exhausted.
-/

namespace PVRTC

/-! ## Machine arithmetic and arrays -/

/-- Reduction of a natural number to the range of `uint32_t`. -/
def u32 (n : Nat) : Nat := n % 2 ^ 32

/-- Narrowing of a non-negative value to `uint8_t`. -/
def u8 (n : Nat) : Nat := n % 256

/-- Narrowing `static_cast<uint8_t>` of an `int32_t` value. -/
def toU8 (i : Int) : Nat := (i % 256).toNat

/-- Conversion of an `int` to `uint32_t`. -/
def intToU32 (i : Int) : Nat := (i % 2 ^ 32).toNat

/-- The `uint32_t` complement `~m`. -/
def not32 (m : Nat) : Nat := 0xFFFFFFFF ^^^ m

/-- Store into a one-dimensional array. -/
def setAt {α : Type} (f : Nat → α) (i : Nat) (v : α) : Nat → α :=
  fun j => if j = i then v else f j

/-- Auxiliary recursion of `forLoop`: `n` iterations remain, the counter is `i`. -/
def forLoopFrom {σ : Type} (body : Nat → σ → σ) : Nat → Nat → σ → σ
  | 0, _, s => s
  | n + 1, i, s => forLoopFrom body n (i + 1) (body i s)

/-- The loop `for (i = 0; i < n; i++) body`, threading the state `s`. -/
def forLoop {σ : Type} (n : Nat) (body : Nat → σ → σ) (s : σ) : σ :=
  forLoopFrom body n 0 s

/-! ## Data model -/

/-- The `struct Pixel32`: four `uint8_t` channels. -/
structure Pixel32 where
  red : Nat
  green : Nat
  blue : Nat
  alpha : Nat
  deriving DecidableEq, Repr

/-- The `struct Pixel128S`: four `int32_t` channels. -/
@[ext]
structure Pixel128S where
  red : Int
  green : Int
  blue : Int
  alpha : Int
  deriving DecidableEq, Repr

/-- The `struct PVRTCWord`: one compressed block. -/
structure PVRTCWord where
  modulationData : Nat
  colorData : Nat
  deriving DecidableEq, Repr

/-- The `struct PVRTCWordIndices`: block coordinates `(x, y)` of the four words. -/
structure PVRTCWordIndices where
  P : Nat × Nat
  Q : Nat × Nat
  R : Nat × Nat
  S : Nat × Nat
  deriving DecidableEq, Repr

/-- A two-dimensional `int32_t [16][8]` array. -/
abbrev Grid := Nat → Nat → Int

/-- Store into a two-dimensional array. -/
def Grid.set (g : Grid) (a b : Nat) (v : Int) : Grid :=
  fun i j => if i = a ∧ j = b then v else g i j

/-- Componentwise sum of two wide pixels. -/
def Pixel128S.add (a b : Pixel128S) : Pixel128S :=
  ⟨a.red + b.red, a.green + b.green, a.blue + b.blue, a.alpha + b.alpha⟩

/-- Componentwise difference of two wide pixels. -/
def Pixel128S.sub (a b : Pixel128S) : Pixel128S :=
  ⟨a.red - b.red, a.green - b.green, a.blue - b.blue, a.alpha - b.alpha⟩

/-- Componentwise product of a wide pixel with a scalar. -/
def Pixel128S.scale (k : Int) (a : Pixel128S) : Pixel128S :=
  ⟨k * a.red, k * a.green, k * a.blue, k * a.alpha⟩

/-- Widening of a `Pixel32` to `int32_t` channels. -/
def Pixel32.widen (p : Pixel32) : Pixel128S :=
  ⟨(p.red : Int), (p.green : Int), (p.blue : Int), (p.alpha : Int)⟩

/-- Narrowing of a wide pixel to `uint8_t` channels. -/
def Pixel128S.narrow (p : Pixel128S) : Pixel32 :=
  ⟨toU8 p.red, toU8 p.green, toU8 p.blue, toU8 p.alpha⟩

/-- A wide pixel whose four channels lie in the range of `uint8_t`. -/
def Pixel128S.inByte (p : Pixel128S) : Prop :=
  0 ≤ p.red ∧ p.red ≤ 255 ∧ 0 ≤ p.green ∧ p.green ≤ 255 ∧ 0 ≤ p.blue ∧ p.blue ≤ 255 ∧
    0 ≤ p.alpha ∧ p.alpha ≤ 255

instance (p : Pixel128S) : Decidable p.inByte := by
  unfold Pixel128S.inByte
  infer_instance

/-! ## Colour extraction (`getColorA`, `getColorB`) -/

/-- The function `getColorA<PVRTCII>`. -/
def getColorA (PVRTCII : Bool) (colorData : Nat) : Pixel32 :=
  let opaqueFlag : Nat := if PVRTCII then 0x80000000 else 0x8000
  if colorData &&& opaqueFlag ≠ 0 then
    { red := u8 ((colorData &&& 0x7c00) >>> 10)
      green := u8 ((colorData &&& 0x3e0) >>> 5)
      blue := u8 (u8 (colorData &&& 0x1e) ||| ((colorData &&& 0x1e) >>> 4))
      alpha := u8 0xf }
  else
    { red := u8 (u8 ((colorData &&& 0xf00) >>> 7) ||| ((colorData &&& 0xf00) >>> 11))
      green := u8 (u8 ((colorData &&& 0xf0) >>> 3) ||| ((colorData &&& 0xf0) >>> 7))
      blue := u8 (u8 ((colorData &&& 0xe) <<< 1) ||| ((colorData &&& 0xe) >>> 2))
      alpha := u8 ((colorData &&& 0x7000) >>> 11) }

/-- The function `getColorB<PVRTCII>`. -/
def getColorB (PVRTCII : Bool) (colorData : Nat) : Pixel32 :=
  if colorData &&& 0x80000000 ≠ 0 then
    { red := u8 ((colorData &&& 0x7c000000) >>> 26)
      green := u8 ((colorData &&& 0x3e00000) >>> 21)
      blue := u8 ((colorData &&& 0x1f0000) >>> 16)
      alpha := u8 0xf }
  else
    let alpha := u8 ((colorData &&& 0x70000000) >>> 27)
    { red := u8 (((colorData &&& 0xf000000) >>> 23) ||| ((colorData &&& 0xf000000) >>> 27))
      green := u8 (((colorData &&& 0xf00000) >>> 19) ||| ((colorData &&& 0xf00000) >>> 23))
      blue := u8 (((colorData &&& 0xf0000) >>> 15) ||| ((colorData &&& 0xf0000) >>> 19))
      alpha := if PVRTCII then u8 (alpha ||| 1) else alpha }

/-! ## Bilinear interpolation (`interpolateColors`) -/

/-- The value stored for one texel by the 2bpp branch of `interpolateColors`.  The
shift of an `int32_t` is the arithmetic shift `Int.shiftRight`. -/
def shiftOut2 (result : Pixel128S) : Pixel128S :=
  ⟨(result.red >>> (7 : Nat)) + (result.red >>> (2 : Nat)),
   (result.green >>> (7 : Nat)) + (result.green >>> (2 : Nat)),
   (result.blue >>> (7 : Nat)) + (result.blue >>> (2 : Nat)),
   (result.alpha >>> (5 : Nat)) + (result.alpha >>> (1 : Nat))⟩

/-- The value stored for one texel by the 4bpp branch of `interpolateColors`. -/
def shiftOut4 (result : Pixel128S) : Pixel128S :=
  ⟨(result.red >>> (6 : Nat)) + (result.red >>> (1 : Nat)),
   (result.green >>> (6 : Nat)) + (result.green >>> (1 : Nat)),
   (result.blue >>> (6 : Nat)) + (result.blue >>> (1 : Nat)),
   (result.alpha >>> (4 : Nat)) + result.alpha⟩

/-- The function `interpolateColors`.  `pPixel` is the output array on entry; the
array after the call is returned. -/
def interpolateColors (P Q R S : Pixel32) (pPixel : Nat → Pixel128S) (bpp : Nat) :
    Nat → Pixel128S :=
  let wordWidth : Nat := if bpp = 2 then 8 else 4
  let wordHeight : Nat := 4
  let hP := P.widen
  let hQ := Q.widen
  let hR := R.widen
  let hS := S.widen
  let QminusP := hQ.sub hP
  let SminusR := hS.sub hR
  let hP := hP.scale wordWidth
  let hR := hR.scale wordWidth
  if bpp = 2 then
    (forLoop wordWidth (fun x (st : Pixel128S × Pixel128S × (Nat → Pixel128S)) =>
      let hP := st.1
      let hR := st.2.1
      let result := hP.scale 4
      let dY := hR.sub hP
      let inner := forLoop wordHeight (fun y (st2 : Pixel128S × (Nat → Pixel128S)) =>
        (st2.1.add dY, setAt st2.2 (y * wordWidth + x) (shiftOut2 st2.1))) (result, st.2.2)
      (hP.add QminusP, hR.add SminusR, inner.2)) (hP, hR, pPixel)).2.2
  else
    (forLoop wordHeight (fun y (st : Pixel128S × Pixel128S × (Nat → Pixel128S)) =>
      let hP := st.1
      let hR := st.2.1
      let result := hP.scale 4
      let dY := hR.sub hP
      let inner := forLoop wordWidth (fun x (st2 : Pixel128S × (Nat → Pixel128S)) =>
        (st2.1.add dY, setAt st2.2 (y * wordWidth + x) (shiftOut4 st2.1))) (result, st.2.2)
      (hP.add QminusP, hR.add SminusR, inner.2)) (hP, hR, pPixel)).2.2

/-! ## Modulation unpacking (`unpackModulations`) -/

/-- The mode selection at the head of the 2bpp interpolated branch of
`unpackModulations`: the pair of the final `WordModMode` and the adjusted
`ModulationBits`. -/
def selectModulationMode (ModulationBits : Nat) : Nat × Nat :=
  let r : Nat × Nat :=
    if ModulationBits &&& 0x1 ≠ 0 then
      let WordModMode : Nat := if ModulationBits &&& (0x1 <<< 20) ≠ 0 then 3 else 2
      let bits : Nat :=
        if ModulationBits &&& (0x1 <<< 21) ≠ 0 then ModulationBits ||| (0x1 <<< 20)
        else ModulationBits &&& not32 (0x1 <<< 20)
      (WordModMode, bits)
    else (1, ModulationBits)
  let bits : Nat := if r.2 &&& 0x2 ≠ 0 then r.2 ||| 0x1 else r.2 &&& not32 0x1
  (r.1, bits)

/-- The substitution applied by the 4bpp branch of `unpackModulations` to a 2-bit
code when the word's mode flag is set. -/
def code4Flagged (c : Nat) : Int :=
  if c = 1 then 4 else if c = 2 then 14 else if c = 3 then 8 else c

/-- The substitution applied by the 4bpp branch of `unpackModulations` to a 2-bit
code when the word's mode flag is clear. -/
def code4Plain (c : Nat) : Int :=
  let v : Int := (c : Int) * 3
  if v > 3 then v - 1 else v

/-- The function `unpackModulations`.  The pair consists of `modulationValues` and
`modulationModes`; the arrays after the call are returned. -/
def unpackModulations (word : PVRTCWord) (offsetX offsetY : Nat)
    (grids : Grid × Grid) (bpp : Nat) : Grid × Grid :=
  let WordModMode : Nat := word.colorData &&& 0x1
  let ModulationBits : Nat := word.modulationData
  if bpp = 2 then
    if WordModMode ≠ 0 then
      let sel := selectModulationMode ModulationBits
      let WordModMode := sel.1
      let ModulationBits := sel.2
      let r := forLoop 4 (fun y (st : Grid × Grid × Nat) =>
        forLoop 8 (fun x (st : Grid × Grid × Nat) =>
          let modes := st.2.1.set (x + offsetX) (y + offsetY) WordModMode
          if (x ^^^ y) &&& 1 = 0 then
            (st.1.set (x + offsetX) (y + offsetY) ((st.2.2 &&& 3 : Nat) : Int), modes,
              st.2.2 >>> 2)
          else (st.1, modes, st.2.2)) st) (grids.1, grids.2, ModulationBits)
      (r.1, r.2.1)
    else
      let r := forLoop 4 (fun y (st : Grid × Grid × Nat) =>
        forLoop 8 (fun x (st : Grid × Grid × Nat) =>
          let modes := st.2.1.set (x + offsetX) (y + offsetY) WordModMode
          let values :=
            if st.2.2 &&& 1 ≠ 0 then st.1.set (x + offsetX) (y + offsetY) 0x3
            else st.1.set (x + offsetX) (y + offsetY) 0x0
          (values, modes, st.2.2 >>> 1)) st) (grids.1, grids.2, ModulationBits)
      (r.1, r.2.1)
  else
    if WordModMode ≠ 0 then
      let r := forLoop 4 (fun y (st : Grid × Nat) =>
        forLoop 4 (fun x (st : Grid × Nat) =>
          (st.1.set (y + offsetY) (x + offsetX) (code4Flagged (st.2 &&& 3)), st.2 >>> 2)) st)
        (grids.1, ModulationBits)
      (r.1, grids.2)
    else
      let r := forLoop 4 (fun y (st : Grid × Nat) =>
        forLoop 4 (fun x (st : Grid × Nat) =>
          (st.1.set (y + offsetY) (x + offsetX) (code4Plain (st.2 &&& 3)), st.2 >>> 2)) st)
        (grids.1, ModulationBits)
      (r.1, grids.2)

/-! ## Modulation lookup (`getModulationValues`) -/

/-- The table `RepVals0 = { 0, 3, 5, 8 }`.  An index outside `0..3` is a read
outside the table, for which the embedding returns `0`. -/
def RepVals0 (i : Int) : Int :=
  if i = 0 then 0 else if i = 1 then 3 else if i = 2 then 5 else if i = 3 then 8 else 0

/-- The function `getModulationValues`.  The neighbour coordinates are computed in
`uint32_t`. -/
def getModulationValues (modulationValues modulationModes : Grid) (xPos yPos : Nat)
    (bpp : Nat) : Int :=
  let xm := u32 (xPos + (2 ^ 32 - 1))
  let xp := u32 (xPos + 1)
  let ym := u32 (yPos + (2 ^ 32 - 1))
  let yp := u32 (yPos + 1)
  if bpp = 2 then
    if modulationModes xPos yPos = 0 then RepVals0 (modulationValues xPos yPos)
    else if (xPos ^^^ yPos) &&& 1 = 0 then RepVals0 (modulationValues xPos yPos)
    else if modulationModes xPos yPos = 1 then
      Int.tdiv (RepVals0 (modulationValues xPos ym) + RepVals0 (modulationValues xPos yp) +
        RepVals0 (modulationValues xm yPos) + RepVals0 (modulationValues xp yPos) + 2) 4
    else if modulationModes xPos yPos = 2 then
      Int.tdiv (RepVals0 (modulationValues xm yPos) + RepVals0 (modulationValues xp yPos) + 1) 2
    else
      Int.tdiv (RepVals0 (modulationValues xPos ym) + RepVals0 (modulationValues xPos yp) + 1) 2
  else if bpp = 4 then modulationValues xPos yPos
  else 0

/-! ## Pixel compositor (`pvrtcGetDecompressedPixels`) -/

/-- The uninitialised local arrays of `pvrtcGetDecompressedPixels`. -/
structure Scratch where
  modulationValues : Grid
  modulationModes : Grid
  upscaledColorA : Nat → Pixel128S
  upscaledColorB : Nat → Pixel128S

/-- The blend of one texel in `pvrtcGetDecompressedPixels`: from the modulation
value `mod` returned by `getModulationValues` and the two interpolated colours to
the wide `result`. -/
def blendTexel (PVRTCII : Bool) (colorA colorB : Pixel128S) (mod : Int) : Pixel128S :=
  let punchthroughAlpha : Bool := decide (mod > 10)
  let mod : Int := if punchthroughAlpha then mod - 10 else mod
  if PVRTCII && punchthroughAlpha then ⟨0, 0, 0, 0⟩
  else
    { red := Int.tdiv (colorA.red * (8 - mod) + colorB.red * mod) 8
      green := Int.tdiv (colorA.green * (8 - mod) + colorB.green * mod) 8
      blue := Int.tdiv (colorA.blue * (8 - mod) + colorB.blue * mod) 8
      alpha :=
        if punchthroughAlpha then 0
        else Int.tdiv (colorA.alpha * (8 - mod) + colorB.alpha * mod) 8 }

/-- The modulation grids of `pvrtcGetDecompressedPixels` after the four calls of
`unpackModulations`. -/
def unpackedGrids (P Q R S : PVRTCWord) (bpp : Nat) (scratch : Scratch) : Grid × Grid :=
  let wordWidth : Nat := if bpp = 2 then 8 else 4
  let wordHeight : Nat := 4
  let g := unpackModulations P 0 0 (scratch.modulationValues, scratch.modulationModes) bpp
  let g := unpackModulations Q wordWidth 0 g bpp
  let g := unpackModulations R 0 wordHeight g bpp
  unpackModulations S wordWidth wordHeight g bpp

/-- The array `upscaledColorA` of `pvrtcGetDecompressedPixels` after the first call
of `interpolateColors`. -/
def upscaledColorA (PVRTCII : Bool) (P Q R S : PVRTCWord) (bpp : Nat) (scratch : Scratch) :
    Nat → Pixel128S :=
  interpolateColors (getColorA PVRTCII P.colorData) (getColorA PVRTCII Q.colorData)
    (getColorA PVRTCII R.colorData) (getColorA PVRTCII S.colorData) scratch.upscaledColorA bpp

/-- The array `upscaledColorB` of `pvrtcGetDecompressedPixels` after the second call
of `interpolateColors`. -/
def upscaledColorB (PVRTCII : Bool) (P Q R S : PVRTCWord) (bpp : Nat) (scratch : Scratch) :
    Nat → Pixel128S :=
  interpolateColors (getColorB PVRTCII P.colorData) (getColorB PVRTCII Q.colorData)
    (getColorB PVRTCII R.colorData) (getColorB PVRTCII S.colorData) scratch.upscaledColorB bpp

/-- The function `pvrtcGetDecompressedPixels<PVRTCII>`.  `pColorData` is the output
tile on entry; the tile after the call is returned. -/
def pvrtcGetDecompressedPixels (PVRTCII : Bool) (P Q R S : PVRTCWord)
    (pColorData : Nat → Pixel32) (bpp : Nat) (scratch : Scratch) : Nat → Pixel32 :=
  let wordWidth : Nat := if bpp = 2 then 8 else 4
  let wordHeight : Nat := 4
  let g := unpackedGrids P Q R S bpp scratch
  let colorA := upscaledColorA PVRTCII P Q R S bpp scratch
  let colorB := upscaledColorB PVRTCII P Q R S bpp scratch
  forLoop wordHeight (fun y (out : Nat → Pixel32) =>
    forLoop wordWidth (fun x (out : Nat → Pixel32) =>
      let mod := getModulationValues g.1 g.2 (x + wordWidth / 2) (y + wordHeight / 2) bpp
      let result := blendTexel PVRTCII (colorA (y * wordWidth + x))
        (colorB (y * wordWidth + x)) mod
      if bpp = 2 then setAt out (y * wordWidth + x) result.narrow
      else if bpp = 4 then setAt out (y + x * wordHeight) result.narrow
      else out) out) pColorData

/-! ## Block addressing (`wrapWordIndex`, `isPowerOf2`, `TwiddleUV`) -/

/-- The function `wrapWordIndex`: the sum `word + numWords` is formed in `uint32_t`.
A zero `numWords` is a division by zero in the source. -/
def wrapWordIndex (numWords : Nat) (word : Int) : Nat :=
  intToU32 (word + numWords) % numWords

/-- The function `isPowerOf2`. -/
def isPowerOf2 (input : Nat) : Bool :=
  if input = 0 then false
  else
    let minus1 := input - 1
    (input ||| minus1) == (input ^^^ minus1)

/-- The variables of the `while` loop of `TwiddleUV`. -/
structure TwiddleState where
  Twiddled : Nat
  SrcBitPos : Nat
  DstBitPos : Nat
  ShiftCount : Nat
  deriving DecidableEq, Repr

/-- The `while (SrcBitPos < MinDimension)` loop of `TwiddleUV`, run on fuel: `none`
when the loop condition still holds after the fuel is spent. -/
def twiddleLoop (MinDimension XPos YPos : Nat) : Nat → TwiddleState → Option TwiddleState
  | 0, st => if st.SrcBitPos < MinDimension then none else some st
  | fuel + 1, st =>
    if st.SrcBitPos < MinDimension then
      let t1 := if YPos &&& st.SrcBitPos ≠ 0 then st.Twiddled ||| st.DstBitPos else st.Twiddled
      let t2 := if XPos &&& st.SrcBitPos ≠ 0 then t1 ||| u32 (st.DstBitPos <<< 1) else t1
      twiddleLoop MinDimension XPos YPos fuel
        ⟨t2, u32 (st.SrcBitPos <<< 1), u32 (st.DstBitPos <<< 2), st.ShiftCount + 1⟩
    else some st

/-- The function `TwiddleUV<PVRTCII>`, without its assertions.  `SrcBitPos` takes the
values `1, 2, 4, ..., 2^31, 0, 0, ...`, so a loop that ends does so within 32
iterations and 64 units of fuel distinguish a loop that ends from one that does not.
The final shift `MaxValue << (2 * ShiftCount)` is reduced modulo `2 ^ 32`; a shift
count of 32 or more (a grid with both sides of `2 ^ 16` words or more) is undefined in
the source, and the value given here for it is a convention of the embedding. -/
def TwiddleUV (PVRTCII : Bool) (XSize YSize XPos YPos : Nat) : Option Nat :=
  if PVRTCII then some (u32 (YPos * XSize + XPos))
  else
    let MinDimension := if YSize < XSize then YSize else XSize
    let MaxValue := if YSize < XSize then XPos else YPos
    match twiddleLoop MinDimension XPos YPos 64 ⟨0, 1, 1, 0⟩ with
    | none => none
    | some st =>
      let MaxValue := MaxValue >>> st.ShiftCount
      some (st.Twiddled ||| u32 (MaxValue <<< (2 * st.ShiftCount)))

/-- The interleaving of the low `n` bits of `y` (even positions) and of `x` (odd
positions): the value of `Twiddled` after `n` iterations of the loop of `TwiddleUV`. -/
def mortonBits : Nat → Nat → Nat → Nat
  | 0, _, _ => 0
  | n + 1, x, y =>
    mortonBits n x y + (if y.testBit n then 4 ^ n else 0) + (if x.testBit n then 2 * 4 ^ n else 0)

/-! ## The block walker (`mapDecompressedData`, `pvrtcDecompress`) -/

/-- The stores of `mapDecompressedData` in program order: pairs of the index written
in `pOutput` (computed in `uint32_t`) and the index read in `pWord`. -/
def mapDecompressedDataWrites (width : Nat) (words : PVRTCWordIndices) (bpp : Nat) :
    List (Nat × Nat) :=
  let wordWidth : Nat := if bpp = 2 then 8 else 4
  let wordHeight : Nat := 4
  (List.range (wordHeight / 2)).flatMap fun y =>
    (List.range (wordWidth / 2)).flatMap fun x =>
      [(u32 ((words.P.2 * wordHeight + y + wordHeight / 2) * width + words.P.1 * wordWidth + x +
          wordWidth / 2), y * wordWidth + x),
       (u32 ((words.Q.2 * wordHeight + y + wordHeight / 2) * width + words.Q.1 * wordWidth + x),
          y * wordWidth + x + wordWidth / 2),
       (u32 ((words.R.2 * wordHeight + y) * width + words.R.1 * wordWidth + x + wordWidth / 2),
          (y + wordHeight / 2) * wordWidth + x),
       (u32 ((words.S.2 * wordHeight + y) * width + words.S.1 * wordWidth + x),
          (y + wordHeight / 2) * wordWidth + x + wordWidth / 2)]

/-- The function `mapDecompressedData`: the stores are applied in program order. -/
def mapDecompressedData (pOutput : Nat → Pixel32) (width : Nat) (pWord : Nat → Pixel32)
    (words : PVRTCWordIndices) (bpp : Nat) : Nat → Pixel32 :=
  (mapDecompressedDataWrites width words bpp).foldl
    (fun out w => setAt out w.1 (pWord w.2)) pOutput

/-- The values of the loop variables `(wordX, wordY)` of `pvrtcDecompress` in program
order: `wordY` from `-1` to `numY - 2`, and for each of them `wordX` from `-1` to
`numX - 2`. -/
def walkerSteps (numX numY : Nat) : List (Int × Int) :=
  (List.range numY).flatMap fun (j : Nat) =>
    (List.range numX).map fun (i : Nat) => ((i : Int) - 1, (j : Int) - 1)

/-- The `indices` of one iteration of `pvrtcDecompress`. -/
def wordIndices (numX numY : Nat) (wordX wordY : Int) : PVRTCWordIndices :=
  { P := (wrapWordIndex numX wordX, wrapWordIndex numY wordY)
    Q := (wrapWordIndex numX (wordX + 1), wrapWordIndex numY wordY)
    R := (wrapWordIndex numX wordX, wrapWordIndex numY (wordY + 1))
    S := (wrapWordIndex numX (wordX + 1), wrapWordIndex numY (wordY + 1)) }

/-- The array `WordOffsets` of one iteration of `pvrtcDecompress`. -/
def wordOffsets (PVRTCII : Bool) (numX numY : Nat) (indices : PVRTCWordIndices) :
    Option (Nat × Nat × Nat × Nat) :=
  match TwiddleUV PVRTCII numX numY indices.P.1 indices.P.2,
    TwiddleUV PVRTCII numX numY indices.Q.1 indices.Q.2,
    TwiddleUV PVRTCII numX numY indices.R.1 indices.R.2,
    TwiddleUV PVRTCII numX numY indices.S.1 indices.S.2 with
  | some p, some q, some r, some s => some (u32 (p * 2), u32 (q * 2), u32 (r * 2), u32 (s * 2))
  | _, _, _, _ => none

/-- The indices of the 32-bit elements of the compressed buffer read by one iteration
of `pvrtcDecompress`, in program order. -/
def blockReads (PVRTCII : Bool) (numX numY : Nat) (wordX wordY : Int) : Option (List Nat) :=
  match wordOffsets PVRTCII numX numY (wordIndices numX numY wordX wordY) with
  | none => none
  | some o =>
    some [u32 (o.1 + 1), o.1, u32 (o.2.1 + 1), o.2.1, u32 (o.2.2.1 + 1), o.2.2.1,
      u32 (o.2.2.2 + 1), o.2.2.2]

/-- The word made of the elements `offset` and `offset + 1` of the compressed buffer. -/
def readWord (pWordMembers : Nat → Nat) (offset : Nat) : PVRTCWord :=
  { colorData := pWordMembers (u32 (offset + 1)), modulationData := pWordMembers offset }

/-- One iteration of the loops of `pvrtcDecompress`.  The state is the output raster
and the tile buffer `pPixels`. -/
def decompressBlock (PVRTCII : Bool) (pWordMembers : Nat → Nat) (width bpp numX numY : Nat)
    (scratch : Int → Int → Scratch) (st : (Nat → Pixel32) × (Nat → Pixel32))
    (step : Int × Int) : Option ((Nat → Pixel32) × (Nat → Pixel32)) :=
  let indices := wordIndices numX numY step.1 step.2
  match wordOffsets PVRTCII numX numY indices with
  | none => none
  | some o =>
    let pPixels := pvrtcGetDecompressedPixels PVRTCII (readWord pWordMembers o.1)
      (readWord pWordMembers o.2.1) (readWord pWordMembers o.2.2.1)
      (readWord pWordMembers o.2.2.2) st.2 bpp (scratch step.1 step.2)
    some (mapDecompressedData st.1 width pPixels indices bpp, pPixels)

/-- The function `pvrtcDecompress<PVRTCII>`: the output raster after the call and the
returned size.  The compressed buffer is an array of `uint32_t` elements;
`scratch wordX wordY` is the content of the uninitialised locals of
`pvrtcGetDecompressedPixels` in the iteration `(wordX, wordY)`. -/
def pvrtcDecompress (PVRTCII : Bool) (pCompressedData : Nat → Nat)
    (pDecompressedData : Nat → Pixel32) (width height bpp : Nat)
    (scratch : Int → Int → Scratch) : Option ((Nat → Pixel32) × Nat) :=
  let wordWidth : Nat := if bpp = 2 then 8 else 4
  let wordHeight : Nat := 4
  let i32NumXWords := width / wordWidth
  let i32NumYWords := height / wordHeight
  match (walkerSteps i32NumXWords i32NumYWords).foldlM
    (decompressBlock PVRTCII pCompressedData width bpp i32NumXWords i32NumYWords scratch)
    (pDecompressedData, fun _ => ⟨0, 0, 0, 0⟩) with
  | none => none
  | some st => some (st.1, u32 (width * height) / (wordWidth / 2))

/-- The indices of the output raster written by `pvrtcDecompress`, in program order,
over all iterations of the walker. -/
def pvrtcDecompressWrites (width height bpp : Nat) : List Nat :=
  let wordWidth : Nat := if bpp = 2 then 8 else 4
  let wordHeight : Nat := 4
  let i32NumXWords := width / wordWidth
  let i32NumYWords := height / wordHeight
  (walkerSteps i32NumXWords i32NumYWords).flatMap fun step =>
    (mapDecompressedDataWrites width (wordIndices i32NumXWords i32NumYWords step.1 step.2)
      bpp).map Prod.fst

/-- Whether every access to the temporary raster of `PVRTDecompressPVRTC_int` stays
inside the allocation `new Pixel32[XTrueDim * YTrueDim]`, which holds
`u32 (XTrueDim * YTrueDim)` pixels because the product is formed in `uint32_t`: the
stores of `pvrtcDecompress` into it and the reads of the copy loop from it. -/
def temporaryRasterInBounds (XDim YDim XTrueDim YTrueDim bpp : Nat) : Bool :=
  let size := u32 (XTrueDim * YTrueDim)
  (pvrtcDecompressWrites XTrueDim YTrueDim bpp).all (fun idx => decide (idx < size)) &&
    (List.range XDim).all (fun x =>
      (List.range YDim).all (fun y => decide (u32 (x + y * XTrueDim) < size)))

/-- The function `PVRTDecompressPVRTC_int<PVRTCII>`.  `NDEBUG` tells whether the
assertions are compiled out.  The result is `none` where the call does not return a
value: with the assertions compiled in, at `assert(XTrueDim == XDim)` or
`assert(YTrueDim == YDim)` for dimensions below the minimum; with the assertions
compiled out, when an access leaves the temporary raster, which holds
`u32 (XTrueDim * YTrueDim)` pixels.  `fresh` is the content of the temporary raster when
it is allocated.  The assertions of `TwiddleUV` are not part of the embedding. -/
def PVRTDecompressPVRTC_int (PVRTCII NDEBUG : Bool) (pCompressedData : Nat → Nat)
    (Do2bitMode XDim YDim : Nat) (pResultImage : Nat → Pixel32) (fresh : Nat → Pixel32)
    (scratch : Int → Int → Scratch) : Option ((Nat → Pixel32) × Nat) :=
  let XTrueDim := max XDim (if Do2bitMode = 1 then 16 else 8)
  let YTrueDim := max YDim 8
  let resized : Bool := XTrueDim ≠ XDim || YTrueDim ≠ YDim
  if resized && !NDEBUG then none
  else if resized &&
      !temporaryRasterInBounds XDim YDim XTrueDim YTrueDim (if Do2bitMode = 1 then 2 else 4)
    then none
  else
    let pDecompressedData := if resized then fresh else pResultImage
    match pvrtcDecompress PVRTCII pCompressedData pDecompressedData XTrueDim YTrueDim
      (if Do2bitMode = 1 then 2 else 4) scratch with
    | none => none
    | some r =>
      if resized then
        some (forLoop XDim (fun x (out : Nat → Pixel32) =>
          forLoop YDim (fun y (out : Nat → Pixel32) =>
            setAt out (u32 (x + y * XDim)) (r.1 (u32 (x + y * XTrueDim)))) out) pResultImage,
          r.2)
      else some r

/-- The entry point `PVRTDecompressPVRTC`. -/
def PVRTDecompressPVRTC (NDEBUG : Bool) (pCompressedData : Nat → Nat)
    (Do2bitMode XDim YDim : Nat) (pResultImage : Nat → Pixel32) (fresh : Nat → Pixel32)
    (scratch : Int → Int → Scratch) : Option ((Nat → Pixel32) × Nat) :=
  PVRTDecompressPVRTC_int false NDEBUG pCompressedData Do2bitMode XDim YDim pResultImage fresh
    scratch

/-- The entry point `PVRTDecompressPVRTCII`. -/
def PVRTDecompressPVRTCII (NDEBUG : Bool) (pCompressedData : Nat → Nat)
    (Do2bitMode XDim YDim : Nat) (pResultImage : Nat → Pixel32) (fresh : Nat → Pixel32)
    (scratch : Int → Int → Scratch) : Option ((Nat → Pixel32) × Nat) :=
  PVRTDecompressPVRTC_int true NDEBUG pCompressedData Do2bitMode XDim YDim pResultImage fresh
    scratch


/-- The cells of `modulationValues` that `getModulationValues` reads, in program order.
The neighbour coordinates are computed in `uint32_t`.  In 2bpp mode each value read is
used as an index into the table `RepVals0`. -/
def getModulationValuesReads (modulationModes : Grid) (xPos yPos : Nat) (bpp : Nat) :
    List (Nat × Nat) :=
  let xm := u32 (xPos + (2 ^ 32 - 1))
  let xp := u32 (xPos + 1)
  let ym := u32 (yPos + (2 ^ 32 - 1))
  let yp := u32 (yPos + 1)
  if bpp = 2 then
    if modulationModes xPos yPos = 0 then [(xPos, yPos)]
    else if (xPos ^^^ yPos) &&& 1 = 0 then [(xPos, yPos)]
    else if modulationModes xPos yPos = 1 then [(xPos, ym), (xPos, yp), (xm, yPos), (xp, yPos)]
    else if modulationModes xPos yPos = 2 then [(xm, yPos), (xp, yPos)]
    else [(xPos, ym), (xPos, yp)]
  else if bpp = 4 then [(xPos, yPos)]
  else []

/-! ## Loop reasoning -/

theorem forLoopFrom_succ_last {σ : Type} (body : Nat → σ → σ) (n i : Nat) (s : σ) :
    forLoopFrom body (n + 1) i s = body (i + n) (forLoopFrom body n i s) := by
  induction n generalizing i s with
  | zero => simp [forLoopFrom]
  | succ n ih =>
    have h1 : forLoopFrom body (n + 1 + 1) i s = forLoopFrom body (n + 1) (i + 1) (body i s) := rfl
    have h2 : forLoopFrom body (n + 1) i s = forLoopFrom body n (i + 1) (body i s) := rfl
    rw [h1, ih, h2]
    have h3 : i + 1 + n = i + (n + 1) := by omega
    rw [h3]

theorem forLoop_zero {σ : Type} (body : Nat → σ → σ) (s : σ) : forLoop 0 body s = s := rfl

theorem forLoop_succ {σ : Type} (body : Nat → σ → σ) (n : Nat) (s : σ) :
    forLoop (n + 1) body s = body n (forLoop n body s) := by
  unfold forLoop
  rw [forLoopFrom_succ_last]
  simp

/-- Loop rule for a loop that threads an auxiliary value and writes into an array:
iteration `k` writes exactly the cells `D k`, giving cell `i` the value `V k a i`
for the auxiliary value `a` at the start of the iteration. -/
theorem forLoop_reads {σ α ι β : Type} (aux : σ → α) (rd : σ → ι → β)
    (body : Nat → σ → σ) (stepAux : Nat → α → α) (D : Nat → ι → Prop)
    (V : Nat → α → ι → β) (n : Nat)
    (haux : ∀ k s, k < n → aux (body k s) = stepAux k (aux s))
    (hin : ∀ k s i, k < n → D k i → rd (body k s) i = V k (aux s) i)
    (hout : ∀ k s i, k < n → ¬ D k i → rd (body k s) i = rd s i)
    (hdisj : ∀ k k2 i, k < n → k2 < n → D k i → D k2 i → k = k2)
    (s0 : σ) :
    aux (forLoop n body s0) = forLoop n stepAux (aux s0) ∧
    (∀ k i, k < n → D k i →
      rd (forLoop n body s0) i = V k (forLoop k stepAux (aux s0)) i) ∧
    (∀ i, (∀ k, k < n → ¬ D k i) → rd (forLoop n body s0) i = rd s0 i) := by
  induction n with
  | zero =>
    refine ⟨rfl, ?_, ?_⟩
    · intro k i hk; omega
    · intro i _; rfl
  | succ n ih =>
    have ih2 := ih (fun k s hk => haux k s (by omega)) (fun k s i hk => hin k s i (by omega))
      (fun k s i hk => hout k s i (by omega))
      (fun k k2 i hk hk2 => hdisj k k2 i (by omega) (by omega))
    obtain ⟨ha, hi, ho⟩ := ih2
    refine ⟨?_, ?_, ?_⟩
    · rw [forLoop_succ, forLoop_succ, haux n _ (by omega), ha]
    · intro k i hk hD
      rw [forLoop_succ]
      by_cases hkn : k = n
      · subst hkn
        rw [hin k _ i (by omega) hD, ha]
      · have hnD : ¬ D n i := fun h => hkn (hdisj k n i (by omega) (by omega) hD h)
        rw [hout n _ i (by omega) hnD]
        exact hi k i (by omega) hD
    · intro i hno
      rw [forLoop_succ, hout n _ i (by omega) (hno n (by omega))]
      exact ho i (fun k hk => hno k (by omega))



/-! ## Closed form of `interpolateColors` -/

theorem forLoop_add_scale (dY r0 : Pixel128S) (n : Nat) :
    forLoop n (fun _ (r : Pixel128S) => r.add dY) r0 = r0.add (dY.scale n) := by
  induction n with
  | zero => rw [forLoop_zero]; ext <;> simp [Pixel128S.add, Pixel128S.scale]
  | succ n ih =>
    rw [forLoop_succ, ih]
    ext <;> simp [Pixel128S.add, Pixel128S.scale] <;> ring

theorem interp_inner (sh : Pixel128S → Pixel128S) (idx : Nat → Nat) (dY r0 : Pixel128S)
    (p0 : Nat → Pixel128S) (n : Nat)
    (hinj : ∀ k k2, k < n → k2 < n → idx k = idx k2 → k = k2) :
    (∀ k, k < n →
      (forLoop n (fun k (st2 : Pixel128S × (Nat → Pixel128S)) =>
        (st2.1.add dY, setAt st2.2 (idx k) (sh st2.1))) (r0, p0)).2 (idx k) =
        sh (r0.add (dY.scale k))) ∧
    (∀ i, (∀ k, k < n → idx k ≠ i) →
      (forLoop n (fun k (st2 : Pixel128S × (Nat → Pixel128S)) =>
        (st2.1.add dY, setAt st2.2 (idx k) (sh st2.1))) (r0, p0)).2 i = p0 i) := by
  have h := forLoop_reads (σ := Pixel128S × (Nat → Pixel128S)) (fun s => s.1) (fun s i => s.2 i)
    (fun k st2 => (st2.1.add dY, setAt st2.2 (idx k) (sh st2.1)))
    (fun _ r => r.add dY) (fun k i => i = idx k) (fun _ r _ => sh r) n
    (fun k s _ => rfl)
    (fun k s i _ hD => by simp [setAt, hD])
    (fun k s i _ hD => by simp [setAt, hD])
    (fun k k2 i hk hk2 h1 h2 => hinj k k2 hk hk2 (h1.symm.trans h2))
    (r0, p0)
  obtain ⟨_, h2, h3⟩ := h
  constructor
  · intro k hk
    have := h2 k (idx k) hk rfl
    simp only [forLoop_add_scale] at this
    exact this
  · intro i hi
    exact h3 i (fun k hk hD => hi k hk hD.symm)

/-- The running corner values of the outer loop of `interpolateColors`. -/
theorem forLoop_corner (QmP SmR : Pixel128S) (a0 : Pixel128S × Pixel128S) (n : Nat) :
    forLoop n (fun _ (a : Pixel128S × Pixel128S) => (a.1.add QmP, a.2.add SmR)) a0 =
      (a0.1.add (QmP.scale n), a0.2.add (SmR.scale n)) := by
  induction n with
  | zero =>
    rw [forLoop_zero]
    refine Prod.ext ?_ ?_ <;> ext <;> simp [Pixel128S.add, Pixel128S.scale]
  | succ n ih =>
    rw [forLoop_succ, ih]
    refine Prod.ext ?_ ?_ <;> ext <;> simp [Pixel128S.add, Pixel128S.scale] <;> ring

theorem interpolateColors_four (P Q R S : Pixel32) (pPixel : Nat → Pixel128S) (i j : Nat)
    (hi : i < 4) (hj : j < 4) :
    interpolateColors P Q R S pPixel 4 (i * 4 + j) =
      shiftOut4
        ⟨(4 - (j : Int)) * ((4 - (i : Int)) * P.red + i * Q.red) +
            j * ((4 - (i : Int)) * R.red + i * S.red),
          (4 - (j : Int)) * ((4 - (i : Int)) * P.green + i * Q.green) +
            j * ((4 - (i : Int)) * R.green + i * S.green),
          (4 - (j : Int)) * ((4 - (i : Int)) * P.blue + i * Q.blue) +
            j * ((4 - (i : Int)) * R.blue + i * S.blue),
          (4 - (j : Int)) * ((4 - (i : Int)) * P.alpha + i * Q.alpha) +
            j * ((4 - (i : Int)) * R.alpha + i * S.alpha)⟩ := by
  have h := forLoop_reads (σ := Pixel128S × Pixel128S × (Nat → Pixel128S))
    (fun s => (s.1, s.2.1)) (fun s i => s.2.2 i)
    (fun y st => (st.1.add (Q.widen.sub P.widen), st.2.1.add (S.widen.sub R.widen),
      (forLoop 4 (fun x (st2 : Pixel128S × (Nat → Pixel128S)) =>
        (st2.1.add (st.2.1.sub st.1), setAt st2.2 (y * 4 + x) (shiftOut4 st2.1)))
        (st.1.scale 4, st.2.2)).2))
    (fun _ a => (a.1.add (Q.widen.sub P.widen), a.2.add (S.widen.sub R.widen)))
    (fun y i => ∃ x, x < 4 ∧ i = y * 4 + x)
    (fun y a i => shiftOut4 ((a.1.scale 4).add ((a.2.sub a.1).scale ((i - y * 4 : Nat) : Int)))) 4
    (fun k s _ => rfl)
    (fun y s i _ hD => by
      obtain ⟨x, hx, rfl⟩ := hD
      have := (interp_inner shiftOut4 (fun x => y * 4 + x) (s.2.1.sub s.1) (s.1.scale 4) s.2.2 4
        (fun k k2 _ _ h => by dsimp only at h; omega)).1 x hx
      simp only [this]
      have hx2 : y * 4 + x - y * 4 = x := by omega
      rw [hx2])
    (fun y s i _ hD => by
      have := (interp_inner shiftOut4 (fun x => y * 4 + x) (s.2.1.sub s.1) (s.1.scale 4) s.2.2 4
        (fun k k2 _ _ h => by dsimp only at h; omega)).2 i (fun k hk hki => hD ⟨k, hk, hki.symm⟩)
      simp only [this])
    (fun k k2 i _ _ h1 h2 => by
      obtain ⟨x, hx, rfl⟩ := h1
      obtain ⟨x2, hx2, h⟩ := h2
      omega)
    ((P.widen.scale 4), (R.widen.scale 4), pPixel)
  obtain ⟨_, h2, _⟩ := h
  have h3 := h2 i (i * 4 + j) hi ⟨j, hj, rfl⟩
  simp only [forLoop_corner] at h3
  have h4 : (4 : Nat) ≠ 2 := by decide
  simp only [interpolateColors, h4, if_false, Nat.cast_ofNat]
  rw [h3]
  have hx2 : i * 4 + j - i * 4 = j := by omega
  rw [hx2]
  congr 1
  ext <;> simp [Pixel128S.add, Pixel128S.sub, Pixel128S.scale, Pixel32.widen] <;> ring



theorem interpolateColors_two (P Q R S : Pixel32) (pPixel : Nat → Pixel128S) (x y : Nat)
    (hx : x < 8) (hy : y < 4) :
    interpolateColors P Q R S pPixel 2 (y * 8 + x) =
      shiftOut2
        ⟨(4 - (y : Int)) * ((8 - (x : Int)) * P.red + x * Q.red) +
            y * ((8 - (x : Int)) * R.red + x * S.red),
          (4 - (y : Int)) * ((8 - (x : Int)) * P.green + x * Q.green) +
            y * ((8 - (x : Int)) * R.green + x * S.green),
          (4 - (y : Int)) * ((8 - (x : Int)) * P.blue + x * Q.blue) +
            y * ((8 - (x : Int)) * R.blue + x * S.blue),
          (4 - (y : Int)) * ((8 - (x : Int)) * P.alpha + x * Q.alpha) +
            y * ((8 - (x : Int)) * R.alpha + x * S.alpha)⟩ := by
  have h := forLoop_reads (σ := Pixel128S × Pixel128S × (Nat → Pixel128S))
    (fun s => (s.1, s.2.1)) (fun s i => s.2.2 i)
    (fun x st => (st.1.add (Q.widen.sub P.widen), st.2.1.add (S.widen.sub R.widen),
      (forLoop 4 (fun y (st2 : Pixel128S × (Nat → Pixel128S)) =>
        (st2.1.add (st.2.1.sub st.1), setAt st2.2 (y * 8 + x) (shiftOut2 st2.1)))
        (st.1.scale 4, st.2.2)).2))
    (fun _ a => (a.1.add (Q.widen.sub P.widen), a.2.add (S.widen.sub R.widen)))
    (fun x i => ∃ y, y < 4 ∧ i = y * 8 + x)
    (fun _ a i => shiftOut2 ((a.1.scale 4).add ((a.2.sub a.1).scale ((i / 8 : Nat) : Int)))) 8
    (fun k s _ => rfl)
    (fun x s i hx hD => by
      obtain ⟨y, hy, rfl⟩ := hD
      have := (interp_inner shiftOut2 (fun y => y * 8 + x) (s.2.1.sub s.1) (s.1.scale 4) s.2.2 4
        (fun k k2 _ _ h => by dsimp only at h; omega)).1 y hy
      simp only [this]
      have hx2 : (y * 8 + x) / 8 = y := by omega
      rw [hx2])
    (fun x s i _ hD => by
      have := (interp_inner shiftOut2 (fun y => y * 8 + x) (s.2.1.sub s.1) (s.1.scale 4) s.2.2 4
        (fun k k2 _ _ h => by dsimp only at h; omega)).2 i (fun k hk hki => hD ⟨k, hk, hki.symm⟩)
      simp only [this])
    (fun k k2 i _ _ h1 h2 => by
      obtain ⟨y, hy, rfl⟩ := h1
      obtain ⟨y2, hy2, h⟩ := h2
      omega)
    ((P.widen.scale 8), (R.widen.scale 8), pPixel)
  obtain ⟨_, h2, _⟩ := h
  have h3 := h2 x (y * 8 + x) hx ⟨y, hy, rfl⟩
  simp only [forLoop_corner] at h3
  simp only [interpolateColors, if_true, Nat.cast_ofNat]
  rw [h3]
  have hx2 : (y * 8 + x) / 8 = y := by omega
  rw [hx2]
  congr 1
  ext <;> simp [Pixel128S.add, Pixel128S.sub, Pixel128S.scale, Pixel32.widen] <;> ring



/-- Loop rule for two nested loops whose innermost body writes the cells `D y x`. -/
theorem forLoop2_reads {σ α ι β : Type} (aux : σ → α) (rd : σ → ι → β)
    (b : Nat → Nat → σ → σ) (stepAux : Nat → Nat → α → α) (D : Nat → Nat → ι → Prop)
    (V : Nat → Nat → α → ι → β) (H W : Nat)
    (haux : ∀ y x s, y < H → x < W → aux (b y x s) = stepAux y x (aux s))
    (hin : ∀ y x s i, y < H → x < W → D y x i → rd (b y x s) i = V y x (aux s) i)
    (hout : ∀ y x s i, y < H → x < W → ¬ D y x i → rd (b y x s) i = rd s i)
    (hdisj : ∀ y x y2 x2 i, y < H → x < W → y2 < H → x2 < W → D y x i → D y2 x2 i →
      y = y2 ∧ x = x2)
    (s0 : σ) :
    aux (forLoop H (fun y s => forLoop W (b y) s) s0) =
      forLoop H (fun y a => forLoop W (stepAux y) a) (aux s0) ∧
    (∀ y x i, y < H → x < W → D y x i →
      rd (forLoop H (fun y s => forLoop W (b y) s) s0) i =
        V y x (forLoop x (stepAux y)
          (forLoop y (fun y a => forLoop W (stepAux y) a) (aux s0))) i) ∧
    (∀ i, (∀ y x, y < H → x < W → ¬ D y x i) →
      rd (forLoop H (fun y s => forLoop W (b y) s) s0) i = rd s0 i) := by
  induction H with
  | zero =>
    refine ⟨rfl, ?_, ?_⟩
    · intro y x i hy; omega
    · intro i _; rfl
  | succ H ih =>
    obtain ⟨ha, hi, ho⟩ := ih (fun y x s hy => haux y x s (by omega))
      (fun y x s i hy => hin y x s i (by omega)) (fun y x s i hy => hout y x s i (by omega))
      (fun y x y2 x2 i hy hx hy2 => hdisj y x y2 x2 i (by omega) hx (by omega))
    obtain ⟨ra, ri, ro⟩ := forLoop_reads aux rd (b H) (stepAux H) (D H) (V H) W
      (fun x s hx => haux H x s (by omega) hx)
      (fun x s i hx => hin H x s i (by omega) hx)
      (fun x s i hx => hout H x s i (by omega) hx)
      (fun x x2 i hx hx2 h1 h2 => (hdisj H x H x2 i (by omega) hx (by omega) hx2 h1 h2).2)
      (forLoop H (fun y s => forLoop W (b y) s) s0)
    refine ⟨?_, ?_, ?_⟩
    · rw [forLoop_succ, forLoop_succ, ra, ha]
    · intro y x i hy hx hD
      rw [forLoop_succ]
      by_cases hyH : y = H
      · subst hyH
        rw [ri x i hx hD, ha]
      · have hno : ∀ k, k < W → ¬ D H k i := fun k hk h =>
          hyH (hdisj y x H k i (by omega) hx (by omega) hk hD h).1
        rw [ro i hno]
        exact hi y x i (by omega) hx hD
    · intro i hno
      rw [forLoop_succ, ro i (fun k hk => hno H k (by omega) hk)]
      exact ho i (fun y x hy hx => hno y x (by omega) hx)

theorem forLoop_shiftRight (s b0 n : Nat) :
    forLoop n (fun _ (b : Nat) => b >>> s) b0 = b0 >>> (s * n) := by
  induction n with
  | zero => rw [forLoop_zero]; simp
  | succ n ih => rw [forLoop_succ, ih, ← Nat.shiftRight_add, Nat.mul_succ]



/-! ## Closed forms of `unpackModulations` -/

theorem unpack4_loop (code : Nat → Int) (ox oy : Nat) (g : Grid) (bits : Nat) (a b : Nat) :
    (forLoop 4 (fun y (st : Grid × Nat) =>
        forLoop 4 (fun x (st : Grid × Nat) =>
          (st.1.set (y + oy) (x + ox) (code (st.2 &&& 3)), st.2 >>> 2)) st) (g, bits)).1 a b =
      if oy ≤ a ∧ a < oy + 4 ∧ ox ≤ b ∧ b < ox + 4 then
        code ((bits >>> (2 * (4 * (a - oy) + (b - ox)))) &&& 3)
      else g a b := by
  obtain ⟨_, hi, ho⟩ := forLoop2_reads (σ := Grid × Nat) (ι := Nat × Nat) (fun s => s.2)
    (fun s p => s.1 p.1 p.2)
    (fun y x st => (st.1.set (y + oy) (x + ox) (code (st.2 &&& 3)), st.2 >>> 2))
    (fun _ _ b => b >>> 2) (fun y x p => p = (y + oy, x + ox))
    (fun _ _ bits _ => code (bits &&& 3)) 4 4
    (fun _ _ _ _ _ => rfl)
    (fun y x s i _ _ hD => by subst hD; simp [Grid.set])
    (fun y x s i _ _ hD => by
      have : ¬ (i.1 = y + oy ∧ i.2 = x + ox) := fun h => hD (Prod.ext h.1 h.2)
      simp [Grid.set, this])
    (fun y x y2 x2 i _ _ _ _ h1 h2 => by
      subst h1
      simp only [Prod.mk.injEq] at h2
      omega)
    (g, bits)
  split
  · rename_i h
    have := hi (a - oy) (b - ox) (a, b) (by omega) (by omega)
      (by simp only [Prod.mk.injEq]; omega)
    simp only [forLoop_shiftRight] at this
    rw [this, ← Nat.shiftRight_add]
    congr 3
    omega
  · rename_i h
    exact ho (a, b) (fun y x hy hx hD => by
      simp only [Prod.mk.injEq] at hD
      omega)

theorem unpackModulations_four (word : PVRTCWord) (ox oy : Nat) (g : Grid × Grid) :
    unpackModulations word ox oy g 4 =
      (fun a b =>
        if oy ≤ a ∧ a < oy + 4 ∧ ox ≤ b ∧ b < ox + 4 then
          (if word.colorData &&& 1 ≠ 0 then
            code4Flagged ((word.modulationData >>> (2 * (4 * (a - oy) + (b - ox)))) &&& 3)
          else code4Plain ((word.modulationData >>> (2 * (4 * (a - oy) + (b - ox)))) &&& 3))
        else g.1 a b, g.2) := by
  have h4 : (4 : Nat) ≠ 2 := by decide
  unfold unpackModulations
  simp only [h4, if_false]
  split
  · refine Prod.ext ?_ rfl
    funext a b
    simp only [unpack4_loop]
  · refine Prod.ext ?_ rfl
    funext a b
    simp only [unpack4_loop]



theorem unpack2_direct_loop (mode : Nat) (ox oy : Nat) (g : Grid × Grid) (bits : Nat) :
    let r := forLoop 4 (fun y (st : Grid × Grid × Nat) =>
        forLoop 8 (fun x (st : Grid × Grid × Nat) =>
          let modes := st.2.1.set (x + ox) (y + oy) mode
          let values :=
            if st.2.2 &&& 1 ≠ 0 then st.1.set (x + ox) (y + oy) 0x3
            else st.1.set (x + ox) (y + oy) 0x0
          (values, modes, st.2.2 >>> 1)) st) (g.1, g.2, bits)
    (∀ a b, r.1 a b =
      if ox ≤ a ∧ a < ox + 8 ∧ oy ≤ b ∧ b < oy + 4 then
        (if (bits >>> (8 * (b - oy) + (a - ox))) &&& 1 ≠ 0 then 3 else 0)
      else g.1 a b) ∧
    (∀ a b, r.2.1 a b =
      if ox ≤ a ∧ a < ox + 8 ∧ oy ≤ b ∧ b < oy + 4 then (mode : Int) else g.2 a b) := by
  intro r
  constructor
  · intro a b
    obtain ⟨_, hi, ho⟩ := forLoop2_reads (σ := Grid × Grid × Nat) (ι := Nat × Nat)
      (fun s => s.2.2) (fun s p => s.1 p.1 p.2)
      (fun y x st =>
        let modes := st.2.1.set (x + ox) (y + oy) mode
        let values :=
          if st.2.2 &&& 1 ≠ 0 then st.1.set (x + ox) (y + oy) 0x3
          else st.1.set (x + ox) (y + oy) 0x0
        (values, modes, st.2.2 >>> 1))
      (fun _ _ b => b >>> 1) (fun y x p => p = (x + ox, y + oy))
      (fun _ _ bits _ => if bits &&& 1 ≠ 0 then 3 else 0) 4 8
      (fun _ _ _ _ _ => rfl)
      (fun y x s i _ _ hD => by subst hD; dsimp only; split <;> simp [Grid.set])
      (fun y x s i _ _ hD => by
        have : ¬ (i.1 = x + ox ∧ i.2 = y + oy) := fun h => hD (Prod.ext h.1 h.2)
        dsimp only; split <;> simp [Grid.set, this])
      (fun y x y2 x2 i _ _ _ _ h1 h2 => by
        subst h1
        simp only [Prod.mk.injEq] at h2
        omega)
      (g.1, g.2, bits)
    split
    · rename_i h
      have := hi (b - oy) (a - ox) (a, b) (by omega) (by omega)
        (by simp only [Prod.mk.injEq]; omega)
      simp only [forLoop_shiftRight] at this
      rw [this, ← Nat.shiftRight_add]
      have e : 1 * 8 * (b - oy) + 1 * (a - ox) = 8 * (b - oy) + (a - ox) := by omega
      rw [e]
    · rename_i h
      exact ho (a, b) (fun y x hy hx hD => by
        simp only [Prod.mk.injEq] at hD
        omega)
  · intro a b
    obtain ⟨_, hi, ho⟩ := forLoop2_reads (σ := Grid × Grid × Nat) (ι := Nat × Nat)
      (fun _ => ()) (fun s p => s.2.1 p.1 p.2)
      (fun y x st =>
        let modes := st.2.1.set (x + ox) (y + oy) mode
        let values :=
          if st.2.2 &&& 1 ≠ 0 then st.1.set (x + ox) (y + oy) 0x3
          else st.1.set (x + ox) (y + oy) 0x0
        (values, modes, st.2.2 >>> 1))
      (fun _ _ u => u) (fun y x p => p = (x + ox, y + oy))
      (fun _ _ _ _ => (mode : Int)) 4 8
      (fun _ _ _ _ _ => rfl)
      (fun y x s i _ _ hD => by subst hD; simp [Grid.set])
      (fun y x s i _ _ hD => by
        have : ¬ (i.1 = x + ox ∧ i.2 = y + oy) := fun h => hD (Prod.ext h.1 h.2)
        simp [Grid.set, this])
      (fun y x y2 x2 i _ _ _ _ h1 h2 => by
        subst h1
        simp only [Prod.mk.injEq] at h2
        omega)
      (g.1, g.2, bits)
    split
    · rename_i h
      exact hi (b - oy) (a - ox) (a, b) (by omega) (by omega)
        (by simp only [Prod.mk.injEq]; omega)
    · rename_i h
      exact ho (a, b) (fun y x hy hx hD => by
        simp only [Prod.mk.injEq] at hD
        omega)

/-- The number of stored texels before column `x` in row `y` of a 2bpp word. -/
theorem forLoop_stored_shift (y x bits : Nat) (hy : y < 4) (hx : x ≤ 8) :
    forLoop x (fun x (b : Nat) => if (x ^^^ y) &&& 1 = 0 then b >>> 2 else b) bits =
      bits >>> (2 * ((x + (1 - y % 2)) / 2)) := by
  interval_cases y <;> interval_cases x <;>
    simp [forLoop, forLoopFrom, ← Nat.shiftRight_add]

theorem stored_index (x y : Nat) (hx : x < 8) (hy : y < 4) (h : (x ^^^ y) &&& 1 = 0) :
    8 * y + 2 * ((x + (1 - y % 2)) / 2) = 2 * (4 * y + x / 2) := by
  interval_cases x <;> interval_cases y <;> simp_all

theorem unpack2_interp_loop (mode : Nat) (ox oy : Nat) (g : Grid × Grid) (bits : Nat) :
    let r := forLoop 4 (fun y (st : Grid × Grid × Nat) =>
        forLoop 8 (fun x (st : Grid × Grid × Nat) =>
          let modes := st.2.1.set (x + ox) (y + oy) mode
          if (x ^^^ y) &&& 1 = 0 then
            (st.1.set (x + ox) (y + oy) ((st.2.2 &&& 3 : Nat) : Int), modes,
              st.2.2 >>> 2)
          else (st.1, modes, st.2.2)) st) (g.1, g.2, bits)
    (∀ a b, r.1 a b =
      if ox ≤ a ∧ a < ox + 8 ∧ oy ≤ b ∧ b < oy + 4 ∧ ((a - ox) ^^^ (b - oy)) &&& 1 = 0 then
        (((bits >>> (2 * (4 * (b - oy) + (a - ox) / 2))) &&& 3 : Nat) : Int)
      else g.1 a b) ∧
    (∀ a b, r.2.1 a b =
      if ox ≤ a ∧ a < ox + 8 ∧ oy ≤ b ∧ b < oy + 4 then (mode : Int) else g.2 a b) := by
  intro r
  constructor
  · intro a b
    obtain ⟨_, hi, ho⟩ := forLoop2_reads (σ := Grid × Grid × Nat) (ι := Nat × Nat)
      (fun s => s.2.2) (fun s p => s.1 p.1 p.2)
      (fun y x st =>
        let modes := st.2.1.set (x + ox) (y + oy) mode
        if (x ^^^ y) &&& 1 = 0 then
          (st.1.set (x + ox) (y + oy) ((st.2.2 &&& 3 : Nat) : Int), modes, st.2.2 >>> 2)
        else (st.1, modes, st.2.2))
      (fun y x b => if (x ^^^ y) &&& 1 = 0 then b >>> 2 else b)
      (fun y x p => (x ^^^ y) &&& 1 = 0 ∧ p = (x + ox, y + oy))
      (fun _ _ bits _ => ((bits &&& 3 : Nat) : Int)) 4 8
      (fun y x s _ _ => by dsimp only; split <;> rfl)
      (fun y x s i _ _ hD => by
        obtain ⟨h1, h2⟩ := hD
        subst h2; simp [Grid.set, h1])
      (fun y x s i _ _ hD => by
        dsimp only
        split
        · rename_i hs
          have : ¬ (i.1 = x + ox ∧ i.2 = y + oy) := fun h => hD ⟨hs, Prod.ext h.1 h.2⟩
          simp [Grid.set, this]
        · rfl)
      (fun y x y2 x2 i _ _ _ _ h1 h2 => by
        obtain ⟨_, h1⟩ := h1
        obtain ⟨_, h2⟩ := h2
        subst h1
        simp only [Prod.mk.injEq] at h2
        omega)
      (g.1, g.2, bits)
    split
    · rename_i h
      have := hi (b - oy) (a - ox) (a, b) (by omega) (by omega)
        ⟨h.2.2.2.2, by simp only [Prod.mk.injEq]; omega⟩
      rw [this]
      have hrow : ∀ (y : Nat) (c : Nat), y < 4 →
          forLoop 8 (fun x (b : Nat) => if (x ^^^ y) &&& 1 = 0 then b >>> 2 else b) c =
            c >>> 8 := by
        intro y c hy
        rw [forLoop_stored_shift y 8 c hy (by omega)]
        congr 1
        omega
      have hrows : ∀ (n : Nat), n ≤ 4 →
          forLoop n (fun y a =>
            forLoop 8 (fun x (b : Nat) => if (x ^^^ y) &&& 1 = 0 then b >>> 2 else b) a) bits =
            bits >>> (8 * n) := by
        intro n
        induction n with
        | zero => intro _; rw [forLoop_zero]; simp
        | succ n ih =>
          intro hn
          rw [forLoop_succ, ih (by omega), hrow n _ (by omega), ← Nat.shiftRight_add]
          congr 1
      rw [hrows (b - oy) (by omega), forLoop_stored_shift (b - oy) (a - ox) _ (by omega) (by omega),
        ← Nat.shiftRight_add]
      rw [stored_index (a - ox) (b - oy) (by omega) (by omega) h.2.2.2.2]
    · rename_i h
      exact ho (a, b) (fun y x hy hx hD => by
        obtain ⟨hp, hD⟩ := hD
        simp only [Prod.mk.injEq] at hD
        obtain ⟨h1, h2⟩ := hD
        have e1 : a - ox = x := by omega
        have e2 : b - oy = y := by omega
        apply h
        rw [e1, e2]
        exact ⟨by omega, by omega, by omega, by omega, hp⟩)
  · intro a b
    obtain ⟨_, hi, ho⟩ := forLoop2_reads (σ := Grid × Grid × Nat) (ι := Nat × Nat)
      (fun _ => ()) (fun s p => s.2.1 p.1 p.2)
      (fun y x st =>
        let modes := st.2.1.set (x + ox) (y + oy) mode
        if (x ^^^ y) &&& 1 = 0 then
          (st.1.set (x + ox) (y + oy) ((st.2.2 &&& 3 : Nat) : Int), modes, st.2.2 >>> 2)
        else (st.1, modes, st.2.2))
      (fun _ _ u => u) (fun y x p => p = (x + ox, y + oy))
      (fun _ _ _ _ => (mode : Int)) 4 8
      (fun _ _ _ _ _ => rfl)
      (fun y x s i _ _ hD => by subst hD; dsimp only; split <;> simp [Grid.set])
      (fun y x s i _ _ hD => by
        have : ¬ (i.1 = x + ox ∧ i.2 = y + oy) := fun h => hD (Prod.ext h.1 h.2)
        dsimp only; split <;> simp [Grid.set, this])
      (fun y x y2 x2 i _ _ _ _ h1 h2 => by
        subst h1
        simp only [Prod.mk.injEq] at h2
        omega)
      (g.1, g.2, bits)
    split
    · rename_i h
      exact hi (b - oy) (a - ox) (a, b) (by omega) (by omega)
        (by simp only [Prod.mk.injEq]; omega)
    · rename_i h
      exact ho (a, b) (fun y x hy hx hD => by
        simp only [Prod.mk.injEq] at hD
        omega)



theorem and_two_pow_ne_zero (n i : Nat) : n &&& 2 ^ i ≠ 0 ↔ n.testBit i = true := by
  rw [Nat.and_two_pow]
  cases n.testBit i <;> simp

theorem shiftRight_and_one_ne_zero (n i : Nat) : (n >>> i) &&& 1 ≠ 0 ↔ n.testBit i = true := by
  rw [Nat.and_one_is_mod, Nat.testBit_to_div_mod, Nat.shiftRight_eq_div_pow]
  simp

theorem and_one_ne_zero (n : Nat) : n &&& 1 ≠ 0 ↔ n.testBit 0 = true := by
  rw [Nat.and_one_is_mod, Nat.testBit_zero]
  simp

theorem unpackModulations_two_direct (word : PVRTCWord) (ox oy : Nat) (g : Grid × Grid)
    (hflag : word.colorData &&& 1 = 0) :
    unpackModulations word ox oy g 2 =
      (fun a b =>
        if ox ≤ a ∧ a < ox + 8 ∧ oy ≤ b ∧ b < oy + 4 then
          (if (word.modulationData >>> (8 * (b - oy) + (a - ox))) &&& 1 ≠ 0 then 3 else 0)
        else g.1 a b,
       fun a b => if ox ≤ a ∧ a < ox + 8 ∧ oy ≤ b ∧ b < oy + 4 then 0 else g.2 a b) := by
  unfold unpackModulations
  simp only [hflag, ne_eq, not_true_eq_false, if_false, if_true]
  have h := unpack2_direct_loop 0 ox oy g word.modulationData
  refine Prod.ext ?_ ?_
  · funext a b
    exact h.1 a b
  · funext a b
    have := h.2 a b
    simpa using this

theorem unpackModulations_two_interp (word : PVRTCWord) (ox oy : Nat) (g : Grid × Grid)
    (hflag : word.colorData &&& 1 ≠ 0) :
    unpackModulations word ox oy g 2 =
      (fun a b =>
        if ox ≤ a ∧ a < ox + 8 ∧ oy ≤ b ∧ b < oy + 4 ∧ ((a - ox) ^^^ (b - oy)) &&& 1 = 0 then
          ((((selectModulationMode word.modulationData).2 >>>
            (2 * (4 * (b - oy) + (a - ox) / 2))) &&& 3 : Nat) : Int)
        else g.1 a b,
       fun a b =>
        if ox ≤ a ∧ a < ox + 8 ∧ oy ≤ b ∧ b < oy + 4 then
          ((selectModulationMode word.modulationData).1 : Int)
        else g.2 a b) := by
  unfold unpackModulations
  simp only [hflag, ne_eq, not_false_eq_true, if_true]
  have h := unpack2_interp_loop (selectModulationMode word.modulationData).1 ox oy g
    (selectModulationMode word.modulationData).2
  refine Prod.ext ?_ ?_
  · funext a b
    exact h.1 a b
  · funext a b
    exact h.2 a b

theorem selectModulationMode_fst (m : Nat) :
    (selectModulationMode m).1 =
      if m.testBit 0 = false then 1 else if m.testBit 20 = false then 2 else 3 := by
  have h20 : (1 : Nat) <<< 20 = 2 ^ 20 := by decide
  unfold selectModulationMode
  by_cases h0 : m.testBit 0 = true
  · have := (and_one_ne_zero m).2 h0
    by_cases hb : m.testBit 20 = true
    · have := (and_two_pow_ne_zero m 20).2 hb
      simp_all
    · have : ¬ (m &&& 2 ^ 20 ≠ 0) := fun h => hb ((and_two_pow_ne_zero m 20).1 h)
      simp_all
  · have : ¬ (m &&& 1 ≠ 0) := fun h => h0 ((and_one_ne_zero m).1 h)
    simp_all

theorem selectModulationMode_bit20 (m : Nat) (h0 : m.testBit 0 = true) :
    (selectModulationMode m).2.testBit 20 = m.testBit 21 ∧
    (selectModulationMode m).2.testBit 21 = m.testBit 21 := by
  have h20 : (1 : Nat) <<< 20 = 2 ^ 20 := by decide
  have h21 : (1 : Nat) <<< 21 = 2 ^ 21 := by decide
  have c1 : Nat.testBit (not32 (2 ^ 20)) 20 = false := by decide
  have c2 : Nat.testBit (not32 (2 ^ 20)) 21 = true := by decide
  have c3 : Nat.testBit (not32 1) 20 = true := by decide
  have c4 : Nat.testBit (not32 1) 21 = true := by decide
  have c5 : Nat.testBit 1 20 = false := by decide
  have c6 : Nat.testBit 1 21 = false := by decide
  have c7 : Nat.testBit (2 ^ 20) 20 = true := by decide
  have c8 : Nat.testBit (2 ^ 20) 21 = false := by decide
  have hm := (and_one_ne_zero m).2 h0
  unfold selectModulationMode
  simp only [hm, if_true, ne_eq, not_false_eq_true, h20, h21]
  by_cases hb : m.testBit 21 = true
  · have h1 := (and_two_pow_ne_zero m 21).2 hb
    simp only [h1, ne_eq, not_false_eq_true, if_true]
    split <;>
      simp only [Nat.testBit_or, Nat.testBit_and, hb, c3, c4, c5, c6, c7, c8, Bool.or_true,
        Bool.true_or, Bool.or_false, Bool.and_true, and_self]
  · have h1 : ¬ (m &&& 2 ^ 21 ≠ 0) := fun h => hb ((and_two_pow_ne_zero m 21).1 h)
    have hb2 : m.testBit 21 = false := by simpa using hb
    simp only [ne_eq] at h1
    simp only [h1, if_false]
    split <;>
      simp only [Nat.testBit_or, Nat.testBit_and, hb2, c1, c2, c3, c4, c5, c6, Bool.or_false,
        Bool.and_false, Bool.and_true, Bool.false_and, and_self]



/-! ## The compositor, texel by texel -/

theorem compositor_four (PVRTCII : Bool) (P Q R S : PVRTCWord) (pColorData : Nat → Pixel32)
    (scratch : Scratch) (x y : Nat) (hx : x < 4) (hy : y < 4) :
    pvrtcGetDecompressedPixels PVRTCII P Q R S pColorData 4 scratch (y + x * 4) =
      (blendTexel PVRTCII (upscaledColorA PVRTCII P Q R S 4 scratch (y * 4 + x))
        (upscaledColorB PVRTCII P Q R S 4 scratch (y * 4 + x))
        (getModulationValues (unpackedGrids P Q R S 4 scratch).1
          (unpackedGrids P Q R S 4 scratch).2 (x + 2) (y + 2) 4)).narrow := by
  obtain ⟨_, hi, _⟩ := forLoop2_reads (σ := Nat → Pixel32) (ι := Nat) (fun _ => ())
    (fun out i => out i)
    (fun y x out => setAt out (y + x * 4)
      (blendTexel PVRTCII (upscaledColorA PVRTCII P Q R S 4 scratch (y * 4 + x))
        (upscaledColorB PVRTCII P Q R S 4 scratch (y * 4 + x))
        (getModulationValues (unpackedGrids P Q R S 4 scratch).1
          (unpackedGrids P Q R S 4 scratch).2 (x + 2) (y + 2) 4)).narrow)
    (fun _ _ u => u) (fun y x i => i = y + x * 4)
    (fun y x _ _ =>
      (blendTexel PVRTCII (upscaledColorA PVRTCII P Q R S 4 scratch (y * 4 + x))
        (upscaledColorB PVRTCII P Q R S 4 scratch (y * 4 + x))
        (getModulationValues (unpackedGrids P Q R S 4 scratch).1
          (unpackedGrids P Q R S 4 scratch).2 (x + 2) (y + 2) 4)).narrow) 4 4
    (fun _ _ _ _ _ => rfl)
    (fun y x s i _ _ hD => by subst hD; simp [setAt])
    (fun y x s i _ _ hD => by simp [setAt, hD])
    (fun y x y2 x2 i _ _ _ _ h1 h2 => by subst h1; omega)
    pColorData
  have h4 : (4 : Nat) ≠ 2 := by decide
  have := hi y x (y + x * 4) hy hx rfl
  unfold pvrtcGetDecompressedPixels
  simp only [h4, if_false, if_true]
  exact this

theorem compositor_two (PVRTCII : Bool) (P Q R S : PVRTCWord) (pColorData : Nat → Pixel32)
    (scratch : Scratch) (x y : Nat) (hx : x < 8) (hy : y < 4) :
    pvrtcGetDecompressedPixels PVRTCII P Q R S pColorData 2 scratch (y * 8 + x) =
      (blendTexel PVRTCII (upscaledColorA PVRTCII P Q R S 2 scratch (y * 8 + x))
        (upscaledColorB PVRTCII P Q R S 2 scratch (y * 8 + x))
        (getModulationValues (unpackedGrids P Q R S 2 scratch).1
          (unpackedGrids P Q R S 2 scratch).2 (x + 4) (y + 2) 2)).narrow := by
  obtain ⟨_, hi, _⟩ := forLoop2_reads (σ := Nat → Pixel32) (ι := Nat) (fun _ => ())
    (fun out i => out i)
    (fun y x out => setAt out (y * 8 + x)
      (blendTexel PVRTCII (upscaledColorA PVRTCII P Q R S 2 scratch (y * 8 + x))
        (upscaledColorB PVRTCII P Q R S 2 scratch (y * 8 + x))
        (getModulationValues (unpackedGrids P Q R S 2 scratch).1
          (unpackedGrids P Q R S 2 scratch).2 (x + 4) (y + 2) 2)).narrow)
    (fun _ _ u => u) (fun y x i => i = y * 8 + x)
    (fun y x _ _ =>
      (blendTexel PVRTCII (upscaledColorA PVRTCII P Q R S 2 scratch (y * 8 + x))
        (upscaledColorB PVRTCII P Q R S 2 scratch (y * 8 + x))
        (getModulationValues (unpackedGrids P Q R S 2 scratch).1
          (unpackedGrids P Q R S 2 scratch).2 (x + 4) (y + 2) 2)).narrow) 4 8
    (fun _ _ _ _ _ => rfl)
    (fun y x s i _ _ hD => by subst hD; simp [setAt])
    (fun y x s i _ _ hD => by simp [setAt, hD])
    (fun y x y2 x2 i _ _ _ _ h1 h2 => by subst h1; omega)
    pColorData
  have := hi y x (y * 8 + x) hy hx rfl
  unfold pvrtcGetDecompressedPixels
  simp only [if_true]
  exact this

/-! ## Ranges of the colour channels -/

theorem and_shiftRight_le (c m s b : Nat) (h : m / 2 ^ s ≤ b) : (c &&& m) >>> s ≤ b := by
  rw [Nat.shiftRight_eq_div_pow]
  have h1 : c &&& m ≤ m := Nat.and_le_right
  exact le_trans (Nat.div_le_div_right h1) h

theorem u8_le (n : Nat) : u8 n ≤ n := Nat.mod_le _ _

theorem or_le_31 (a b : Nat) (ha : a ≤ 31) (hb : b ≤ 31) : a ||| b ≤ 31 := by
  have : a ||| b < 2 ^ 5 := Nat.or_lt_two_pow (by omega) (by omega)
  omega

theorem or_le_15 (a b : Nat) (ha : a ≤ 15) (hb : b ≤ 15) : a ||| b ≤ 15 := by
  have : a ||| b < 2 ^ 4 := Nat.or_lt_two_pow (by omega) (by omega)
  omega

theorem field_le (c m s b : Nat) (h : m / 2 ^ s ≤ b) : u8 ((c &&& m) >>> s) ≤ b :=
  le_trans (u8_le _) (and_shiftRight_le c m s b h)

theorem getColorA_le (PVRTCII : Bool) (colorData : Nat) :
    (getColorA PVRTCII colorData).red ≤ 31 ∧ (getColorA PVRTCII colorData).green ≤ 31 ∧
    (getColorA PVRTCII colorData).blue ≤ 31 ∧ (getColorA PVRTCII colorData).alpha ≤ 15 := by
  have hshl : u8 ((colorData &&& 0xe) <<< 1) ≤ 31 := by
    refine le_trans (u8_le _) ?_
    have h1 : colorData &&& 0xe ≤ 0xe := Nat.and_le_right
    rw [Nat.shiftLeft_eq]
    omega
  have h1e : u8 (colorData &&& 0x1e) ≤ 31 :=
    le_trans (u8_le _) (le_trans Nat.and_le_right (by decide))
  unfold getColorA
  dsimp only
  split_ifs <;> refine ⟨?_, ?_, ?_, ?_⟩ <;> dsimp only <;>
    first
    | exact field_le _ _ _ _ (by decide)
    | exact le_trans (u8_le _) (by decide)
    | exact le_trans (u8_le _) (or_le_31 _ _ (field_le _ _ _ _ (by decide))
        (and_shiftRight_le _ _ _ _ (by decide)))
    | exact le_trans (u8_le _) (or_le_31 _ _ h1e (and_shiftRight_le _ _ _ _ (by decide)))
    | exact le_trans (u8_le _) (or_le_31 _ _ hshl (and_shiftRight_le _ _ _ _ (by decide)))

theorem getColorB_le (PVRTCII : Bool) (colorData : Nat) :
    (getColorB PVRTCII colorData).red ≤ 31 ∧ (getColorB PVRTCII colorData).green ≤ 31 ∧
    (getColorB PVRTCII colorData).blue ≤ 31 ∧ (getColorB PVRTCII colorData).alpha ≤ 15 := by
  have ha : u8 ((colorData &&& 0x70000000) >>> 27) ≤ 14 := field_le _ _ _ _ (by decide)
  unfold getColorB
  dsimp only
  split_ifs <;> refine ⟨?_, ?_, ?_, ?_⟩ <;> dsimp only <;>
    first
    | exact field_le _ _ _ _ (by decide)
    | exact le_trans (u8_le _) (by decide)
    | exact le_trans (u8_le _) (or_le_31 _ _ (and_shiftRight_le _ _ _ _ (by decide))
        (and_shiftRight_le _ _ _ _ (by decide)))
    | exact le_trans (u8_le _) (or_le_15 _ _ (by omega) (by decide))

theorem channel_four (p q r s : Nat) (b : Int) (i j : Nat) (hi : i < 4) (hj : j < 4)
    (hp : (p : Int) ≤ b) (hq : (q : Int) ≤ b) (hr : (r : Int) ≤ b) (hs : (s : Int) ≤ b) :
    0 ≤ (4 - (j : Int)) * ((4 - (i : Int)) * p + i * q) + j * ((4 - (i : Int)) * r + i * s) ∧
    (4 - (j : Int)) * ((4 - (i : Int)) * p + i * q) + j * ((4 - (i : Int)) * r + i * s) ≤
      16 * b := by
  interval_cases i <;> interval_cases j <;> constructor <;> push_cast <;> omega

theorem channel_two (p q r s : Nat) (b : Int) (x y : Nat) (hx : x < 8) (hy : y < 4)
    (hp : (p : Int) ≤ b) (hq : (q : Int) ≤ b) (hr : (r : Int) ≤ b) (hs : (s : Int) ≤ b) :
    0 ≤ (4 - (y : Int)) * ((8 - (x : Int)) * p + x * q) + y * ((8 - (x : Int)) * r + x * s) ∧
    (4 - (y : Int)) * ((8 - (x : Int)) * p + x * q) + y * ((8 - (x : Int)) * r + x * s) ≤
      32 * b := by
  interval_cases x <;> interval_cases y <;> constructor <;> push_cast <;> omega

theorem shift_rgb4 (t : Int) (h0 : 0 ≤ t) (h1 : t ≤ 16 * 31) :
    0 ≤ (t >>> (6 : Nat)) + (t >>> (1 : Nat)) ∧ (t >>> (6 : Nat)) + (t >>> (1 : Nat)) ≤ 255 := by
  rw [Int.shiftRight_eq_div_pow, Int.shiftRight_eq_div_pow]
  have e1 : ((2 ^ 6 : Nat) : Int) = 64 := by norm_num
  have e2 : ((2 ^ 1 : Nat) : Int) = 2 := by norm_num
  rw [e1, e2]
  omega

theorem shift_a4 (t : Int) (h0 : 0 ≤ t) (h1 : t ≤ 16 * 15) :
    0 ≤ (t >>> (4 : Nat)) + t ∧ (t >>> (4 : Nat)) + t ≤ 255 := by
  rw [Int.shiftRight_eq_div_pow]
  have e1 : ((2 ^ 4 : Nat) : Int) = 16 := by norm_num
  rw [e1]
  omega

theorem shift_rgb2 (t : Int) (h0 : 0 ≤ t) (h1 : t ≤ 32 * 31) :
    0 ≤ (t >>> (7 : Nat)) + (t >>> (2 : Nat)) ∧ (t >>> (7 : Nat)) + (t >>> (2 : Nat)) ≤ 255 := by
  rw [Int.shiftRight_eq_div_pow, Int.shiftRight_eq_div_pow]
  have e1 : ((2 ^ 7 : Nat) : Int) = 128 := by norm_num
  have e2 : ((2 ^ 2 : Nat) : Int) = 4 := by norm_num
  rw [e1, e2]
  omega

theorem shift_a2 (t : Int) (h0 : 0 ≤ t) (h1 : t ≤ 32 * 15) :
    0 ≤ (t >>> (5 : Nat)) + (t >>> (1 : Nat)) ∧ (t >>> (5 : Nat)) + (t >>> (1 : Nat)) ≤ 255 := by
  rw [Int.shiftRight_eq_div_pow, Int.shiftRight_eq_div_pow]
  have e1 : ((2 ^ 5 : Nat) : Int) = 32 := by norm_num
  have e2 : ((2 ^ 1 : Nat) : Int) = 2 := by norm_num
  rw [e1, e2]
  omega

theorem interpolateColors_four_inByte (P Q R S : Pixel32) (pPixel : Nat → Pixel128S)
    (i j : Nat) (h1 : i < 4) (h2 : j < 4)
    (hP : P.red ≤ 31 ∧ P.green ≤ 31 ∧ P.blue ≤ 31 ∧ P.alpha ≤ 15)
    (hQ : Q.red ≤ 31 ∧ Q.green ≤ 31 ∧ Q.blue ≤ 31 ∧ Q.alpha ≤ 15)
    (hR : R.red ≤ 31 ∧ R.green ≤ 31 ∧ R.blue ≤ 31 ∧ R.alpha ≤ 15)
    (hS : S.red ≤ 31 ∧ S.green ≤ 31 ∧ S.blue ≤ 31 ∧ S.alpha ≤ 15) :
    (interpolateColors P Q R S pPixel 4 (i * 4 + j)).inByte := by
  rw [interpolateColors_four P Q R S pPixel i j h1 h2]
  have c1 := channel_four P.red Q.red R.red S.red 31 i j h1 h2 (by omega) (by omega)
    (by omega) (by omega)
  have c2 := channel_four P.green Q.green R.green S.green 31 i j h1 h2 (by omega)
    (by omega) (by omega) (by omega)
  have c3 := channel_four P.blue Q.blue R.blue S.blue 31 i j h1 h2 (by omega)
    (by omega) (by omega) (by omega)
  have c4 := channel_four P.alpha Q.alpha R.alpha S.alpha 15 i j h1 h2 (by omega)
    (by omega) (by omega) (by omega)
  unfold Pixel128S.inByte shiftOut4
  dsimp only
  exact ⟨(shift_rgb4 _ c1.1 c1.2).1, (shift_rgb4 _ c1.1 c1.2).2, (shift_rgb4 _ c2.1 c2.2).1,
    (shift_rgb4 _ c2.1 c2.2).2, (shift_rgb4 _ c3.1 c3.2).1, (shift_rgb4 _ c3.1 c3.2).2,
    (shift_a4 _ c4.1 c4.2).1, (shift_a4 _ c4.1 c4.2).2⟩

theorem interpolateColors_two_inByte (P Q R S : Pixel32) (pPixel : Nat → Pixel128S)
    (x y : Nat) (h1 : x < 8) (h2 : y < 4)
    (hP : P.red ≤ 31 ∧ P.green ≤ 31 ∧ P.blue ≤ 31 ∧ P.alpha ≤ 15)
    (hQ : Q.red ≤ 31 ∧ Q.green ≤ 31 ∧ Q.blue ≤ 31 ∧ Q.alpha ≤ 15)
    (hR : R.red ≤ 31 ∧ R.green ≤ 31 ∧ R.blue ≤ 31 ∧ R.alpha ≤ 15)
    (hS : S.red ≤ 31 ∧ S.green ≤ 31 ∧ S.blue ≤ 31 ∧ S.alpha ≤ 15) :
    (interpolateColors P Q R S pPixel 2 (y * 8 + x)).inByte := by
  rw [interpolateColors_two P Q R S pPixel x y h1 h2]
  have c1 := channel_two P.red Q.red R.red S.red 31 x y h1 h2 (by omega) (by omega)
    (by omega) (by omega)
  have c2 := channel_two P.green Q.green R.green S.green 31 x y h1 h2 (by omega)
    (by omega) (by omega) (by omega)
  have c3 := channel_two P.blue Q.blue R.blue S.blue 31 x y h1 h2 (by omega)
    (by omega) (by omega) (by omega)
  have c4 := channel_two P.alpha Q.alpha R.alpha S.alpha 15 x y h1 h2 (by omega)
    (by omega) (by omega) (by omega)
  unfold Pixel128S.inByte shiftOut2
  dsimp only
  exact ⟨(shift_rgb2 _ c1.1 c1.2).1, (shift_rgb2 _ c1.1 c1.2).2, (shift_rgb2 _ c2.1 c2.2).1,
    (shift_rgb2 _ c2.1 c2.2).2, (shift_rgb2 _ c3.1 c3.2).1, (shift_rgb2 _ c3.1 c3.2).2,
    (shift_a2 _ c4.1 c4.2).1, (shift_a2 _ c4.1 c4.2).2⟩



/-! ## Modulation weights seen by the compositor -/

theorem texelModulation_four (P Q R S : PVRTCWord) (scratch : Scratch) (x y : Nat)
    (hx : x < 4) (hy : y < 4) :
    getModulationValues (unpackedGrids P Q R S 4 scratch).1 (unpackedGrids P Q R S 4 scratch).2
        (x + 2) (y + 2) 4 =
      if (if x < 2 then (if y < 2 then P else Q) else (if y < 2 then R else S)).colorData &&& 1
          ≠ 0 then
        code4Flagged
          (((if x < 2 then (if y < 2 then P else Q) else (if y < 2 then R else S)).modulationData
            >>> (2 * (4 * ((x + 2) % 4) + (y + 2) % 4))) &&& 3)
      else
        code4Plain
          (((if x < 2 then (if y < 2 then P else Q) else (if y < 2 then R else S)).modulationData
            >>> (2 * (4 * ((x + 2) % 4) + (y + 2) % 4))) &&& 3) := by
  have h4 : (4 : Nat) ≠ 2 := by decide
  have hg : getModulationValues (unpackedGrids P Q R S 4 scratch).1
      (unpackedGrids P Q R S 4 scratch).2 (x + 2) (y + 2) 4 =
      (unpackedGrids P Q R S 4 scratch).1 (x + 2) (y + 2) := by
    unfold getModulationValues
    simp only [h4, if_false, if_true]
  rw [hg]
  unfold unpackedGrids
  simp only [h4, if_false]
  rw [unpackModulations_four S, unpackModulations_four R, unpackModulations_four Q,
    unpackModulations_four P]
  interval_cases x <;> interval_cases y <;> simp

theorem code4_range (flag : Prop) [Decidable flag] (c : Nat) (hc : c < 4) :
    let v := if flag then code4Flagged c else code4Plain c
    (0 ≤ v ∧ v ≤ 8) ∨ v = 14 := by
  intro v
  show (0 ≤ (if flag then code4Flagged c else code4Plain c) ∧
    (if flag then code4Flagged c else code4Plain c) ≤ 8) ∨
    (if flag then code4Flagged c else code4Plain c) = 14
  unfold code4Flagged code4Plain
  by_cases hf : flag <;> interval_cases c <;> simp [hf]

theorem RepVals0_range (i : Int) : 0 ≤ RepVals0 i ∧ RepVals0 i ≤ 8 := by
  unfold RepVals0
  split_ifs <;> omega

theorem getModulationValues_two_range (mv mm : Grid) (xPos yPos : Nat) :
    0 ≤ getModulationValues mv mm xPos yPos 2 ∧ getModulationValues mv mm xPos yPos 2 ≤ 8 := by
  have hr := RepVals0_range
  unfold getModulationValues
  simp only [if_true]
  split_ifs
  · exact hr _
  · exact hr _
  · have h1 := hr (mv xPos (u32 (yPos + (2 ^ 32 - 1))))
    have h2 := hr (mv xPos (u32 (yPos + 1)))
    have h3 := hr (mv (u32 (xPos + (2 ^ 32 - 1))) yPos)
    have h4 := hr (mv (u32 (xPos + 1)) yPos)
    rw [Int.tdiv_eq_ediv (by omega) (by omega)]
    omega
  · have h3 := hr (mv (u32 (xPos + (2 ^ 32 - 1))) yPos)
    have h4 := hr (mv (u32 (xPos + 1)) yPos)
    rw [Int.tdiv_eq_ediv (by omega) (by omega)]
    omega
  · have h1 := hr (mv xPos (u32 (yPos + (2 ^ 32 - 1))))
    have h2 := hr (mv xPos (u32 (yPos + 1)))
    rw [Int.tdiv_eq_ediv (by omega) (by omega)]
    omega

/-! ## The blend -/

theorem toU8_cast (v : Int) (h0 : 0 ≤ v) (h1 : v ≤ 255) : ((toU8 v : Nat) : Int) = v := by
  unfold toU8
  omega

theorem blend_channel (a b w : Int) (ha0 : 0 ≤ a) (ha1 : a ≤ 255) (hb0 : 0 ≤ b) (hb1 : b ≤ 255)
    (hw0 : 0 ≤ w) (hw1 : w ≤ 8) :
    Int.tdiv (a * (8 - w) + b * w) 8 = (a * (8 - w) + b * w) / 8 ∧
    0 ≤ (a * (8 - w) + b * w) / 8 ∧ (a * (8 - w) + b * w) / 8 ≤ 255 := by
  interval_cases w <;> (rw [Int.tdiv_eq_ediv (by omega) (by omega)]; omega)

theorem upscaledColorA_inByte (PVRTCII : Bool) (P Q R S : PVRTCWord) (scratch : Scratch)
    (bpp x y : Nat) (hb : bpp = 2 ∨ bpp = 4) (hx : x < (if bpp = 2 then 8 else 4)) (hy : y < 4) :
    (upscaledColorA PVRTCII P Q R S bpp scratch (y * (if bpp = 2 then 8 else 4) + x)).inByte := by
  unfold upscaledColorA
  rcases hb with rfl | rfl
  · exact interpolateColors_two_inByte _ _ _ _ _ x y hx hy (getColorA_le _ _) (getColorA_le _ _)
      (getColorA_le _ _) (getColorA_le _ _)
  · exact interpolateColors_four_inByte _ _ _ _ _ y x hy hx (getColorA_le _ _)
      (getColorA_le _ _) (getColorA_le _ _) (getColorA_le _ _)

theorem upscaledColorB_inByte (PVRTCII : Bool) (P Q R S : PVRTCWord) (scratch : Scratch)
    (bpp x y : Nat) (hb : bpp = 2 ∨ bpp = 4) (hx : x < (if bpp = 2 then 8 else 4)) (hy : y < 4) :
    (upscaledColorB PVRTCII P Q R S bpp scratch (y * (if bpp = 2 then 8 else 4) + x)).inByte := by
  unfold upscaledColorB
  rcases hb with rfl | rfl
  · exact interpolateColors_two_inByte _ _ _ _ _ x y hx hy (getColorB_le _ _) (getColorB_le _ _)
      (getColorB_le _ _) (getColorB_le _ _)
  · exact interpolateColors_four_inByte _ _ _ _ _ y x hy hx (getColorB_le _ _)
      (getColorB_le _ _) (getColorB_le _ _) (getColorB_le _ _)



/-! ## The loop of `TwiddleUV` -/

theorem or_two_pow_eq_add (t i : Nat) (h : t < 2 ^ i) : t ||| 2 ^ i = t + 2 ^ i := by
  have := Nat.mul_add_lt_is_or h 1
  rw [Nat.mul_one] at this
  rw [Nat.lor_comm, ← this, Nat.add_comm]

theorem four_pow_eq (n : Nat) : 4 ^ n = 2 ^ (2 * n) := by
  rw [pow_mul]
  norm_num

theorem mortonBits_lt (n x y : Nat) : mortonBits n x y < 4 ^ n := by
  induction n with
  | zero => simp [mortonBits]
  | succ n ih =>
    have h4 : 4 ^ (n + 1) = 4 * 4 ^ n := by rw [pow_succ]; ring
    unfold mortonBits
    split_ifs <;> omega

theorem u32_of_lt (n : Nat) (h : n < 2 ^ 32) : u32 n = n := Nat.mod_eq_of_lt h

theorem pow_lt_u32 (n : Nat) (h : n < 32) : 2 ^ n < 2 ^ 32 :=
  Nat.pow_lt_pow_right (by decide) h

theorem twiddleLoop_step (k x y n fuel : Nat) (hn : n < k) (hk : k ≤ 15) :
    twiddleLoop (2 ^ k) x y (fuel + 1) ⟨mortonBits n x y, 2 ^ n, 4 ^ n, n⟩ =
      twiddleLoop (2 ^ k) x y fuel ⟨mortonBits (n + 1) x y, 2 ^ (n + 1), 4 ^ (n + 1), n + 1⟩ := by
  have hlt : (2 : Nat) ^ n < 2 ^ k := Nat.pow_lt_pow_right (by decide) hn
  have hT := mortonBits_lt n x y
  have h4 := four_pow_eq n
  have hsrc : u32 (2 ^ n <<< 1) = 2 ^ (n + 1) := by
    rw [Nat.shiftLeft_eq, ← pow_succ]
    exact u32_of_lt _ (pow_lt_u32 _ (by omega))
  have hdst : u32 (4 ^ n <<< 2) = 4 ^ (n + 1) := by
    rw [Nat.shiftLeft_eq, four_pow_eq, four_pow_eq, ← pow_add]
    have e : 2 * n + 2 = 2 * (n + 1) := by omega
    rw [e]
    exact u32_of_lt _ (pow_lt_u32 _ (by omega))
  have hdst1 : u32 (4 ^ n <<< 1) = 2 ^ (2 * n + 1) := by
    rw [Nat.shiftLeft_eq, four_pow_eq, ← pow_succ]
    exact u32_of_lt _ (pow_lt_u32 _ (by omega))
  have h2 : (2 : Nat) ^ (2 * n + 1) = 2 * 4 ^ n := by rw [pow_succ, h4]; ring
  have hy : (y &&& 2 ^ n ≠ 0) ↔ y.testBit n = true := and_two_pow_ne_zero y n
  have hx : (x &&& 2 ^ n ≠ 0) ↔ x.testBit n = true := and_two_pow_ne_zero x n
  have e1 : (if y &&& 2 ^ n ≠ 0 then mortonBits n x y ||| 4 ^ n else mortonBits n x y) =
      mortonBits n x y + (if y.testBit n then 4 ^ n else 0) := by
    by_cases hb : y.testBit n = true
    · rw [if_pos (hy.2 hb), if_pos hb, h4]
      exact or_two_pow_eq_add _ _ (h4 ▸ hT)
    · rw [if_neg (fun h => hb (hy.1 h)), if_neg hb]
      rfl
  rw [twiddleLoop]
  simp only [hlt, if_true, hsrc, hdst, hdst1, e1]
  congr 2
  show _ = mortonBits n x y + (if y.testBit n then 4 ^ n else 0) +
    (if x.testBit n then 2 * 4 ^ n else 0)
  by_cases hb : x.testBit n = true
  · rw [if_pos (hx.2 hb), if_pos hb, ← h2]
    apply or_two_pow_eq_add
    rw [h2]
    split_ifs <;> omega
  · rw [if_neg (fun h => hb (hx.1 h)), if_neg hb]
    rfl

theorem twiddleLoop_done (m x y fuel : Nat) (st : TwiddleState) (h : ¬ st.SrcBitPos < m) :
    twiddleLoop m x y fuel st = some st := by
  cases fuel <;> simp [twiddleLoop, h]

theorem twiddleLoop_run (k x y : Nat) (hk : k ≤ 15) (d : Nat) :
    ∀ n fuel, n + d = k → d ≤ fuel →
      twiddleLoop (2 ^ k) x y fuel ⟨mortonBits n x y, 2 ^ n, 4 ^ n, n⟩ =
        some ⟨mortonBits k x y, 2 ^ k, 4 ^ k, k⟩ := by
  induction d with
  | zero =>
    intro n fuel hnk _
    have : n = k := by omega
    subst this
    exact twiddleLoop_done _ _ _ _ _ (by simp)
  | succ d ih =>
    intro n fuel hnk hf
    obtain ⟨f, rfl⟩ : ∃ f, fuel = f + 1 := ⟨fuel - 1, by omega⟩
    rw [twiddleLoop_step k x y n f (by omega) hk]
    exact ih (n + 1) f (by omega) (by omega)

/-- The loop of `TwiddleUV` ends for every power-of-two `MinDimension` of `uint32_t`. -/
theorem twiddleLoop_ends (k x y : Nat) (hk : k ≤ 31) (d : Nat) :
    ∀ n fuel t dst s, n + d = k → d ≤ fuel →
      ∃ st, twiddleLoop (2 ^ k) x y fuel ⟨t, 2 ^ n, dst, s⟩ = some st := by
  induction d with
  | zero =>
    intro n fuel t dst s hnk _
    have : n = k := by omega
    subst this
    exact ⟨_, twiddleLoop_done _ _ _ _ _ (by simp)⟩
  | succ d ih =>
    intro n fuel t dst s hnk hf
    obtain ⟨f, rfl⟩ : ∃ f, fuel = f + 1 := ⟨fuel - 1, by omega⟩
    have hlt : (2 : Nat) ^ n < 2 ^ k := Nat.pow_lt_pow_right (by decide) (by omega)
    have hsrc : u32 (2 ^ n <<< 1) = 2 ^ (n + 1) := by
      rw [Nat.shiftLeft_eq, ← pow_succ]
      exact u32_of_lt _ (pow_lt_u32 _ (by omega))
    rw [twiddleLoop]
    simp only [hlt, if_true, hsrc]
    exact ih (n + 1) f _ _ _ (by omega) (by omega)



/-! ## Closed form and injectivity of `TwiddleUV` -/

theorem mortonBits_inj (n x y x2 y2 : Nat) (h : mortonBits n x y = mortonBits n x2 y2) :
    ∀ i, i < n → x.testBit i = x2.testBit i ∧ y.testBit i = y2.testBit i := by
  induction n with
  | zero => intro i hi; omega
  | succ n ih =>
    have h1 := mortonBits_lt n x y
    have h2 := mortonBits_lt n x2 y2
    have hp : 0 < 4 ^ n := pow_pos (by decide) _
    unfold mortonBits at h
    have key : mortonBits n x y = mortonBits n x2 y2 ∧ x.testBit n = x2.testBit n ∧
        y.testBit n = y2.testBit n := by
      cases hx : x.testBit n <;> cases hx2 : x2.testBit n <;> cases hy : y.testBit n <;>
        cases hy2 : y2.testBit n <;> simp only [hx, hx2, hy, hy2] at h <;>
        simp only [Bool.false_eq_true, if_false, if_true] at h <;>
        first
        | (refine ⟨?_, rfl, rfl⟩; omega)
        | (exfalso; omega)
    intro i hi
    by_cases hin : i = n
    · subst hin
      exact ⟨key.2.1, key.2.2⟩
    · exact ih key.1 i (by omega)

theorem mod_two_pow_eq_of_testBit (n x x2 : Nat)
    (h : ∀ i, i < n → x.testBit i = x2.testBit i) : x % 2 ^ n = x2 % 2 ^ n := by
  apply Nat.eq_of_testBit_eq
  intro i
  rw [Nat.testBit_mod_two_pow, Nat.testBit_mod_two_pow]
  by_cases hi : i < n
  · simp [hi, h i hi]
  · simp [hi]

theorem eq_of_div_mod_eq (m x x2 : Nat) (hd : x / m = x2 / m) (hm : x % m = x2 % m) :
    x = x2 := by
  rw [← Nat.div_add_mod x m, ← Nat.div_add_mod x2 m, hd, hm]

theorem TwiddleUV_morton (a b x y : Nat) (hab : a + b ≤ 31) (hx : x < 2 ^ a) (hy : y < 2 ^ b) :
    TwiddleUV false (2 ^ a) (2 ^ b) x y =
      some (mortonBits (min a b) x y +
        4 ^ (min a b) * ((if b < a then x else y) / 2 ^ (min a b))) := by
  have hlt : (2 : Nat) ^ b < 2 ^ a ↔ b < a := Nat.pow_lt_pow_iff_right (by decide)
  have hmin : (if b < a then (2 : Nat) ^ b else 2 ^ a) = 2 ^ (min a b) := by
    by_cases hba : b < a
    · rw [if_pos hba, Nat.min_eq_right (by omega)]
    · rw [if_neg hba, Nat.min_eq_left (by omega)]
  have hrun := twiddleLoop_run (min a b) x y (by omega) (min a b) 0 64 (by omega) (by omega)
  simp only [mortonBits, pow_zero] at hrun
  unfold TwiddleUV
  simp only [Bool.false_eq_true, if_false, hlt, hmin, hrun]
  congr 1
  -- the prepended bits do not overlap the interleaved ones
  have hM : (if b < a then x else y) < 2 ^ (max a b) := by
    by_cases hba : b < a
    · rw [if_pos hba, Nat.max_eq_left (by omega)]; exact hx
    · rw [if_neg hba, Nat.max_eq_right (by omega)]; exact hy
  generalize (if b < a then x else y) = M at hM ⊢
  have hsum : min a b + (max a b - min a b) = max a b := by omega
  have hq : M / 2 ^ (min a b) < 2 ^ (max a b - min a b) := by
    apply Nat.div_lt_of_lt_mul
    rw [← pow_add, hsum]
    exact hM
  have hprod : 4 ^ (min a b) * (M / 2 ^ (min a b)) < 2 ^ 32 := by
    have h1 : 4 ^ (min a b) * (M / 2 ^ (min a b)) <
        4 ^ (min a b) * 2 ^ (max a b - min a b) :=
      mul_lt_mul_of_pos_left hq (pow_pos (by decide) _)
    rw [four_pow_eq, ← pow_add] at h1
    have h2 : (2 : Nat) ^ (2 * min a b + (max a b - min a b)) ≤ 2 ^ 32 :=
      Nat.pow_le_pow_right (by decide) (by omega)
    rw [four_pow_eq]
    omega
  rw [Nat.shiftRight_eq_div_pow, Nat.shiftLeft_eq, ← four_pow_eq, Nat.mul_comm,
    u32_of_lt _ hprod, Nat.lor_comm, four_pow_eq,
    ← Nat.mul_add_lt_is_or (by rw [← four_pow_eq]; exact mortonBits_lt _ _ _), Nat.add_comm]

theorem TwiddleUV_morton_lt (a b x y : Nat) (hx : x < 2 ^ a) (hy : y < 2 ^ b) :
    mortonBits (min a b) x y + 4 ^ (min a b) * ((if b < a then x else y) / 2 ^ (min a b)) <
      2 ^ a * 2 ^ b := by
  have hM : (if b < a then x else y) < 2 ^ (max a b) := by
    by_cases hba : b < a
    · rw [if_pos hba, Nat.max_eq_left (by omega)]; exact hx
    · rw [if_neg hba, Nat.max_eq_right (by omega)]; exact hy
  generalize (if b < a then x else y) = M at hM ⊢
  have hsum : min a b + (max a b - min a b) = max a b := by omega
  have hq : M / 2 ^ (min a b) < 2 ^ (max a b - min a b) := by
    apply Nat.div_lt_of_lt_mul
    rw [← pow_add, hsum]
    exact hM
  have hT := mortonBits_lt (min a b) x y
  have h1 : 4 ^ (min a b) * (M / 2 ^ (min a b) + 1) ≤
      4 ^ (min a b) * 2 ^ (max a b - min a b) := Nat.mul_le_mul_left _ hq
  have h2 : 4 ^ (min a b) * 2 ^ (max a b - min a b) = 2 ^ a * 2 ^ b := by
    rw [four_pow_eq, ← pow_add, ← pow_add]
    congr 1
    omega
  rw [Nat.mul_add, Nat.mul_one] at h1
  omega

theorem TwiddleUV_morton_inj (a b x y x2 y2 : Nat) (hx : x < 2 ^ a) (hy : y < 2 ^ b)
    (hx2 : x2 < 2 ^ a) (hy2 : y2 < 2 ^ b)
    (h : mortonBits (min a b) x y + 4 ^ (min a b) * ((if b < a then x else y) / 2 ^ (min a b)) =
      mortonBits (min a b) x2 y2 +
        4 ^ (min a b) * ((if b < a then x2 else y2) / 2 ^ (min a b))) :
    x = x2 ∧ y = y2 := by
  have hT := mortonBits_lt (min a b) x y
  have hT2 := mortonBits_lt (min a b) x2 y2
  have hp : 0 < 4 ^ (min a b) := pow_pos (by decide) _
  have hdiv : (if b < a then x else y) / 2 ^ (min a b) =
      (if b < a then x2 else y2) / 2 ^ (min a b) := by
    have e1 := congrArg (· / 4 ^ (min a b)) h
    simp only [Nat.add_mul_div_left _ _ hp, Nat.div_eq_of_lt hT, Nat.div_eq_of_lt hT2,
      Nat.zero_add] at e1
    exact e1
  have hmor : mortonBits (min a b) x y = mortonBits (min a b) x2 y2 := by
    rw [hdiv] at h
    omega
  have hbits := mortonBits_inj _ _ _ _ _ hmor
  have hxm := mod_two_pow_eq_of_testBit (min a b) x x2 (fun i hi => (hbits i hi).1)
  have hym := mod_two_pow_eq_of_testBit (min a b) y y2 (fun i hi => (hbits i hi).2)
  by_cases hba : b < a
  · simp only [hba, if_true] at hdiv
    have hk : min a b = b := Nat.min_eq_right (by omega)
    rw [hk] at hxm hym hdiv
    rw [Nat.mod_eq_of_lt hy, Nat.mod_eq_of_lt hy2] at hym
    exact ⟨eq_of_div_mod_eq _ _ _ hdiv hxm, hym⟩
  · simp only [hba, if_false] at hdiv
    have hk : min a b = a := Nat.min_eq_left (by omega)
    rw [hk] at hxm hym hdiv
    rw [Nat.mod_eq_of_lt hx, Nat.mod_eq_of_lt hx2] at hxm
    exact ⟨hxm, eq_of_div_mod_eq _ _ _ hdiv hym⟩

theorem TwiddleUV_linear (X Y x y : Nat) (hXY : X * Y ≤ 2 ^ 32) (hx : x < X) (hy : y < Y) :
    TwiddleUV true X Y x y = some (y * X + x) ∧ y * X + x < X * Y := by
  have hb : y * X + x < X * Y := by
    have : (y + 1) * X ≤ Y * X := Nat.mul_le_mul_right _ hy
    rw [Nat.add_mul, Nat.one_mul, Nat.mul_comm Y X] at this
    omega
  refine ⟨?_, hb⟩
  unfold TwiddleUV
  simp only [if_true]
  rw [u32_of_lt _ (by omega)]

theorem linear_inj (X x y x2 y2 : Nat) (hx : x < X) (hx2 : x2 < X)
    (h : y * X + x = y2 * X + x2) : x = x2 ∧ y = y2 := by
  have hX : 0 < X := by omega
  have e1 := congrArg (· % X) h
  have e2 := congrArg (· / X) h
  simp only [Nat.mul_add_mod_of_lt hx, Nat.mul_add_mod_of_lt hx2] at e1
  simp only [Nat.add_comm (_ * X), Nat.add_mul_div_right _ _ hX, Nat.div_eq_of_lt hx,
    Nat.div_eq_of_lt hx2, Nat.zero_add] at e2
  exact ⟨e1, e2⟩

/-- An injective map of a grid into as many offsets reaches every offset. -/
theorem grid_surjective (X Y : Nat) (f : Nat → Nat → Nat)
    (hb : ∀ x y, x < X → y < Y → f x y < X * Y)
    (hi : ∀ x y x2 y2, x < X → y < Y → x2 < X → y2 < Y → f x y = f x2 y2 → x = x2 ∧ y = y2)
    (n : Nat) (hn : n < X * Y) : ∃ x y, x < X ∧ y < Y ∧ f x y = n := by
  have h := Finset.surj_on_of_inj_on_of_card_le
    (s := Finset.range X ×ˢ Finset.range Y) (t := Finset.range (X * Y))
    (fun p _ => f p.1 p.2)
    (fun p hp => by
      simp only [Finset.mem_product, Finset.mem_range] at hp
      exact Finset.mem_range.2 (hb p.1 p.2 hp.1 hp.2))
    (fun p q hp hq hpq => by
      simp only [Finset.mem_product, Finset.mem_range] at hp hq
      have := hi p.1 p.2 q.1 q.2 hp.1 hp.2 hq.1 hq.2 hpq
      exact Prod.ext this.1 this.2)
    (by simp)
    n (Finset.mem_range.2 hn)
  obtain ⟨p, hp, hpn⟩ := h
  simp only [Finset.mem_product, Finset.mem_range] at hp
  exact ⟨p.1, p.2, hp.1, hp.2, hpn.symm⟩

/-- On a power-of-two grid whose offsets fit 32 bits, `TwiddleUV` returns an offset
below the number of blocks. -/
theorem TwiddleUV_in_range (PVRTCII : Bool) (a b x y : Nat) (hab : a + b ≤ 31)
    (hx : x < 2 ^ a) (hy : y < 2 ^ b) :
    ∃ n, TwiddleUV PVRTCII (2 ^ a) (2 ^ b) x y = some n ∧ n < 2 ^ a * 2 ^ b := by
  cases PVRTCII with
  | true =>
    have hXY : 2 ^ a * 2 ^ b ≤ 2 ^ 32 := by
      rw [← pow_add]
      exact Nat.pow_le_pow_right (by decide) (by omega)
    exact ⟨_, (TwiddleUV_linear (2 ^ a) (2 ^ b) x y hXY hx hy).1,
      (TwiddleUV_linear (2 ^ a) (2 ^ b) x y hXY hx hy).2⟩
  | false =>
    exact ⟨_, TwiddleUV_morton a b x y hab hx hy, TwiddleUV_morton_lt a b x y hx hy⟩



/-! ## The block walker -/

theorem intToU32_of_nonneg (i : Int) (h0 : 0 ≤ i) (h1 : i < 2 ^ 32) : intToU32 i = i.toNat := by
  unfold intToU32
  rw [Int.emod_eq_of_lt h0 h1]

theorem wrapWordIndex_pred (n j : Nat) (hn : n ≤ 2 ^ 31) (hj : j < n) :
    wrapWordIndex n ((j : Int) - 1) = if j = 0 then n - 1 else j - 1 := by
  unfold wrapWordIndex
  rw [intToU32_of_nonneg _ (by omega) (by omega)]
  split
  · rename_i h
    subst h
    have e : ((0 : Nat) : Int) - 1 + (n : Int) = ((n - 1 : Nat) : Int) := by omega
    rw [e, Int.toNat_ofNat]
    exact Nat.mod_eq_of_lt (by omega)
  · have e : (j : Int) - 1 + (n : Int) = ((j - 1 + n : Nat) : Int) := by omega
    rw [e, Int.toNat_ofNat, Nat.add_mod_right]
    exact Nat.mod_eq_of_lt (by omega)

theorem wrapWordIndex_self (n j : Nat) (hn : n ≤ 2 ^ 31) (hj : j < n) :
    wrapWordIndex n ((j : Int) - 1 + 1) = j := by
  unfold wrapWordIndex
  rw [intToU32_of_nonneg _ (by omega) (by omega)]
  have e : (j : Int) - 1 + 1 + (n : Int) = ((j + n : Nat) : Int) := by omega
  rw [e, Int.toNat_ofNat, Nat.add_mod_right]
  exact Nat.mod_eq_of_lt hj

theorem wrapWordIndex_lt (n : Nat) (w : Int) (hn : 0 < n) : wrapWordIndex n w < n :=
  Nat.mod_lt _ hn

theorem mem_walkerSteps (numX numY : Nat) (step : Int × Int) :
    step ∈ walkerSteps numX numY ↔
      ∃ j, j < numY ∧ ∃ i, i < numX ∧ step = ((i : Int) - 1, (j : Int) - 1) := by
  unfold walkerSteps
  constructor
  · intro h
    obtain ⟨j, hj, h2⟩ := List.mem_flatMap.1 h
    obtain ⟨i, hi, h3⟩ := List.mem_map.1 h2
    exact ⟨j, List.mem_range.1 hj, i, List.mem_range.1 hi, h3.symm⟩
  · rintro ⟨j, hj, i, hi, rfl⟩
    exact List.mem_flatMap.2 ⟨j, List.mem_range.2 hj,
      List.mem_map.2 ⟨i, List.mem_range.2 hi, rfl⟩⟩

theorem length_flatMap_const {α β : Type} (l : List α) (f : α → List β) (c : Nat)
    (h : ∀ a, (f a).length = c) : (l.flatMap f).length = l.length * c := by
  induction l with
  | nil => simp
  | cons a l ih =>
    rw [List.flatMap_cons, List.length_append, ih, h a, List.length_cons]
    ring

theorem length_walkerSteps (numX numY : Nat) : (walkerSteps numX numY).length = numY * numX := by
  unfold walkerSteps
  rw [length_flatMap_const _ _ numX (fun j => by rw [List.length_map, List.length_range]),
    List.length_range]

theorem length_mapDecompressedDataWrites (width : Nat) (words : PVRTCWordIndices) (bpp : Nat) :
    (mapDecompressedDataWrites width words bpp).length =
      4 * (if bpp = 2 then 8 else 4) := by
  unfold mapDecompressedDataWrites
  dsimp only
  rw [length_flatMap_const _ _ ((if bpp = 2 then 8 else 4) / 2 * 4) (fun y => by
    rw [length_flatMap_const _ _ 4 (fun x => by simp), List.length_range]),
    List.length_range]
  split <;> rfl

theorem length_pvrtcDecompressWrites (W H bpp : Nat) :
    (pvrtcDecompressWrites (W * (if bpp = 2 then 8 else 4)) (H * 4) bpp).length =
      (W * (if bpp = 2 then 8 else 4)) * (H * 4) := by
  unfold pvrtcDecompressWrites
  dsimp only
  rw [length_flatMap_const _ _ (4 * (if bpp = 2 then 8 else 4)) (fun s => by
    rw [List.length_map, length_mapDecompressedDataWrites]), length_walkerSteps]
  have e1 : W * (if bpp = 2 then 8 else 4) / (if bpp = 2 then 8 else 4) = W := by
    split <;> omega
  have e2 : H * 4 / 4 = H := by omega
  rw [e1, e2]
  ring

theorem mem_pvrtcDecompressWrites (width height bpp idx : Nat) :
    idx ∈ pvrtcDecompressWrites width height bpp ↔
      ∃ step, step ∈ walkerSteps (width / (if bpp = 2 then 8 else 4)) (height / 4) ∧
        ∃ y, y < 2 ∧ ∃ x, x < (if bpp = 2 then 8 else 4) / 2 ∧
          (idx = u32 (((wordIndices (width / (if bpp = 2 then 8 else 4)) (height / 4)
              step.1 step.2).P.2 * 4 + y + 2) * width +
              (wordIndices (width / (if bpp = 2 then 8 else 4)) (height / 4)
                step.1 step.2).P.1 * (if bpp = 2 then 8 else 4) + x +
              (if bpp = 2 then 8 else 4) / 2) ∨
           idx = u32 (((wordIndices (width / (if bpp = 2 then 8 else 4)) (height / 4)
              step.1 step.2).Q.2 * 4 + y + 2) * width +
              (wordIndices (width / (if bpp = 2 then 8 else 4)) (height / 4)
                step.1 step.2).Q.1 * (if bpp = 2 then 8 else 4) + x) ∨
           idx = u32 (((wordIndices (width / (if bpp = 2 then 8 else 4)) (height / 4)
              step.1 step.2).R.2 * 4 + y) * width +
              (wordIndices (width / (if bpp = 2 then 8 else 4)) (height / 4)
                step.1 step.2).R.1 * (if bpp = 2 then 8 else 4) + x +
              (if bpp = 2 then 8 else 4) / 2) ∨
           idx = u32 (((wordIndices (width / (if bpp = 2 then 8 else 4)) (height / 4)
              step.1 step.2).S.2 * 4 + y) * width +
              (wordIndices (width / (if bpp = 2 then 8 else 4)) (height / 4)
                step.1 step.2).S.1 * (if bpp = 2 then 8 else 4) + x)) := by
  unfold pvrtcDecompressWrites mapDecompressedDataWrites
  dsimp only
  have e : (4 : Nat) / 2 = 2 := by decide
  rw [e]
  constructor
  · intro h
    obtain ⟨step, hs, h2⟩ := List.mem_flatMap.1 h
    obtain ⟨w, hw, rfl⟩ := List.mem_map.1 h2
    obtain ⟨y, hy, h3⟩ := List.mem_flatMap.1 hw
    obtain ⟨x, hx, h4⟩ := List.mem_flatMap.1 h3
    refine ⟨step, hs, y, List.mem_range.1 hy, x, List.mem_range.1 hx, ?_⟩
    simp only [List.mem_cons, List.mem_singleton, List.not_mem_nil, or_false] at h4
    rcases h4 with h4 | h4 | h4 | h4
    · exact Or.inl (by rw [h4])
    · exact Or.inr (Or.inl (by rw [h4]))
    · exact Or.inr (Or.inr (Or.inl (by rw [h4])))
    · exact Or.inr (Or.inr (Or.inr (by rw [h4])))
  · rintro ⟨step, hs, y, hy, x, hx, h⟩
    refine List.mem_flatMap.2 ⟨step, hs, ?_⟩
    rcases h with h | h | h | h
    · exact List.mem_map.2 ⟨_, List.mem_flatMap.2 ⟨y, List.mem_range.2 hy,
        List.mem_flatMap.2 ⟨x, List.mem_range.2 hx, List.mem_cons_self _ _⟩⟩, h.symm⟩
    · exact List.mem_map.2 ⟨_, List.mem_flatMap.2 ⟨y, List.mem_range.2 hy,
        List.mem_flatMap.2 ⟨x, List.mem_range.2 hx,
          List.mem_cons_of_mem _ (List.mem_cons_self _ _)⟩⟩, h.symm⟩
    · exact List.mem_map.2 ⟨_, List.mem_flatMap.2 ⟨y, List.mem_range.2 hy,
        List.mem_flatMap.2 ⟨x, List.mem_range.2 hx,
          List.mem_cons_of_mem _ (List.mem_cons_of_mem _ (List.mem_cons_self _ _))⟩⟩, h.symm⟩
    · exact List.mem_map.2 ⟨_, List.mem_flatMap.2 ⟨y, List.mem_range.2 hy,
        List.mem_flatMap.2 ⟨x, List.mem_range.2 hx,
          List.mem_cons_of_mem _ (List.mem_cons_of_mem _
            (List.mem_cons_of_mem _ (List.mem_cons_self _ _)))⟩⟩, h.symm⟩

theorem pvrtcDecompressWrites_lt_u32 (width height bpp idx : Nat)
    (h : idx ∈ pvrtcDecompressWrites width height bpp) : idx < 2 ^ 32 := by
  rw [mem_pvrtcDecompressWrites] at h
  obtain ⟨_, _, _, _, _, _, h⟩ := h
  rcases h with h | h | h | h <;> (rw [h]; exact Nat.mod_lt _ (by decide))



theorem wordIndices_walker (W H i j : Nat) (hW : W ≤ 2 ^ 31) (hH : H ≤ 2 ^ 31) (hi : i < W)
    (hj : j < H) :
    wordIndices W H ((i : Int) - 1) ((j : Int) - 1) =
      { P := (if i = 0 then W - 1 else i - 1, if j = 0 then H - 1 else j - 1)
        Q := (i, if j = 0 then H - 1 else j - 1)
        R := (if i = 0 then W - 1 else i - 1, j)
        S := (i, j) } := by
  unfold wordIndices
  rw [wrapWordIndex_pred W i hW hi, wrapWordIndex_pred H j hH hj, wrapWordIndex_self W i hW hi,
    wrapWordIndex_self H j hH hj]

theorem row_col_lt (r c w h : Nat) (hr : r < h) (hc : c < w) : r * w + c < w * h := by
  have : (r + 1) * w ≤ h * w := Nat.mul_le_mul_right _ hr
  rw [Nat.add_mul, Nat.one_mul, Nat.mul_comm h w] at this
  omega

/-- The four stores of the iteration `(i - 1, j - 1)` for the loop variables `(x, y)`
of `mapDecompressedData`, with the block indices resolved. -/
theorem walker_writes (W H bw bpp i j y x : Nat) (hbw : (if bpp = 2 then 8 else 4) = bw)
    (hb : bw = 8 ∨ bw = 4) (hN : (W * bw) * (H * 4) ≤ 2 ^ 32) (hi : i < W) (hj : j < H)
    (hy : y < 2) (hx : x < bw / 2) :
    (((if j = 0 then H - 1 else j - 1) * 4 + y + 2) * (W * bw) +
        ((if i = 0 then W - 1 else i - 1) * bw + x + bw / 2) ∈
      pvrtcDecompressWrites (W * bw) (H * 4) bpp) ∧
    (((if j = 0 then H - 1 else j - 1) * 4 + y + 2) * (W * bw) + (i * bw + x) ∈
      pvrtcDecompressWrites (W * bw) (H * 4) bpp) ∧
    ((j * 4 + y) * (W * bw) + ((if i = 0 then W - 1 else i - 1) * bw + x + bw / 2) ∈
      pvrtcDecompressWrites (W * bw) (H * 4) bpp) ∧
    ((j * 4 + y) * (W * bw) + (i * bw + x) ∈ pvrtcDecompressWrites (W * bw) (H * 4) bpp) := by
  have hbw0 : 0 < bw := by omega
  have hW0 : 0 < W := by omega
  have hH0 : 0 < H := by omega
  have hWle : W ≤ 2 ^ 31 := by
    have h1 : W * bw ≤ (W * bw) * (H * 4) := Nat.le_mul_of_pos_right _ (by omega)
    have h2 : W * 4 ≤ W * bw := Nat.mul_le_mul_left _ (by omega)
    omega
  have hHle : H ≤ 2 ^ 31 := by
    have h1 : H * 4 ≤ (W * bw) * (H * 4) := Nat.le_mul_of_pos_left _ (Nat.mul_pos hW0 hbw0)
    omega
  have e1 : W * bw / bw = W := Nat.mul_div_cancel _ hbw0
  have e2 : H * 4 / 4 = H := by omega
  have hmem := fun idx => mem_pvrtcDecompressWrites (W * bw) (H * 4) bpp idx
  simp only [hbw, e1, e2] at hmem
  have hstep : (((i : Int) - 1, (j : Int) - 1) : Int × Int) ∈ walkerSteps W H :=
    (mem_walkerSteps W H _).2 ⟨j, hj, i, hi, rfl⟩
  have hix := wordIndices_walker W H i j hWle hHle hi hj
  have hpj : (if j = 0 then H - 1 else j - 1) < H := by split <;> omega
  have hpi : (if i = 0 then W - 1 else i - 1) < W := by split <;> omega
  have hcol1 : (if i = 0 then W - 1 else i - 1) * bw + x + bw / 2 < W * bw := by
    have : ((if i = 0 then W - 1 else i - 1) + 1) * bw ≤ W * bw := Nat.mul_le_mul_right _ hpi
    rw [Nat.add_mul, Nat.one_mul] at this
    omega
  have hcol2 : i * bw + x < W * bw := by
    have : (i + 1) * bw ≤ W * bw := Nat.mul_le_mul_right _ hi
    rw [Nat.add_mul, Nat.one_mul] at this
    omega
  have hrow1 : (if j = 0 then H - 1 else j - 1) * 4 + y + 2 < H * 4 := by omega
  have hrow2 : j * 4 + y < H * 4 := by omega
  refine ⟨?_, ?_, ?_, ?_⟩
  · refine (hmem _).2 ⟨_, hstep, y, hy, x, hx, Or.inl ?_⟩
    rw [hix]
    dsimp only
    have := row_col_lt _ _ _ _ hrow1 hcol1
    rw [u32_of_lt _ (by omega)]
    omega
  · refine (hmem _).2 ⟨_, hstep, y, hy, x, hx, Or.inr (Or.inl ?_)⟩
    rw [hix]
    dsimp only
    have := row_col_lt _ _ _ _ hrow1 hcol2
    rw [u32_of_lt _ (by omega)]
    omega
  · refine (hmem _).2 ⟨_, hstep, y, hy, x, hx, Or.inr (Or.inr (Or.inl ?_))⟩
    rw [hix]
    dsimp only
    have := row_col_lt _ _ _ _ hrow2 hcol1
    rw [u32_of_lt _ (by omega)]
    omega
  · refine (hmem _).2 ⟨_, hstep, y, hy, x, hx, Or.inr (Or.inr (Or.inr ?_))⟩
    rw [hix]
    dsimp only
    have := row_col_lt _ _ _ _ hrow2 hcol2
    rw [u32_of_lt _ (by omega)]
    omega

theorem wrap_succ_pred (n k : Nat) :
    (if (if k = n - 1 then 0 else k + 1) = 0 then n - 1
      else (if k = n - 1 then 0 else k + 1) - 1) = k := by
  by_cases hc : k = n - 1
  · simp [hc]
  · simp [hc]

/-- Every pixel of the raster is written by some iteration of the walker. -/
theorem walker_covers (W H bw bpp idx : Nat) (hbw : (if bpp = 2 then 8 else 4) = bw)
    (hb : bw = 8 ∨ bw = 4) (hW : 0 < W) (hH : 0 < H) (hN : (W * bw) * (H * 4) ≤ 2 ^ 32)
    (hidx : idx < (W * bw) * (H * 4)) :
    idx ∈ pvrtcDecompressWrites (W * bw) (H * 4) bpp := by
  have hbw0 : 0 < bw := by omega
  have hw0 : 0 < W * bw := Nat.mul_pos hW hbw0
  have hrow : idx / (W * bw) < H * 4 := Nat.div_lt_of_lt_mul hidx
  have hcol : idx % (W * bw) < W * bw := Nat.mod_lt _ hw0
  have hdm : idx / (W * bw) * (W * bw) + idx % (W * bw) = idx := Nat.div_add_mod' _ _
  generalize idx / (W * bw) = row at hrow hdm
  generalize idx % (W * bw) = col at hcol hdm
  have hbx : col / bw < W := Nat.div_lt_of_lt_mul (by rw [Nat.mul_comm]; exact hcol)
  have hcdm : col / bw * bw + col % bw = col := Nat.div_add_mod' _ _
  have hrx : col % bw < bw := Nat.mod_lt _ hbw0
  generalize col / bw = bx at hbx hcdm
  generalize col % bw = rx at hrx hcdm
  have hby : row / 4 < H := by omega
  have hrdm : row / 4 * 4 + row % 4 = row := Nat.div_add_mod' _ _
  have hry : row % 4 < 4 := Nat.mod_lt _ (by decide)
  generalize row / 4 = yb at hby hrdm
  generalize row % 4 = ry at hry hrdm
  subst hdm hcdm hrdm
  have hi1 : (if bx = W - 1 then 0 else bx + 1) < W := by
    by_cases hc : bx = W - 1
    · rw [if_pos hc]; exact hW
    · rw [if_neg hc]; omega
  have hj1 : (if yb = H - 1 then 0 else yb + 1) < H := by
    by_cases hc : yb = H - 1
    · rw [if_pos hc]; exact hH
    · rw [if_neg hc]; omega
  by_cases h1 : 2 ≤ ry
  · by_cases h2 : bw / 2 ≤ rx
    · have hw := (walker_writes W H bw bpp (if bx = W - 1 then 0 else bx + 1)
        (if yb = H - 1 then 0 else yb + 1) (ry - 2) (rx - bw / 2) hbw hb hN
        hi1 hj1 (by omega) (by omega)).1
      have ej := wrap_succ_pred H yb
      have ei := wrap_succ_pred W bx
      rw [ej, ei] at hw
      have e1 : yb * 4 + (ry - 2) + 2 = yb * 4 + ry := by omega
      have e2 : bx * bw + (rx - bw / 2) + bw / 2 = bx * bw + rx := by omega
      rw [e1, e2] at hw
      exact hw
    · have hw := (walker_writes W H bw bpp bx
        (if yb = H - 1 then 0 else yb + 1) (ry - 2) rx hbw hb hN
        hbx hj1 (by omega) (by omega)).2.1
      have ej := wrap_succ_pred H yb
      rw [ej] at hw
      have e1 : yb * 4 + (ry - 2) + 2 = yb * 4 + ry := by omega
      rw [e1] at hw
      exact hw
  · by_cases h2 : bw / 2 ≤ rx
    · have hw := (walker_writes W H bw bpp (if bx = W - 1 then 0 else bx + 1)
        yb ry (rx - bw / 2) hbw hb hN
        hi1 hby (by omega) (by omega)).2.2.1
      have ei := wrap_succ_pred W bx
      rw [ei] at hw
      have e2 : bx * bw + (rx - bw / 2) + bw / 2 = bx * bw + rx := by omega
      rw [e2] at hw
      exact hw
    · exact (walker_writes W H bw bpp bx yb ry rx hbw hb hN hbx hby (by omega)
        (by omega)).2.2.2



/-! ## The walker as a whole -/

theorem foldl_setAt_frame {α : Type} (ws : List (Nat × Nat)) (pWord : Nat → α) (out : Nat → α)
    (idx : Nat) (h : idx ∉ ws.map Prod.fst) :
    (ws.foldl (fun out w => setAt out w.1 (pWord w.2)) out) idx = out idx := by
  induction ws generalizing out with
  | nil => rfl
  | cons w ws ih =>
    rw [List.map_cons, List.mem_cons, not_or] at h
    rw [List.foldl_cons, ih _ h.2]
    unfold setAt
    rw [if_neg h.1]

theorem mapDecompressedData_frame (pOutput : Nat → Pixel32) (width : Nat)
    (pWord : Nat → Pixel32) (words : PVRTCWordIndices) (bpp idx : Nat)
    (h : idx ∉ (mapDecompressedDataWrites width words bpp).map Prod.fst) :
    mapDecompressedData pOutput width pWord words bpp idx = pOutput idx :=
  foldl_setAt_frame _ _ _ _ h

theorem foldlM_decompressBlock_frame (PVRTCII : Bool) (pWordMembers : Nat → Nat)
    (width bpp numX numY : Nat) (scratch : Int → Int → Scratch) (steps : List (Int × Int))
    (st st2 : (Nat → Pixel32) × (Nat → Pixel32)) (idx : Nat)
    (hrun : steps.foldlM (decompressBlock PVRTCII pWordMembers width bpp numX numY scratch) st =
      some st2)
    (h : idx ∉ steps.flatMap fun step =>
      (mapDecompressedDataWrites width (wordIndices numX numY step.1 step.2) bpp).map Prod.fst) :
    st2.1 idx = st.1 idx := by
  induction steps generalizing st with
  | nil =>
    simp only [List.foldlM_nil] at hrun
    cases hrun
    rfl
  | cons s steps ih =>
    rw [List.flatMap_cons, List.mem_append, not_or] at h
    rw [List.foldlM_cons] at hrun
    cases hb : decompressBlock PVRTCII pWordMembers width bpp numX numY scratch st s with
    | none => rw [hb] at hrun; cases hrun
    | some st1 =>
      rw [hb] at hrun
      rw [ih st1 hrun h.2]
      unfold decompressBlock at hb
      dsimp only at hb
      cases ho : wordOffsets PVRTCII numX numY (wordIndices numX numY s.1 s.2) with
      | none => rw [ho] at hb; cases hb
      | some o =>
        rw [ho] at hb
        cases hb
        exact mapDecompressedData_frame _ _ _ _ _ _ h.1

/-- The stores listed by `pvrtcDecompressWrites` are all the stores of
`pvrtcDecompress`: an element of the output raster outside the list is unchanged. -/
theorem pvrtcDecompress_frame (PVRTCII : Bool) (pCompressedData : Nat → Nat)
    (pDecompressedData : Nat → Pixel32) (width height bpp : Nat)
    (scratch : Int → Int → Scratch) (r : (Nat → Pixel32) × Nat) (idx : Nat)
    (hrun : pvrtcDecompress PVRTCII pCompressedData pDecompressedData width height bpp scratch =
      some r)
    (h : idx ∉ pvrtcDecompressWrites width height bpp) : r.1 idx = pDecompressedData idx := by
  unfold pvrtcDecompress at hrun
  dsimp only at hrun
  cases hf : (walkerSteps (width / (if bpp = 2 then 8 else 4)) (height / 4)).foldlM
    (decompressBlock PVRTCII pCompressedData width bpp (width / (if bpp = 2 then 8 else 4))
      (height / 4) scratch) (pDecompressedData, fun _ => ⟨0, 0, 0, 0⟩) with
  | none => rw [hf] at hrun; cases hrun
  | some st =>
    rw [hf] at hrun
    cases hrun
    exact foldlM_decompressBlock_frame _ _ _ _ _ _ _ _ _ _ _ hf h

theorem foldlM_some {σ α : Type} (f : σ → α → Option σ) (l : List α)
    (h : ∀ st a, a ∈ l → ∃ st2, f st a = some st2) (st : σ) :
    ∃ st2, l.foldlM f st = some st2 := by
  induction l generalizing st with
  | nil => exact ⟨st, rfl⟩
  | cons a l ih =>
    obtain ⟨st1, h1⟩ := h st a (List.mem_cons_self _ _)
    obtain ⟨st2, h2⟩ := ih (fun st b hb => h st b (List.mem_cons_of_mem _ hb)) st1
    exact ⟨st2, by rw [List.foldlM_cons, h1]; exact h2⟩

theorem TwiddleUV_some (PVRTCII : Bool) (a b x y : Nat) (ha : a ≤ 31) (hb : b ≤ 31) :
    ∃ n, TwiddleUV PVRTCII (2 ^ a) (2 ^ b) x y = some n := by
  cases PVRTCII with
  | true =>
    refine ⟨u32 (y * 2 ^ a + x), ?_⟩
    unfold TwiddleUV
    simp only [if_true]
  | false =>
    have hlt : (2 : Nat) ^ b < 2 ^ a ↔ b < a := Nat.pow_lt_pow_iff_right (by decide)
    have hmin : (if b < a then (2 : Nat) ^ b else 2 ^ a) = 2 ^ (min a b) := by
      by_cases hba : b < a
      · rw [if_pos hba, Nat.min_eq_right (by omega)]
      · rw [if_neg hba, Nat.min_eq_left (by omega)]
    obtain ⟨st, hst⟩ := twiddleLoop_ends (min a b) x y (by omega) (min a b) 0 64 0 1 0
      (by omega) (by omega)
    rw [pow_zero] at hst
    unfold TwiddleUV
    simp only [Bool.false_eq_true, if_false, hlt, hmin, hst]
    exact ⟨_, rfl⟩

theorem twiddle_read (PVRTCII : Bool) (a b x y : Nat) (ha : a ≤ 29) (hb : b ≤ 29)
    (hx : x < 2 ^ a) (hy : y < 2 ^ b) :
    ∃ n, TwiddleUV PVRTCII (2 ^ a) (2 ^ b) x y = some n ∧
      u32 (n * 2) < 2 * 2 ^ a * 2 ^ b ∧ u32 (u32 (n * 2) + 1) < 2 * 2 ^ a * 2 ^ b := by
  have hpow : 2 * 2 ^ a * 2 ^ b = 2 ^ (a + b + 1) := by
    rw [pow_succ, pow_add]; ring
  by_cases hab : a + b ≤ 30
  · obtain ⟨n, hn, hnb⟩ := TwiddleUV_in_range PVRTCII a b x y (by omega) hx hy
    have h30 : (2 : Nat) ^ a * 2 ^ b ≤ 2 ^ 30 := by
      rw [← pow_add]
      exact Nat.pow_le_pow_right (by decide) hab
    refine ⟨n, hn, ?_, ?_⟩
    · rw [u32_of_lt _ (by omega)]
      have : 2 * 2 ^ a * 2 ^ b = 2 * (2 ^ a * 2 ^ b) := by ring
      omega
    · rw [u32_of_lt (n * 2) (by omega), u32_of_lt _ (by omega)]
      have : 2 * 2 ^ a * 2 ^ b = 2 * (2 ^ a * 2 ^ b) := by ring
      omega
  · obtain ⟨n, hn⟩ := TwiddleUV_some PVRTCII a b x y (by omega) (by omega)
    have hbig : (2 : Nat) ^ 32 ≤ 2 * 2 ^ a * 2 ^ b := by
      rw [hpow]
      exact Nat.pow_le_pow_right (by decide) (by omega)
    have h1 : ∀ m, u32 m < 2 ^ 32 := fun m => Nat.mod_lt _ (by decide)
    exact ⟨n, hn, lt_of_lt_of_le (h1 _) hbig, lt_of_lt_of_le (h1 _) hbig⟩

theorem wordOffsets_some (PVRTCII : Bool) (a b : Nat) (ha : a ≤ 29) (hb : b ≤ 29)
    (wordX wordY : Int) :
    ∃ p q r s, wordOffsets PVRTCII (2 ^ a) (2 ^ b) (wordIndices (2 ^ a) (2 ^ b) wordX wordY) =
        some (u32 (p * 2), u32 (q * 2), u32 (r * 2), u32 (s * 2)) ∧
      u32 (p * 2) < 2 * 2 ^ a * 2 ^ b ∧ u32 (u32 (p * 2) + 1) < 2 * 2 ^ a * 2 ^ b ∧
      u32 (q * 2) < 2 * 2 ^ a * 2 ^ b ∧ u32 (u32 (q * 2) + 1) < 2 * 2 ^ a * 2 ^ b ∧
      u32 (r * 2) < 2 * 2 ^ a * 2 ^ b ∧ u32 (u32 (r * 2) + 1) < 2 * 2 ^ a * 2 ^ b ∧
      u32 (s * 2) < 2 * 2 ^ a * 2 ^ b ∧ u32 (u32 (s * 2) + 1) < 2 * 2 ^ a * 2 ^ b := by
  have hpa : 0 < 2 ^ a := pow_pos (by decide) _
  have hpb : 0 < 2 ^ b := pow_pos (by decide) _
  have hx := fun w => wrapWordIndex_lt (2 ^ a) w hpa
  have hy := fun w => wrapWordIndex_lt (2 ^ b) w hpb
  obtain ⟨p, hp, hp1, hp2⟩ := twiddle_read PVRTCII a b _ _ ha hb (hx wordX) (hy wordY)
  obtain ⟨q, hq, hq1, hq2⟩ := twiddle_read PVRTCII a b _ _ ha hb (hx (wordX + 1)) (hy wordY)
  obtain ⟨r, hr, hr1, hr2⟩ := twiddle_read PVRTCII a b _ _ ha hb (hx wordX) (hy (wordY + 1))
  obtain ⟨s, hs, hs1, hs2⟩ :=
    twiddle_read PVRTCII a b _ _ ha hb (hx (wordX + 1)) (hy (wordY + 1))
  refine ⟨p, q, r, s, ?_, hp1, hp2, hq1, hq2, hr1, hr2, hs1, hs2⟩
  unfold wordOffsets wordIndices
  simp only [hp, hq, hr, hs]

/-- On a power-of-two grid `pvrtcDecompress` returns: every iteration finds its four
words.  The returned size is `width * height / (wordWidth / 2)` in `uint32_t`. -/
theorem pvrtcDecompress_returns (PVRTCII : Bool) (pCompressedData : Nat → Nat)
    (pDecompressedData : Nat → Pixel32) (bpp a b : Nat) (scratch : Int → Int → Scratch)
    (hw : 2 ^ a * (if bpp = 2 then 8 else 4) < 2 ^ 32) (hh : 2 ^ b * 4 < 2 ^ 32) :
    ∃ out, pvrtcDecompress PVRTCII pCompressedData pDecompressedData
        (2 ^ a * (if bpp = 2 then 8 else 4)) (2 ^ b * 4) bpp scratch =
      some (out, u32 ((2 ^ a * (if bpp = 2 then 8 else 4)) * (2 ^ b * 4)) /
        ((if bpp = 2 then 8 else 4) / 2)) := by
  have hbw0 : 0 < (if bpp = 2 then 8 else 4) := by split <;> decide
  have e1 : 2 ^ a * (if bpp = 2 then 8 else 4) / (if bpp = 2 then 8 else 4) = 2 ^ a :=
    Nat.mul_div_cancel _ hbw0
  have e2 : 2 ^ b * 4 / 4 = 2 ^ b := by omega
  have ha : a ≤ 29 := by
    have h4 : 2 ^ a * 4 ≤ 2 ^ a * (if bpp = 2 then 8 else 4) :=
      Nat.mul_le_mul_left _ (by split <;> decide)
    have h5 : (2 : Nat) ^ a < 2 ^ 30 := by omega
    have := (Nat.pow_lt_pow_iff_right (by decide : 1 < 2)).1 h5
    omega
  have hb2 : b ≤ 29 := by
    have h5 : (2 : Nat) ^ b < 2 ^ 30 := by omega
    have := (Nat.pow_lt_pow_iff_right (by decide : 1 < 2)).1 h5
    omega
  obtain ⟨st, hst⟩ := foldlM_some
    (decompressBlock PVRTCII pCompressedData (2 ^ a * (if bpp = 2 then 8 else 4)) bpp (2 ^ a)
      (2 ^ b) scratch) (walkerSteps (2 ^ a) (2 ^ b))
    (fun st step _ => by
      obtain ⟨p, q, r, s, ho, _⟩ := wordOffsets_some PVRTCII a b ha hb2 step.1 step.2
      unfold decompressBlock
      dsimp only
      rw [ho]
      exact ⟨_, rfl⟩)
    (pDecompressedData, fun _ => ⟨0, 0, 0, 0⟩)
  refine ⟨st.1, ?_⟩
  unfold pvrtcDecompress
  dsimp only
  rw [e1, e2, hst]



/-! ## The twiddler is a bijection of the block grid -/

/-- C1 (amended): for power-of-two grid sizes `XSize = 2^a`, `YSize = 2^b` whose
product is below `2^32` (or equal to `2^32` in PVRTC-II), the map
`(x, y) -> TwiddleUV(XSize, YSize, x, y)` restricted to `x < XSize`, `y < YSize`
returns a value for every coordinate and is a bijection onto `[0, XSize*YSize)`, in
Morton order for PVRTC-I and in the linear order `y*XSize + x` for PVRTC-II. -/
theorem TwiddleUV_bijective (PVRTCII : Bool) (a b : Nat)
    (h : 2 ^ a * 2 ^ b < 2 ^ 32 ∨ (PVRTCII = true ∧ 2 ^ a * 2 ^ b = 2 ^ 32)) :
    (∀ x y, x < 2 ^ a → y < 2 ^ b →
      ∃ n, TwiddleUV PVRTCII (2 ^ a) (2 ^ b) x y = some n ∧ n < 2 ^ a * 2 ^ b) ∧
    (∀ x y x2 y2, x < 2 ^ a → y < 2 ^ b → x2 < 2 ^ a → y2 < 2 ^ b →
      TwiddleUV PVRTCII (2 ^ a) (2 ^ b) x y = TwiddleUV PVRTCII (2 ^ a) (2 ^ b) x2 y2 →
      x = x2 ∧ y = y2) ∧
    (∀ n, n < 2 ^ a * 2 ^ b →
      ∃ x y, x < 2 ^ a ∧ y < 2 ^ b ∧ TwiddleUV PVRTCII (2 ^ a) (2 ^ b) x y = some n) ∧
    (PVRTCII = true → ∀ x y, x < 2 ^ a → y < 2 ^ b →
      TwiddleUV PVRTCII (2 ^ a) (2 ^ b) x y = some (y * 2 ^ a + x)) := by
  cases PVRTCII with
  | true =>
    have hXY : 2 ^ a * 2 ^ b ≤ 2 ^ 32 := by
      rcases h with h | h
      · omega
      · omega
    have hv := fun x y hx hy => TwiddleUV_linear (2 ^ a) (2 ^ b) x y hXY hx hy
    have hinj : ∀ x y x2 y2, x < 2 ^ a → y < 2 ^ b → x2 < 2 ^ a → y2 < 2 ^ b →
        y * 2 ^ a + x = y2 * 2 ^ a + x2 → x = x2 ∧ y = y2 :=
      fun x y x2 y2 hx _ hx2 _ he => linear_inj (2 ^ a) x y x2 y2 hx hx2 he
    refine ⟨?_, ?_, ?_, ?_⟩
    · intro x y hx hy
      exact ⟨_, (hv x y hx hy).1, (hv x y hx hy).2⟩
    · intro x y x2 y2 hx hy hx2 hy2 he
      rw [(hv x y hx hy).1, (hv x2 y2 hx2 hy2).1] at he
      exact hinj x y x2 y2 hx hy hx2 hy2 (Option.some.inj he)
    · intro n hn
      obtain ⟨x, y, hx, hy, he⟩ := grid_surjective (2 ^ a) (2 ^ b) (fun x y => y * 2 ^ a + x)
        (fun x y hx hy => (hv x y hx hy).2) hinj n hn
      exact ⟨x, y, hx, hy, by rw [(hv x y hx hy).1, ← he]⟩
    · intro _ x y hx hy
      exact (hv x y hx hy).1
  | false =>
    have hab : a + b ≤ 31 := by
      rcases h with h | h
      · rw [← pow_add] at h
        have := (Nat.pow_lt_pow_iff_right (by decide : 1 < 2)).1 h
        omega
      · exact absurd h.1 (by decide)
    have hv := fun x y hx hy => TwiddleUV_morton a b x y hab hx hy
    refine ⟨?_, ?_, ?_, ?_⟩
    · intro x y hx hy
      exact ⟨_, hv x y hx hy, TwiddleUV_morton_lt a b x y hx hy⟩
    · intro x y x2 y2 hx hy hx2 hy2 he
      rw [hv x y hx hy, hv x2 y2 hx2 hy2] at he
      exact TwiddleUV_morton_inj a b x y x2 y2 hx hy hx2 hy2 (Option.some.inj he)
    · intro n hn
      obtain ⟨x, y, hx, hy, he⟩ := grid_surjective (2 ^ a) (2 ^ b)
        (fun x y => mortonBits (min a b) x y +
          4 ^ (min a b) * ((if b < a then x else y) / 2 ^ (min a b)))
        (fun x y hx hy => TwiddleUV_morton_lt a b x y hx hy)
        (fun x y x2 y2 hx hy hx2 hy2 he => TwiddleUV_morton_inj a b x y x2 y2 hx hy hx2 hy2 he)
        n hn
      exact ⟨x, y, hx, hy, by rw [hv x y hx hy, ← he]⟩
    · intro hf
      exact absurd hf (by decide)

/-- Witness of C1 (amended): the 8 x 2 Morton grid; the block `(3, 1)` is stored at
offset 7. -/
theorem TwiddleUV_bijective_witness :
    2 ^ 3 * 2 ^ 1 < 2 ^ 32 ∧ TwiddleUV false (2 ^ 3) (2 ^ 1) 3 1 = some 7 ∧
    ∃ x y, x < 2 ^ 3 ∧ y < 2 ^ 1 ∧ TwiddleUV false (2 ^ 3) (2 ^ 1) x y = some 11 :=
  ⟨by decide, by decide,
    (TwiddleUV_bijective false 3 1 (Or.inl (by decide))).2.2.1 11 (by decide)⟩

/-- Counterexample to C1 as stated: on the power-of-two grid of 32768 x 262144 blocks
the 32-bit offsets wrap, and the blocks `(0, 131072)` and `(0, 0)` receive the same
offset 0, both in Morton order and in linear order; the map is not injective. -/
theorem TwiddleUV_collision :
    (isPowerOf2 32768 = true ∧ isPowerOf2 262144 = true) ∧
    (TwiddleUV false 32768 262144 0 131072 = some 0 ∧
      TwiddleUV false 32768 262144 0 0 = some 0 ∧
      TwiddleUV true 32768 262144 0 131072 = some 0 ∧
      TwiddleUV true 32768 262144 0 0 = some 0) ∧
    (∀ PVRTCII : Bool, ¬ ∀ x y x2 y2, x < 32768 → y < 262144 → x2 < 32768 → y2 < 262144 →
      TwiddleUV PVRTCII 32768 262144 x y = TwiddleUV PVRTCII 32768 262144 x2 y2 →
      x = x2 ∧ y = y2) := by
  refine ⟨by decide, by decide, ?_⟩
  intro PVRTCII h
  have h2 := h 0 131072 0 0 (by decide) (by decide) (by decide) (by decide)
    (by cases PVRTCII <;> decide)
  exact absurd h2.2 (by decide)



/-! ## Writes and reads of the block walker -/

/-- C2 (amended): for `pvrtcDecompress` called with `width = W*blockWidth` and
`height = H*4` (`blockWidth` is 8 for 2bpp and 4 otherwise; `W, H >= 1`, in
particular powers of two) and `width*height <= 2^32`, over all iterations of the block walker every output pixel
index in `[0, width*height)` is written exactly once by `mapDecompressedData`, and
no index `>= width*height` is written. -/
theorem pvrtcDecompress_writes_once (bpp W H : Nat) (hW : 0 < W) (hH : 0 < H)
    (hN : (W * (if bpp = 2 then 8 else 4)) * (H * 4) ≤ 2 ^ 32) :
    (∀ idx, idx < (W * (if bpp = 2 then 8 else 4)) * (H * 4) →
      (pvrtcDecompressWrites (W * (if bpp = 2 then 8 else 4)) (H * 4) bpp).count idx = 1) ∧
    (∀ idx, idx ∈ pvrtcDecompressWrites (W * (if bpp = 2 then 8 else 4)) (H * 4) bpp →
      idx < (W * (if bpp = 2 then 8 else 4)) * (H * 4)) := by
  have hbw : (if bpp = 2 then 8 else 4) = 8 ∨ (if bpp = 2 then 8 else 4) = 4 := by
    split
    · exact Or.inl rfl
    · exact Or.inr rfl
  have hsub : List.range ((W * (if bpp = 2 then 8 else 4)) * (H * 4)) ⊆
      pvrtcDecompressWrites (W * (if bpp = 2 then 8 else 4)) (H * 4) bpp := by
    intro idx hidx
    exact walker_covers W H _ bpp idx rfl hbw hW hH hN (List.mem_range.1 hidx)
  have hperm : (List.range ((W * (if bpp = 2 then 8 else 4)) * (H * 4))).Perm
      (pvrtcDecompressWrites (W * (if bpp = 2 then 8 else 4)) (H * 4) bpp) :=
    (List.subperm_of_subset (List.nodup_range _) hsub).perm_of_length_le
      (by rw [length_pvrtcDecompressWrites, List.length_range])
  constructor
  · intro idx hidx
    rw [← hperm.count_eq]
    exact List.count_eq_one_of_mem (List.nodup_range _) (List.mem_range.2 hidx)
  · intro idx hmem
    exact List.mem_range.1 (hperm.mem_iff.2 hmem)

/-- Witness of C2 (amended): the 2bpp image of 16 x 8 pixels (a grid of 2 x 2
blocks); pixel 77 is written exactly once. -/
theorem pvrtcDecompress_writes_once_witness :
    (2 * 8) * (2 * 4) ≤ 2 ^ 32 ∧ (pvrtcDecompressWrites (2 * 8) (2 * 4) 2).count 77 = 1 :=
  ⟨by decide,
    (pvrtcDecompress_writes_once 2 2 2 (by decide) (by decide) (by decide)).1 77
      (by decide)⟩

/-- Counterexample to C2 as stated: for the 4bpp image of 131072 x 65536 pixels (a
grid of `2^15 x 2^14` blocks) the output index is computed modulo `2^32`, so the
pixel index `2^32`, which is below `width*height = 2^33`, is never written. -/
theorem pvrtcDecompress_writes_wrap :
    131072 = 2 ^ 15 * 4 ∧ 65536 = 2 ^ 14 * 4 ∧ 4294967296 < 131072 * 65536 ∧
    (pvrtcDecompressWrites 131072 65536 4).count 4294967296 = 0 := by
  refine ⟨by decide, by decide, by decide, ?_⟩
  apply List.count_eq_zero_of_not_mem
  intro h
  have := pvrtcDecompressWrites_lt_u32 _ _ _ _ h
  omega

/-- C3: for `pvrtcDecompress` with `width = W*blockWidth` and `height = H*4`
(`W = 2^a`, `H = 2^b`, both dimensions `uint32_t` values), every iteration of the
walker (every value of the loop variables `wordX`, `wordY`) computes its four
offsets, and every 32-bit element index it reads (`WordOffsets[i]` and
`WordOffsets[i] + 1` for the words P, Q, R, S) is below `2*W*H`, so that the four
bytes of the element lie within the first `width*height*bitsPerPixel/8` bytes of
the compressed data. -/
theorem blockReads_within (PVRTCII : Bool) (bpp a b : Nat) (hb : bpp = 2 ∨ bpp = 4)
    (hw : 2 ^ a * (if bpp = 2 then 8 else 4) < 2 ^ 32) (hh : 2 ^ b * 4 < 2 ^ 32)
    (step : Int × Int) :
    ∃ reads, blockReads PVRTCII (2 ^ a * (if bpp = 2 then 8 else 4) / (if bpp = 2 then 8 else 4))
        (2 ^ b * 4 / 4) step.1 step.2 = some reads ∧ reads.length = 8 ∧
      ∀ i, i ∈ reads → i < 2 * 2 ^ a * 2 ^ b ∧
        4 * i + 3 < (2 ^ a * (if bpp = 2 then 8 else 4)) * (2 ^ b * 4) * bpp / 8 := by
  have hbw0 : 0 < (if bpp = 2 then 8 else 4) := by split <;> decide
  have e1 : 2 ^ a * (if bpp = 2 then 8 else 4) / (if bpp = 2 then 8 else 4) = 2 ^ a :=
    Nat.mul_div_cancel _ hbw0
  have e2 : 2 ^ b * 4 / 4 = 2 ^ b := by omega
  rw [e1, e2]
  have hbytes : (2 ^ a * (if bpp = 2 then 8 else 4)) * (2 ^ b * 4) * bpp / 8 =
      4 * (2 * 2 ^ a * 2 ^ b) := by
    rcases hb with rfl | rfl
    · have : (2 ^ a * (if (2 : Nat) = 2 then 8 else 4)) * (2 ^ b * 4) * 2 =
          4 * (2 * 2 ^ a * 2 ^ b) * 8 := by simp only [if_true]; ring
      rw [this]
      exact Nat.mul_div_cancel _ (by decide)
    · have : (2 ^ a * (if (4 : Nat) = 2 then 8 else 4)) * (2 ^ b * 4) * 4 =
          4 * (2 * 2 ^ a * 2 ^ b) * 8 := by
        have h4 : (4 : Nat) ≠ 2 := by decide
        simp only [h4, if_false]; ring
      rw [this]
      exact Nat.mul_div_cancel _ (by decide)
  have ha : a ≤ 29 := by
    have h4 : 2 ^ a * 4 ≤ 2 ^ a * (if bpp = 2 then 8 else 4) :=
      Nat.mul_le_mul_left _ (by split <;> decide)
    have h5 : (2 : Nat) ^ a < 2 ^ 30 := by omega
    have := (Nat.pow_lt_pow_iff_right (by decide : 1 < 2)).1 h5
    omega
  have hb2 : b ≤ 29 := by
    have h5 : (2 : Nat) ^ b < 2 ^ 30 := by omega
    have := (Nat.pow_lt_pow_iff_right (by decide : 1 < 2)).1 h5
    omega
  obtain ⟨p, q, r, t, ho, hp1, hp2, hq1, hq2, hr1, hr2, hs1, hs2⟩ :=
    wordOffsets_some PVRTCII a b ha hb2 step.1 step.2
  refine ⟨[u32 (u32 (p * 2) + 1), u32 (p * 2), u32 (u32 (q * 2) + 1), u32 (q * 2),
    u32 (u32 (r * 2) + 1), u32 (r * 2), u32 (u32 (t * 2) + 1), u32 (t * 2)], ?_, rfl, ?_⟩
  · unfold blockReads
    rw [ho]
  · intro i hi
    rw [hbytes]
    simp only [List.mem_cons, List.mem_singleton, List.not_mem_nil, or_false] at hi
    rcases hi with rfl | rfl | rfl | rfl | rfl | rfl | rfl | rfl <;> constructor <;> omega

/-- Witness of C3: the first iteration of the walker on the 4bpp image of 16 x 8
pixels (a Morton grid of 4 x 2 blocks). -/
theorem blockReads_within_witness :
    blockReads false (2 ^ 2 * 4 / 4) (2 ^ 1 * 4 / 4) (-1) (-1) = some [15, 14, 3, 2, 13, 12, 1, 0] ∧
    ∃ reads, blockReads false (2 ^ 2 * 4 / 4) (2 ^ 1 * 4 / 4) (-1) (-1) = some reads ∧
      reads.length = 8 ∧
      ∀ i, i ∈ reads → i < 2 * 2 ^ 2 * 2 ^ 1 ∧ 4 * i + 3 < (2 ^ 2 * 4) * (2 ^ 1 * 4) * 4 / 8 :=
  ⟨by decide,
    blockReads_within false 4 2 1 (Or.inr rfl) (by decide) (by decide) (-1, -1)⟩



/-! ## The compositor: punch-through and blend -/

theorem blendTexel_punch_one (A B : Pixel128S) :
    blendTexel false A B 14 =
      ⟨Int.tdiv (A.red * 4 + B.red * 4) 8, Int.tdiv (A.green * 4 + B.green * 4) 8,
        Int.tdiv (A.blue * 4 + B.blue * 4) 8, 0⟩ := by
  have e84 : (8 : Int) - (14 - 10) = 4 := by norm_num
  have e144 : (14 : Int) - 10 = 4 := by norm_num
  simp only [blendTexel, e84, e144]
  simp only [show decide ((14 : Int) > 10) = true from by decide, Bool.false_and, if_true]
  simp only [Bool.false_eq_true, if_false]
  have e4 : (8 : Int) - 4 = 4 := by norm_num
  rw [e4]

theorem blendTexel_punch_two (A B : Pixel128S) :
    (blendTexel true A B 14).narrow = ⟨0, 0, 0, 0⟩ := by
  simp only [blendTexel]
  simp only [show decide ((14 : Int) > 10) = true from by decide, Bool.and_self, if_true]
  decide

/-- C4: a 4bpp texel flagged punch-through.  For the loop variables `(x, y)` of the
compositor (output index `y + x*4`) the weight is read from
`modulationValues[x + 2][y + 2]`, which `unpackModulations` wrote for the word `w`
(`P`, `Q`, `R` or `S` by quadrant) from its 2-bit field `k`.  When `w` has the mode
flag set and that field is 2, the weight code is 14; the PVRTC-I output then has
alpha 0 and red, green, blue equal to `(A*4 + B*4) / 8` for the interpolated colours
`A` and `B`, and the PVRTC-II output is zero in all four channels. -/
theorem punchthrough_four (P Q R S : PVRTCWord) (pColorData : Nat → Pixel32)
    (scratch : Scratch) (x y : Nat) (hx : x < 4) (hy : y < 4) :
    let w := if x < 2 then (if y < 2 then P else Q) else (if y < 2 then R else S)
    let k := 4 * ((x + 2) % 4) + (y + 2) % 4
    let A := upscaledColorA false P Q R S 4 scratch (y * 4 + x)
    let B := upscaledColorB false P Q R S 4 scratch (y * 4 + x)
    let outI := pvrtcGetDecompressedPixels false P Q R S pColorData 4 scratch (y + x * 4)
    let outII := pvrtcGetDecompressedPixels true P Q R S pColorData 4 scratch (y + x * 4)
    w.colorData &&& 1 ≠ 0 → (w.modulationData >>> (2 * k)) &&& 3 = 2 →
      getModulationValues (unpackedGrids P Q R S 4 scratch).1
        (unpackedGrids P Q R S 4 scratch).2 (x + 2) (y + 2) 4 = 14 ∧
      (outI.red : Int) = (A.red * 4 + B.red * 4) / 8 ∧
      (outI.green : Int) = (A.green * 4 + B.green * 4) / 8 ∧
      (outI.blue : Int) = (A.blue * 4 + B.blue * 4) / 8 ∧
      outI.alpha = 0 ∧
      outII = ⟨0, 0, 0, 0⟩ := by
  intro w k A B outI outII hflag hcode
  have hmod : getModulationValues (unpackedGrids P Q R S 4 scratch).1
      (unpackedGrids P Q R S 4 scratch).2 (x + 2) (y + 2) 4 = 14 := by
    rw [texelModulation_four P Q R S scratch x y hx hy]
    have hflag2 : w.colorData &&& 1 ≠ 0 := hflag
    have hcode2 : (w.modulationData >>> (2 * k)) &&& 3 = 2 := hcode
    simp only [w, k] at hflag2 hcode2
    rw [if_pos hflag2, hcode2]
    decide
  have hA := upscaledColorA_inByte false P Q R S scratch 4 x y (Or.inr rfl) hx hy
  have hB := upscaledColorB_inByte false P Q R S scratch 4 x y (Or.inr rfl) hx hy
  have h4 : (4 : Nat) ≠ 2 := by decide
  simp only [h4, if_false] at hA hB
  obtain ⟨a1, a2, a3, a4, a5, a6, _, _⟩ := hA
  obtain ⟨b1, b2, b3, b4, b5, b6, _, _⟩ := hB
  have hI : outI = (blendTexel false A B 14).narrow := by
    show pvrtcGetDecompressedPixels false P Q R S pColorData 4 scratch (y + x * 4) = _
    rw [compositor_four false P Q R S pColorData scratch x y hx hy, hmod]
  have hII : outII = (blendTexel true (upscaledColorA true P Q R S 4 scratch (y * 4 + x))
      (upscaledColorB true P Q R S 4 scratch (y * 4 + x)) 14).narrow := by
    show pvrtcGetDecompressedPixels true P Q R S pColorData 4 scratch (y + x * 4) = _
    rw [compositor_four true P Q R S pColorData scratch x y hx hy, hmod]
  have c1 := blend_channel A.red B.red 4 a1 a2 b1 b2 (by omega) (by omega)
  have c2 := blend_channel A.green B.green 4 a3 a4 b3 b4 (by omega) (by omega)
  have c3 := blend_channel A.blue B.blue 4 a5 a6 b5 b6 (by omega) (by omega)
  have e4 : (8 : Int) - 4 = 4 := by norm_num
  rw [e4] at c1 c2 c3
  rw [blendTexel_punch_one] at hI
  rw [blendTexel_punch_two] at hII
  refine ⟨hmod, ?_, ?_, ?_, ?_, hII⟩
  · rw [hI]
    show ((toU8 (Int.tdiv (A.red * 4 + B.red * 4) 8) : Nat) : Int) = _
    rw [c1.1]
    exact toU8_cast _ c1.2.1 c1.2.2
  · rw [hI]
    show ((toU8 (Int.tdiv (A.green * 4 + B.green * 4) 8) : Nat) : Int) = _
    rw [c2.1]
    exact toU8_cast _ c2.2.1 c2.2.2
  · rw [hI]
    show ((toU8 (Int.tdiv (A.blue * 4 + B.blue * 4) 8) : Nat) : Int) = _
    rw [c3.1]
    exact toU8_cast _ c3.2.1 c3.2.2
  · rw [hI]
    rfl

/-- Witness of C4: four copies of the word with every 2-bit code equal to 2, the mode
flag set, opaque colour A red and opaque colour B blue; texel `(x, y) = (1, 2)`. -/
theorem punchthrough_four_witness :
    pvrtcGetDecompressedPixels false ⟨0xAAAAAAAA, 0x801FFC01⟩ ⟨0xAAAAAAAA, 0x801FFC01⟩
        ⟨0xAAAAAAAA, 0x801FFC01⟩ ⟨0xAAAAAAAA, 0x801FFC01⟩ (fun _ => ⟨1, 2, 3, 4⟩) 4
        ⟨fun _ _ => 7, fun _ _ => 7, fun _ => ⟨9, 9, 9, 9⟩, fun _ => ⟨9, 9, 9, 9⟩⟩
        (2 + 1 * 4) = ⟨127, 0, 127, 0⟩ ∧
    pvrtcGetDecompressedPixels true ⟨0xAAAAAAAA, 0x801FFC01⟩ ⟨0xAAAAAAAA, 0x801FFC01⟩
        ⟨0xAAAAAAAA, 0x801FFC01⟩ ⟨0xAAAAAAAA, 0x801FFC01⟩ (fun _ => ⟨1, 2, 3, 4⟩) 4
        ⟨fun _ _ => 7, fun _ _ => 7, fun _ => ⟨9, 9, 9, 9⟩, fun _ => ⟨9, 9, 9, 9⟩⟩
        (2 + 1 * 4) = ⟨0, 0, 0, 0⟩ := by
  have h := punchthrough_four ⟨0xAAAAAAAA, 0x801FFC01⟩ ⟨0xAAAAAAAA, 0x801FFC01⟩
    ⟨0xAAAAAAAA, 0x801FFC01⟩ ⟨0xAAAAAAAA, 0x801FFC01⟩ (fun _ => ⟨1, 2, 3, 4⟩)
    ⟨fun _ _ => 7, fun _ _ => 7, fun _ => ⟨9, 9, 9, 9⟩, fun _ => ⟨9, 9, 9, 9⟩⟩ 1 2
    (by decide) (by decide) (by decide) (by decide)
  exact ⟨by decide, h.2.2.2.2.2⟩



theorem blendTexel_plain (PVRTCII : Bool) (A B : Pixel128S) (mod : Int) (h : ¬ mod > 10) :
    blendTexel PVRTCII A B mod =
      ⟨Int.tdiv (A.red * (8 - mod) + B.red * mod) 8,
        Int.tdiv (A.green * (8 - mod) + B.green * mod) 8,
        Int.tdiv (A.blue * (8 - mod) + B.blue * mod) 8,
        Int.tdiv (A.alpha * (8 - mod) + B.alpha * mod) 8⟩ := by
  simp only [blendTexel]
  simp only [show decide (mod > 10) = false from decide_eq_false h, Bool.and_false,
    Bool.false_eq_true, if_false]

theorem texelModulation_range (P Q R S : PVRTCWord) (scratch : Scratch) (bpp x y : Nat)
    (hb : bpp = 2 ∨ bpp = 4) (hx : x < (if bpp = 2 then 8 else 4)) (hy : y < 4)
    (hw : ¬ getModulationValues (unpackedGrids P Q R S bpp scratch).1
      (unpackedGrids P Q R S bpp scratch).2 (x + (if bpp = 2 then 8 else 4) / 2) (y + 2) bpp
      > 10) :
    0 ≤ getModulationValues (unpackedGrids P Q R S bpp scratch).1
      (unpackedGrids P Q R S bpp scratch).2 (x + (if bpp = 2 then 8 else 4) / 2) (y + 2) bpp ∧
    getModulationValues (unpackedGrids P Q R S bpp scratch).1
      (unpackedGrids P Q R S bpp scratch).2 (x + (if bpp = 2 then 8 else 4) / 2) (y + 2) bpp
      ≤ 8 := by
  rcases hb with rfl | rfl
  · exact getModulationValues_two_range _ _ _ _
  · have h4 : (4 : Nat) ≠ 2 := by decide
    simp only [h4, if_false] at hx hw ⊢
    have e : (4 : Nat) / 2 = 2 := by decide
    rw [e] at hw ⊢
    rw [texelModulation_four P Q R S scratch x y hx hy] at hw ⊢
    have hc : ((if x < 2 then (if y < 2 then P else Q)
        else (if y < 2 then R else S)).modulationData
        >>> (2 * (4 * ((x + 2) % 4) + (y + 2) % 4))) &&& 3 < 4 := by
      have : ((if x < 2 then (if y < 2 then P else Q)
        else (if y < 2 then R else S)).modulationData
        >>> (2 * (4 * ((x + 2) % 4) + (y + 2) % 4))) &&& 3 ≤ 3 := Nat.and_le_right
      omega
    have := code4_range ((if x < 2 then (if y < 2 then P else Q)
        else (if y < 2 then R else S)).colorData &&& 1 ≠ 0) _ hc
    dsimp only at this
    omega

/-- C5: for a texel that is not flagged punch-through (weight `w` not above 10) each
output channel of `pvrtcGetDecompressedPixels` equals `(A*(8-w) + B*w) / 8` for the
interpolated colours `A`, `B` of the texel and its modulation weight `w`, which lies
in `[0, 8]`; hence `w = 0` yields exactly `A` and `w = 8` yields exactly `B`.  The
loop variables are `(x, y)`; the output index is `y*wordWidth + x` in 2bpp and
`y + x*4` in 4bpp. -/
theorem blend_formula (PVRTCII : Bool) (P Q R S : PVRTCWord) (pColorData : Nat → Pixel32)
    (scratch : Scratch) (bpp x y : Nat) (hb : bpp = 2 ∨ bpp = 4)
    (hx : x < (if bpp = 2 then 8 else 4)) (hy : y < 4) :
    let wordWidth := if bpp = 2 then 8 else 4
    let w := getModulationValues (unpackedGrids P Q R S bpp scratch).1
      (unpackedGrids P Q R S bpp scratch).2 (x + wordWidth / 2) (y + 2) bpp
    let A := upscaledColorA PVRTCII P Q R S bpp scratch (y * wordWidth + x)
    let B := upscaledColorB PVRTCII P Q R S bpp scratch (y * wordWidth + x)
    let out := pvrtcGetDecompressedPixels PVRTCII P Q R S pColorData bpp scratch
      (if bpp = 2 then y * wordWidth + x else y + x * 4)
    ¬ w > 10 →
      (0 ≤ w ∧ w ≤ 8) ∧
      ((out.red : Int) = (A.red * (8 - w) + B.red * w) / 8 ∧
        (out.green : Int) = (A.green * (8 - w) + B.green * w) / 8 ∧
        (out.blue : Int) = (A.blue * (8 - w) + B.blue * w) / 8 ∧
        (out.alpha : Int) = (A.alpha * (8 - w) + B.alpha * w) / 8) ∧
      (w = 0 → (out.red : Int) = A.red ∧ (out.green : Int) = A.green ∧
        (out.blue : Int) = A.blue ∧ (out.alpha : Int) = A.alpha) ∧
      (w = 8 → (out.red : Int) = B.red ∧ (out.green : Int) = B.green ∧
        (out.blue : Int) = B.blue ∧ (out.alpha : Int) = B.alpha) := by
  intro wordWidth w A B out hw
  have hrange : 0 ≤ w ∧ w ≤ 8 := texelModulation_range P Q R S scratch bpp x y hb hx hy hw
  have hA : A.inByte := upscaledColorA_inByte PVRTCII P Q R S scratch bpp x y hb hx hy
  have hB : B.inByte := upscaledColorB_inByte PVRTCII P Q R S scratch bpp x y hb hx hy
  have hout : out = (blendTexel PVRTCII A B w).narrow := by
    rcases hb with rfl | rfl
    · have h := compositor_two PVRTCII P Q R S pColorData scratch x y hx hy
      simp only [out, A, B, w, wordWidth, if_true]
      exact h
    · have h4 : (4 : Nat) ≠ 2 := by decide
      have h := compositor_four PVRTCII P Q R S pColorData scratch x y hx hy
      simp only [out, A, B, w, wordWidth, h4, if_false]
      exact h
  rw [blendTexel_plain PVRTCII A B w hw] at hout
  obtain ⟨a1, a2, a3, a4, a5, a6, a7, a8⟩ := hA
  obtain ⟨b1, b2, b3, b4, b5, b6, b7, b8⟩ := hB
  have c1 := blend_channel A.red B.red w a1 a2 b1 b2 hrange.1 hrange.2
  have c2 := blend_channel A.green B.green w a3 a4 b3 b4 hrange.1 hrange.2
  have c3 := blend_channel A.blue B.blue w a5 a6 b5 b6 hrange.1 hrange.2
  have c4 := blend_channel A.alpha B.alpha w a7 a8 b7 b8 hrange.1 hrange.2
  have r1 : (out.red : Int) = (A.red * (8 - w) + B.red * w) / 8 := by
    rw [hout]
    show ((toU8 (Int.tdiv (A.red * (8 - w) + B.red * w) 8) : Nat) : Int) = _
    rw [c1.1]
    exact toU8_cast _ c1.2.1 c1.2.2
  have r2 : (out.green : Int) = (A.green * (8 - w) + B.green * w) / 8 := by
    rw [hout]
    show ((toU8 (Int.tdiv (A.green * (8 - w) + B.green * w) 8) : Nat) : Int) = _
    rw [c2.1]
    exact toU8_cast _ c2.2.1 c2.2.2
  have r3 : (out.blue : Int) = (A.blue * (8 - w) + B.blue * w) / 8 := by
    rw [hout]
    show ((toU8 (Int.tdiv (A.blue * (8 - w) + B.blue * w) 8) : Nat) : Int) = _
    rw [c3.1]
    exact toU8_cast _ c3.2.1 c3.2.2
  have r4 : (out.alpha : Int) = (A.alpha * (8 - w) + B.alpha * w) / 8 := by
    rw [hout]
    show ((toU8 (Int.tdiv (A.alpha * (8 - w) + B.alpha * w) 8) : Nat) : Int) = _
    rw [c4.1]
    exact toU8_cast _ c4.2.1 c4.2.2
  refine ⟨hrange, ⟨r1, r2, r3, r4⟩, ?_, ?_⟩
  · intro h0
    rw [h0] at r1 r2 r3 r4
    refine ⟨?_, ?_, ?_, ?_⟩ <;> omega
  · intro h8
    rw [h8] at r1 r2 r3 r4
    refine ⟨?_, ?_, ?_, ?_⟩ <;> omega

/-- Witness of C5: a 2bpp tile of four direct-mode words whose modulation bits are
all set (weight 8 everywhere), colour A red and colour B blue: the texel is exactly
colour B. -/
theorem blend_formula_witness :
    ((pvrtcGetDecompressedPixels true ⟨0xFFFFFFFF, 0x801FFC00⟩ ⟨0xFFFFFFFF, 0x801FFC00⟩
        ⟨0xFFFFFFFF, 0x801FFC00⟩ ⟨0xFFFFFFFF, 0x801FFC00⟩ (fun _ => ⟨1, 2, 3, 4⟩) 2
        ⟨fun _ _ => 7, fun _ _ => 7, fun _ => ⟨9, 9, 9, 9⟩, fun _ => ⟨9, 9, 9, 9⟩⟩
        (3 * 8 + 5)).blue : Int) = 255 :=
  ((blend_formula true ⟨0xFFFFFFFF, 0x801FFC00⟩ ⟨0xFFFFFFFF, 0x801FFC00⟩
    ⟨0xFFFFFFFF, 0x801FFC00⟩ ⟨0xFFFFFFFF, 0x801FFC00⟩ (fun _ => ⟨1, 2, 3, 4⟩)
    ⟨fun _ _ => 7, fun _ _ => 7, fun _ => ⟨9, 9, 9, 9⟩, fun _ => ⟨9, 9, 9, 9⟩⟩ 2 5 3
    (Or.inl rfl) (by decide) (by decide) (by decide)).2.2.2 (by decide)).2.2.1.trans (by decide)



/-! ## The interpolator, the unpacker and the resolver -/

/-- C6: `interpolateColors` is an exact integer bilinear form of the four corner
channel values.  In 4bpp the entry `pPixel[i*4 + j]` has red, green and blue equal
to `(t >> 6) + (t >> 1)` and alpha equal to `(t >> 4) + t` for
`t = (4-j)*((4-i)*P + i*Q) + j*((4-i)*R + i*S)`; in 2bpp the entry `pPixel[y*8 + x]`
has red, green and blue equal to `(t >> 7) + (t >> 2)` and alpha equal to
`(t >> 5) + (t >> 1)` for `t = (4-y)*((8-x)*P + x*Q) + y*((8-x)*R + x*S)`. -/
theorem interpolateColors_bilinear (P Q R S : Pixel32) (pPixel : Nat → Pixel128S)
    (i j x y : Nat) (hi : i < 4) (hj : j < 4) (hx : x < 8) (hy : y < 4) :
    (let t := fun (p q r s : Nat) =>
        (4 - (j : Int)) * ((4 - (i : Int)) * p + i * q) + j * ((4 - (i : Int)) * r + i * s)
      let e := interpolateColors P Q R S pPixel 4 (i * 4 + j)
      e.red = (t P.red Q.red R.red S.red >>> (6 : Nat)) +
        (t P.red Q.red R.red S.red >>> (1 : Nat)) ∧
      e.green = (t P.green Q.green R.green S.green >>> (6 : Nat)) +
        (t P.green Q.green R.green S.green >>> (1 : Nat)) ∧
      e.blue = (t P.blue Q.blue R.blue S.blue >>> (6 : Nat)) +
        (t P.blue Q.blue R.blue S.blue >>> (1 : Nat)) ∧
      e.alpha = (t P.alpha Q.alpha R.alpha S.alpha >>> (4 : Nat)) +
        t P.alpha Q.alpha R.alpha S.alpha) ∧
    (let t := fun (p q r s : Nat) =>
        (4 - (y : Int)) * ((8 - (x : Int)) * p + x * q) + y * ((8 - (x : Int)) * r + x * s)
      let e := interpolateColors P Q R S pPixel 2 (y * 8 + x)
      e.red = (t P.red Q.red R.red S.red >>> (7 : Nat)) +
        (t P.red Q.red R.red S.red >>> (2 : Nat)) ∧
      e.green = (t P.green Q.green R.green S.green >>> (7 : Nat)) +
        (t P.green Q.green R.green S.green >>> (2 : Nat)) ∧
      e.blue = (t P.blue Q.blue R.blue S.blue >>> (7 : Nat)) +
        (t P.blue Q.blue R.blue S.blue >>> (2 : Nat)) ∧
      e.alpha = (t P.alpha Q.alpha R.alpha S.alpha >>> (5 : Nat)) +
        (t P.alpha Q.alpha R.alpha S.alpha >>> (1 : Nat))) := by
  constructor
  · intro t e
    have h : e = _ := interpolateColors_four P Q R S pPixel i j hi hj
    rw [h]
    exact ⟨rfl, rfl, rfl, rfl⟩
  · intro t e
    have h : e = _ := interpolateColors_two P Q R S pPixel x y hx hy
    rw [h]
    exact ⟨rfl, rfl, rfl, rfl⟩

/-- Witness of C6: corners red 31/0/0/31, entry `(i, j) = (1, 2)` in 4bpp and
`(x, y) = (5, 3)` in 2bpp. -/
theorem interpolateColors_bilinear_witness :
    (interpolateColors ⟨31, 0, 0, 15⟩ ⟨0, 31, 0, 15⟩ ⟨0, 0, 31, 15⟩ ⟨31, 31, 31, 0⟩
        (fun _ => ⟨0, 0, 0, 0⟩) 4 (1 * 4 + 2)).red = 127 ∧
    (interpolateColors ⟨31, 0, 0, 15⟩ ⟨0, 31, 0, 15⟩ ⟨0, 0, 31, 15⟩ ⟨31, 31, 31, 0⟩
        (fun _ => ⟨0, 0, 0, 0⟩) 2 (3 * 8 + 5)).alpha = 134 := by
  have h := interpolateColors_bilinear ⟨31, 0, 0, 15⟩ ⟨0, 31, 0, 15⟩ ⟨0, 0, 31, 15⟩
    ⟨31, 31, 31, 0⟩ (fun _ => ⟨0, 0, 0, 0⟩) 1 2 5 3 (by decide) (by decide) (by decide)
    (by decide)
  exact ⟨h.1.1.trans (by decide), h.2.2.2.2.trans (by decide)⟩

/-- C7: in 2bpp mode `getModulationValues` returns, with `T = RepVals0 = {0,3,5,8}`,
`T[own code]` for a Direct-tagged texel and for a stored texel (`(x ^ y) & 1 = 0`);
for a non-stored texel it returns `(T[up] + T[down] + T[left] + T[right] + 2) / 4`
under tag 1 (H&V), `(T[left] + T[right] + 1) / 2` under tag 2 (H-only) and
`(T[up] + T[down] + 1) / 2` under tag 3 (V-only). -/
theorem getModulationValues_two (modulationValues modulationModes : Grid) (xPos yPos : Nat)
    (hx1 : 1 ≤ xPos) (hx2 : xPos < 15) (hy1 : 1 ≤ yPos) (hy2 : yPos < 7) :
    (RepVals0 0 = 0 ∧ RepVals0 1 = 3 ∧ RepVals0 2 = 5 ∧ RepVals0 3 = 8) ∧
    (modulationModes xPos yPos = 0 ∨ (xPos ^^^ yPos) &&& 1 = 0 →
      getModulationValues modulationValues modulationModes xPos yPos 2 =
        RepVals0 (modulationValues xPos yPos)) ∧
    ((xPos ^^^ yPos) &&& 1 = 1 → modulationModes xPos yPos = 1 →
      getModulationValues modulationValues modulationModes xPos yPos 2 =
        (RepVals0 (modulationValues xPos (yPos - 1)) + RepVals0 (modulationValues xPos (yPos + 1)) +
          RepVals0 (modulationValues (xPos - 1) yPos) +
          RepVals0 (modulationValues (xPos + 1) yPos) + 2) / 4) ∧
    ((xPos ^^^ yPos) &&& 1 = 1 → modulationModes xPos yPos = 2 →
      getModulationValues modulationValues modulationModes xPos yPos 2 =
        (RepVals0 (modulationValues (xPos - 1) yPos) +
          RepVals0 (modulationValues (xPos + 1) yPos) + 1) / 2) ∧
    ((xPos ^^^ yPos) &&& 1 = 1 → modulationModes xPos yPos = 3 →
      getModulationValues modulationValues modulationModes xPos yPos 2 =
        (RepVals0 (modulationValues xPos (yPos - 1)) +
          RepVals0 (modulationValues xPos (yPos + 1)) + 1) / 2) := by
  have hxm : u32 (xPos + (2 ^ 32 - 1)) = xPos - 1 := by unfold u32; omega
  have hxp : u32 (xPos + 1) = xPos + 1 := by unfold u32; omega
  have hym : u32 (yPos + (2 ^ 32 - 1)) = yPos - 1 := by unfold u32; omega
  have hyp : u32 (yPos + 1) = yPos + 1 := by unfold u32; omega
  have hnn : ∀ i, 0 ≤ RepVals0 i := by
    intro i; unfold RepVals0; split_ifs <;> omega
  have hdiv : ∀ (a b : Int), 0 ≤ b → 0 ≤ a → Int.tdiv a b = a / b := by
    intro a b hb ha
    exact Int.tdiv_eq_ediv ha hb
  refine ⟨⟨by decide, by decide, by decide, by decide⟩, ?_, ?_, ?_, ?_⟩
  · intro h
    unfold getModulationValues
    rcases h with h | h
    · simp [h]
    · simp [h]
  · intro hp hm
    have hp0 : ¬ ((xPos ^^^ yPos) &&& 1 = 0) := by omega
    unfold getModulationValues
    simp only [hm, hp0, hxm, hxp, hym, hyp, if_true, if_false, one_ne_zero]
    apply hdiv _ _ (by omega)
    have := hnn (modulationValues xPos (yPos - 1))
    have := hnn (modulationValues xPos (yPos + 1))
    have := hnn (modulationValues (xPos - 1) yPos)
    have := hnn (modulationValues (xPos + 1) yPos)
    omega
  · intro hp hm
    have hp0 : ¬ ((xPos ^^^ yPos) &&& 1 = 0) := by omega
    unfold getModulationValues
    simp only [hm, hp0, hxm, hxp, hym, hyp, if_true, if_false]
    norm_num
    apply hdiv _ _ (by omega)
    have := hnn (modulationValues (xPos - 1) yPos)
    have := hnn (modulationValues (xPos + 1) yPos)
    omega
  · intro hp hm
    have hp0 : ¬ ((xPos ^^^ yPos) &&& 1 = 0) := by omega
    unfold getModulationValues
    simp only [hm, hp0, hxm, hxp, hym, hyp, if_true, if_false]
    norm_num
    apply hdiv _ _ (by omega)
    have := hnn (modulationValues xPos (yPos - 1))
    have := hnn (modulationValues xPos (yPos + 1))
    omega



/-- Witness of C7: a V-only tagged, non-stored texel at `(5, 2)` whose upper
neighbour holds code 2 and whose lower neighbour holds code 0. -/
theorem getModulationValues_two_witness :
    getModulationValues (fun a b => (((a + b) % 4 : Nat) : Int)) (fun _ _ => 3) 5 2 2 = 3 :=
  ((getModulationValues_two (fun a b => (((a + b) % 4 : Nat) : Int)) (fun _ _ => 3) 5 2
    (by decide) (by decide) (by decide) (by decide)).2.2.2.2 (by decide) (by decide)).trans
    (by decide)

/-- C8: in 4bpp mode `unpackModulations` stores for texel `(x, y)` of the word, at
`modulationValues[y + offsetY][x + offsetX]`, the weight code derived from the 2-bit
field at bits `2*(4*y + x)+1 .. 2*(4*y + x)` of `modulationData`: with the mode flag
set the substitution is 0->0, 1->4, 2->14, 3->8; with the flag clear the code is
multiplied by 3 and decremented when the product exceeds 3, which is 0->0, 1->3,
2->5, 3->8. -/
theorem unpackModulations_four_codes (word : PVRTCWord) (offsetX offsetY : Nat)
    (grids : Grid × Grid) (x y : Nat) (hx : x < 4) (hy : y < 4) :
    let c := (word.modulationData >>> (2 * (4 * y + x))) &&& 3
    let v := (unpackModulations word offsetX offsetY grids 4).1 (y + offsetY) (x + offsetX)
    c < 4 ∧
    (word.colorData &&& 1 ≠ 0 →
      v = if c = 0 then 0 else if c = 1 then 4 else if c = 2 then 14 else 8) ∧
    (word.colorData &&& 1 = 0 →
      (v = if 3 * (c : Int) > 3 then 3 * (c : Int) - 1 else 3 * (c : Int)) ∧
      v = if c = 0 then 0 else if c = 1 then 3 else if c = 2 then 5 else 8) := by
  intro c v
  have hc : c < 4 := by
    have : c ≤ 3 := Nat.and_le_right
    omega
  have hv : v = if word.colorData &&& 1 ≠ 0 then code4Flagged c else code4Plain c := by
    show (unpackModulations word offsetX offsetY grids 4).1 (y + offsetY) (x + offsetX) = _
    rw [unpackModulations_four]
    have hin : offsetY ≤ y + offsetY ∧ y + offsetY < offsetY + 4 ∧ offsetX ≤ x + offsetX ∧
        x + offsetX < offsetX + 4 := by omega
    simp only [hin, and_self, if_true, Nat.add_sub_cancel]
  refine ⟨hc, ?_, ?_⟩
  · intro hf
    rw [hv]
    simp only [hf, ne_eq, not_false_eq_true, if_true]
    unfold code4Flagged
    interval_cases c <;> simp
  · intro hf
    rw [hv]
    simp only [hf, ne_eq, not_true_eq_false, if_false]
    unfold code4Plain
    constructor
    · simp only [mul_comm]
    · interval_cases c <;> simp

/-- Witness of C8: the word with `modulationData = 0xE4` (fields 0, 1, 2, 3) and the
mode flag set gives texel `(2, 0)` the punch-through code 14. -/
theorem unpackModulations_four_codes_witness :
    (unpackModulations ⟨0xE4, 1⟩ 4 0 (fun _ _ => 0, fun _ _ => 0) 4).1 (0 + 0) (2 + 4) = 14 :=
  ((unpackModulations_four_codes ⟨0xE4, 1⟩ 4 0 (fun _ _ => 0, fun _ _ => 0) 2 0 (by decide)
    (by decide)).2.1 (by decide)).trans (by decide)

/-- C9: in 2bpp mode `unpackModulations` tags all 32 texels of a word with one mode:
Direct (0) when bit 0 of `colorData` is clear; otherwise H&V (1) when bit 0 of
`modulationData` is clear, H-only (2) when bit 0 is set and bit 20 is clear, V-only
(3) when bits 0 and 20 are both set.  In the H-only and V-only cases bit 21 of
`modulationData` is copied into bit 20 of the bits from which the texel codes are
then extracted: a stored texel `(x, y)` receives the 2-bit field `4*y + x/2` of
these adjusted bits. -/
theorem unpackModulations_two_modes (word : PVRTCWord) (offsetX offsetY : Nat)
    (grids : Grid × Grid) (x y : Nat) (hx : x < 8) (hy : y < 4) :
    let r := unpackModulations word offsetX offsetY grids 2
    let m := word.modulationData
    (r.2 (x + offsetX) (y + offsetY) =
      if word.colorData.testBit 0 = false then 0
      else if m.testBit 0 = false then 1
      else if m.testBit 20 = false then 2
      else 3) ∧
    (word.colorData.testBit 0 = true → m.testBit 0 = true →
      (selectModulationMode m).2.testBit 20 = m.testBit 21 ∧
      (selectModulationMode m).2.testBit 21 = m.testBit 21 ∧
      ((x ^^^ y) &&& 1 = 0 →
        r.1 (x + offsetX) (y + offsetY) =
          ((((selectModulationMode m).2 >>> (2 * (4 * y + x / 2))) &&& 3 : Nat) : Int))) := by
  intro r m
  have hin : offsetX ≤ x + offsetX ∧ x + offsetX < offsetX + 8 ∧ offsetY ≤ y + offsetY ∧
      y + offsetY < offsetY + 4 := by omega
  constructor
  · by_cases hf : word.colorData.testBit 0 = true
    · have hf2 := (and_one_ne_zero word.colorData).2 hf
      show (unpackModulations word offsetX offsetY grids 2).2 (x + offsetX) (y + offsetY) = _
      rw [unpackModulations_two_interp word offsetX offsetY grids hf2]
      simp only [hin, and_self, if_true, selectModulationMode_fst, hf]
      split_ifs <;> simp_all
    · have hf2 : word.colorData &&& 1 = 0 := by
        by_contra h
        exact hf ((and_one_ne_zero word.colorData).1 h)
      have hf3 : word.colorData.testBit 0 = false := by simpa using hf
      show (unpackModulations word offsetX offsetY grids 2).2 (x + offsetX) (y + offsetY) = _
      rw [unpackModulations_two_direct word offsetX offsetY grids hf2]
      simp only [hin, and_self, if_true, hf3]
  · intro hf h0
    have hf2 := (and_one_ne_zero word.colorData).2 hf
    refine ⟨(selectModulationMode_bit20 m h0).1, (selectModulationMode_bit20 m h0).2, ?_⟩
    intro hp
    show (unpackModulations word offsetX offsetY grids 2).1 (x + offsetX) (y + offsetY) = _
    rw [unpackModulations_two_interp word offsetX offsetY grids hf2]
    simp only [hin, Nat.add_sub_cancel, hp, and_self, if_true]

/-- Witness of C9: a word in V-only mode (bits 0 and 20 set, bit 21 clear); the
centre texel `(4, 2)` is tagged 3 and receives code 0. -/
theorem unpackModulations_two_modes_witness :
    (unpackModulations ⟨0x100001, 1⟩ 8 4 (fun _ _ => 7, fun _ _ => 7) 2).2 (4 + 8) (2 + 4) = 3 ∧
    (unpackModulations ⟨0x100001, 1⟩ 8 4 (fun _ _ => 7, fun _ _ => 7) 2).1 (4 + 8) (2 + 4) = 0 :=
  ⟨(unpackModulations_two_modes ⟨0x100001, 1⟩ 8 4 (fun _ _ => 7, fun _ _ => 7) 4 2
      (by decide) (by decide)).1.trans (by decide),
    ((unpackModulations_two_modes ⟨0x100001, 1⟩ 8 4 (fun _ _ => 7, fun _ _ => 7) 4 2
      (by decide) (by decide)).2 (by decide) (by decide)).2.2 (by decide) |>.trans (by decide)⟩

/-- C10: in 2bpp direct mode (mode flag clear) `unpackModulations` gives texel
`(x, y)` of the word the code 3 when bit `8*y + x` of `modulationData` is set and the
code 0 otherwise, and tags it Direct, so that `getModulationValues` returns for it
the weight 8 or the weight 0. -/
theorem unpackModulations_two_direct_codes (word : PVRTCWord) (offsetX offsetY : Nat)
    (grids : Grid × Grid) (x y : Nat) (hflag : word.colorData &&& 1 = 0)
    (hx : x < 8) (hy : y < 4) :
    let r := unpackModulations word offsetX offsetY grids 2
    (r.1 (x + offsetX) (y + offsetY) =
      if word.modulationData.testBit (8 * y + x) = true then 3 else 0) ∧
    (getModulationValues r.1 r.2 (x + offsetX) (y + offsetY) 2 =
      if word.modulationData.testBit (8 * y + x) = true then 8 else 0) := by
  intro r
  have hin : offsetX ≤ x + offsetX ∧ x + offsetX < offsetX + 8 ∧ offsetY ≤ y + offsetY ∧
      y + offsetY < offsetY + 4 := by omega
  have hv : r.1 (x + offsetX) (y + offsetY) =
      if word.modulationData.testBit (8 * y + x) = true then 3 else 0 := by
    show (unpackModulations word offsetX offsetY grids 2).1 (x + offsetX) (y + offsetY) = _
    rw [unpackModulations_two_direct word offsetX offsetY grids hflag]
    simp only [hin, and_self, if_true, Nat.add_sub_cancel, shiftRight_and_one_ne_zero]
  have hm : r.2 (x + offsetX) (y + offsetY) = 0 := by
    show (unpackModulations word offsetX offsetY grids 2).2 (x + offsetX) (y + offsetY) = _
    rw [unpackModulations_two_direct word offsetX offsetY grids hflag]
    simp only [hin, and_self, if_true]
  refine ⟨hv, ?_⟩
  unfold getModulationValues
  simp only [hm, if_true, hv]
  split <;> decide

/-- Witness of C10: bit `8*1 + 2 = 10` of `modulationData = 0x400` is set. -/
theorem unpackModulations_two_direct_codes_witness :
    getModulationValues (unpackModulations ⟨0x400, 0⟩ 0 0 (fun _ _ => 7, fun _ _ => 7) 2).1
      (unpackModulations ⟨0x400, 0⟩ 0 0 (fun _ _ => 7, fun _ _ => 7) 2).2 (2 + 0) (1 + 0) 2 = 8 :=
  (unpackModulations_two_direct_codes ⟨0x400, 0⟩ 0 0 (fun _ _ => 7, fun _ _ => 7) 2 1
    (by decide) (by decide) (by decide)).2.trans (by decide)


/-! ## Bit fields of `colorData` -/

theorem u8_of_lt (n : Nat) (h : n < 256) : u8 n = n := Nat.mod_eq_of_lt h

/-- A mask `m <<< k` selects the field `(c >>> k) &&& m`, kept at its position. -/
theorem and_shiftLeft_mask (c m k : Nat) : c &&& (m <<< k) = ((c >>> k) &&& m) <<< k := by
  apply Nat.eq_of_testBit_eq
  intro i
  simp only [Nat.testBit_and, Nat.testBit_shiftLeft, Nat.testBit_shiftRight]
  by_cases h : k ≤ i
  · have e : k + (i - k) = i := by omega
    simp [h, e]
  · simp [h]

/-- The field of `n` bits at position `k`, left at its position by the mask. -/
theorem and_field (c m k n : Nat) (hm : m = (2 ^ n - 1) <<< k) :
    c &&& m = ((c >>> k) % 2 ^ n) * 2 ^ k := by
  rw [hm, and_shiftLeft_mask, Nat.and_pow_two_sub_one_eq_mod, Nat.shiftLeft_eq]

/-- A field shifted down by less than its position. -/
theorem field_down (c m k n s d : Nat) (hm : m = (2 ^ n - 1) <<< k) (hk : k = s + d) :
    (c &&& m) >>> s = ((c >>> k) % 2 ^ n) <<< d := by
  rw [and_field c m k n hm, Nat.shiftRight_eq_div_pow, Nat.shiftLeft_eq]
  have e : (2 : Nat) ^ k = 2 ^ d * 2 ^ s := by rw [hk, pow_add, Nat.mul_comm]
  rw [e, ← Nat.mul_assoc, Nat.mul_div_cancel _ (pow_pos (by decide) s)]

/-- A field shifted down by more than its position. -/
theorem field_up (c m k n s d : Nat) (hm : m = (2 ^ n - 1) <<< k) (hs : s = k + d) :
    (c &&& m) >>> s = ((c >>> k) % 2 ^ n) >>> d := by
  rw [and_field c m k n hm]
  simp only [Nat.shiftRight_eq_div_pow]
  rw [hs, pow_add, ← Nat.div_div_eq_div_mul, Nat.mul_div_cancel _ (pow_pos (by decide) k)]

/-- A field shifted up. -/
theorem field_left (c m k n s : Nat) (hm : m = (2 ^ n - 1) <<< k) :
    (c &&& m) <<< s = ((c >>> k) % 2 ^ n) <<< (k + s) := by
  rw [and_field c m k n hm, Nat.shiftLeft_eq, Nat.shiftLeft_eq, pow_add, Nat.mul_assoc]

theorem getColorA_opaqueMode (PVRTCII : Bool) (c : Nat)
    (h : c.testBit (if PVRTCII then 31 else 15) = true) :
    getColorA PVRTCII c =
      ⟨(c >>> 10) % 32, (c >>> 5) % 32,
        (((c >>> 1) % 16) <<< 1) ||| (((c >>> 1) % 16) >>> 3), 0xF⟩ := by
  have hflag : c &&& (if PVRTCII then 0x80000000 else 0x8000) ≠ 0 := by
    cases PVRTCII
    · exact (and_two_pow_ne_zero c 15).2 h
    · exact (and_two_pow_ne_zero c 31).2 h
  have hr : (c >>> 10) % 32 < 32 := Nat.mod_lt _ (by decide)
  have hg : (c >>> 5) % 32 < 32 := Nat.mod_lt _ (by decide)
  have hb : (c >>> 1) % 16 < 16 := Nat.mod_lt _ (by decide)
  unfold getColorA
  dsimp only
  rw [if_pos hflag, field_down c 0x7c00 10 5 10 0 (by decide) (by decide),
    field_down c 0x3e0 5 5 5 0 (by decide) (by decide),
    field_up c 0x1e 1 4 4 3 (by decide) (by decide),
    and_field c 0x1e 1 4 (by decide)]
  simp only [Nat.shiftLeft_zero]
  have e32 : (2 : Nat) ^ 5 = 32 := by decide
  have e16 : (2 : Nat) ^ 4 = 16 := by decide
  rw [e32, e16]
  generalize (c >>> 10) % 32 = r at hr
  generalize (c >>> 5) % 32 = g at hg
  generalize (c >>> 1) % 16 = b at hb
  rw [u8_of_lt r (by omega), u8_of_lt g (by omega)]
  congr 1
  · interval_cases b <;> rfl

theorem getColorA_transparent (PVRTCII : Bool) (c : Nat)
    (h : c.testBit (if PVRTCII then 31 else 15) = false) :
    getColorA PVRTCII c =
      ⟨(((c >>> 8) % 16) <<< 1) ||| (((c >>> 8) % 16) >>> 3),
        (((c >>> 4) % 16) <<< 1) ||| (((c >>> 4) % 16) >>> 3),
        (((c >>> 1) % 8) <<< 2) ||| (((c >>> 1) % 8) >>> 1), 2 * ((c >>> 12) % 8)⟩ := by
  have hflag : ¬ c &&& (if PVRTCII then 0x80000000 else 0x8000) ≠ 0 := by
    cases PVRTCII
    · exact fun h2 => by
        have h3 : c.testBit 15 = false := h
        rw [(and_two_pow_ne_zero c 15).1 h2] at h3
        cases h3
    · exact fun h2 => by
        have h3 : c.testBit 31 = false := h
        rw [(and_two_pow_ne_zero c 31).1 h2] at h3
        cases h3
  have hr : (c >>> 8) % 16 < 16 := Nat.mod_lt _ (by decide)
  have hg : (c >>> 4) % 16 < 16 := Nat.mod_lt _ (by decide)
  have hb : (c >>> 1) % 8 < 8 := Nat.mod_lt _ (by decide)
  have ha : (c >>> 12) % 8 < 8 := Nat.mod_lt _ (by decide)
  unfold getColorA
  dsimp only
  rw [if_neg hflag, field_down c 0xf00 8 4 7 1 (by decide) (by decide),
    field_up c 0xf00 8 4 11 3 (by decide) (by decide),
    field_down c 0xf0 4 4 3 1 (by decide) (by decide),
    field_up c 0xf0 4 4 7 3 (by decide) (by decide),
    field_left c 0xe 1 3 1 (by decide),
    field_up c 0xe 1 3 2 1 (by decide) (by decide),
    field_down c 0x7000 12 3 11 1 (by decide) (by decide)]
  have e16 : (2 : Nat) ^ 4 = 16 := by decide
  have e8 : (2 : Nat) ^ 3 = 8 := by decide
  rw [e16, e8]
  generalize (c >>> 8) % 16 = r at hr
  generalize (c >>> 4) % 16 = g at hg
  generalize (c >>> 1) % 8 = b at hb
  generalize (c >>> 12) % 8 = a at ha
  congr 1
  · interval_cases r <;> rfl
  · interval_cases g <;> rfl
  · interval_cases b <;> rfl
  · interval_cases a <;> rfl

theorem getColorB_opaqueMode (PVRTCII : Bool) (c : Nat) (h : c.testBit 31 = true) :
    getColorB PVRTCII c = ⟨(c >>> 26) % 32, (c >>> 21) % 32, (c >>> 16) % 32, 0xF⟩ := by
  have hflag : c &&& 0x80000000 ≠ 0 := (and_two_pow_ne_zero c 31).2 h
  have hr : (c >>> 26) % 32 < 32 := Nat.mod_lt _ (by decide)
  have hg : (c >>> 21) % 32 < 32 := Nat.mod_lt _ (by decide)
  have hb : (c >>> 16) % 32 < 32 := Nat.mod_lt _ (by decide)
  unfold getColorB
  rw [if_pos hflag, field_down c 0x7c000000 26 5 26 0 (by decide) (by decide),
    field_down c 0x3e00000 21 5 21 0 (by decide) (by decide),
    field_down c 0x1f0000 16 5 16 0 (by decide) (by decide)]
  simp only [Nat.shiftLeft_zero]
  have e32 : (2 : Nat) ^ 5 = 32 := by decide
  rw [e32, u8_of_lt _ (by omega), u8_of_lt _ (by omega), u8_of_lt _ (by omega)]
  rfl

theorem getColorB_transparent (PVRTCII : Bool) (c : Nat) (h : c.testBit 31 = false) :
    getColorB PVRTCII c =
      ⟨(((c >>> 24) % 16) <<< 1) ||| (((c >>> 24) % 16) >>> 3),
        (((c >>> 20) % 16) <<< 1) ||| (((c >>> 20) % 16) >>> 3),
        (((c >>> 16) % 16) <<< 1) ||| (((c >>> 16) % 16) >>> 3),
        if PVRTCII then 2 * ((c >>> 28) % 8) + 1 else 2 * ((c >>> 28) % 8)⟩ := by
  have hflag : ¬ c &&& 0x80000000 ≠ 0 :=
    fun h2 => by rw [(and_two_pow_ne_zero c 31).1 h2] at h; cases h
  have hr : (c >>> 24) % 16 < 16 := Nat.mod_lt _ (by decide)
  have hg : (c >>> 20) % 16 < 16 := Nat.mod_lt _ (by decide)
  have hb : (c >>> 16) % 16 < 16 := Nat.mod_lt _ (by decide)
  have ha : (c >>> 28) % 8 < 8 := Nat.mod_lt _ (by decide)
  unfold getColorB
  dsimp only
  rw [if_neg hflag, field_down c 0xf000000 24 4 23 1 (by decide) (by decide),
    field_up c 0xf000000 24 4 27 3 (by decide) (by decide),
    field_down c 0xf00000 20 4 19 1 (by decide) (by decide),
    field_up c 0xf00000 20 4 23 3 (by decide) (by decide),
    field_down c 0xf0000 16 4 15 1 (by decide) (by decide),
    field_up c 0xf0000 16 4 19 3 (by decide) (by decide),
    field_down c 0x70000000 28 3 27 1 (by decide) (by decide)]
  have e16 : (2 : Nat) ^ 4 = 16 := by decide
  have e8 : (2 : Nat) ^ 3 = 8 := by decide
  rw [e16, e8]
  generalize (c >>> 24) % 16 = r at hr
  generalize (c >>> 20) % 16 = g at hg
  generalize (c >>> 16) % 16 = b at hb
  generalize (c >>> 28) % 8 = a at ha
  congr 1
  · interval_cases r <;> rfl
  · interval_cases g <;> rfl
  · interval_cases b <;> rfl
  · cases PVRTCII <;> interval_cases a <;> rfl


/-! ## Colour extraction: opaque and transparent encodings -/

/-- C11: opaque colour decode.  For every `colorData` with bit 31 set `getColorB` returns
`(bits 30..26, bits 25..21, bits 20..16, 0xF)` in both formats; and whenever `getColorA`
selects the opaque mode (the flag it tests, bit 15 in PVRTC-I and bit 31 in PVRTC-II, is
set) it returns red = bits 14..10, green = bits 9..5, blue = `(b << 1) | (b >> 3)` for the
4-bit field `b` = bits 4..1, and alpha = `0xF`. -/
theorem opaque_colour_decode (PVRTCII : Bool) (colorData : Nat) :
    (colorData.testBit 31 = true →
      getColorB PVRTCII colorData =
        ⟨(colorData >>> 26) % 32, (colorData >>> 21) % 32, (colorData >>> 16) % 32, 0xF⟩) ∧
    (colorData &&& (if PVRTCII then 0x80000000 else 0x8000) ≠ 0 →
      let b := (colorData >>> 1) % 16
      getColorA PVRTCII colorData =
        ⟨(colorData >>> 10) % 32, (colorData >>> 5) % 32, (b <<< 1) ||| (b >>> 3), 0xF⟩) := by
  refine ⟨getColorB_opaqueMode PVRTCII colorData, fun h => ?_⟩
  apply getColorA_opaqueMode
  cases PVRTCII
  · exact (and_two_pow_ne_zero colorData 15).1 h
  · exact (and_two_pow_ne_zero colorData 31).1 h

/-- Witness of C11: `colorData = 0x801FFC00` in PVRTC-I; Color B is pure blue and Color A
is pure red, both opaque. -/
theorem opaque_colour_decode_witness :
    (0x801FFC00 : Nat).testBit 31 = true ∧ (0x801FFC00 : Nat) &&& 0x8000 ≠ 0 ∧
      getColorB false 0x801FFC00 = ⟨0, 0, 31, 15⟩ ∧
      getColorA false 0x801FFC00 = ⟨31, 0, 0, 15⟩ :=
  ⟨by decide, by decide,
    ((opaque_colour_decode false 0x801FFC00).1 (by decide)).trans (by decide),
    ((opaque_colour_decode false 0x801FFC00).2 (by decide)).trans (by decide)⟩

/-- C12 (amended): `getColorA` decodes in the opaque mode exactly when the flag of the
format is set, bit 15 (`0x8000`) in PVRTC-I and bit 31 (`0x80000000`) in PVRTC-II, and in
the transparent mode otherwise; `getColorB` decodes in the opaque mode exactly when bit
31 is set, in both formats. -/
theorem colour_mode_flags (PVRTCII : Bool) (colorData : Nat) :
    getColorA PVRTCII colorData =
      (if colorData.testBit (if PVRTCII then 31 else 15) then
        ⟨(colorData >>> 10) % 32, (colorData >>> 5) % 32,
          (((colorData >>> 1) % 16) <<< 1) ||| (((colorData >>> 1) % 16) >>> 3), 0xF⟩
      else
        ⟨(((colorData >>> 8) % 16) <<< 1) ||| (((colorData >>> 8) % 16) >>> 3),
          (((colorData >>> 4) % 16) <<< 1) ||| (((colorData >>> 4) % 16) >>> 3),
          (((colorData >>> 1) % 8) <<< 2) ||| (((colorData >>> 1) % 8) >>> 1),
          2 * ((colorData >>> 12) % 8)⟩) ∧
    getColorB PVRTCII colorData =
      (if colorData.testBit 31 then
        ⟨(colorData >>> 26) % 32, (colorData >>> 21) % 32, (colorData >>> 16) % 32, 0xF⟩
      else
        ⟨(((colorData >>> 24) % 16) <<< 1) ||| (((colorData >>> 24) % 16) >>> 3),
          (((colorData >>> 20) % 16) <<< 1) ||| (((colorData >>> 20) % 16) >>> 3),
          (((colorData >>> 16) % 16) <<< 1) ||| (((colorData >>> 16) % 16) >>> 3),
          if PVRTCII then 2 * ((colorData >>> 28) % 8) + 1 else 2 * ((colorData >>> 28) % 8)⟩) := by
  constructor
  · by_cases h : colorData.testBit (if PVRTCII then 31 else 15) = true
    · rw [if_pos h]
      exact getColorA_opaqueMode PVRTCII colorData h
    · rw [if_neg h]
      exact getColorA_transparent PVRTCII colorData (by simpa using h)
  · by_cases h : colorData.testBit 31 = true
    · rw [if_pos h]
      exact getColorB_opaqueMode PVRTCII colorData h
    · rw [if_neg h]
      exact getColorB_transparent PVRTCII colorData (by simpa using h)

/-- Counterexample to C12 as stated: in PVRTC-II `getColorA` tests bit 31, not bit 15.
For `colorData = 0x8000` (bit 15 set, bit 31 clear) it decodes in the transparent mode,
alpha `0` instead of `0xF`; for `colorData = 0x80000000` (bit 15 clear, bit 31 set) it
decodes in the opaque mode, alpha `0xF`.  PVRTC-I on the same inputs follows bit 15. -/
theorem getColorA_flag_by_format :
    ((0x8000 : Nat).testBit 15 = true ∧ getColorA true 0x8000 = ⟨0, 0, 0, 0⟩ ∧
      getColorA false 0x8000 = ⟨0, 0, 0, 0xF⟩) ∧
    ((0x80000000 : Nat).testBit 15 = false ∧ getColorA true 0x80000000 = ⟨0, 0, 0, 0xF⟩ ∧
      getColorA false 0x80000000 = ⟨0, 0, 0, 0⟩) ∧
    ¬ (∀ (PVRTCII : Bool) (colorData : Nat),
      (getColorA PVRTCII colorData).alpha = 0xF ↔ colorData.testBit 15 = true) := by
  refine ⟨⟨by decide, by decide, by decide⟩, ⟨by decide, by decide, by decide⟩, fun h => ?_⟩
  have h1 := (h true 0x8000).2 (by decide)
  revert h1
  decide

/-- C13: transparent colour decode.  When the opaque flag it tests is clear `getColorA`
returns red = `(r << 1) | (r >> 3)` for `r` = bits 11..8, green = `(g << 1) | (g >> 3)`
for `g` = bits 7..4, blue = `(b << 2) | (b >> 1)` for the 3-bit field `b` = bits 3..1 and
alpha = `2 * a` for `a` = bits 14..12, in both formats; when bit 31 is clear `getColorB`
returns each of red, green, blue as `(v << 1) | (v >> 3)` for the 4-bit fields at bits
27..24, 23..20, 19..16, and alpha = `2 * a` for `a` = bits 30..28 in PVRTC-I but
`2 * a + 1` in PVRTC-II. -/
theorem transparent_colour_decode (PVRTCII : Bool) (colorData : Nat) :
    (colorData &&& (if PVRTCII then 0x80000000 else 0x8000) = 0 →
      let r := (colorData >>> 8) % 16
      let g := (colorData >>> 4) % 16
      let b := (colorData >>> 1) % 8
      let a := (colorData >>> 12) % 8
      getColorA PVRTCII colorData =
        ⟨(r <<< 1) ||| (r >>> 3), (g <<< 1) ||| (g >>> 3), (b <<< 2) ||| (b >>> 1), 2 * a⟩) ∧
    (colorData &&& 0x80000000 = 0 →
      let r := (colorData >>> 24) % 16
      let g := (colorData >>> 20) % 16
      let b := (colorData >>> 16) % 16
      let a := (colorData >>> 28) % 8
      getColorB PVRTCII colorData =
        ⟨(r <<< 1) ||| (r >>> 3), (g <<< 1) ||| (g >>> 3), (b <<< 1) ||| (b >>> 3),
          if PVRTCII then 2 * a + 1 else 2 * a⟩) := by
  constructor
  · intro h
    apply getColorA_transparent
    cases PVRTCII
    · by_contra hb
      exact (and_two_pow_ne_zero colorData 15).2 (by simpa using hb) h
    · by_contra hb
      exact (and_two_pow_ne_zero colorData 31).2 (by simpa using hb) h
  · intro h
    apply getColorB_transparent
    by_contra hb
    exact (and_two_pow_ne_zero colorData 31).2 (by simpa using hb) h

/-- Witness of C13: `colorData = 0x5A3C6B4E` in PVRTC-II; Color A has the fields
`a = 6, r = 11, g = 4, b = 7` and Color B the fields `a = 5, r = 10, g = 3, b = 12`. -/
theorem transparent_colour_decode_witness :
    (0x5A3C6B4E : Nat) &&& 0x80000000 = 0 ∧
      getColorA true 0x5A3C6B4E = ⟨23, 8, 31, 12⟩ ∧
      getColorB true 0x5A3C6B4E = ⟨21, 6, 25, 11⟩ :=
  ⟨by decide,
    ((transparent_colour_decode true 0x5A3C6B4E).1 (by decide)).trans (by decide),
    ((transparent_colour_decode true 0x5A3C6B4E).2 (by decide)).trans (by decide)⟩


/-! ## The decoder returns for every `uint32_t` size -/

/-- The loop of `TwiddleUV` ends for every `MinDimension` up to `2 ^ 31`: `SrcBitPos`
runs through the powers of two. -/
theorem twiddleLoop_total (m x y : Nat) (hm : m ≤ 2 ^ 31) (d : Nat) :
    ∀ n fuel t dst s, n + d = 31 → d ≤ fuel →
      ∃ st, twiddleLoop m x y fuel ⟨t, 2 ^ n, dst, s⟩ = some st := by
  induction d with
  | zero =>
    intro n fuel t dst s hn _
    have : n = 31 := by omega
    subst this
    exact ⟨_, twiddleLoop_done _ _ _ _ _ (by simp only; omega)⟩
  | succ d ih =>
    intro n fuel t dst s hn hf
    by_cases hlt : 2 ^ n < m
    · obtain ⟨f, rfl⟩ : ∃ f, fuel = f + 1 := ⟨fuel - 1, by omega⟩
      have hsrc : u32 (2 ^ n <<< 1) = 2 ^ (n + 1) := by
        rw [Nat.shiftLeft_eq, ← pow_succ]
        exact u32_of_lt _ (pow_lt_u32 _ (by omega))
      rw [twiddleLoop]
      simp only [hlt, if_true, hsrc]
      exact ih (n + 1) f _ _ _ (by omega) (by omega)
    · exact ⟨_, twiddleLoop_done _ _ _ _ _ hlt⟩

theorem TwiddleUV_total (PVRTCII : Bool) (XSize YSize x y : Nat) (hX : XSize ≤ 2 ^ 31)
    (hY : YSize ≤ 2 ^ 31) : ∃ n, TwiddleUV PVRTCII XSize YSize x y = some n := by
  cases PVRTCII with
  | true => exact ⟨u32 (y * XSize + x), by unfold TwiddleUV; simp only [if_true]⟩
  | false =>
    have hm : (if YSize < XSize then YSize else XSize) ≤ 2 ^ 31 := by split <;> assumption
    obtain ⟨st, hst⟩ := twiddleLoop_total _ x y hm 31 0 64 0 1 0 (by omega) (by omega)
    rw [pow_zero] at hst
    unfold TwiddleUV
    simp only [Bool.false_eq_true, if_false, hst]
    exact ⟨_, rfl⟩

theorem wordOffsets_total (PVRTCII : Bool) (numX numY : Nat) (indices : PVRTCWordIndices)
    (hX : numX ≤ 2 ^ 31) (hY : numY ≤ 2 ^ 31) :
    ∃ o, wordOffsets PVRTCII numX numY indices = some o := by
  obtain ⟨p, hp⟩ := TwiddleUV_total PVRTCII numX numY indices.P.1 indices.P.2 hX hY
  obtain ⟨q, hq⟩ := TwiddleUV_total PVRTCII numX numY indices.Q.1 indices.Q.2 hX hY
  obtain ⟨r, hr⟩ := TwiddleUV_total PVRTCII numX numY indices.R.1 indices.R.2 hX hY
  obtain ⟨s, hs⟩ := TwiddleUV_total PVRTCII numX numY indices.S.1 indices.S.2 hX hY
  unfold wordOffsets
  simp only [hp, hq, hr, hs]
  exact ⟨_, rfl⟩

/-- The function `pvrtcDecompress` returns for every width and height of `uint32_t`; the
returned size is `width * height / (wordWidth / 2)`, the product taken in `uint32_t`. -/
theorem pvrtcDecompress_total (PVRTCII : Bool) (pCompressedData : Nat → Nat)
    (pDecompressedData : Nat → Pixel32) (width height bpp : Nat)
    (scratch : Int → Int → Scratch) (hw : width < 2 ^ 32) (hh : height < 2 ^ 32) :
    ∃ out, pvrtcDecompress PVRTCII pCompressedData pDecompressedData width height bpp scratch =
      some (out, u32 (width * height) / ((if bpp = 2 then 8 else 4) / 2)) := by
  have hX : width / (if bpp = 2 then 8 else 4) ≤ 2 ^ 31 := by
    split
    · omega
    · omega
  have hY : height / 4 ≤ 2 ^ 31 := by omega
  obtain ⟨st, hst⟩ := foldlM_some
    (decompressBlock PVRTCII pCompressedData width bpp (width / (if bpp = 2 then 8 else 4))
      (height / 4) scratch) (walkerSteps (width / (if bpp = 2 then 8 else 4)) (height / 4))
    (fun st step _ => by
      obtain ⟨o, ho⟩ := wordOffsets_total PVRTCII _ _
        (wordIndices (width / (if bpp = 2 then 8 else 4)) (height / 4) step.1 step.2) hX hY
      unfold decompressBlock
      dsimp only
      rw [ho]
      exact ⟨_, rfl⟩)
    (pDecompressedData, fun _ => ⟨0, 0, 0, 0⟩)
  refine ⟨st.1, ?_⟩
  unfold pvrtcDecompress
  dsimp only
  rw [hst]


/-! ## The two paths of the entry point -/

/-- At or above the format minimum the dimensions are not raised. -/
theorem resized_false (Do2bitMode XDim YDim : Nat)
    (hx : (if Do2bitMode = 1 then 16 else 8) ≤ XDim) (hy : 8 ≤ YDim) :
    (decide (max XDim (if Do2bitMode = 1 then 16 else 8) ≠ XDim) ||
      decide (max YDim 8 ≠ YDim)) = false := by
  rw [Bool.or_eq_false_iff, decide_eq_false_iff_not, decide_eq_false_iff_not]
  exact ⟨fun h => h (Nat.max_eq_left hx), fun h => h (Nat.max_eq_left hy)⟩

/-- Below the format minimum a dimension is raised. -/
theorem resized_true (Do2bitMode XDim YDim : Nat)
    (hsub : XDim < (if Do2bitMode = 1 then 16 else 8) ∨ YDim < 8) :
    (decide (max XDim (if Do2bitMode = 1 then 16 else 8) ≠ XDim) ||
      decide (max YDim 8 ≠ YDim)) = true := by
  rw [Bool.or_eq_true, decide_eq_true_eq, decide_eq_true_eq]
  rcases hsub with h | h
  · left; omega
  · right; omega

/-- At or above the format minimum the entry point decodes into the caller's buffer, with
the assertions compiled in or out. -/
theorem PVRTDecompressPVRTC_int_direct (PVRTCII NDEBUG : Bool) (pCompressedData : Nat → Nat)
    (Do2bitMode XDim YDim : Nat) (pResultImage fresh : Nat → Pixel32)
    (scratch : Int → Int → Scratch)
    (hx : (if Do2bitMode = 1 then 16 else 8) ≤ XDim) (hy : 8 ≤ YDim) :
    PVRTDecompressPVRTC_int PVRTCII NDEBUG pCompressedData Do2bitMode XDim YDim pResultImage
        fresh scratch =
      pvrtcDecompress PVRTCII pCompressedData pResultImage XDim YDim
        (if Do2bitMode = 1 then 2 else 4) scratch := by
  unfold PVRTDecompressPVRTC_int
  dsimp only
  rw [resized_false Do2bitMode XDim YDim hx hy, Nat.max_eq_left hx, Nat.max_eq_left hy]
  simp only [Bool.false_and, Bool.false_eq_true, if_false]
  cases pvrtcDecompress PVRTCII pCompressedData pResultImage XDim YDim
    (if Do2bitMode = 1 then 2 else 4) scratch <;> rfl

/-- Below the format minimum the call stops at an assertion when the assertions are
compiled in. -/
theorem PVRTDecompressPVRTC_int_asserts (PVRTCII : Bool) (pCompressedData : Nat → Nat)
    (Do2bitMode XDim YDim : Nat) (pResultImage fresh : Nat → Pixel32)
    (scratch : Int → Int → Scratch)
    (hsub : XDim < (if Do2bitMode = 1 then 16 else 8) ∨ YDim < 8) :
    PVRTDecompressPVRTC_int PVRTCII false pCompressedData Do2bitMode XDim YDim pResultImage
      fresh scratch = none := by
  unfold PVRTDecompressPVRTC_int
  dsimp only
  rw [resized_true Do2bitMode XDim YDim hsub]
  rfl

/-- At or above the format minimum the entry point returns; the returned size is
`XDim * YDim / (wordWidth / 2)`, the product taken in `uint32_t`. -/
theorem PVRTDecompressPVRTC_int_returns (PVRTCII NDEBUG : Bool) (pCompressedData : Nat → Nat)
    (Do2bitMode XDim YDim : Nat) (pResultImage fresh : Nat → Pixel32)
    (scratch : Int → Int → Scratch)
    (hminx : (if Do2bitMode = 1 then 16 else 8) ≤ XDim) (hminy : 8 ≤ YDim)
    (hx : XDim < 2 ^ 32) (hy : YDim < 2 ^ 32) :
    ∃ out, PVRTDecompressPVRTC_int PVRTCII NDEBUG pCompressedData Do2bitMode XDim YDim
        pResultImage fresh scratch =
      some (out, u32 (XDim * YDim) / (if Do2bitMode = 1 then 4 else 2)) := by
  obtain ⟨out, ho⟩ := pvrtcDecompress_total PVRTCII pCompressedData pResultImage XDim YDim
    (if Do2bitMode = 1 then 2 else 4) scratch hx hy
  have hdiv : ((if (if Do2bitMode = 1 then 2 else 4) = 2 then 8 else 4) / 2 : Nat) =
      (if Do2bitMode = 1 then 4 else 2) := by
    split <;> rfl
  rw [hdiv] at ho
  exact ⟨out, (PVRTDecompressPVRTC_int_direct PVRTCII NDEBUG pCompressedData Do2bitMode XDim
    YDim pResultImage fresh scratch hminx hminy).trans ho⟩

/-- Every index stored by `pvrtcDecompress` into a raster of at most `2 ^ 32` pixels is
inside the raster. -/
theorem pvrtcDecompressWrites_lt (width height bpp idx : Nat) (hw : width < 2 ^ 32)
    (hh : height < 2 ^ 32) (hN : width * height ≤ 2 ^ 32)
    (h : idx ∈ pvrtcDecompressWrites width height bpp) : idx < width * height := by
  rw [mem_pvrtcDecompressWrites] at h
  obtain ⟨step, hstep, y, hy, x, hx, hidx⟩ := h
  obtain ⟨j, hj, i, hi, rfl⟩ := (mem_walkerSteps _ _ step).1 hstep
  have hb : (if bpp = 2 then 8 else 4) = 8 ∨ (if bpp = 2 then 8 else 4) = 4 := by
    split
    · exact Or.inl rfl
    · exact Or.inr rfl
  generalize hbw : (if bpp = 2 then 8 else 4) = bw at hb hidx hi hx
  have hbpos : 0 < bw := by rcases hb with rfl | rfl <;> decide
  have hWle : width / bw * bw ≤ width := Nat.div_mul_le_self _ _
  have hHle : height / 4 * 4 ≤ height := Nat.div_mul_le_self _ _
  have hW31 : width / bw ≤ 2 ^ 31 := by rcases hb with rfl | rfl <;> omega
  have hH31 : height / 4 ≤ 2 ^ 31 := by omega
  dsimp only at hidx
  rw [wordIndices_walker _ _ i j hW31 hH31 hi hj] at hidx
  dsimp only at hidx
  have hpi : (if i = 0 then width / bw - 1 else i - 1) < width / bw := by split <;> omega
  have hpj : (if j = 0 then height / 4 - 1 else j - 1) < height / 4 := by split <;> omega
  generalize (if i = 0 then width / bw - 1 else i - 1) = pi at hidx hpi
  generalize (if j = 0 then height / 4 - 1 else j - 1) = pj at hidx hpj
  have hcol : ∀ p c, p < width / bw → c < bw → p * bw + c < width := by
    intro p c hp hc
    have : (p + 1) * bw ≤ width / bw * bw := Nat.mul_le_mul_right _ hp
    have e : (p + 1) * bw = p * bw + bw := by ring
    omega
  have hx2 : x + bw / 2 < bw := by rcases hb with rfl | rfl <;> omega
  have hx3 : x < bw := by omega
  have key : ∀ row col, row < height → col < width → u32 (row * width + col) < width * height := by
    intro row col hr hc
    have := row_col_lt row col width height hr hc
    rw [u32_of_lt _ (by omega)]
    exact this
  rcases hidx with rfl | rfl | rfl | rfl
  · have := key (pj * 4 + y + 2) (pi * bw + (x + bw / 2)) (by omega) (hcol pi _ hpi hx2)
    rw [← Nat.add_assoc, ← Nat.add_assoc] at this
    exact this
  · have := key (pj * 4 + y + 2) (i * bw + x) (by omega) (hcol i _ hi hx3)
    rw [← Nat.add_assoc] at this
    exact this
  · have := key (j * 4 + y) (pi * bw + (x + bw / 2)) (by omega) (hcol pi _ hpi hx2)
    rw [← Nat.add_assoc, ← Nat.add_assoc] at this
    exact this
  · have := key (j * 4 + y) (i * bw + x) (by omega) (hcol i _ hi hx3)
    rw [← Nat.add_assoc] at this
    exact this


/-! ## The copy loop of the entry point -/

/-- A loop whose body never changes an observation leaves it unchanged. -/
theorem forLoop_keep {σ β : Type} (rd : σ → β) (body : Nat → σ → σ) (n : Nat)
    (h : ∀ k s, k < n → rd (body k s) = rd s) (s0 : σ) : rd (forLoop n body s0) = rd s0 := by
  induction n with
  | zero => rfl
  | succ n ih =>
    rw [forLoop_succ, h n _ (by omega)]
    exact ih (fun k s hk => h k s (by omega))

/-- The copy loop of `PVRTDecompressPVRTC_int` leaves every element alone whose index is
not one of the `uint32_t` values `x + y * XDim`. -/
theorem copyLoop_frame (temp img : Nat → Pixel32) (XDim YDim XTrueDim idx : Nat)
    (h : ∀ x y, x < XDim → y < YDim → idx ≠ u32 (x + y * XDim)) :
    forLoop XDim (fun x (out : Nat → Pixel32) =>
      forLoop YDim (fun y (out : Nat → Pixel32) =>
        setAt out (u32 (x + y * XDim)) (temp (u32 (x + y * XTrueDim)))) out) img idx =
      img idx := by
  apply forLoop_keep (fun (out : Nat → Pixel32) => out idx)
  intro x s hx
  apply forLoop_keep (fun (out : Nat → Pixel32) => out idx)
  intro y s2 hy
  show setAt s2 _ _ idx = s2 idx
  unfold setAt
  rw [if_neg (h x y hx hy)]

theorem copy_index_lt (XDim YDim x y : Nat) (hx : x < XDim) (hy : y < YDim) :
    x + y * XDim < XDim * YDim := by
  have := row_col_lt y x XDim YDim hy hx
  omega

/-- Without wrap-around the copy loop stores the element `x + y * XTrueDim` of the
temporary raster at `x + y * XDim`. -/
theorem copyLoop_value (temp img : Nat → Pixel32) (XDim YDim XTrueDim x y : Nat)
    (hN : XDim * YDim ≤ 2 ^ 32) (hx : x < XDim) (hy : y < YDim) :
    forLoop XDim (fun x (out : Nat → Pixel32) =>
      forLoop YDim (fun y (out : Nat → Pixel32) =>
        setAt out (u32 (x + y * XDim)) (temp (u32 (x + y * XTrueDim)))) out) img
        (x + y * XDim) =
      temp (u32 (x + y * XTrueDim)) := by
  have hu : ∀ x y, x < XDim → y < YDim → u32 (x + y * XDim) = x + y * XDim :=
    fun x y hx hy => u32_of_lt _ (lt_of_lt_of_le (copy_index_lt XDim YDim x y hx hy) hN)
  obtain ⟨_, hi, _⟩ := forLoop2_reads (σ := Nat → Pixel32) (ι := Nat) (fun _ => ())
    (fun out i => out i)
    (fun x y out => setAt out (u32 (x + y * XDim)) (temp (u32 (x + y * XTrueDim))))
    (fun _ _ u => u) (fun x y i => i = u32 (x + y * XDim))
    (fun x y _ _ => temp (u32 (x + y * XTrueDim))) XDim YDim
    (fun _ _ _ _ _ => rfl)
    (fun x y s i _ _ hD => by subst hD; simp [setAt])
    (fun x y s i _ _ hD => by simp [setAt, hD])
    (fun x y x2 y2 i hx hy hx2 hy2 h1 h2 => by
      dsimp only at h1 h2
      rw [hu x y hx hy] at h1
      rw [hu x2 y2 hx2 hy2] at h2
      have e : y * XDim + x = y2 * XDim + x2 := by omega
      exact linear_inj XDim x y x2 y2 hx hx2 e)
    img
  exact hi x y (x + y * XDim) hx hy (hu x y hx hy).symm


/-- When the padded raster has fewer than `2 ^ 32` pixels the allocation of the temporary
raster has that many pixels and every access to it is inside. -/
theorem temporaryRasterInBounds_true (XDim YDim XTrueDim YTrueDim bpp : Nat)
    (hX : XDim ≤ XTrueDim) (hY : YDim ≤ YTrueDim) (hXl : XTrueDim < 2 ^ 32)
    (hYl : YTrueDim < 2 ^ 32) (hN : XTrueDim * YTrueDim < 2 ^ 32) :
    temporaryRasterInBounds XDim YDim XTrueDim YTrueDim bpp = true := by
  unfold temporaryRasterInBounds
  dsimp only
  rw [u32_of_lt _ hN]
  simp only [Bool.and_eq_true, List.all_eq_true, decide_eq_true_eq, List.mem_range]
  constructor
  · intro idx h
    exact pvrtcDecompressWrites_lt XTrueDim YTrueDim bpp idx hXl hYl (Nat.le_of_lt hN) h
  · intro x hx y hy
    have := copy_index_lt XTrueDim YTrueDim x y (by omega) (by omega)
    rw [u32_of_lt _ (by omega)]
    exact this

/-- Below the format minimum, with the assertions compiled out and a padded raster of
fewer than `2 ^ 32` pixels, the entry point decodes into the temporary raster `fresh` at
the padded size and then runs the copy loop. -/
theorem PVRTDecompressPVRTC_int_resized (PVRTCII : Bool) (pCompressedData : Nat → Nat)
    (Do2bitMode XDim YDim : Nat) (pResultImage fresh : Nat → Pixel32)
    (scratch : Int → Int → Scratch) (temp : Nat → Pixel32) (ret : Nat)
    (hsub : XDim < (if Do2bitMode = 1 then 16 else 8) ∨ YDim < 8)
    (hN : max XDim (if Do2bitMode = 1 then 16 else 8) * max YDim 8 < 2 ^ 32)
    (hrun : pvrtcDecompress PVRTCII pCompressedData fresh
      (max XDim (if Do2bitMode = 1 then 16 else 8)) (max YDim 8)
      (if Do2bitMode = 1 then 2 else 4) scratch = some (temp, ret)) :
    PVRTDecompressPVRTC_int PVRTCII true pCompressedData Do2bitMode XDim YDim pResultImage
        fresh scratch =
      some (forLoop XDim (fun x (out : Nat → Pixel32) =>
        forLoop YDim (fun y (out : Nat → Pixel32) =>
          setAt out (u32 (x + y * XDim))
            (temp (u32 (x + y * max XDim (if Do2bitMode = 1 then 16 else 8))))) out)
        pResultImage, ret) := by
  have hm : 8 ≤ (if Do2bitMode = 1 then 16 else 8) := by split <;> decide
  have hX8 : 8 ≤ max XDim (if Do2bitMode = 1 then 16 else 8) :=
    le_trans hm (Nat.le_max_right _ _)
  have hY8 : 8 ≤ max YDim 8 := Nat.le_max_right _ _
  have hXl : max XDim (if Do2bitMode = 1 then 16 else 8) < 2 ^ 32 := by
    have := Nat.mul_le_mul_left (max XDim (if Do2bitMode = 1 then 16 else 8)) hY8
    omega
  have hYl : max YDim 8 < 2 ^ 32 := by
    have := Nat.mul_le_mul_right (max YDim 8) hX8
    omega
  have hin := temporaryRasterInBounds_true XDim YDim _ _ (if Do2bitMode = 1 then 2 else 4)
    (Nat.le_max_left XDim (if Do2bitMode = 1 then 16 else 8)) (Nat.le_max_left YDim 8)
    hXl hYl hN
  unfold PVRTDecompressPVRTC_int
  dsimp only
  rw [resized_true Do2bitMode XDim YDim hsub, hin]
  simp only [Bool.not_true, Bool.and_false, Bool.false_eq_true, if_false, if_true]
  rw [hrun]


/-! ## The returned size -/

/-- C14 (amended): for requested dimensions at or above the format minimum (16x8 for
2bpp, 8x8 for 4bpp) with `XDim*YDim < 2^32`, both entry points return, with the
assertions compiled in or out, and the value returned is `XDim*YDim/4` in 2bpp mode and
`XDim*YDim/2` in 4bpp mode. -/
theorem entry_return_value (NDEBUG : Bool) (pCompressedData : Nat → Nat)
    (Do2bitMode XDim YDim : Nat) (pResultImage fresh : Nat → Pixel32)
    (scratch : Int → Int → Scratch)
    (hminx : (if Do2bitMode = 1 then 16 else 8) ≤ XDim) (hminy : 8 ≤ YDim)
    (hsize : XDim * YDim < 2 ^ 32) :
    (∃ out, PVRTDecompressPVRTC NDEBUG pCompressedData Do2bitMode XDim YDim pResultImage fresh
      scratch = some (out, XDim * YDim / (if Do2bitMode = 1 then 4 else 2))) ∧
    (∃ out, PVRTDecompressPVRTCII NDEBUG pCompressedData Do2bitMode XDim YDim pResultImage
      fresh scratch = some (out, XDim * YDim / (if Do2bitMode = 1 then 4 else 2))) := by
  have hy0 : 0 < YDim := by omega
  have hx0 : 0 < XDim := by split at hminx <;> omega
  have hx : XDim < 2 ^ 32 := lt_of_le_of_lt (Nat.le_mul_of_pos_right _ hy0) hsize
  have hy : YDim < 2 ^ 32 := lt_of_le_of_lt (Nat.le_mul_of_pos_left _ hx0) hsize
  obtain ⟨o1, h1⟩ := PVRTDecompressPVRTC_int_returns false NDEBUG pCompressedData Do2bitMode
    XDim YDim pResultImage fresh scratch hminx hminy hx hy
  obtain ⟨o2, h2⟩ := PVRTDecompressPVRTC_int_returns true NDEBUG pCompressedData Do2bitMode
    XDim YDim pResultImage fresh scratch hminx hminy hx hy
  rw [u32_of_lt _ hsize] at h1 h2
  exact ⟨⟨o1, h1⟩, ⟨o2, h2⟩⟩

/-- Witness of C14 (amended): the 2bpp image of 32 x 16 pixels returns `32*16/4 = 128`
from `PVRTDecompressPVRTC` with the assertions compiled in. -/
theorem entry_return_value_witness :
    (16 : Nat) ≤ 32 ∧ (8 : Nat) ≤ 16 ∧ 32 * 16 < 2 ^ 32 ∧
    ∃ out, PVRTDecompressPVRTC false (fun _ => 0) 1 32 16 (fun _ => ⟨0, 0, 0, 0⟩)
      (fun _ => ⟨0, 0, 0, 0⟩)
      (fun _ _ => ⟨fun _ _ => 0, fun _ _ => 0, fun _ => ⟨0, 0, 0, 0⟩, fun _ => ⟨0, 0, 0, 0⟩⟩) =
      some (out, 128) :=
  ⟨by decide, by decide, by decide,
    (entry_return_value false (fun _ => 0) 1 32 16 (fun _ => ⟨0, 0, 0, 0⟩)
      (fun _ => ⟨0, 0, 0, 0⟩)
      (fun _ _ => ⟨fun _ _ => 0, fun _ _ => 0, fun _ => ⟨0, 0, 0, 0⟩, fun _ => ⟨0, 0, 0, 0⟩⟩)
      (by decide) (by decide) (by decide)).1⟩

/-- Counterexample to C14 as stated.  For the 4bpp image of 8 x 8 pixels both entry
points return `8*8/2 = 32`, not `8*8/8 = 8`, with the assertions compiled in or out.  For
the requested 2bpp size 4 x 4, below the minimum, `PVRTDecompressPVRTC` returns no value
with the assertions compiled in (the call stops at `assert(XTrueDim == XDim)`) and
returns `16*8/4 = 32`, not `4*4/4 = 4`, with the assertions compiled out.  For the 4bpp
image of 131072 x 32768 pixels the product `width*height = 2^32` is `0` in `uint32_t`
and the value returned is `0`. -/
theorem entry_return_value_four_bpp :
    (∀ NDEBUG : Bool,
      Option.map Prod.snd (PVRTDecompressPVRTC NDEBUG (fun _ => 0) 0 8 8
        (fun _ => ⟨0, 0, 0, 0⟩) (fun _ => ⟨0, 0, 0, 0⟩)
        (fun _ _ => ⟨fun _ _ => 0, fun _ _ => 0, fun _ => ⟨0, 0, 0, 0⟩,
          fun _ => ⟨0, 0, 0, 0⟩⟩)) = some 32 ∧
      Option.map Prod.snd (PVRTDecompressPVRTCII NDEBUG (fun _ => 0) 0 8 8
        (fun _ => ⟨0, 0, 0, 0⟩) (fun _ => ⟨0, 0, 0, 0⟩)
        (fun _ _ => ⟨fun _ _ => 0, fun _ _ => 0, fun _ => ⟨0, 0, 0, 0⟩,
          fun _ => ⟨0, 0, 0, 0⟩⟩)) = some 32) ∧
    (32 : Nat) ≠ 8 * 8 / 8 ∧
    PVRTDecompressPVRTC false (fun _ => 0) 1 4 4 (fun _ => ⟨0, 0, 0, 0⟩)
      (fun _ => ⟨0, 0, 0, 0⟩)
      (fun _ _ => ⟨fun _ _ => 0, fun _ _ => 0, fun _ => ⟨0, 0, 0, 0⟩, fun _ => ⟨0, 0, 0, 0⟩⟩) =
      none ∧
    Option.map Prod.snd (PVRTDecompressPVRTC true (fun _ => 0) 1 4 4 (fun _ => ⟨0, 0, 0, 0⟩)
      (fun _ => ⟨0, 0, 0, 0⟩)
      (fun _ _ => ⟨fun _ _ => 0, fun _ _ => 0, fun _ => ⟨0, 0, 0, 0⟩, fun _ => ⟨0, 0, 0, 0⟩⟩)) =
      some 32 ∧
    (32 : Nat) ≠ 4 * 4 / 4 ∧
    Option.map Prod.snd (PVRTDecompressPVRTC false (fun _ => 0) 0 131072 32768
      (fun _ => ⟨0, 0, 0, 0⟩) (fun _ => ⟨0, 0, 0, 0⟩)
      (fun _ _ => ⟨fun _ _ => 0, fun _ _ => 0, fun _ => ⟨0, 0, 0, 0⟩, fun _ => ⟨0, 0, 0, 0⟩⟩)) =
      some 0 ∧
    (0 : Nat) ≠ 131072 * 32768 / 2 := by
  refine ⟨fun NDEBUG => ⟨?_, ?_⟩, by decide, ?_, ?_, by decide, ?_, by decide⟩
  · obtain ⟨out, h⟩ := PVRTDecompressPVRTC_int_returns false NDEBUG (fun _ => 0) 0 8 8
      (fun _ => ⟨0, 0, 0, 0⟩) (fun _ => ⟨0, 0, 0, 0⟩)
      (fun _ _ => ⟨fun _ _ => 0, fun _ _ => 0, fun _ => ⟨0, 0, 0, 0⟩, fun _ => ⟨0, 0, 0, 0⟩⟩)
      (by decide) (by decide) (by decide) (by decide)
    unfold PVRTDecompressPVRTC
    rw [h]
    show some _ = some 32
    congr 1
  · obtain ⟨out, h⟩ := PVRTDecompressPVRTC_int_returns true NDEBUG (fun _ => 0) 0 8 8
      (fun _ => ⟨0, 0, 0, 0⟩) (fun _ => ⟨0, 0, 0, 0⟩)
      (fun _ _ => ⟨fun _ _ => 0, fun _ _ => 0, fun _ => ⟨0, 0, 0, 0⟩, fun _ => ⟨0, 0, 0, 0⟩⟩)
      (by decide) (by decide) (by decide) (by decide)
    unfold PVRTDecompressPVRTCII
    rw [h]
    show some _ = some 32
    congr 1
  · exact PVRTDecompressPVRTC_int_asserts false (fun _ => 0) 1 4 4 (fun _ => ⟨0, 0, 0, 0⟩)
      (fun _ => ⟨0, 0, 0, 0⟩)
      (fun _ _ => ⟨fun _ _ => 0, fun _ _ => 0, fun _ => ⟨0, 0, 0, 0⟩, fun _ => ⟨0, 0, 0, 0⟩⟩)
      (by decide)
  · obtain ⟨temp, ht⟩ := pvrtcDecompress_total false (fun _ => 0) (fun _ => ⟨0, 0, 0, 0⟩)
      (max 4 (if 1 = 1 then 16 else 8)) (max 4 8) (if 1 = 1 then 2 else 4)
      (fun _ _ => ⟨fun _ _ => 0, fun _ _ => 0, fun _ => ⟨0, 0, 0, 0⟩, fun _ => ⟨0, 0, 0, 0⟩⟩)
      (by decide) (by decide)
    have h := PVRTDecompressPVRTC_int_resized false (fun _ => 0) 1 4 4
      (fun _ => ⟨0, 0, 0, 0⟩) (fun _ => ⟨0, 0, 0, 0⟩)
      (fun _ _ => ⟨fun _ _ => 0, fun _ _ => 0, fun _ => ⟨0, 0, 0, 0⟩, fun _ => ⟨0, 0, 0, 0⟩⟩)
      temp _ (by decide) (by decide) ht
    unfold PVRTDecompressPVRTC
    rw [h]
    show some _ = some 32
    congr 1
  · obtain ⟨out, h⟩ := PVRTDecompressPVRTC_int_returns false false (fun _ => 0) 0 131072 32768
      (fun _ => ⟨0, 0, 0, 0⟩) (fun _ => ⟨0, 0, 0, 0⟩)
      (fun _ _ => ⟨fun _ _ => 0, fun _ _ => 0, fun _ => ⟨0, 0, 0, 0⟩, fun _ => ⟨0, 0, 0, 0⟩⟩)
      (by decide) (by decide) (by decide) (by decide)
    unfold PVRTDecompressPVRTC
    rw [h]
    show some _ = some 0
    congr 1

/-- C15: for width and height that are multiples of the block size (`blockWidth x 4`,
`blockWidth = 8` for 2bpp and `4` for 4bpp) and at least the format minimum, with
`width*height < 2^32`, both entry points return `8 * (width/blockWidth) * (height/4)`, which
equals `width*height*bitsPerPixel/8`, with the assertions compiled in or out. -/
theorem entry_return_bytes (NDEBUG : Bool) (pCompressedData : Nat → Nat)
    (Do2bitMode XDim YDim : Nat) (pResultImage fresh : Nat → Pixel32)
    (scratch : Int → Int → Scratch)
    (hbw : (if Do2bitMode = 1 then 8 else 4) ∣ XDim) (hbh : 4 ∣ YDim)
    (hminx : (if Do2bitMode = 1 then 16 else 8) ≤ XDim) (hminy : 8 ≤ YDim)
    (hsize : XDim * YDim < 2 ^ 32) :
    let blockWidth := if Do2bitMode = 1 then 8 else 4
    let bitsPerPixel := if Do2bitMode = 1 then 2 else 4
    let bytes := 8 * (XDim / blockWidth) * (YDim / 4)
    (∃ out, PVRTDecompressPVRTC NDEBUG pCompressedData Do2bitMode XDim YDim pResultImage fresh
      scratch = some (out, bytes)) ∧
    (∃ out, PVRTDecompressPVRTCII NDEBUG pCompressedData Do2bitMode XDim YDim pResultImage
      fresh scratch = some (out, bytes)) ∧
    bytes = XDim * YDim * bitsPerPixel / 8 := by
  have hy0 : 0 < YDim := by omega
  have hx0 : 0 < XDim := by split at hminx <;> omega
  have hx : XDim < 2 ^ 32 := lt_of_le_of_lt (Nat.le_mul_of_pos_right _ hy0) hsize
  have hy : YDim < 2 ^ 32 := lt_of_le_of_lt (Nat.le_mul_of_pos_left _ hx0) hsize
  obtain ⟨l, rfl⟩ := hbh
  have key : u32 (XDim * (4 * l)) / (if Do2bitMode = 1 then 4 else 2) =
      8 * (XDim / (if Do2bitMode = 1 then 8 else 4)) * (4 * l / 4) := by
    rw [u32_of_lt _ hsize, Nat.mul_div_cancel_left _ (by decide : 0 < 4)]
    obtain ⟨k, rfl⟩ := hbw
    by_cases h2 : Do2bitMode = 1
    · simp only [h2, if_true]
      rw [Nat.mul_div_cancel_left _ (by decide : 0 < 8)]
      have e : 8 * k * (4 * l) = 4 * (8 * k * l) := by ring
      rw [e, Nat.mul_div_cancel_left _ (by decide : 0 < 4)]
    · simp only [h2, if_false]
      rw [Nat.mul_div_cancel_left _ (by decide : 0 < 4)]
      have e : 4 * k * (4 * l) = 2 * (8 * k * l) := by ring
      rw [e, Nat.mul_div_cancel_left _ (by decide : 0 < 2)]
  obtain ⟨o1, h1⟩ := PVRTDecompressPVRTC_int_returns false NDEBUG pCompressedData Do2bitMode
    XDim (4 * l) pResultImage fresh scratch hminx hminy hx hy
  obtain ⟨o2, h2⟩ := PVRTDecompressPVRTC_int_returns true NDEBUG pCompressedData Do2bitMode
    XDim (4 * l) pResultImage fresh scratch hminx hminy hx hy
  rw [key] at h1 h2
  refine ⟨⟨o1, h1⟩, ⟨o2, h2⟩, ?_⟩
  obtain ⟨k, rfl⟩ := hbw
  rw [Nat.mul_div_cancel_left _ (by decide : 0 < 4)]
  by_cases h2 : Do2bitMode = 1
  · simp only [h2, if_true]
    rw [Nat.mul_div_cancel_left _ (by decide : 0 < 8)]
    have e : 8 * k * (4 * l) * 2 = 8 * (8 * k * l) := by ring
    rw [e, Nat.mul_div_cancel_left _ (by decide : 0 < 8)]
  · simp only [h2, if_false]
    rw [Nat.mul_div_cancel_left _ (by decide : 0 < 4)]
    have e : 4 * k * (4 * l) * 4 = 8 * (8 * k * l) := by ring
    rw [e, Nat.mul_div_cancel_left _ (by decide : 0 < 8)]

/-- Witness of C15: the 4bpp image of 16 x 8 pixels, a grid of 4 x 2 blocks, returns
`8 * 4 * 2 = 64` from `PVRTDecompressPVRTCII`. -/
theorem entry_return_bytes_witness :
    (4 ∣ 16) ∧ (4 ∣ 8) ∧ 16 * 8 < 2 ^ 32 ∧
    ∃ out, PVRTDecompressPVRTCII false (fun _ => 0) 0 16 8 (fun _ => ⟨0, 0, 0, 0⟩)
      (fun _ => ⟨0, 0, 0, 0⟩)
      (fun _ _ => ⟨fun _ _ => 0, fun _ _ => 0, fun _ => ⟨0, 0, 0, 0⟩, fun _ => ⟨0, 0, 0, 0⟩⟩) =
      some (out, 64) :=
  ⟨by decide, by decide, by decide,
    (entry_return_bytes false (fun _ => 0) 0 16 8 (fun _ => ⟨0, 0, 0, 0⟩)
      (fun _ => ⟨0, 0, 0, 0⟩)
      (fun _ _ => ⟨fun _ _ => 0, fun _ _ => 0, fun _ => ⟨0, 0, 0, 0⟩, fun _ => ⟨0, 0, 0, 0⟩⟩)
      (by decide) (by decide) (by decide) (by decide) (by decide)).2.1⟩


/-! ## Requested sizes below the format minimum -/

/-- C16 (amended): when the requested `XDim` or `YDim` is below the format minimum (16x8
for 2bpp, 8x8 for 4bpp), the call stops at `assert(XTrueDim == XDim)` or
`assert(YTrueDim == YDim)` when the assertions are compiled in.  With the assertions
compiled out and a padded raster of fewer than `2^32` pixels, every access to the
temporary raster is inside its allocation, and `PVRTDecompressPVRTC_int` decodes at the
padded size `XTrueDim = max(XDim, minimum width)`, `YTrueDim = max(YDim, 8)` into the
temporary raster and writes the caller's buffer only at the indices `x + y*XDim` for
`x < XDim`, `y < YDim`, all below `XDim*YDim`, each receiving the temporary raster's
pixel at index `x + y*XTrueDim`; every other element of the caller's buffer is left
unchanged. -/
theorem subminimum_copy (PVRTCII : Bool) (pCompressedData : Nat → Nat)
    (Do2bitMode XDim YDim : Nat) (pResultImage fresh : Nat → Pixel32)
    (scratch : Int → Int → Scratch)
    (hsub : XDim < (if Do2bitMode = 1 then 16 else 8) ∨ YDim < 8)
    (hN : max XDim (if Do2bitMode = 1 then 16 else 8) * max YDim 8 < 2 ^ 32) :
    let XTrueDim := max XDim (if Do2bitMode = 1 then 16 else 8)
    let YTrueDim := max YDim 8
    PVRTDecompressPVRTC_int PVRTCII false pCompressedData Do2bitMode XDim YDim pResultImage
      fresh scratch = none ∧
    temporaryRasterInBounds XDim YDim XTrueDim YTrueDim (if Do2bitMode = 1 then 2 else 4) =
      true ∧
    ∃ temp ret out,
      pvrtcDecompress PVRTCII pCompressedData fresh XTrueDim YTrueDim
        (if Do2bitMode = 1 then 2 else 4) scratch = some (temp, ret) ∧
      PVRTDecompressPVRTC_int PVRTCII true pCompressedData Do2bitMode XDim YDim pResultImage
        fresh scratch = some (out, ret) ∧
      (∀ x y, x < XDim → y < YDim →
        x + y * XDim < XDim * YDim ∧ x + y * XTrueDim < XTrueDim * YTrueDim ∧
        out (x + y * XDim) = temp (x + y * XTrueDim)) ∧
      (∀ idx, (∀ x y, x < XDim → y < YDim → idx ≠ x + y * XDim) →
        out idx = pResultImage idx) := by
  intro XTrueDim YTrueDim
  have hm : 8 ≤ (if Do2bitMode = 1 then 16 else 8) := by split <;> decide
  have hXT : XDim ≤ XTrueDim := Nat.le_max_left _ _
  have hYT : YDim ≤ YTrueDim := Nat.le_max_left _ _
  have hX8 : 8 ≤ XTrueDim := le_trans hm (Nat.le_max_right _ _)
  have hY8 : 8 ≤ YTrueDim := Nat.le_max_right _ _
  have hN2 : XTrueDim * YTrueDim < 2 ^ 32 := hN
  have hXlt : XTrueDim < 2 ^ 32 := by
    have : XTrueDim * 8 ≤ XTrueDim * YTrueDim := Nat.mul_le_mul_left _ hY8
    omega
  have hYlt : YTrueDim < 2 ^ 32 := by
    have : 8 * YTrueDim ≤ XTrueDim * YTrueDim := Nat.mul_le_mul_right _ hX8
    omega
  have hN3 : XDim * YDim ≤ 2 ^ 32 :=
    le_trans (Nat.mul_le_mul hXT hYT) (Nat.le_of_lt hN2)
  obtain ⟨temp, htemp⟩ := pvrtcDecompress_total PVRTCII pCompressedData fresh XTrueDim
    YTrueDim (if Do2bitMode = 1 then 2 else 4) scratch hXlt hYlt
  have hu : ∀ x y, x < XDim → y < YDim → u32 (x + y * XDim) = x + y * XDim :=
    fun x y hx hy => u32_of_lt _ (lt_of_lt_of_le (copy_index_lt XDim YDim x y hx hy) hN3)
  have hu2 : ∀ x y, x < XDim → y < YDim → u32 (x + y * XTrueDim) = x + y * XTrueDim :=
    fun x y hx hy => u32_of_lt _ (lt_trans
      (copy_index_lt XTrueDim YTrueDim x y (by omega) (by omega)) hN2)
  refine ⟨PVRTDecompressPVRTC_int_asserts PVRTCII pCompressedData Do2bitMode XDim YDim
      pResultImage fresh scratch hsub,
    temporaryRasterInBounds_true XDim YDim XTrueDim YTrueDim _ hXT hYT hXlt hYlt hN2,
    temp, _, _, htemp,
    PVRTDecompressPVRTC_int_resized PVRTCII pCompressedData Do2bitMode XDim YDim pResultImage
      fresh scratch temp _ hsub hN htemp, ?_, ?_⟩
  · intro x y hx hy
    refine ⟨copy_index_lt XDim YDim x y hx hy,
      copy_index_lt XTrueDim YTrueDim x y (by omega) (by omega), ?_⟩
    rw [copyLoop_value temp pResultImage XDim YDim _ x y hN3 hx hy]
    exact congrArg temp (hu2 x y hx hy)
  · intro idx hidx
    apply copyLoop_frame
    intro x y hx hy
    rw [hu x y hx hy]
    exact hidx x y hx hy

/-- Witness of C16 (amended): with the assertions compiled out the requested 4bpp size
4 x 4 is decoded at 8 x 8; the caller's pixel `(1, 2)` at index `1 + 2*4 = 9` receives
the temporary pixel at index `1 + 2*8 = 17`, and element `16` of the caller's buffer
keeps its content. -/
theorem subminimum_copy_witness :
    ((4 : Nat) < 8 ∨ (4 : Nat) < 8) ∧ max 4 8 * max 4 8 < 2 ^ 32 ∧
    ∃ temp ret out,
      pvrtcDecompress false (fun _ => 0) (fun _ => ⟨0, 0, 0, 0⟩) 8 8 4
        (fun _ _ => ⟨fun _ _ => 0, fun _ _ => 0, fun _ => ⟨0, 0, 0, 0⟩, fun _ => ⟨0, 0, 0, 0⟩⟩) =
        some (temp, ret) ∧
      PVRTDecompressPVRTC_int false true (fun _ => 0) 0 4 4 (fun _ => ⟨1, 1, 1, 1⟩)
        (fun _ => ⟨0, 0, 0, 0⟩)
        (fun _ _ => ⟨fun _ _ => 0, fun _ _ => 0, fun _ => ⟨0, 0, 0, 0⟩, fun _ => ⟨0, 0, 0, 0⟩⟩) =
        some (out, ret) ∧
      out 9 = temp 17 ∧ out 16 = ⟨1, 1, 1, 1⟩ := by
  refine ⟨by decide, by decide, ?_⟩
  obtain ⟨_, _, temp, ret, out, h1, h2, h3, h4⟩ := subminimum_copy false (fun _ => 0) 0 4 4
    (fun _ => ⟨1, 1, 1, 1⟩) (fun _ => ⟨0, 0, 0, 0⟩)
    (fun _ _ => ⟨fun _ _ => 0, fun _ _ => 0, fun _ => ⟨0, 0, 0, 0⟩, fun _ => ⟨0, 0, 0, 0⟩⟩)
    (by decide) (by decide)
  exact ⟨temp, ret, out, h1, h2, (h3 1 2 (by decide) (by decide)).2.2,
    h4 16 (fun x y hx hy => by omega)⟩

/-- Counterexample to C16 as stated.  With the assertions compiled in, the requested 4bpp
size 4 x 4 stops at `assert(XTrueDim == XDim)`: nothing is decoded.  With the assertions
compiled out, the requested 4bpp size 4 x 536870912 is padded to 8 x 536870912; the
product `8 * 536870912 = 2^32` is `0` in `uint32_t`, the temporary raster is allocated
with no pixel, the accesses to it are outside the allocation, and the call does not
return a value. -/
theorem subminimum_copy_stops :
    PVRTDecompressPVRTC_int false false (fun _ => 0) 0 4 4 (fun _ => ⟨1, 1, 1, 1⟩)
      (fun _ => ⟨0, 0, 0, 0⟩)
      (fun _ _ => ⟨fun _ _ => 0, fun _ _ => 0, fun _ => ⟨0, 0, 0, 0⟩, fun _ => ⟨0, 0, 0, 0⟩⟩) =
      none ∧
    ((4 : Nat) < 8 ∧ max 4 8 = 8 ∧ max 536870912 8 = 536870912 ∧ u32 (8 * 536870912) = 0) ∧
    temporaryRasterInBounds 4 536870912 8 536870912 4 = false ∧
    PVRTDecompressPVRTC_int false true (fun _ => 0) 0 4 536870912 (fun _ => ⟨1, 1, 1, 1⟩)
      (fun _ => ⟨0, 0, 0, 0⟩)
      (fun _ _ => ⟨fun _ _ => 0, fun _ _ => 0, fun _ => ⟨0, 0, 0, 0⟩, fun _ => ⟨0, 0, 0, 0⟩⟩) =
      none := by
  have hin : temporaryRasterInBounds 4 536870912 8 536870912 4 = false := by
    unfold temporaryRasterInBounds
    dsimp only
    have hread : (List.range 4).all (fun x =>
        (List.range 536870912).all (fun y =>
          decide (u32 (x + y * 8) < u32 (8 * 536870912)))) = false := by
      rw [Bool.eq_false_iff]
      intro h
      rw [List.all_eq_true] at h
      have h0 := h 0 (List.mem_range.2 (by decide))
      rw [List.all_eq_true] at h0
      have h00 := h0 0 (List.mem_range.2 (by decide))
      revert h00
      decide
    rw [hread, Bool.and_false]
  refine ⟨?_, by decide, hin, ?_⟩
  · exact PVRTDecompressPVRTC_int_asserts false (fun _ => 0) 0 4 4 (fun _ => ⟨1, 1, 1, 1⟩)
      (fun _ => ⟨0, 0, 0, 0⟩)
      (fun _ _ => ⟨fun _ _ => 0, fun _ _ => 0, fun _ => ⟨0, 0, 0, 0⟩, fun _ => ⟨0, 0, 0, 0⟩⟩)
      (Or.inl (by decide))
  · unfold PVRTDecompressPVRTC_int
    dsimp only
    rw [resized_true 0 4 536870912 (Or.inl (by decide))]
    have e1 : max 4 (if (0 : Nat) = 1 then 16 else 8) = 8 := by decide
    have e2 : max 536870912 8 = 536870912 := by decide
    have e3 : (if (0 : Nat) = 1 then 2 else 4) = 4 := by decide
    rw [e1, e2, e3, hin]
    rfl


/-! ## The compressed data the decoder depends on -/

theorem foldlM_congr {σ α : Type} (f g : σ → α → Option σ) (l : List α)
    (h : ∀ st a, a ∈ l → f st a = g st a) (st : σ) : l.foldlM f st = l.foldlM g st := by
  induction l generalizing st with
  | nil => rfl
  | cons a l ih =>
    rw [List.foldlM_cons, List.foldlM_cons, h st a (List.mem_cons_self _ _)]
    cases g st a with
    | none => rfl
    | some st1 => exact ih (fun st b hb => h st b (List.mem_cons_of_mem _ hb)) st1

theorem readWord_congr (d1 d2 : Nat → Nat) (n o : Nat) (h : ∀ i, i < n → d1 i = d2 i)
    (h0 : o < n) (h1 : u32 (o + 1) < n) : readWord d1 o = readWord d2 o := by
  unfold readWord
  rw [h _ h0, h _ h1]

/-- One iteration of the walker on a power-of-two grid reads only elements of the
compressed buffer below `2 * numX * numY`. -/
theorem decompressBlock_congr (PVRTCII : Bool) (d1 d2 : Nat → Nat) (width bpp a b : Nat)
    (scratch : Int → Int → Scratch) (ha : a ≤ 29) (hb : b ≤ 29)
    (h : ∀ i, i < 2 * 2 ^ a * 2 ^ b → d1 i = d2 i)
    (st : (Nat → Pixel32) × (Nat → Pixel32)) (step : Int × Int) :
    decompressBlock PVRTCII d1 width bpp (2 ^ a) (2 ^ b) scratch st step =
      decompressBlock PVRTCII d2 width bpp (2 ^ a) (2 ^ b) scratch st step := by
  obtain ⟨p, q, r, s, ho, hp0, hp1, hq0, hq1, hr0, hr1, hs0, hs1⟩ :=
    wordOffsets_some PVRTCII a b ha hb step.1 step.2
  unfold decompressBlock
  dsimp only
  rw [ho]
  dsimp only
  rw [readWord_congr d1 d2 _ _ h hp0 hp1, readWord_congr d1 d2 _ _ h hq0 hq1,
    readWord_congr d1 d2 _ _ h hr0 hr1, readWord_congr d1 d2 _ _ h hs0 hs1]

theorem grid_exponent_le (a bw : Nat) (hbw : 4 ≤ bw) (hw : 2 ^ a * bw < 2 ^ 32) : a ≤ 29 := by
  have h4 : 2 ^ a * 4 ≤ 2 ^ a * bw := Nat.mul_le_mul_left _ hbw
  have h5 : (2 : Nat) ^ a < 2 ^ 30 := by omega
  have := (Nat.pow_lt_pow_iff_right (by decide : 1 < 2)).1 h5
  omega

/-- On a power-of-two grid `pvrtcDecompress` depends on the compressed buffer only through
its elements below `2 * numX * numY`. -/
theorem pvrtcDecompress_congr (PVRTCII : Bool) (d1 d2 : Nat → Nat)
    (pDecompressedData : Nat → Pixel32) (bpp a b : Nat) (scratch : Int → Int → Scratch)
    (hw : 2 ^ a * (if bpp = 2 then 8 else 4) < 2 ^ 32) (hh : 2 ^ b * 4 < 2 ^ 32)
    (h : ∀ i, i < 2 * 2 ^ a * 2 ^ b → d1 i = d2 i) :
    pvrtcDecompress PVRTCII d1 pDecompressedData (2 ^ a * (if bpp = 2 then 8 else 4))
        (2 ^ b * 4) bpp scratch =
      pvrtcDecompress PVRTCII d2 pDecompressedData (2 ^ a * (if bpp = 2 then 8 else 4))
        (2 ^ b * 4) bpp scratch := by
  have hbw0 : 0 < (if bpp = 2 then 8 else 4) := by split <;> decide
  have hbw4 : 4 ≤ (if bpp = 2 then 8 else 4) := by split <;> decide
  have e1 : 2 ^ a * (if bpp = 2 then 8 else 4) / (if bpp = 2 then 8 else 4) = 2 ^ a :=
    Nat.mul_div_cancel _ hbw0
  have e2 : 2 ^ b * 4 / 4 = 2 ^ b := by omega
  have ha : a ≤ 29 := grid_exponent_le a _ hbw4 hw
  have hb : b ≤ 29 := grid_exponent_le b 4 (le_refl _) hh
  unfold pvrtcDecompress
  dsimp only
  rw [e1, e2, foldlM_congr _ _ _ (fun st step _ =>
    decompressBlock_congr PVRTCII d1 d2 _ bpp a b scratch ha hb h st step)]



/-- C17 (amended): the decoder reads the compressed data of the padded size.  For a
requested size, in particular one below the format minimum, whose padded dimensions
`XTrueDim = max(XDim, minimum width)`, `YTrueDim = max(YDim, 8)` give a power-of-two block
grid and fewer than `2^32` pixels, the result of the entry point depends on no byte of
`compressedData` at an offset `>= XTrueDim*YTrueDim*bitsPerPixel/8`: two buffers that
agree on every 32-bit element `i` with `4*i` below that bound give the same result, and
every element read by an iteration of the walker lies below that bound.  With
the assertions compiled out the call returns; with the assertions compiled in, a call
below the minimum stops at the assertion. -/
theorem compressed_data_read (PVRTCII : Bool) (d1 d2 : Nat → Nat)
    (Do2bitMode XDim YDim : Nat) (pResultImage fresh : Nat → Pixel32)
    (scratch : Int → Int → Scratch) (a b : Nat)
    (hX : max XDim (if Do2bitMode = 1 then 16 else 8) =
      2 ^ a * (if Do2bitMode = 1 then 8 else 4))
    (hY : max YDim 8 = 2 ^ b * 4)
    (hN : max XDim (if Do2bitMode = 1 then 16 else 8) * max YDim 8 < 2 ^ 32)
    (hagree : ∀ i, 4 * i < max XDim (if Do2bitMode = 1 then 16 else 8) * max YDim 8 *
      (if Do2bitMode = 1 then 2 else 4) / 8 → d1 i = d2 i) :
    (∀ NDEBUG : Bool,
      PVRTDecompressPVRTC_int PVRTCII NDEBUG d1 Do2bitMode XDim YDim pResultImage fresh
          scratch =
        PVRTDecompressPVRTC_int PVRTCII NDEBUG d2 Do2bitMode XDim YDim pResultImage fresh
          scratch) ∧
    (∃ r, PVRTDecompressPVRTC_int PVRTCII true d1 Do2bitMode XDim YDim pResultImage fresh
      scratch = some r) ∧
    (XDim < (if Do2bitMode = 1 then 16 else 8) ∨ YDim < 8 →
      PVRTDecompressPVRTC_int PVRTCII false d1 Do2bitMode XDim YDim pResultImage fresh
        scratch = none) ∧
    (∀ step : Int × Int, ∃ reads,
      blockReads PVRTCII
        (max XDim (if Do2bitMode = 1 then 16 else 8) / (if Do2bitMode = 1 then 8 else 4))
        (max YDim 8 / 4) step.1 step.2 = some reads ∧
      ∀ i, i ∈ reads →
        4 * i + 3 < max XDim (if Do2bitMode = 1 then 16 else 8) * max YDim 8 *
          (if Do2bitMode = 1 then 2 else 4) / 8) := by
  have hbw : (if (if Do2bitMode = 1 then 2 else 4) = 2 then 8 else 4) =
      (if Do2bitMode = 1 then 8 else 4) := by split <;> rfl
  have hm : 8 ≤ (if Do2bitMode = 1 then 16 else 8) := by split <;> decide
  have hX8 : 8 ≤ max XDim (if Do2bitMode = 1 then 16 else 8) :=
    le_trans hm (Nat.le_max_right _ _)
  have hY8 : 8 ≤ max YDim 8 := Nat.le_max_right _ _
  have hXl : max XDim (if Do2bitMode = 1 then 16 else 8) < 2 ^ 32 := by
    have := Nat.mul_le_mul_left (max XDim (if Do2bitMode = 1 then 16 else 8)) hY8
    omega
  have hYl : max YDim 8 < 2 ^ 32 := by
    have := Nat.mul_le_mul_right (max YDim 8) hX8
    omega
  have hxl : 2 ^ a * (if Do2bitMode = 1 then 8 else 4) < 2 ^ 32 := hX ▸ hXl
  have hyl : 2 ^ b * 4 < 2 ^ 32 := hY ▸ hYl
  have hbytes : max XDim (if Do2bitMode = 1 then 16 else 8) * max YDim 8 *
      (if Do2bitMode = 1 then 2 else 4) / 8 = 4 * (2 * 2 ^ a * 2 ^ b) := by
    rw [hX, hY]
    by_cases h2 : Do2bitMode = 1
    · simp only [h2, if_true]
      have e : 2 ^ a * 8 * (2 ^ b * 4) * 2 = 8 * (4 * (2 * 2 ^ a * 2 ^ b)) := by ring
      rw [e, Nat.mul_div_cancel_left _ (by decide : 0 < 8)]
    · simp only [h2, if_false]
      have e : 2 ^ a * 4 * (2 ^ b * 4) * 4 = 8 * (4 * (2 * 2 ^ a * 2 ^ b)) := by ring
      rw [e, Nat.mul_div_cancel_left _ (by decide : 0 < 8)]
  have hag : ∀ i, i < 2 * 2 ^ a * 2 ^ b → d1 i = d2 i := fun i hi =>
    hagree i (by rw [hbytes]; omega)
  have key : ∀ buf : Nat → Pixel32,
      pvrtcDecompress PVRTCII d1 buf (max XDim (if Do2bitMode = 1 then 16 else 8)) (max YDim 8)
          (if Do2bitMode = 1 then 2 else 4) scratch =
        pvrtcDecompress PVRTCII d2 buf (max XDim (if Do2bitMode = 1 then 16 else 8))
          (max YDim 8) (if Do2bitMode = 1 then 2 else 4) scratch := by
    intro buf
    have := pvrtcDecompress_congr PVRTCII d1 d2 buf (if Do2bitMode = 1 then 2 else 4) a b
      scratch (by rw [hbw]; exact hxl) hyl hag
    rw [hbw, ← hX, ← hY] at this
    exact this
  refine ⟨fun NDEBUG => ?_, ?_, fun hsub =>
    PVRTDecompressPVRTC_int_asserts PVRTCII d1 Do2bitMode XDim YDim pResultImage fresh
      scratch hsub, fun step => ?_⟩
  · unfold PVRTDecompressPVRTC_int
    dsimp only
    rw [key]
  · by_cases hsub : XDim < (if Do2bitMode = 1 then 16 else 8) ∨ YDim < 8
    · obtain ⟨temp, htemp⟩ := pvrtcDecompress_total PVRTCII d1 fresh
        (max XDim (if Do2bitMode = 1 then 16 else 8)) (max YDim 8)
        (if Do2bitMode = 1 then 2 else 4) scratch hXl hYl
      exact ⟨_, PVRTDecompressPVRTC_int_resized PVRTCII d1 Do2bitMode XDim YDim pResultImage
        fresh scratch temp _ hsub hN htemp⟩
    · have hminx : (if Do2bitMode = 1 then 16 else 8) ≤ XDim := by omega
      have hminy : 8 ≤ YDim := by omega
      obtain ⟨out, ho⟩ := PVRTDecompressPVRTC_int_returns PVRTCII true d1 Do2bitMode XDim YDim
        pResultImage fresh scratch hminx hminy
        (lt_of_le_of_lt (Nat.le_max_left _ _) hXl) (lt_of_le_of_lt (Nat.le_max_left _ _) hYl)
      exact ⟨_, ho⟩
  · have hbw0 : 0 < (if Do2bitMode = 1 then 8 else 4) := by split <;> decide
    have hbw4 : 4 ≤ (if Do2bitMode = 1 then 8 else 4) := by split <;> decide
    have e1 : max XDim (if Do2bitMode = 1 then 16 else 8) / (if Do2bitMode = 1 then 8 else 4) =
        2 ^ a := by
      rw [hX]
      exact Nat.mul_div_cancel _ hbw0
    have e2 : max YDim 8 / 4 = 2 ^ b := by
      rw [hY]
      exact Nat.mul_div_cancel _ (by decide)
    have ha : a ≤ 29 := grid_exponent_le a _ hbw4 hxl
    have hb : b ≤ 29 := grid_exponent_le b 4 (le_refl _) hyl
    obtain ⟨p, q, r, t, ho, hp1, hp2, hq1, hq2, hr1, hr2, hs1, hs2⟩ :=
      wordOffsets_some PVRTCII a b ha hb step.1 step.2
    rw [e1, e2, hbytes]
    refine ⟨[u32 (u32 (p * 2) + 1), u32 (p * 2), u32 (u32 (q * 2) + 1), u32 (q * 2),
      u32 (u32 (r * 2) + 1), u32 (r * 2), u32 (u32 (t * 2) + 1), u32 (t * 2)], ?_, ?_⟩
    · unfold blockReads
      rw [ho]
    · intro i hi
      simp only [List.mem_cons, List.mem_singleton, List.not_mem_nil, or_false] at hi
      rcases hi with rfl | rfl | rfl | rfl | rfl | rfl | rfl | rfl <;> omega

/-- Witness of C17 (amended): with the assertions compiled out the requested 4bpp size
4 x 4 is decoded at 8 x 8, a grid of 2 x 2 blocks of 32 bytes; buffers that agree on the
elements `0..7` give the same result. -/
theorem compressed_data_read_witness :
    max 4 8 = 2 ^ 1 * 4 ∧ max 4 8 * max 4 8 < 2 ^ 32 ∧
    PVRTDecompressPVRTC_int false true (fun _ => 0) 0 4 4 (fun _ => ⟨1, 1, 1, 1⟩)
        (fun _ => ⟨0, 0, 0, 0⟩)
        (fun _ _ => ⟨fun _ _ => 0, fun _ _ => 0, fun _ => ⟨0, 0, 0, 0⟩, fun _ => ⟨0, 0, 0, 0⟩⟩) =
      PVRTDecompressPVRTC_int false true (fun i => if i < 8 then 0 else 0xFFFFFFFF) 0 4 4
        (fun _ => ⟨1, 1, 1, 1⟩) (fun _ => ⟨0, 0, 0, 0⟩)
        (fun _ _ => ⟨fun _ _ => 0, fun _ _ => 0, fun _ => ⟨0, 0, 0, 0⟩, fun _ => ⟨0, 0, 0, 0⟩⟩) :=
  ⟨by decide, by decide,
    (compressed_data_read false (fun _ => 0) (fun i => if i < 8 then 0 else 0xFFFFFFFF) 0 4 4
      (fun _ => ⟨1, 1, 1, 1⟩) (fun _ => ⟨0, 0, 0, 0⟩)
      (fun _ _ => ⟨fun _ _ => 0, fun _ _ => 0, fun _ => ⟨0, 0, 0, 0⟩, fun _ => ⟨0, 0, 0, 0⟩⟩)
      1 1 (by decide) (by decide) (by decide)
      (fun i hi => by
        have h8 : i < 8 := by
          have : max 4 (if 0 = 1 then 16 else 8) * max 4 8 * (if 0 = 1 then 2 else 4) / 8 = 32 := by
            decide
          omega
        simp only [h8, if_true])).1 true⟩

/-- Counterexample to C17 as stated: for the requested 4bpp size 4 x 4 the stated
precondition asks for `4*4*4/8 = 8` bytes, the elements `0` and `1`.  With the assertions
compiled out the first iteration of the walker reads the elements
`7, 6, 3, 2, 5, 4, 1, 0`, and two buffers that agree on the first 8 bytes and differ
behind them decode to different pixels at index `0`.  With the assertions compiled in the
call stops at `assert(XTrueDim == XDim)`. -/
theorem compressed_data_subminimum :
    (∀ i : Nat, 4 * i < 4 * 4 * 4 / 8 →
      (fun _ => 0 : Nat → Nat) i = (fun i => if i < 2 then 0 else 0xFFFFFFFF : Nat → Nat) i) ∧
    blockReads false (max 4 8 / 4) (max 4 8 / 4) (-1) (-1) = some [7, 6, 3, 2, 5, 4, 1, 0] ∧
    (PVRTDecompressPVRTC_int false true (fun _ => 0) 0 4 4 (fun _ => ⟨1, 1, 1, 1⟩)
        (fun _ => ⟨0, 0, 0, 0⟩)
        (fun _ _ => ⟨fun _ _ => 0, fun _ _ => 0, fun _ => ⟨0, 0, 0, 0⟩,
          fun _ => ⟨0, 0, 0, 0⟩⟩)).map (fun r => r.1 0) = some ⟨0, 0, 0, 0⟩ ∧
    (PVRTDecompressPVRTC_int false true (fun i => if i < 2 then 0 else 0xFFFFFFFF) 0 4 4
        (fun _ => ⟨1, 1, 1, 1⟩) (fun _ => ⟨0, 0, 0, 0⟩)
        (fun _ _ => ⟨fun _ _ => 0, fun _ _ => 0, fun _ => ⟨0, 0, 0, 0⟩,
          fun _ => ⟨0, 0, 0, 0⟩⟩)).map (fun r => r.1 0) = some ⟨191, 191, 191, 191⟩ ∧
    PVRTDecompressPVRTC_int false false (fun i => if i < 2 then 0 else 0xFFFFFFFF) 0 4 4
        (fun _ => ⟨1, 1, 1, 1⟩) (fun _ => ⟨0, 0, 0, 0⟩)
        (fun _ _ => ⟨fun _ _ => 0, fun _ _ => 0, fun _ => ⟨0, 0, 0, 0⟩,
          fun _ => ⟨0, 0, 0, 0⟩⟩) = none := by
  refine ⟨fun i hi => ?_, by decide, by decide, by decide,
    PVRTDecompressPVRTC_int_asserts false _ 0 4 4 _ _ _ (Or.inl (by decide))⟩
  have h2 : i < 2 := by omega
  simp only [h2, if_true]


/-! ## What the walker leaves in the raster -/

/-- After a sequence of stores of values with a property `p`, every stored element has
the property. -/
theorem foldl_setAt_all {α : Type} (p : α → Prop) (ws : List (Nat × Nat)) (pWord : Nat → α)
    (hp : ∀ w, w ∈ ws → p (pWord w.2)) (out : Nat → α) (idx : Nat)
    (h : idx ∈ ws.map Prod.fst ∨ p (out idx)) :
    p ((ws.foldl (fun out w => setAt out w.1 (pWord w.2)) out) idx) := by
  induction ws generalizing out with
  | nil =>
    rcases h with h | h
    · cases h
    · exact h
  | cons w ws ih =>
    rw [List.foldl_cons]
    apply ih (fun v hv => hp v (List.mem_cons_of_mem _ hv))
    rw [List.map_cons, List.mem_cons] at h
    unfold setAt
    by_cases hw : idx = w.1
    · right
      rw [if_pos hw]
      exact hp w (List.mem_cons_self _ _)
    · rcases h with (h | h) | h
      · exact absurd h hw
      · exact Or.inl h
      · right
        rw [if_neg hw]
        exact h

/-- The same sequence of stores applied to two arrays makes them agree on every stored
element. -/
theorem foldl_setAt_agree {α : Type} (ws : List (Nat × Nat)) (pWord : Nat → α)
    (out1 out2 : Nat → α) (idx : Nat) (h : idx ∈ ws.map Prod.fst ∨ out1 idx = out2 idx) :
    (ws.foldl (fun out w => setAt out w.1 (pWord w.2)) out1) idx =
      (ws.foldl (fun out w => setAt out w.1 (pWord w.2)) out2) idx := by
  induction ws generalizing out1 out2 with
  | nil =>
    rcases h with h | h
    · cases h
    · exact h
  | cons w ws ih =>
    rw [List.foldl_cons, List.foldl_cons]
    apply ih
    rw [List.map_cons, List.mem_cons] at h
    unfold setAt
    by_cases hw : idx = w.1
    · right
      rw [if_pos hw, if_pos hw]
    · rcases h with (h | h) | h
      · exact absurd h hw
      · exact Or.inl h
      · right
        rw [if_neg hw, if_neg hw]
        exact h

/-- If every iteration of the walker stores only pixels with a property `p`, every
element of the raster stored by some iteration has the property at the end. -/
theorem foldlM_decompressBlock_all (p : Pixel32 → Prop) (PVRTCII : Bool)
    (pWordMembers : Nat → Nat) (width bpp numX numY : Nat) (scratch : Int → Int → Scratch)
    (steps : List (Int × Int))
    (htile : ∀ (tile : Nat → Pixel32) (step : Int × Int) (o : Nat × Nat × Nat × Nat),
      step ∈ steps →
      wordOffsets PVRTCII numX numY (wordIndices numX numY step.1 step.2) = some o →
      ∀ w, w ∈ mapDecompressedDataWrites width (wordIndices numX numY step.1 step.2) bpp →
        p (pvrtcGetDecompressedPixels PVRTCII (readWord pWordMembers o.1)
          (readWord pWordMembers o.2.1) (readWord pWordMembers o.2.2.1)
          (readWord pWordMembers o.2.2.2) tile bpp (scratch step.1 step.2) w.2))
    (st st2 : (Nat → Pixel32) × (Nat → Pixel32)) (idx : Nat)
    (hrun : steps.foldlM (decompressBlock PVRTCII pWordMembers width bpp numX numY scratch) st =
      some st2)
    (h : (idx ∈ steps.flatMap fun step =>
      (mapDecompressedDataWrites width (wordIndices numX numY step.1 step.2) bpp).map Prod.fst) ∨
      p (st.1 idx)) :
    p (st2.1 idx) := by
  induction steps generalizing st with
  | nil =>
    simp only [List.foldlM_nil] at hrun
    cases hrun
    rcases h with h | h
    · cases h
    · exact h
  | cons s steps ih =>
    rw [List.foldlM_cons] at hrun
    cases hb : decompressBlock PVRTCII pWordMembers width bpp numX numY scratch st s with
    | none => rw [hb] at hrun; cases hrun
    | some st1 =>
      rw [hb] at hrun
      apply ih (fun tile step o hs => htile tile step o (List.mem_cons_of_mem _ hs)) st1 hrun
      unfold decompressBlock at hb
      dsimp only at hb
      cases ho : wordOffsets PVRTCII numX numY (wordIndices numX numY s.1 s.2) with
      | none => rw [ho] at hb; cases hb
      | some o =>
        rw [ho] at hb
        cases hb
        rw [List.flatMap_cons, List.mem_append] at h
        by_cases hin : idx ∈ (mapDecompressedDataWrites width
            (wordIndices numX numY s.1 s.2) bpp).map Prod.fst
        · right
          exact foldl_setAt_all p _ _
            (htile st.2 s o (List.mem_cons_self _ _) ho) st.1 idx (Or.inl hin)
        · rcases h with (h | h) | h
          · exact absurd h hin
          · exact Or.inl h
          · right
            exact foldl_setAt_all p _ _
              (htile st.2 s o (List.mem_cons_self _ _) ho) st.1 idx (Or.inr h)

/-- Two runs of the walker that differ only in the initial content of the raster end with
the same tile buffer and with rasters that agree on every stored element. -/
theorem foldlM_decompressBlock_agree (PVRTCII : Bool) (pWordMembers : Nat → Nat)
    (width bpp numX numY : Nat) (scratch : Int → Int → Scratch) (steps : List (Int × Int))
    (o1 o2 tile : Nat → Pixel32) (s1 s2 : (Nat → Pixel32) × (Nat → Pixel32)) (idx : Nat)
    (hrun1 : steps.foldlM (decompressBlock PVRTCII pWordMembers width bpp numX numY scratch)
      (o1, tile) = some s1)
    (hrun2 : steps.foldlM (decompressBlock PVRTCII pWordMembers width bpp numX numY scratch)
      (o2, tile) = some s2)
    (h : (idx ∈ steps.flatMap fun step =>
      (mapDecompressedDataWrites width (wordIndices numX numY step.1 step.2) bpp).map Prod.fst) ∨
      o1 idx = o2 idx) :
    s1.1 idx = s2.1 idx := by
  induction steps generalizing o1 o2 tile with
  | nil =>
    simp only [List.foldlM_nil] at hrun1 hrun2
    cases hrun1
    cases hrun2
    rcases h with h | h
    · cases h
    · exact h
  | cons s steps ih =>
    rw [List.foldlM_cons] at hrun1 hrun2
    unfold decompressBlock at hrun1 hrun2
    dsimp only at hrun1 hrun2
    cases ho : wordOffsets PVRTCII numX numY (wordIndices numX numY s.1 s.2) with
    | none => rw [ho] at hrun1; cases hrun1
    | some o =>
      rw [ho] at hrun1 hrun2
      apply ih _ _ _ hrun1 hrun2
      rw [List.flatMap_cons, List.mem_append] at h
      by_cases hin : idx ∈ (mapDecompressedDataWrites width
          (wordIndices numX numY s.1 s.2) bpp).map Prod.fst
      · right
        exact foldl_setAt_agree _ _ o1 o2 idx (Or.inl hin)
      · rcases h with (h | h) | h
        · exact absurd h hin
        · exact Or.inl h
        · right
          exact foldl_setAt_agree _ _ o1 o2 idx (Or.inr h)


/-! ## A tile of four identical words with weight 0 -/

/-- The 4bpp interpolation of a 5-bit channel between four equal corners, narrowed. -/
theorem widen_rgb (c : Nat) (hc : c ≤ 31) :
    toU8 (((16 * (c : Int)) >>> (6 : Nat)) + ((16 * (c : Int)) >>> (1 : Nat))) =
      8 * c + c >>> 2 := by
  interval_cases c <;> rfl

/-- The 4bpp interpolation of a 4-bit alpha between four equal corners, narrowed. -/
theorem widen_alpha (a : Nat) (ha : a ≤ 15) :
    toU8 (((16 * (a : Int)) >>> (4 : Nat)) + 16 * (a : Int)) = 17 * a := by
  interval_cases a <;> rfl

theorem interpolateColors_four_equal (C : Pixel32) (pPixel : Nat → Pixel128S) (i j : Nat)
    (hi : i < 4) (hj : j < 4) :
    interpolateColors C C C C pPixel 4 (i * 4 + j) =
      shiftOut4 ⟨16 * (C.red : Int), 16 * (C.green : Int), 16 * (C.blue : Int),
        16 * (C.alpha : Int)⟩ := by
  rw [interpolateColors_four C C C C pPixel i j hi hj]
  congr 1
  ext <;> dsimp only <;> ring

theorem blendTexel_zero (PVRTCII : Bool) (A B : Pixel128S) : blendTexel PVRTCII A B 0 = A := by
  rw [blendTexel_plain PVRTCII A B 0 (by decide)]
  ext <;> simp

/-- With four identical words, `modulationData = 0` and the mode flag clear, every texel
of the 4bpp tile is Color A widened to 8 bits. -/
theorem tile_uniform (PVRTCII : Bool) (w : PVRTCWord) (hmod : w.modulationData = 0)
    (hflag : w.colorData &&& 1 = 0) (pColorData : Nat → Pixel32) (scratch : Scratch)
    (k : Nat) (hk : k < 16) :
    pvrtcGetDecompressedPixels PVRTCII w w w w pColorData 4 scratch k =
      ⟨8 * (getColorA PVRTCII w.colorData).red + (getColorA PVRTCII w.colorData).red >>> 2,
        8 * (getColorA PVRTCII w.colorData).green + (getColorA PVRTCII w.colorData).green >>> 2,
        8 * (getColorA PVRTCII w.colorData).blue + (getColorA PVRTCII w.colorData).blue >>> 2,
        17 * (getColorA PVRTCII w.colorData).alpha⟩ := by
  have hx : k / 4 < 4 := by omega
  have hy : k % 4 < 4 := by omega
  have hkxy : k = k % 4 + k / 4 * 4 := by omega
  obtain ⟨hr, hg, hb, ha⟩ := getColorA_le PVRTCII w.colorData
  rw [hkxy, compositor_four PVRTCII w w w w pColorData scratch (k / 4) (k % 4) hx hy,
    texelModulation_four w w w w scratch (k / 4) (k % 4) hx hy]
  have hw : (if k / 4 < 2 then (if k % 4 < 2 then w else w) else (if k % 4 < 2 then w else w)) = w := by
    split_ifs <;> rfl
  rw [hw, hmod, if_neg (by rw [hflag]; decide)]
  have h0 : code4Plain ((0 >>> (2 * (4 * ((k / 4 + 2) % 4) + (k % 4 + 2) % 4))) &&& 3) = 0 := by
    rw [Nat.zero_shiftRight]
    rfl
  rw [h0, blendTexel_zero]
  unfold upscaledColorA
  rw [interpolateColors_four_equal _ _ (k % 4) (k / 4) hy hx]
  unfold shiftOut4 Pixel128S.narrow
  dsimp only
  rw [widen_rgb _ hr, widen_rgb _ hg, widen_rgb _ hb, widen_alpha _ ha]

/-- Every store of `mapDecompressedData` in 4bpp mode reads the tile below index 16. -/
theorem mapDecompressedDataWrites_snd_lt (width : Nat) (words : PVRTCWordIndices)
    (w : Nat × Nat) (h : w ∈ mapDecompressedDataWrites width words 4) : w.2 < 16 := by
  unfold mapDecompressedDataWrites at h
  have h4 : (4 : Nat) ≠ 2 := by decide
  simp only [h4, if_false, List.mem_flatMap, List.mem_range, List.mem_cons,
    List.mem_singleton, List.not_mem_nil, or_false] at h
  obtain ⟨y, hy, x, hx, hw⟩ := h
  rcases hw with rfl | rfl | rfl | rfl <;> dsimp only <;> omega

/-- The run of the walker behind a result of `pvrtcDecompress`. -/
theorem pvrtcDecompress_run (PVRTCII : Bool) (pCompressedData : Nat → Nat)
    (pDecompressedData : Nat → Pixel32) (width height bpp : Nat)
    (scratch : Int → Int → Scratch) (r : (Nat → Pixel32) × Nat)
    (hrun : pvrtcDecompress PVRTCII pCompressedData pDecompressedData width height bpp scratch =
      some r) :
    ∃ st, (walkerSteps (width / (if bpp = 2 then 8 else 4)) (height / 4)).foldlM
        (decompressBlock PVRTCII pCompressedData width bpp (width / (if bpp = 2 then 8 else 4))
          (height / 4) scratch) (pDecompressedData, fun _ => ⟨0, 0, 0, 0⟩) = some st ∧
      st.1 = r.1 := by
  unfold pvrtcDecompress at hrun
  dsimp only at hrun
  cases hf : (walkerSteps (width / (if bpp = 2 then 8 else 4)) (height / 4)).foldlM
    (decompressBlock PVRTCII pCompressedData width bpp (width / (if bpp = 2 then 8 else 4))
      (height / 4) scratch) (pDecompressedData, fun _ => ⟨0, 0, 0, 0⟩) with
  | none => rw [hf] at hrun; cases hrun
  | some st =>
    rw [hf] at hrun
    cases hrun
    exact ⟨st, rfl, rfl⟩

/-- A word read at an even offset from a buffer of identical words. -/
theorem readWord_identical (d : Nat → Nat) (c n p : Nat)
    (hwords : ∀ k, k < n → d (2 * k) = 0 ∧ d (2 * k + 1) = c)
    (h0 : u32 (p * 2) < 2 * n) : readWord d (u32 (p * 2)) = ⟨0, c⟩ := by
  have hlt : u32 (p * 2) < 2 ^ 32 := Nat.mod_lt _ (by decide)
  have hev : u32 (p * 2) = 2 * (u32 (p * 2) / 2) := by
    unfold u32
    omega
  have hk : u32 (p * 2) / 2 < n := by omega
  have h1 : u32 (u32 (p * 2) + 1) = 2 * (u32 (p * 2) / 2) + 1 := by
    rw [u32_of_lt _ (by omega)]
    omega
  unfold readWord
  rw [h1, (hwords _ hk).2]
  have h2 : d (u32 (p * 2)) = 0 := by
    rw [hev]
    exact (hwords _ hk).1
  rw [h2]

/-- A 4bpp image of identical words with `modulationData = 0` and the mode flag clear:
`pvrtcDecompress` returns, and every element of the raster it stores is Color A widened
to 8 bits. -/
theorem pvrtcDecompress_uniform (PVRTCII : Bool) (d : Nat → Nat) (c a b : Nat)
    (img : Nat → Pixel32) (scratch : Int → Int → Scratch)
    (hw : 2 ^ a * 4 < 2 ^ 32) (hh : 2 ^ b * 4 < 2 ^ 32) (hflag : c &&& 1 = 0)
    (hwords : ∀ k, k < 2 ^ a * 2 ^ b → d (2 * k) = 0 ∧ d (2 * k + 1) = c) :
    ∃ out ret, pvrtcDecompress PVRTCII d img (2 ^ a * 4) (2 ^ b * 4) 4 scratch =
        some (out, ret) ∧
      ∀ idx, idx ∈ pvrtcDecompressWrites (2 ^ a * 4) (2 ^ b * 4) 4 →
        out idx =
          ⟨8 * (getColorA PVRTCII c).red + (getColorA PVRTCII c).red >>> 2,
            8 * (getColorA PVRTCII c).green + (getColorA PVRTCII c).green >>> 2,
            8 * (getColorA PVRTCII c).blue + (getColorA PVRTCII c).blue >>> 2,
            17 * (getColorA PVRTCII c).alpha⟩ := by
  have ha : a ≤ 29 := by
    have h5 : (2 : Nat) ^ a < 2 ^ 30 := by omega
    have := (Nat.pow_lt_pow_iff_right (by decide : 1 < 2)).1 h5
    omega
  have hb : b ≤ 29 := by
    have h5 : (2 : Nat) ^ b < 2 ^ 30 := by omega
    have := (Nat.pow_lt_pow_iff_right (by decide : 1 < 2)).1 h5
    omega
  obtain ⟨out, hout⟩ := pvrtcDecompress_total PVRTCII d img (2 ^ a * 4) (2 ^ b * 4) 4 scratch
    hw hh
  obtain ⟨st, hst, hst1⟩ := pvrtcDecompress_run _ _ _ _ _ _ _ _ hout
  have h4 : (4 : Nat) ≠ 2 := by decide
  have e1 : 2 ^ a * 4 / (if (4 : Nat) = 2 then 8 else 4) = 2 ^ a := by
    simp only [h4, if_false]
    omega
  have e2 : 2 ^ b * 4 / 4 = 2 ^ b := by omega
  rw [e1, e2] at hst
  have hn : 2 * 2 ^ a * 2 ^ b = 2 * (2 ^ a * 2 ^ b) := by ring
  refine ⟨out, _, hout, fun idx hidx => ?_⟩
  unfold pvrtcDecompressWrites at hidx
  dsimp only at hidx
  rw [e1, e2] at hidx
  have key := foldlM_decompressBlock_all
    (fun px => px =
      (⟨8 * (getColorA PVRTCII c).red + (getColorA PVRTCII c).red >>> 2,
        8 * (getColorA PVRTCII c).green + (getColorA PVRTCII c).green >>> 2,
        8 * (getColorA PVRTCII c).blue + (getColorA PVRTCII c).blue >>> 2,
        17 * (getColorA PVRTCII c).alpha⟩ : Pixel32))
    PVRTCII d (2 ^ a * 4) 4 (2 ^ a) (2 ^ b) scratch (walkerSteps (2 ^ a) (2 ^ b))
    (fun tile step o _ ho w hwm => by
      obtain ⟨p, q, r, s, ho2, hp0, _, hq0, _, hr0, _, hs0, _⟩ :=
        wordOffsets_some PVRTCII a b ha hb step.1 step.2
      rw [ho2] at ho
      cases ho
      dsimp only
      rw [hn] at hp0 hq0 hr0 hs0
      rw [readWord_identical d c _ p hwords hp0, readWord_identical d c _ q hwords hq0,
        readWord_identical d c _ r hwords hr0, readWord_identical d c _ s hwords hs0]
      exact tile_uniform PVRTCII ⟨0, c⟩ rfl hflag tile _ w.2
        (mapDecompressedDataWrites_snd_lt _ _ w hwm))
    (img, fun _ => ⟨0, 0, 0, 0⟩) st idx hst (Or.inl hidx)
  have hst2 : st.1 = out := hst1
  rw [← hst2]
  exact key



/-! ## The uniform image -/

/-- C19 (amended): for every 4bpp image with a power-of-two block grid of `2^a x 2^b`
blocks and at most `2^32` pixels whose compressed words are all identical, with
`modulationData = 0` and the modulation-mode flag (bit 0 of `colorData`) clear, every
output pixel has the same colour, Color A widened to 8 bits: each RGB channel is
`8*c + (c >> 2)` for the 5-bit internal value `c` of Color A and alpha is `17*a` for its
4-bit internal alpha `a`; at or above the minimum 8 x 8 the entry point is this call of
`pvrtcDecompress`, with the assertions compiled in or out. -/
theorem uniform_image (PVRTCII NDEBUG : Bool) (d : Nat → Nat) (c a b : Nat)
    (img fresh : Nat → Pixel32) (scratch : Int → Int → Scratch)
    (hN : (2 ^ a * 4) * (2 ^ b * 4) ≤ 2 ^ 32) (hflag : c &&& 1 = 0)
    (hwords : ∀ k, k < 2 ^ a * 2 ^ b → d (2 * k) = 0 ∧ d (2 * k + 1) = c) :
    (∃ out ret, pvrtcDecompress PVRTCII d img (2 ^ a * 4) (2 ^ b * 4) 4 scratch =
        some (out, ret) ∧
      ∀ idx, idx < (2 ^ a * 4) * (2 ^ b * 4) →
        out idx =
          ⟨8 * (getColorA PVRTCII c).red + (getColorA PVRTCII c).red >>> 2,
            8 * (getColorA PVRTCII c).green + (getColorA PVRTCII c).green >>> 2,
            8 * (getColorA PVRTCII c).blue + (getColorA PVRTCII c).blue >>> 2,
            17 * (getColorA PVRTCII c).alpha⟩) ∧
    (1 ≤ a → 1 ≤ b →
      PVRTDecompressPVRTC_int PVRTCII NDEBUG d 0 (2 ^ a * 4) (2 ^ b * 4) img fresh scratch =
        pvrtcDecompress PVRTCII d img (2 ^ a * 4) (2 ^ b * 4) 4 scratch) := by
  have hpa : 0 < 2 ^ a := pow_pos (by decide) _
  have hpb : 0 < 2 ^ b := pow_pos (by decide) _
  have hw : 2 ^ a * 4 < 2 ^ 32 := by
    have : 2 ^ a * 4 * 4 ≤ 2 ^ a * 4 * (2 ^ b * 4) := Nat.mul_le_mul_left _ (by omega)
    omega
  have hh : 2 ^ b * 4 < 2 ^ 32 := by
    have : 4 * (2 ^ b * 4) ≤ 2 ^ a * 4 * (2 ^ b * 4) := Nat.mul_le_mul_right _ (by omega)
    omega
  constructor
  · obtain ⟨out, ret, hout, hall⟩ := pvrtcDecompress_uniform PVRTCII d c a b img scratch hw hh
      hflag hwords
    refine ⟨out, ret, hout, fun idx hidx => hall idx ?_⟩
    exact walker_covers (2 ^ a) (2 ^ b) 4 4 idx rfl (Or.inr rfl) hpa hpb hN hidx
  · intro ha hb
    have h2a : 2 ≤ 2 ^ a := by
      calc 2 = 2 ^ 1 := rfl
        _ ≤ 2 ^ a := Nat.pow_le_pow_right (by decide) ha
    have h2b : 2 ≤ 2 ^ b := by
      calc 2 = 2 ^ 1 := rfl
        _ ≤ 2 ^ b := Nat.pow_le_pow_right (by decide) hb
    exact PVRTDecompressPVRTC_int_direct PVRTCII NDEBUG d 0 _ _ img fresh scratch
      (by show 8 ≤ 2 ^ a * 4; omega) (by omega)

/-- Witness of C19 (amended): the minimum 8 x 8 image of 4 identical words with
`colorData = 0x801FFC00` (opaque Color A pure red, Color B pure blue) and
`modulationData = 0`: every pixel is `(R, G, B, A) = (255, 0, 0, 255)`. -/
theorem uniform_image_witness :
    (2 ^ 1 * 4) * (2 ^ 1 * 4) ≤ 2 ^ 32 ∧ (0x801FFC00 : Nat) &&& 1 = 0 ∧
    ∃ out ret,
      pvrtcDecompress false (fun i => if i % 2 = 0 then 0 else 0x801FFC00)
        (fun _ => ⟨1, 2, 3, 4⟩) (2 ^ 1 * 4) (2 ^ 1 * 4) 4
        (fun _ _ => ⟨fun _ _ => 0, fun _ _ => 0, fun _ => ⟨0, 0, 0, 0⟩, fun _ => ⟨0, 0, 0, 0⟩⟩) =
        some (out, ret) ∧
      ∀ idx, idx < (2 ^ 1 * 4) * (2 ^ 1 * 4) → out idx = ⟨255, 0, 0, 255⟩ :=
  ⟨by decide, by decide,
    (uniform_image false false (fun i => if i % 2 = 0 then 0 else 0x801FFC00) 0x801FFC00 1 1
      (fun _ => ⟨1, 2, 3, 4⟩) (fun _ => ⟨0, 0, 0, 0⟩)
      (fun _ _ => ⟨fun _ _ => 0, fun _ _ => 0, fun _ => ⟨0, 0, 0, 0⟩, fun _ => ⟨0, 0, 0, 0⟩⟩)
      (by decide) (by decide)
      (fun k _ => ⟨by simp, by
        have h : (2 * k + 1) % 2 ≠ 0 := by omega
        simp only [h, if_false]⟩)).1⟩

/-- Counterexample to C19 as stated: the 4bpp image of 131072 x 65536 pixels (a grid of
`2^15 x 2^14` blocks) of identical words with `colorData = 0x801FFC00` and
`modulationData = 0`.  The decoder computes output indices in `uint32_t`, so the output
pixel at index `2^32`, below `width*height = 2^33`, is never written and keeps its
previous content `(1,2,3,4)` instead of `(255,0,0,255)`. -/
theorem uniform_image_wrap :
    (131072 = 2 ^ 15 * 4 ∧ 65536 = 2 ^ 14 * 4 ∧ 4294967296 < 131072 * 65536) ∧
    ∃ out ret,
      pvrtcDecompress false (fun i => if i % 2 = 0 then 0 else 0x801FFC00)
        (fun _ => ⟨1, 2, 3, 4⟩) 131072 65536 4
        (fun _ _ => ⟨fun _ _ => 0, fun _ _ => 0, fun _ => ⟨0, 0, 0, 0⟩, fun _ => ⟨0, 0, 0, 0⟩⟩) =
        some (out, ret) ∧
      out 4294967296 = ⟨1, 2, 3, 4⟩ ∧ out 4294967296 ≠ ⟨255, 0, 0, 255⟩ := by
  refine ⟨by decide, ?_⟩
  obtain ⟨out, hout⟩ := pvrtcDecompress_total false (fun i => if i % 2 = 0 then 0 else 0x801FFC00)
    (fun _ => ⟨1, 2, 3, 4⟩) 131072 65536 4
    (fun _ _ => ⟨fun _ _ => 0, fun _ _ => 0, fun _ => ⟨0, 0, 0, 0⟩, fun _ => ⟨0, 0, 0, 0⟩⟩)
    (by decide) (by decide)
  have hf : out 4294967296 = ⟨1, 2, 3, 4⟩ :=
    pvrtcDecompress_frame false _ _ _ _ _ _ _ 4294967296 hout (fun h => by
      have := pvrtcDecompressWrites_lt_u32 _ _ _ _ h
      omega)
  refine ⟨out, _, hout, hf, ?_⟩
  rw [hf]
  decide


/-! ## The 2bpp codes read through `RepVals0` -/

theorem xor_parity_sub (a b ox oy : Nat) (hox : ox % 2 = 0) (hoy : oy % 2 = 0) (ha : ox ≤ a)
    (hb : oy ≤ b) : ((a - ox) ^^^ (b - oy)) &&& 1 = (a ^^^ b) &&& 1 := by
  rw [Nat.and_one_is_mod, Nat.and_one_is_mod, Nat.xor_mod_two_eq, Nat.xor_mod_two_eq]
  omega

theorem selectModulationMode_fst_ne_zero (m : Nat) : (selectModulationMode m).1 ≠ 0 := by
  rw [selectModulationMode_fst]
  split_ifs <;> decide

/-- One 2bpp call of `unpackModulations` at even offsets: inside the region of the word
every cell that is stored (even checkerboard position) or tagged direct holds a code in
`0..3`; the property is kept outside the region. -/
theorem unpackModulations_two_codes (word : PVRTCWord) (ox oy : Nat) (g : Grid × Grid)
    (a b : Nat) (hox : ox % 2 = 0) (hoy : oy % 2 = 0)
    (h : (ox ≤ a ∧ a < ox + 8 ∧ oy ≤ b ∧ b < oy + 4) ∨
      (((a ^^^ b) &&& 1 = 0 ∨ g.2 a b = 0) → 0 ≤ g.1 a b ∧ g.1 a b ≤ 3)) :
    ((a ^^^ b) &&& 1 = 0 ∨ (unpackModulations word ox oy g 2).2 a b = 0) →
      0 ≤ (unpackModulations word ox oy g 2).1 a b ∧
        (unpackModulations word ox oy g 2).1 a b ≤ 3 := by
  by_cases hflag : word.colorData &&& 1 = 0
  · rw [unpackModulations_two_direct word ox oy g hflag]
    dsimp only
    by_cases hreg : ox ≤ a ∧ a < ox + 8 ∧ oy ≤ b ∧ b < oy + 4
    · rw [if_pos hreg, if_pos hreg]
      intro _
      split_ifs <;> decide
    · rw [if_neg hreg, if_neg hreg]
      rcases h with h | h
      · exact absurd h hreg
      · exact h
  · rw [unpackModulations_two_interp word ox oy g hflag]
    dsimp only
    by_cases hreg : ox ≤ a ∧ a < ox + 8 ∧ oy ≤ b ∧ b < oy + 4
    · rw [if_pos hreg]
      intro hc
      have hpar : ((a - ox) ^^^ (b - oy)) &&& 1 = 0 := by
        rw [xor_parity_sub a b ox oy hox hoy hreg.1 hreg.2.2.1]
        rcases hc with hc | hc
        · exact hc
        · exact absurd (Int.ofNat_eq_zero.1 hc)
            (selectModulationMode_fst_ne_zero word.modulationData)
      rw [if_pos ⟨hreg.1, hreg.2.1, hreg.2.2.1, hreg.2.2.2, hpar⟩]
      have hle : ((selectModulationMode word.modulationData).2 >>>
          (2 * (4 * (b - oy) + (a - ox) / 2))) &&& 3 ≤ 3 := Nat.and_le_right
      omega
    · have hreg2 : ¬ (ox ≤ a ∧ a < ox + 8 ∧ oy ≤ b ∧ b < oy + 4 ∧
          ((a - ox) ^^^ (b - oy)) &&& 1 = 0) :=
        fun h5 => hreg ⟨h5.1, h5.2.1, h5.2.2.1, h5.2.2.2.1⟩
      rw [if_neg hreg, if_neg hreg2]
      rcases h with h | h
      · exact absurd h hreg
      · exact h

/-- After the four 2bpp calls of `unpackModulations` every cell of the 16 x 8 grid that is
stored (even checkerboard position) or tagged direct holds a code in `0..3`, whatever the
grids held before. -/
theorem unpackedGrids_two_codes (P Q R S : PVRTCWord) (scratch : Scratch) (a b : Nat)
    (ha : a < 16) (hb : b < 8) :
    ((a ^^^ b) &&& 1 = 0 ∨ (unpackedGrids P Q R S 2 scratch).2 a b = 0) →
      0 ≤ (unpackedGrids P Q R S 2 scratch).1 a b ∧
        (unpackedGrids P Q R S 2 scratch).1 a b ≤ 3 := by
  unfold unpackedGrids
  simp only [if_true]
  apply unpackModulations_two_codes S 8 4 _ a b (by decide) (by decide)
  by_cases hS : 8 ≤ a ∧ a < 8 + 8 ∧ 4 ≤ b ∧ b < 4 + 4
  · exact Or.inl hS
  right
  apply unpackModulations_two_codes R 0 4 _ a b (by decide) (by decide)
  by_cases hR : 0 ≤ a ∧ a < 0 + 8 ∧ 4 ≤ b ∧ b < 4 + 4
  · exact Or.inl hR
  right
  apply unpackModulations_two_codes Q 8 0 _ a b (by decide) (by decide)
  by_cases hQ : 8 ≤ a ∧ a < 8 + 8 ∧ 0 ≤ b ∧ b < 0 + 4
  · exact Or.inl hQ
  right
  apply unpackModulations_two_codes P 0 0 _ a b (by decide) (by decide)
  left
  omega


/-! ## Range of the modulation weights -/

/-- C20: for every four words `P, Q, R, S` and `bpp` in `{2, 4}`, after the four calls of
`unpackModulations` the weight `w` that `getModulationValues` returns for a texel
`(x, y)` of the decoded tile is either in `[0, 8]` or equal to the punch-through sentinel
`14`; after the punch-through adjustment of the compositor (subtract 10 when the value
exceeds 10) the weight `w2` is in `[0, 8]`, and `w2` is the weight of the blend of
`blendTexel` whenever it blends.  In 2bpp mode every cell of the grid that is read
through the table `RepVals0` (a stored or direct cell: the texel itself or, for an
averaged texel, its neighbours) holds a code in `0..3`. -/
theorem modulation_weight_range (P Q R S : PVRTCWord) (scratch : Scratch) (bpp x y : Nat)
    (hb : bpp = 2 ∨ bpp = 4) (hx : x < (if bpp = 2 then 8 else 4)) (hy : y < 4) :
    let w := getModulationValues (unpackedGrids P Q R S bpp scratch).1
      (unpackedGrids P Q R S bpp scratch).2 (x + (if bpp = 2 then 8 else 4) / 2) (y + 4 / 2) bpp
    let w2 := if w > 10 then w - 10 else w
    ((0 ≤ w ∧ w ≤ 8) ∨ w = 14) ∧ (0 ≤ w2 ∧ w2 ≤ 8) ∧
    (∀ (PVRTCII : Bool) (A B : Pixel128S), ¬ (PVRTCII = true ∧ w > 10) →
      (blendTexel PVRTCII A B w).red = Int.tdiv (A.red * (8 - w2) + B.red * w2) 8 ∧
      (blendTexel PVRTCII A B w).green = Int.tdiv (A.green * (8 - w2) + B.green * w2) 8 ∧
      (blendTexel PVRTCII A B w).blue = Int.tdiv (A.blue * (8 - w2) + B.blue * w2) 8) ∧
    (bpp = 2 → ∀ a b, a < 16 → b < 8 →
      ((a ^^^ b) &&& 1 = 0 ∨ (unpackedGrids P Q R S bpp scratch).2 a b = 0) →
      0 ≤ (unpackedGrids P Q R S bpp scratch).1 a b ∧
        (unpackedGrids P Q R S bpp scratch).1 a b ≤ 3) := by
  intro w w2
  have hcodes : bpp = 2 → ∀ a b, a < 16 → b < 8 →
      ((a ^^^ b) &&& 1 = 0 ∨ (unpackedGrids P Q R S bpp scratch).2 a b = 0) →
      0 ≤ (unpackedGrids P Q R S bpp scratch).1 a b ∧
        (unpackedGrids P Q R S bpp scratch).1 a b ≤ 3 := by
    intro h2 a b ha hb8
    subst h2
    exact unpackedGrids_two_codes P Q R S scratch a b ha hb8
  have hrange : (0 ≤ w ∧ w ≤ 8) ∨ w = 14 := by
    rcases hb with rfl | rfl
    · exact Or.inl (getModulationValues_two_range _ _ _ _)
    · have h4 : (4 : Nat) ≠ 2 := by decide
      simp only [h4, if_false] at hx
      have hw : w = getModulationValues (unpackedGrids P Q R S 4 scratch).1
          (unpackedGrids P Q R S 4 scratch).2 (x + 2) (y + 2) 4 := rfl
      rw [texelModulation_four P Q R S scratch x y hx hy] at hw
      have hc : ((if x < 2 then (if y < 2 then P else Q)
          else (if y < 2 then R else S)).modulationData
          >>> (2 * (4 * ((x + 2) % 4) + (y + 2) % 4))) &&& 3 < 4 := by
        have : ((if x < 2 then (if y < 2 then P else Q)
          else (if y < 2 then R else S)).modulationData
          >>> (2 * (4 * ((x + 2) % 4) + (y + 2) % 4))) &&& 3 ≤ 3 := Nat.and_le_right
        omega
      have := code4_range ((if x < 2 then (if y < 2 then P else Q)
          else (if y < 2 then R else S)).colorData &&& 1 ≠ 0) _ hc
      dsimp only at this
      rw [← hw] at this
      exact this
  have hw2 : 0 ≤ w2 ∧ w2 ≤ 8 := by
    show 0 ≤ (if w > 10 then w - 10 else w) ∧ (if w > 10 then w - 10 else w) ≤ 8
    by_cases h10 : w > 10
    · rw [if_pos h10]; omega
    · rw [if_neg h10]; omega
  refine ⟨hrange, hw2, ?_, hcodes⟩
  intro PVRTCII A B hp
  show (blendTexel PVRTCII A B w).red =
      Int.tdiv (A.red * (8 - (if w > 10 then w - 10 else w)) +
        B.red * (if w > 10 then w - 10 else w)) 8 ∧
    (blendTexel PVRTCII A B w).green =
      Int.tdiv (A.green * (8 - (if w > 10 then w - 10 else w)) +
        B.green * (if w > 10 then w - 10 else w)) 8 ∧
    (blendTexel PVRTCII A B w).blue =
      Int.tdiv (A.blue * (8 - (if w > 10 then w - 10 else w)) +
        B.blue * (if w > 10 then w - 10 else w)) 8
  generalize w = v at hp ⊢
  by_cases h10 : v > 10
  · have hP : PVRTCII = false := by
      cases PVRTCII
      · rfl
      · exact absurd ⟨rfl, h10⟩ hp
    subst hP
    simp [blendTexel, h10]
  · rw [blendTexel_plain PVRTCII A B v h10]
    simp only [h10, if_false, and_self]

/-- Witness of C20: in the 4bpp tile of four flagged words with `modulationData = 0xAAAAAAAA`
every code is `2`; the texel `(1, 2)` has the weight `14`, the punch-through sentinel. -/
theorem modulation_weight_range_witness :
    getModulationValues
        (unpackedGrids ⟨0xAAAAAAAA, 1⟩ ⟨0xAAAAAAAA, 1⟩ ⟨0xAAAAAAAA, 1⟩ ⟨0xAAAAAAAA, 1⟩ 4
          ⟨fun _ _ => 7, fun _ _ => 7, fun _ => ⟨9, 9, 9, 9⟩, fun _ => ⟨9, 9, 9, 9⟩⟩).1
        (unpackedGrids ⟨0xAAAAAAAA, 1⟩ ⟨0xAAAAAAAA, 1⟩ ⟨0xAAAAAAAA, 1⟩ ⟨0xAAAAAAAA, 1⟩ 4
          ⟨fun _ _ => 7, fun _ _ => 7, fun _ => ⟨9, 9, 9, 9⟩, fun _ => ⟨9, 9, 9, 9⟩⟩).2
        (1 + (if 4 = 2 then 8 else 4) / 2) (2 + 4 / 2) 4 = 14 ∧
    ((0 : Int) ≤ (if (14 : Int) > 10 then 14 - 10 else 14) ∧
      (if (14 : Int) > 10 then (14 : Int) - 10 else 14) ≤ 8) := by
  have h := modulation_weight_range ⟨0xAAAAAAAA, 1⟩ ⟨0xAAAAAAAA, 1⟩ ⟨0xAAAAAAAA, 1⟩
    ⟨0xAAAAAAAA, 1⟩ ⟨fun _ _ => 7, fun _ _ => 7, fun _ => ⟨9, 9, 9, 9⟩, fun _ => ⟨9, 9, 9, 9⟩⟩
    4 1 2 (Or.inr rfl) (by decide) (by decide)
  dsimp only at h
  have hw : getModulationValues
        (unpackedGrids ⟨0xAAAAAAAA, 1⟩ ⟨0xAAAAAAAA, 1⟩ ⟨0xAAAAAAAA, 1⟩ ⟨0xAAAAAAAA, 1⟩ 4
          ⟨fun _ _ => 7, fun _ _ => 7, fun _ => ⟨9, 9, 9, 9⟩, fun _ => ⟨9, 9, 9, 9⟩⟩).1
        (unpackedGrids ⟨0xAAAAAAAA, 1⟩ ⟨0xAAAAAAAA, 1⟩ ⟨0xAAAAAAAA, 1⟩ ⟨0xAAAAAAAA, 1⟩ 4
          ⟨fun _ _ => 7, fun _ _ => 7, fun _ => ⟨9, 9, 9, 9⟩, fun _ => ⟨9, 9, 9, 9⟩⟩).2
        (1 + (if 4 = 2 then 8 else 4) / 2) (2 + 4 / 2) 4 = 14 := by decide
  rw [hw] at h
  exact ⟨hw, h.2.1⟩


/-! ## The indices of the walker -/

/-- The function `wrapWordIndex` on the arguments the walker passes, and one step
beyond: `word mod numWords` for every `word` from `-1` to `numWords`. -/
theorem wrapWordIndex_emod (n : Nat) (w : Int) (hn : 0 < n) (hn2 : n < 2 ^ 31)
    (h0 : -1 ≤ w) (h1 : w ≤ n) : ((wrapWordIndex n w : Nat) : Int) = w % (n : Int) := by
  unfold wrapWordIndex
  rw [intToU32_of_nonneg _ (by omega) (by omega)]
  by_cases hneg : w = -1
  · subst hneg
    have e : (-1 : Int) + (n : Int) = ((n - 1 : Nat) : Int) := by omega
    rw [e, Int.toNat_ofNat, Nat.mod_eq_of_lt (by omega)]
    have e2 : (-1 : Int) % (n : Int) = ((n - 1 : Nat) : Int) := by
      rw [← Int.add_mul_emod_self (a := -1) (b := 1) (c := (n : Int)), Int.one_mul, e]
      exact Int.emod_eq_of_lt (by omega) (by omega)
    rw [e2]
  · obtain ⟨k, rfl⟩ : ∃ k : Nat, w = (k : Int) := ⟨w.toNat, by omega⟩
    have e : (k : Int) + (n : Int) = ((k + n : Nat) : Int) := by omega
    rw [e, Int.toNat_ofNat, Nat.add_mod_right]
    norm_cast

/-- C21: for every block grid of `W x H` blocks (`W, H >= 1`, with `W*4` and `H*4` values
of `uint32_t`) and every iteration of the walker, the four block indices satisfy
`P.x, Q.x, R.x, S.x < W` and `P.y, Q.y, R.y, S.y < H` with `Q = ((P.x + 1) mod W, P.y)`,
`R = (P.x, (P.y + 1) mod H)` and `S = (Q.x, R.y)`; `wrapWordIndex(n, w)` equals `w mod n`
for every `w` in `[-1, n]`; in a grid 1 block wide (or tall) every x (or y) index is 0. -/
theorem walker_indices (W H : Nat) (hW : 0 < W) (hH : 0 < H) (hWb : W * 4 < 2 ^ 32)
    (hHb : H * 4 < 2 ^ 32) :
    (∀ step, step ∈ walkerSteps W H →
      let idx := wordIndices W H step.1 step.2
      (idx.P.1 < W ∧ idx.Q.1 < W ∧ idx.R.1 < W ∧ idx.S.1 < W) ∧
      (idx.P.2 < H ∧ idx.Q.2 < H ∧ idx.R.2 < H ∧ idx.S.2 < H) ∧
      idx.Q = ((idx.P.1 + 1) % W, idx.P.2) ∧
      idx.R = (idx.P.1, (idx.P.2 + 1) % H) ∧
      idx.S = (idx.Q.1, idx.R.2) ∧
      (W = 1 → idx.P.1 = 0 ∧ idx.Q.1 = 0 ∧ idx.R.1 = 0 ∧ idx.S.1 = 0) ∧
      (H = 1 → idx.P.2 = 0 ∧ idx.Q.2 = 0 ∧ idx.R.2 = 0 ∧ idx.S.2 = 0)) ∧
    (∀ w : Int, -1 ≤ w → w ≤ W → ((wrapWordIndex W w : Nat) : Int) = w % (W : Int)) ∧
    (∀ w : Int, -1 ≤ w → w ≤ H → ((wrapWordIndex H w : Nat) : Int) = w % (H : Int)) := by
  refine ⟨?_, fun w h0 h1 => wrapWordIndex_emod W w hW (by omega) h0 h1,
    fun w h0 h1 => wrapWordIndex_emod H w hH (by omega) h0 h1⟩
  intro step hstep
  obtain ⟨j, hj, i, hi, rfl⟩ := (mem_walkerSteps W H step).1 hstep
  dsimp only
  rw [wordIndices_walker W H i j (by omega) (by omega) hi hj]
  dsimp only
  have hmodW : ((if i = 0 then W - 1 else i - 1) + 1) % W = i := by
    by_cases h0 : i = 0
    · rw [if_pos h0, h0, Nat.sub_add_cancel hW, Nat.mod_self]
    · rw [if_neg h0, Nat.sub_add_cancel (by omega), Nat.mod_eq_of_lt hi]
  have hmodH : ((if j = 0 then H - 1 else j - 1) + 1) % H = j := by
    by_cases h0 : j = 0
    · rw [if_pos h0, h0, Nat.sub_add_cancel hH, Nat.mod_self]
    · rw [if_neg h0, Nat.sub_add_cancel (by omega), Nat.mod_eq_of_lt hj]
  have hpW : (if i = 0 then W - 1 else i - 1) < W := by split <;> omega
  have hpH : (if j = 0 then H - 1 else j - 1) < H := by split <;> omega
  refine ⟨⟨hpW, hi, hpW, hi⟩, ⟨hpH, hpH, hj, hj⟩, ?_, ?_, rfl, ?_, ?_⟩
  · rw [hmodW]
  · rw [hmodH]
  · intro h1
    refine ⟨?_, by omega, ?_, by omega⟩ <;> (split <;> omega)
  · intro h1
    refine ⟨?_, ?_, by omega, by omega⟩ <;> (split <;> omega)

/-- Witness of C21: the grid of 1 x 2 blocks; in the first iteration `(wordX, wordY) =
(-1, -1)` every x index is 0 and `P.y = 1`, `R.y = 0`. -/
theorem walker_indices_witness :
    ((-1 : Int), (-1 : Int)) ∈ walkerSteps 1 2 ∧
    wordIndices 1 2 (-1) (-1) = ⟨(0, 1), (0, 1), (0, 0), (0, 0)⟩ ∧
    (wordIndices 1 2 (-1) (-1)).R =
      ((wordIndices 1 2 (-1) (-1)).P.1, ((wordIndices 1 2 (-1) (-1)).P.2 + 1) % 2) :=
  ⟨by decide, by decide,
    ((walker_indices 1 2 (by decide) (by decide) (by decide) (by decide)).1 (-1, -1)
      (by decide)).2.2.2.1⟩


/-! ## Independence of the tile from the uninitialised arrays -/

/-- Two loops whose bodies agree on the counters they run through are equal. -/
theorem forLoop_congr {σ : Type} (b1 b2 : Nat → σ → σ) (n : Nat)
    (h : ∀ k s, k < n → b1 k s = b2 k s) (s0 : σ) : forLoop n b1 s0 = forLoop n b2 s0 := by
  induction n with
  | zero => rfl
  | succ n ih =>
    rw [forLoop_succ, forLoop_succ, ih (fun k s hk => h k s (by omega)), h n _ (by omega)]

theorem xor_parity (a b : Nat) : (a ^^^ b) &&& 1 = (a + b) % 2 := by
  rw [Nat.and_one_is_mod, Nat.xor_mod_two_eq]

/-- One 2bpp call of `unpackModulations` at even offsets, run on two pairs of grids:
inside the region of the word the mode tags agree, and so do the codes of the cells that
are stored (even checkerboard position) or tagged direct; outside the region the
agreement is kept. -/
theorem unpackModulations_two_agree (word : PVRTCWord) (ox oy : Nat) (g1 g2 : Grid × Grid)
    (a b : Nat) (hox : ox % 2 = 0) (hoy : oy % 2 = 0)
    (h : (ox ≤ a ∧ a < ox + 8 ∧ oy ≤ b ∧ b < oy + 4) ∨
      (g1.2 a b = g2.2 a b ∧
        (((a ^^^ b) &&& 1 = 0 ∨ g1.2 a b = 0) → g1.1 a b = g2.1 a b))) :
    (unpackModulations word ox oy g1 2).2 a b = (unpackModulations word ox oy g2 2).2 a b ∧
    (((a ^^^ b) &&& 1 = 0 ∨ (unpackModulations word ox oy g1 2).2 a b = 0) →
      (unpackModulations word ox oy g1 2).1 a b = (unpackModulations word ox oy g2 2).1 a b) := by
  by_cases hflag : word.colorData &&& 1 = 0
  · rw [unpackModulations_two_direct word ox oy g1 hflag,
      unpackModulations_two_direct word ox oy g2 hflag]
    dsimp only
    by_cases hreg : ox ≤ a ∧ a < ox + 8 ∧ oy ≤ b ∧ b < oy + 4
    · refine ⟨?_, fun _ => ?_⟩ <;> simp only [if_pos hreg]
    · simp only [if_neg hreg]
      rcases h with h | h
      · exact absurd h hreg
      · exact h
  · rw [unpackModulations_two_interp word ox oy g1 hflag,
      unpackModulations_two_interp word ox oy g2 hflag]
    dsimp only
    by_cases hreg : ox ≤ a ∧ a < ox + 8 ∧ oy ≤ b ∧ b < oy + 4
    · refine ⟨by simp only [if_pos hreg], fun hc => ?_⟩
      simp only [if_pos hreg] at hc
      have hpar : ((a - ox) ^^^ (b - oy)) &&& 1 = 0 := by
        rcases hc with hc | hc
        · rw [xor_parity] at hc ⊢
          omega
        · exact absurd (Int.ofNat_eq_zero.1 hc)
            (selectModulationMode_fst_ne_zero word.modulationData)
      rw [if_pos ⟨hreg.1, hreg.2.1, hreg.2.2.1, hreg.2.2.2, hpar⟩,
        if_pos ⟨hreg.1, hreg.2.1, hreg.2.2.1, hreg.2.2.2, hpar⟩]
    · have hreg2 : ¬ (ox ≤ a ∧ a < ox + 8 ∧ oy ≤ b ∧ b < oy + 4 ∧
          ((a - ox) ^^^ (b - oy)) &&& 1 = 0) :=
        fun h5 => hreg ⟨h5.1, h5.2.1, h5.2.2.1, h5.2.2.2.1⟩
      simp only [if_neg hreg, if_neg hreg2]
      rcases h with h | h
      · exact absurd h hreg
      · exact h

/-- After the four 2bpp calls of `unpackModulations` the mode tags of the 16 x 8 grid and
the codes of its stored or direct cells do not depend on the previous content. -/
theorem unpackedGrids_two_agree (P Q R S : PVRTCWord) (s1 s2 : Scratch) (a b : Nat)
    (ha : a < 16) (hb : b < 8) :
    (unpackedGrids P Q R S 2 s1).2 a b = (unpackedGrids P Q R S 2 s2).2 a b ∧
    (((a ^^^ b) &&& 1 = 0 ∨ (unpackedGrids P Q R S 2 s1).2 a b = 0) →
      (unpackedGrids P Q R S 2 s1).1 a b = (unpackedGrids P Q R S 2 s2).1 a b) := by
  unfold unpackedGrids
  simp only [if_true]
  apply unpackModulations_two_agree S 8 4 _ _ a b (by decide) (by decide)
  by_cases hS : 8 ≤ a ∧ a < 8 + 8 ∧ 4 ≤ b ∧ b < 4 + 4
  · exact Or.inl hS
  right
  apply unpackModulations_two_agree R 0 4 _ _ a b (by decide) (by decide)
  by_cases hR : 0 ≤ a ∧ a < 0 + 8 ∧ 4 ≤ b ∧ b < 4 + 4
  · exact Or.inl hR
  right
  apply unpackModulations_two_agree Q 8 0 _ _ a b (by decide) (by decide)
  by_cases hQ : 8 ≤ a ∧ a < 8 + 8 ∧ 0 ≤ b ∧ b < 0 + 4
  · exact Or.inl hQ
  right
  apply unpackModulations_two_agree P 0 0 _ _ a b (by decide) (by decide)
  left
  omega

/-- The function `getModulationValues` in 2bpp mode at an inner position of the grid, with
the neighbour coordinates resolved. -/
theorem getModulationValues_two_inner (mv mm : Grid) (X Y : Nat) (hX : 1 ≤ X) (hX2 : X < 2 ^ 31)
    (hY : 1 ≤ Y) (hY2 : Y < 2 ^ 31) :
    getModulationValues mv mm X Y 2 =
      if mm X Y = 0 then RepVals0 (mv X Y)
      else if (X ^^^ Y) &&& 1 = 0 then RepVals0 (mv X Y)
      else if mm X Y = 1 then
        Int.tdiv (RepVals0 (mv X (Y - 1)) + RepVals0 (mv X (Y + 1)) +
          RepVals0 (mv (X - 1) Y) + RepVals0 (mv (X + 1) Y) + 2) 4
      else if mm X Y = 2 then
        Int.tdiv (RepVals0 (mv (X - 1) Y) + RepVals0 (mv (X + 1) Y) + 1) 2
      else
        Int.tdiv (RepVals0 (mv X (Y - 1)) + RepVals0 (mv X (Y + 1)) + 1) 2 := by
  have e1 : u32 (X + (2 ^ 32 - 1)) = X - 1 := by unfold u32; omega
  have e2 : u32 (X + 1) = X + 1 := by unfold u32; omega
  have e3 : u32 (Y + (2 ^ 32 - 1)) = Y - 1 := by unfold u32; omega
  have e4 : u32 (Y + 1) = Y + 1 := by unfold u32; omega
  unfold getModulationValues
  simp only [e1, e2, e3, e4, if_true]

/-- The weight of a texel of the 2bpp tile does not depend on the previous content of
the grids. -/
theorem texelModulation_two_agree (P Q R S : PVRTCWord) (s1 s2 : Scratch) (x y : Nat)
    (hx : x < 8) (hy : y < 4) :
    getModulationValues (unpackedGrids P Q R S 2 s1).1 (unpackedGrids P Q R S 2 s1).2
        (x + 4) (y + 2) 2 =
      getModulationValues (unpackedGrids P Q R S 2 s2).1 (unpackedGrids P Q R S 2 s2).2
        (x + 4) (y + 2) 2 := by
  rw [getModulationValues_two_inner _ _ (x + 4) (y + 2) (by omega) (by omega) (by omega)
      (by omega),
    getModulationValues_two_inner _ _ (x + 4) (y + 2) (by omega) (by omega) (by omega)
      (by omega)]
  obtain ⟨hm, hv⟩ := unpackedGrids_two_agree P Q R S s1 s2 (x + 4) (y + 2) (by omega) (by omega)
  have hl := (unpackedGrids_two_agree P Q R S s1 s2 (x + 4 - 1) (y + 2) (by omega) (by omega)).2
  have hr := (unpackedGrids_two_agree P Q R S s1 s2 (x + 4 + 1) (y + 2) (by omega) (by omega)).2
  have hu := (unpackedGrids_two_agree P Q R S s1 s2 (x + 4) (y + 2 - 1) (by omega) (by omega)).2
  have hd := (unpackedGrids_two_agree P Q R S s1 s2 (x + 4) (y + 2 + 1) (by omega) (by omega)).2
  rw [← hm]
  by_cases h0 : (unpackedGrids P Q R S 2 s1).2 (x + 4) (y + 2) = 0
  · simp only [h0, if_true]
    rw [hv (Or.inr h0)]
  · by_cases hp : ((x + 4) ^^^ (y + 2)) &&& 1 = 0
    · simp only [h0, hp, if_true, if_false]
      rw [hv (Or.inl hp)]
    · have hodd : (x + 4 + (y + 2)) % 2 = 1 := by
        rw [xor_parity] at hp
        omega
      simp only [h0, hp, if_false]
      rw [hl (Or.inl (by rw [xor_parity]; omega)), hr (Or.inl (by rw [xor_parity]; omega)),
        hu (Or.inl (by rw [xor_parity]; omega)), hd (Or.inl (by rw [xor_parity]; omega))]

theorem upscaledColorA_agree (PVRTCII : Bool) (P Q R S : PVRTCWord) (s1 s2 : Scratch)
    (bpp x y : Nat) (hb : bpp = 2 ∨ bpp = 4) (hx : x < (if bpp = 2 then 8 else 4)) (hy : y < 4) :
    upscaledColorA PVRTCII P Q R S bpp s1 (y * (if bpp = 2 then 8 else 4) + x) =
      upscaledColorA PVRTCII P Q R S bpp s2 (y * (if bpp = 2 then 8 else 4) + x) := by
  unfold upscaledColorA
  rcases hb with rfl | rfl
  · simp only [if_true] at hx ⊢
    rw [interpolateColors_two _ _ _ _ _ x y hx hy, interpolateColors_two _ _ _ _ _ x y hx hy]
  · have h4 : (4 : Nat) ≠ 2 := by decide
    simp only [h4, if_false] at hx ⊢
    rw [interpolateColors_four _ _ _ _ _ y x hy hx, interpolateColors_four _ _ _ _ _ y x hy hx]

theorem upscaledColorB_agree (PVRTCII : Bool) (P Q R S : PVRTCWord) (s1 s2 : Scratch)
    (bpp x y : Nat) (hb : bpp = 2 ∨ bpp = 4) (hx : x < (if bpp = 2 then 8 else 4)) (hy : y < 4) :
    upscaledColorB PVRTCII P Q R S bpp s1 (y * (if bpp = 2 then 8 else 4) + x) =
      upscaledColorB PVRTCII P Q R S bpp s2 (y * (if bpp = 2 then 8 else 4) + x) := by
  unfold upscaledColorB
  rcases hb with rfl | rfl
  · simp only [if_true] at hx ⊢
    rw [interpolateColors_two _ _ _ _ _ x y hx hy, interpolateColors_two _ _ _ _ _ x y hx hy]
  · have h4 : (4 : Nat) ≠ 2 := by decide
    simp only [h4, if_false] at hx ⊢
    rw [interpolateColors_four _ _ _ _ _ y x hy hx, interpolateColors_four _ _ _ _ _ y x hy hx]

theorem texelModulation_agree (P Q R S : PVRTCWord) (s1 s2 : Scratch) (bpp x y : Nat)
    (hb : bpp = 2 ∨ bpp = 4) (hx : x < (if bpp = 2 then 8 else 4)) (hy : y < 4) :
    getModulationValues (unpackedGrids P Q R S bpp s1).1 (unpackedGrids P Q R S bpp s1).2
        (x + (if bpp = 2 then 8 else 4) / 2) (y + 4 / 2) bpp =
      getModulationValues (unpackedGrids P Q R S bpp s2).1 (unpackedGrids P Q R S bpp s2).2
        (x + (if bpp = 2 then 8 else 4) / 2) (y + 4 / 2) bpp := by
  rcases hb with rfl | rfl
  · simp only [if_true] at hx ⊢
    exact texelModulation_two_agree P Q R S s1 s2 x y hx hy
  · have h4 : (4 : Nat) ≠ 2 := by decide
    simp only [h4, if_false] at hx ⊢
    have e : (4 : Nat) / 2 = 2 := by decide
    rw [e, texelModulation_four P Q R S s1 x y hx hy,
      texelModulation_four P Q R S s2 x y hx hy]

/-- The tile produced by `pvrtcGetDecompressedPixels` does not depend on the content of
its uninitialised local arrays. -/
theorem tile_scratch_agree (PVRTCII : Bool) (P Q R S : PVRTCWord) (pColorData : Nat → Pixel32)
    (bpp : Nat) (s1 s2 : Scratch) (hb : bpp = 2 ∨ bpp = 4) :
    pvrtcGetDecompressedPixels PVRTCII P Q R S pColorData bpp s1 =
      pvrtcGetDecompressedPixels PVRTCII P Q R S pColorData bpp s2 := by
  unfold pvrtcGetDecompressedPixels
  dsimp only
  apply forLoop_congr
  intro y out hy
  apply forLoop_congr
  intro x out2 hx
  rw [upscaledColorA_agree PVRTCII P Q R S s1 s2 bpp x y hb hx hy,
    upscaledColorB_agree PVRTCII P Q R S s1 s2 bpp x y hb hx hy,
    texelModulation_agree P Q R S s1 s2 bpp x y hb hx hy]

/-- One iteration of the walker does not depend on the content of the uninitialised
arrays of `pvrtcGetDecompressedPixels`. -/
theorem decompressBlock_scratch_agree (PVRTCII : Bool) (pWordMembers : Nat → Nat)
    (width bpp numX numY : Nat) (sc1 sc2 : Int → Int → Scratch) (hb : bpp = 2 ∨ bpp = 4)
    (st : (Nat → Pixel32) × (Nat → Pixel32)) (step : Int × Int) :
    decompressBlock PVRTCII pWordMembers width bpp numX numY sc1 st step =
      decompressBlock PVRTCII pWordMembers width bpp numX numY sc2 st step := by
  unfold decompressBlock
  dsimp only
  cases wordOffsets PVRTCII numX numY (wordIndices numX numY step.1 step.2) with
  | none => rfl
  | some o =>
    dsimp only
    rw [tile_scratch_agree PVRTCII _ _ _ _ st.2 bpp (sc1 step.1 step.2) (sc2 step.1 step.2) hb]

theorem pvrtcDecompress_scratch_agree (PVRTCII : Bool) (pCompressedData : Nat → Nat)
    (pDecompressedData : Nat → Pixel32) (width height bpp : Nat)
    (sc1 sc2 : Int → Int → Scratch) (hb : bpp = 2 ∨ bpp = 4) :
    pvrtcDecompress PVRTCII pCompressedData pDecompressedData width height bpp sc1 =
      pvrtcDecompress PVRTCII pCompressedData pDecompressedData width height bpp sc2 := by
  unfold pvrtcDecompress
  dsimp only
  rw [foldlM_congr _ _ _ (fun st step _ =>
    decompressBlock_scratch_agree PVRTCII pCompressedData width bpp _ _ sc1 sc2 hb st step)]


/-- C22: the tile produced by `pvrtcGetDecompressedPixels` is the same for any initial
contents of its uninitialised local arrays (`modulationValues`, `modulationModes` and
the two colour arrays), for every `P, Q, R, S`, either format and `bpp` in `{2, 4}`; so
two runs of an entry point on the same arguments give the same raster and the same
returned size, whatever these arrays hold in each iteration, with the assertions compiled
in or out. -/
theorem decoding_is_pure (PVRTCII : Bool) (bpp : Nat) (hb : bpp = 2 ∨ bpp = 4) :
    (∀ (P Q R S : PVRTCWord) (pColorData : Nat → Pixel32) (s1 s2 : Scratch),
      pvrtcGetDecompressedPixels PVRTCII P Q R S pColorData bpp s1 =
        pvrtcGetDecompressedPixels PVRTCII P Q R S pColorData bpp s2) ∧
    (∀ (pCompressedData : Nat → Nat) (pDecompressedData : Nat → Pixel32) (width height : Nat)
      (sc1 sc2 : Int → Int → Scratch),
      pvrtcDecompress PVRTCII pCompressedData pDecompressedData width height bpp sc1 =
        pvrtcDecompress PVRTCII pCompressedData pDecompressedData width height bpp sc2) ∧
    (∀ (NDEBUG : Bool) (pCompressedData : Nat → Nat) (Do2bitMode XDim YDim : Nat)
      (pResultImage fresh : Nat → Pixel32) (sc1 sc2 : Int → Int → Scratch),
      PVRTDecompressPVRTC_int PVRTCII NDEBUG pCompressedData Do2bitMode XDim YDim pResultImage
          fresh sc1 =
        PVRTDecompressPVRTC_int PVRTCII NDEBUG pCompressedData Do2bitMode XDim YDim pResultImage
          fresh sc2) := by
  refine ⟨fun P Q R S pColorData s1 s2 =>
      tile_scratch_agree PVRTCII P Q R S pColorData bpp s1 s2 hb,
    fun d out w h sc1 sc2 => pvrtcDecompress_scratch_agree PVRTCII d out w h bpp sc1 sc2 hb,
    fun NDEBUG d m XDim YDim img fresh sc1 sc2 => ?_⟩
  unfold PVRTDecompressPVRTC_int
  dsimp only
  rw [pvrtcDecompress_scratch_agree PVRTCII d _ _ _ (if m = 1 then 2 else 4) sc1 sc2
    (by split; exact Or.inl rfl; exact Or.inr rfl)]

/-- Witness of C22: a 2bpp tile of four interpolated words decoded over arrays filled
with 7 and with 0 has the same texel at index 13. -/
theorem decoding_is_pure_witness :
    pvrtcGetDecompressedPixels false ⟨0x12345679, 0x801FFC01⟩ ⟨0x9ABCDEF0, 0x7FFF0001⟩
        ⟨0x0F0F0F0F, 0x801FFC00⟩ ⟨0xFFFFFFFF, 0x12345679⟩ (fun _ => ⟨1, 2, 3, 4⟩) 2
        ⟨fun _ _ => 7, fun _ _ => 7, fun _ => ⟨9, 9, 9, 9⟩, fun _ => ⟨9, 9, 9, 9⟩⟩ 13 =
      pvrtcGetDecompressedPixels false ⟨0x12345679, 0x801FFC01⟩ ⟨0x9ABCDEF0, 0x7FFF0001⟩
        ⟨0x0F0F0F0F, 0x801FFC00⟩ ⟨0xFFFFFFFF, 0x12345679⟩ (fun _ => ⟨1, 2, 3, 4⟩) 2
        ⟨fun _ _ => 0, fun _ _ => 0, fun _ => ⟨0, 0, 0, 0⟩, fun _ => ⟨0, 0, 0, 0⟩⟩ 13 :=
  congrFun ((decoding_is_pure false 2 (Or.inl rfl)).1 ⟨0x12345679, 0x801FFC01⟩
    ⟨0x9ABCDEF0, 0x7FFF0001⟩ ⟨0x0F0F0F0F, 0x801FFC00⟩ ⟨0xFFFFFFFF, 0x12345679⟩
    (fun _ => ⟨1, 2, 3, 4⟩)
    ⟨fun _ _ => 7, fun _ _ => 7, fun _ => ⟨9, 9, 9, 9⟩, fun _ => ⟨9, 9, 9, 9⟩⟩
    ⟨fun _ _ => 0, fun _ _ => 0, fun _ => ⟨0, 0, 0, 0⟩, fun _ => ⟨0, 0, 0, 0⟩⟩) 13


/-! ## The tile as a wrapped window of the raster -/

/-- The block after `p` in a row of `n` blocks of `b` pixels, with wrap-around. -/
theorem wrap_block (p n b x : Nat) (hp : p < n) (hx : x < b) :
    (p * b + b + x) % (n * b) = ((p + 1) % n) * b + x := by
  have e : p * b + b = (p + 1) * b := by ring
  rw [e]
  by_cases h : p + 1 = n
  · rw [h, Nat.mod_self, Nat.zero_mul, Nat.zero_add, Nat.add_mod, Nat.mod_self, Nat.zero_add,
      Nat.mod_mod]
    apply Nat.mod_eq_of_lt
    have : 1 * b ≤ n * b := Nat.mul_le_mul_right _ (by omega)
    omega
  · have hlt : p + 1 < n := by omega
    rw [Nat.mod_eq_of_lt hlt]
    apply Nat.mod_eq_of_lt
    have : (p + 1 + 1) * b ≤ n * b := Nat.mul_le_mul_right _ hlt
    have e2 : (p + 1 + 1) * b = (p + 1) * b + b := by ring
    omega

/-- A position inside the block `p`: no wrap-around. -/
theorem inside_block (p n b x : Nat) (hp : p < n) (hx : x < b) :
    (p * b + x) % (n * b) = p * b + x := by
  apply Nat.mod_eq_of_lt
  have : (p + 1) * b ≤ n * b := Nat.mul_le_mul_right _ hp
  have e2 : (p + 1) * b = p * b + b := by ring
  omega

theorem add_mod_inj (A M c c2 : Nat) (hc : c < M) (hc2 : c2 < M)
    (h : (A + c) % M = (A + c2) % M) : c = c2 := by
  have h1 : c ≡ c2 [MOD M] := Nat.ModEq.add_left_cancel' A h
  have h2 : c % M = c2 % M := h1
  rwa [Nat.mod_eq_of_lt hc, Nat.mod_eq_of_lt hc2] at h2

/-- The stores of `mapDecompressedData`, one by one. -/
theorem mem_mapDecompressedDataWrites (width : Nat) (words : PVRTCWordIndices) (bpp : Nat)
    (w : Nat × Nat) :
    w ∈ mapDecompressedDataWrites width words bpp ↔
      ∃ y, y < 2 ∧ ∃ x, x < (if bpp = 2 then 8 else 4) / 2 ∧
        (w = (u32 ((words.P.2 * 4 + y + 2) * width + words.P.1 * (if bpp = 2 then 8 else 4) +
            x + (if bpp = 2 then 8 else 4) / 2), y * (if bpp = 2 then 8 else 4) + x) ∨
         w = (u32 ((words.Q.2 * 4 + y + 2) * width + words.Q.1 * (if bpp = 2 then 8 else 4) +
            x), y * (if bpp = 2 then 8 else 4) + x + (if bpp = 2 then 8 else 4) / 2) ∨
         w = (u32 ((words.R.2 * 4 + y) * width + words.R.1 * (if bpp = 2 then 8 else 4) + x +
            (if bpp = 2 then 8 else 4) / 2), (y + 2) * (if bpp = 2 then 8 else 4) + x) ∨
         w = (u32 ((words.S.2 * 4 + y) * width + words.S.1 * (if bpp = 2 then 8 else 4) + x),
            (y + 2) * (if bpp = 2 then 8 else 4) + x + (if bpp = 2 then 8 else 4) / 2)) := by
  unfold mapDecompressedDataWrites
  simp only [List.mem_flatMap, List.mem_range, List.mem_cons, List.mem_singleton,
    List.not_mem_nil, or_false]

/-- After a sequence of stores, an element stored only with the value `v` holds `v`. -/
theorem foldl_setAt_value {α : Type} (ws : List (Nat × Nat)) (pWord : Nat → α)
    (out : Nat → α) (i : Nat) (v : α) (hmem : i ∈ ws.map Prod.fst)
    (hval : ∀ w, w ∈ ws → w.1 = i → pWord w.2 = v) :
    (ws.foldl (fun out w => setAt out w.1 (pWord w.2)) out) i = v := by
  induction ws generalizing out with
  | nil => cases hmem
  | cons w ws ih =>
    rw [List.foldl_cons]
    by_cases hin : i ∈ ws.map Prod.fst
    · exact ih _ hin (fun v hv => hval v (List.mem_cons_of_mem _ hv))
    · rw [foldl_setAt_frame ws pWord _ i hin]
      rw [List.map_cons, List.mem_cons] at hmem
      rcases hmem with h | h
      · unfold setAt
        rw [if_pos h]
        exact hval w (List.mem_cons_self _ _) h.symm
      · exact absurd h hin

/-- The row and the column of the window, resolved by quadrant. -/
theorem window_row (py H r : Nat) (hpy : py < H) (hr : r < 4) :
    (py * 4 + 2 + r) % (H * 4) =
      if r < 2 then py * 4 + r + 2 else ((py + 1) % H) * 4 + (r - 2) := by
  by_cases h : r < 2
  · rw [if_pos h]
    have e : py * 4 + 2 + r = py * 4 + (r + 2) := by omega
    rw [e, inside_block py H 4 (r + 2) hpy (by omega)]
    omega
  · rw [if_neg h]
    have e : py * 4 + 2 + r = py * 4 + 4 + (r - 2) := by omega
    rw [e, wrap_block py H 4 (r - 2) hpy (by omega)]

theorem window_col (px W b c : Nat) (hb : b = 8 ∨ b = 4) (hpx : px < W) (hc : c < b) :
    (px * b + b / 2 + c) % (W * b) =
      if c < b / 2 then px * b + c + b / 2 else ((px + 1) % W) * b + (c - b / 2) := by
  by_cases h : c < b / 2
  · rw [if_pos h]
    have e : px * b + b / 2 + c = px * b + (c + b / 2) := by omega
    rw [e, inside_block px W b (c + b / 2) hpx (by omega)]
    omega
  · rw [if_neg h]
    have e : px * b + b / 2 + c = px * b + b + (c - b / 2) := by omega
    rw [e, wrap_block px W b (c - b / 2) hpx (by omega)]

/-- The window is a one-to-one image of the tile. -/
theorem window_inj (W H b px py r c r2 c2 : Nat) (hW : 0 < W) (hH : 0 < H)
    (hr : r < 4) (hc : c < b) (hr2 : r2 < 4) (hc2 : c2 < b)
    (h : (py * 4 + 2 + r) % (H * 4) * (W * b) + (px * b + b / 2 + c) % (W * b) =
      (py * 4 + 2 + r2) % (H * 4) * (W * b) + (px * b + b / 2 + c2) % (W * b)) :
    r = r2 ∧ c = c2 := by
  have hb0 : 0 < b := by omega
  have hw0 : 0 < W * b := Nat.mul_pos hW hb0
  have hbW : b ≤ W * b := Nat.le_mul_of_pos_left _ hW
  have h4H : 4 ≤ H * 4 := by omega
  obtain ⟨h1, h2⟩ := linear_inj (W * b) _ _ _ _ (Nat.mod_lt _ hw0) (Nat.mod_lt _ hw0) h
  exact ⟨add_mod_inj (py * 4 + 2) (H * 4) r r2 (by omega) (by omega) h2,
    add_mod_inj (px * b + b / 2) (W * b) c c2 (by omega) (by omega) h1⟩

theorem window_lt (W H b px py r c : Nat) (hW : 0 < W) (hH : 0 < H) (hb : b = 8 ∨ b = 4)
    (hN : (W * b) * (H * 4) ≤ 2 ^ 32) :
    (py * 4 + 2 + r) % (H * 4) * (W * b) + (px * b + b / 2 + c) % (W * b) < 2 ^ 32 := by
  have hb0 : 0 < b := by omega
  have hw0 : 0 < W * b := Nat.mul_pos hW hb0
  exact lt_of_lt_of_le (row_col_lt _ _ (W * b) (H * 4) (Nat.mod_lt _ (by omega))
    (Nat.mod_lt _ hw0)) hN

/-- The stores of `mapDecompressedData` for the block `(px, py)` and its wrapped
neighbours, without wrap-around of the index: the tile texel `(r, c)` goes to the row
`(py*4 + 2 + r) mod height` and the column `(px*b + b/2 + c) mod width`. -/
theorem window_stores (W H bpp b px py : Nat) (hbw : (if bpp = 2 then 8 else 4) = b)
    (hb : b = 8 ∨ b = 4) (hW : 0 < W) (hH : 0 < H) (hN : (W * b) * (H * 4) ≤ 2 ^ 32)
    (hpx : px < W) (hpy : py < H) (w : Nat × Nat) :
    w ∈ mapDecompressedDataWrites (W * b)
        ⟨(px, py), ((px + 1) % W, py), (px, (py + 1) % H), ((px + 1) % W, (py + 1) % H)⟩ bpp ↔
      ∃ r, r < 4 ∧ ∃ c, c < b ∧
        w = ((py * 4 + 2 + r) % (H * 4) * (W * b) + (px * b + b / 2 + c) % (W * b),
          r * b + c) := by
  have key : ∀ r c, r < 4 → c < b →
      (py * 4 + 2 + r) % (H * 4) * (W * b) + (px * b + b / 2 + c) % (W * b) =
        (if r < 2 then py * 4 + r + 2 else ((py + 1) % H) * 4 + (r - 2)) * (W * b) +
          (if c < b / 2 then px * b + c + b / 2 else ((px + 1) % W) * b + (c - b / 2)) := by
    intro r c hr hc
    rw [window_row py H r hpy hr, window_col px W b c hb hpx hc]
  have hlt : ∀ r c, r < 4 → c < b →
      (if r < 2 then py * 4 + r + 2 else ((py + 1) % H) * 4 + (r - 2)) * (W * b) +
          (if c < b / 2 then px * b + c + b / 2 else ((px + 1) % W) * b + (c - b / 2)) <
        2 ^ 32 := by
    intro r c hr hc
    rw [← key r c hr hc]
    exact window_lt W H b px py r c hW hH hb hN
  rw [mem_mapDecompressedDataWrites, hbw]
  dsimp only
  constructor
  · rintro ⟨y, hy, x, hx, h⟩
    rcases h with h | h | h | h
    · refine ⟨y, by omega, x, by omega, ?_⟩
      have h1 := hlt y x (by omega) (by omega)
      rw [key y x (by omega) (by omega)]
      rw [if_pos hy, if_pos hx] at h1 ⊢
      rw [h, u32_of_lt _ (by omega)]
      congr 1
      omega
    · refine ⟨y, by omega, x + b / 2, by omega, ?_⟩
      have h1 := hlt y (x + b / 2) (by omega) (by omega)
      rw [key y (x + b / 2) (by omega) (by omega)]
      rw [if_pos hy, if_neg (by omega), Nat.add_sub_cancel] at h1 ⊢
      rw [h, u32_of_lt _ (by omega)]
      congr 1 <;> omega
    · refine ⟨y + 2, by omega, x, by omega, ?_⟩
      have h1 := hlt (y + 2) x (by omega) (by omega)
      rw [key (y + 2) x (by omega) (by omega)]
      rw [if_neg (by omega), if_pos hx, Nat.add_sub_cancel] at h1 ⊢
      rw [h, u32_of_lt _ (by omega)]
      congr 1
      omega
    · refine ⟨y + 2, by omega, x + b / 2, by omega, ?_⟩
      have h1 := hlt (y + 2) (x + b / 2) (by omega) (by omega)
      rw [key (y + 2) (x + b / 2) (by omega) (by omega)]
      rw [if_neg (by omega), if_neg (by omega), Nat.add_sub_cancel, Nat.add_sub_cancel]
        at h1 ⊢
      rw [h, u32_of_lt _ (by omega)]
      congr 1 <;> omega
  · rintro ⟨r, hr, c, hc, h⟩
    have h1 := hlt r c hr hc
    rw [key r c hr hc] at h
    by_cases hr2 : r < 2
    · by_cases hc2 : c < b / 2
      · refine ⟨r, hr2, c, hc2, Or.inl ?_⟩
        rw [if_pos hr2, if_pos hc2] at h h1
        rw [h, u32_of_lt _ (by omega)]
        congr 1
        omega
      · refine ⟨r, hr2, c - b / 2, by omega, Or.inr (Or.inl ?_)⟩
        rw [if_pos hr2, if_neg hc2] at h h1
        rw [h, u32_of_lt _ (by omega)]
        congr 1 <;> omega
    · by_cases hc2 : c < b / 2
      · refine ⟨r - 2, by omega, c, hc2, Or.inr (Or.inr (Or.inl ?_))⟩
        rw [if_neg hr2, if_pos hc2] at h h1
        rw [h, u32_of_lt _ (by omega)]
        congr 1
        · omega
        · have : r - 2 + 2 = r := by omega
          rw [this]
      · refine ⟨r - 2, by omega, c - b / 2, by omega, Or.inr (Or.inr (Or.inr ?_))⟩
        rw [if_neg hr2, if_neg hc2] at h h1
        rw [h, u32_of_lt _ (by omega)]
        congr 1
        · omega
        · have e : r - 2 + 2 = r := by omega
          rw [e]
          omega

/-- The raster after `mapDecompressedData` holds the tile texel `(r, c)` at the wrapped
position of the window. -/
theorem mapDecompressedData_window (W H bpp b px py : Nat) (pOutput pWord : Nat → Pixel32)
    (hbw : (if bpp = 2 then 8 else 4) = b) (hb : b = 8 ∨ b = 4) (hW : 0 < W) (hH : 0 < H)
    (hN : (W * b) * (H * 4) ≤ 2 ^ 32) (hpx : px < W) (hpy : py < H) (r c : Nat) (hr : r < 4)
    (hc : c < b) :
    mapDecompressedData pOutput (W * b) pWord
        ⟨(px, py), ((px + 1) % W, py), (px, (py + 1) % H), ((px + 1) % W, (py + 1) % H)⟩ bpp
        ((py * 4 + 2 + r) % (H * 4) * (W * b) + (px * b + b / 2 + c) % (W * b)) =
      pWord (r * b + c) := by
  unfold mapDecompressedData
  apply foldl_setAt_value
  · exact List.mem_map.2 ⟨_, (window_stores W H bpp b px py hbw hb hW hH hN hpx hpy _).2
      ⟨r, hr, c, hc, rfl⟩, rfl⟩
  · intro w hw hi
    obtain ⟨r2, hr2, c2, hc2, rfl⟩ :=
      (window_stores W H bpp b px py hbw hb hW hH hN hpx hpy w).1 hw
    obtain ⟨e1, e2⟩ := window_inj W H b px py r2 c2 r c hW hH hr2 hc2 hr hc hi
    rw [e1, e2]


/-- C23 (amended): `mapDecompressedData` places the decoded tile as a toroidally wrapped
window of the output.  For `width = W*blockWidth`, `height = H*4` with at most `2^32`
pixels, a block `P = (px, py)` and `Q, R, S` its wrapped right, below and diagonal
neighbours, the tile texel at row `r`, column `c` (`pWord[r*blockWidth + c]`) is stored
at the output pixel in column `(px*blockWidth + blockWidth/2 + c) mod width` and row
`(py*4 + 2 + r) mod height`, and the raster holds it there after the call. -/
theorem tile_window (W H bpp px py : Nat) (pOutput pWord : Nat → Pixel32) (hW : 0 < W)
    (hH : 0 < H) (hN : (W * (if bpp = 2 then 8 else 4)) * (H * 4) ≤ 2 ^ 32) (hpx : px < W)
    (hpy : py < H) (r c : Nat) (hr : r < 4) (hc : c < (if bpp = 2 then 8 else 4)) :
    let blockWidth := if bpp = 2 then 8 else 4
    let width := W * blockWidth
    let height := H * 4
    let words : PVRTCWordIndices :=
      ⟨(px, py), ((px + 1) % W, py), (px, (py + 1) % H), ((px + 1) % W, (py + 1) % H)⟩
    let col := (px * blockWidth + blockWidth / 2 + c) % width
    let row := (py * 4 + 2 + r) % height
    (row * width + col, r * blockWidth + c) ∈ mapDecompressedDataWrites width words bpp ∧
    mapDecompressedData pOutput width pWord words bpp (row * width + col) =
      pWord (r * blockWidth + c) := by
  have hb : (if bpp = 2 then 8 else 4) = 8 ∨ (if bpp = 2 then 8 else 4) = 4 := by
    split
    · exact Or.inl rfl
    · exact Or.inr rfl
  exact ⟨(window_stores W H bpp _ px py rfl hb hW hH hN hpx hpy _).2 ⟨r, hr, c, hc, rfl⟩,
    mapDecompressedData_window W H bpp _ px py pOutput pWord rfl hb hW hH hN hpx hpy r c hr hc⟩

/-- Witness of C23 (amended): the 4bpp raster of 8 x 8 pixels and `P = (1, 1)`, whose
neighbours all wrap: the tile texel `(3, 3)` goes to row `(4 + 2 + 3) mod 8 = 1` and
column `(4 + 2 + 3) mod 8 = 1`, the index `9`. -/
theorem tile_window_witness :
    (2 * 4) * (2 * 4) ≤ 2 ^ 32 ∧
    mapDecompressedData (fun _ => ⟨0, 0, 0, 0⟩) (2 * 4) (fun k => ⟨k, k, k, k⟩)
      ⟨(1, 1), ((1 + 1) % 2, 1), (1, (1 + 1) % 2), ((1 + 1) % 2, (1 + 1) % 2)⟩ 4 9 =
      ⟨15, 15, 15, 15⟩ :=
  ⟨by decide,
    (tile_window 2 2 4 1 1 (fun _ => ⟨0, 0, 0, 0⟩) (fun k => ⟨k, k, k, k⟩) (by decide)
      (by decide) (by decide) (by decide) (by decide) 3 3 (by decide) (by decide)).2⟩

/-- Counterexample to C23 as stated: the 4bpp raster of 131072 x 65536 pixels (a grid of
`32768 x 16384` blocks) and `P = (0, 8192)`.  The tile texel `(0, 0)` belongs to the row
`(8192*4 + 2) mod 65536 = 32770` and the column `2`, the pixel index `32770*131072 + 2`.
The index is computed in `uint32_t`: the store goes to `262146`, the pixel in row 2 and
column 2, and the pixel in row 32770 keeps its content. -/
theorem tile_window_wrap :
    (131072 = 32768 * 4 ∧ 65536 = 16384 * 4 ∧ (8192 * 4 + 2 + 0) % 65536 = 32770 ∧
      (0 * 4 + 4 / 2 + 0) % 131072 = 2) ∧
    (mapDecompressedDataWrites 131072
      ⟨(0, 8192), ((0 + 1) % 32768, 8192), (0, (8192 + 1) % 16384),
        ((0 + 1) % 32768, (8192 + 1) % 16384)⟩ 4).head? = some (262146, 0) ∧
    (32770 * 131072 + 2, 0) ∉ mapDecompressedDataWrites 131072
      ⟨(0, 8192), ((0 + 1) % 32768, 8192), (0, (8192 + 1) % 16384),
        ((0 + 1) % 32768, (8192 + 1) % 16384)⟩ 4 ∧
    mapDecompressedData (fun _ => ⟨9, 9, 9, 9⟩) 131072 (fun _ => ⟨1, 1, 1, 1⟩)
      ⟨(0, 8192), ((0 + 1) % 32768, 8192), (0, (8192 + 1) % 16384),
        ((0 + 1) % 32768, (8192 + 1) % 16384)⟩ 4 (32770 * 131072 + 2) = ⟨9, 9, 9, 9⟩ := by
  refine ⟨by decide, by decide, by decide, by decide⟩


/-! ## The whole raster -/

/-- After a sequence of stores, an element holds `v` when every store to it stores `v` and
it is stored or held `v` before. -/
theorem foldl_setAt_at {α : Type} (ws : List (Nat × Nat)) (pWord : Nat → α) (i : Nat) (v : α)
    (hval : ∀ w, w ∈ ws → w.1 = i → pWord w.2 = v) (out : Nat → α)
    (h : i ∈ ws.map Prod.fst ∨ out i = v) :
    (ws.foldl (fun out w => setAt out w.1 (pWord w.2)) out) i = v := by
  induction ws generalizing out with
  | nil =>
    rcases h with h | h
    · cases h
    · exact h
  | cons w ws ih =>
    rw [List.foldl_cons]
    apply ih (fun u hu => hval u (List.mem_cons_of_mem _ hu))
    rw [List.map_cons, List.mem_cons] at h
    unfold setAt
    by_cases hw : i = w.1
    · right
      rw [if_pos hw]
      exact hval w (List.mem_cons_self _ _) hw.symm
    · rcases h with (h | h) | h
      · exact absurd h hw
      · exact Or.inl h
      · right
        rw [if_neg hw]
        exact h

/-- If every store of the walker to the element `idx` stores `v`, the raster holds `v`
there at the end, provided the element is stored by some iteration. -/
theorem foldlM_decompressBlock_at (PVRTCII : Bool) (pWordMembers : Nat → Nat)
    (width bpp numX numY : Nat) (scratch : Int → Int → Scratch) (steps : List (Int × Int))
    (idx : Nat) (v : Pixel32)
    (htile : ∀ (tile : Nat → Pixel32) (step : Int × Int) (o : Nat × Nat × Nat × Nat),
      step ∈ steps →
      wordOffsets PVRTCII numX numY (wordIndices numX numY step.1 step.2) = some o →
      ∀ w, w ∈ mapDecompressedDataWrites width (wordIndices numX numY step.1 step.2) bpp →
        w.1 = idx →
        pvrtcGetDecompressedPixels PVRTCII (readWord pWordMembers o.1)
          (readWord pWordMembers o.2.1) (readWord pWordMembers o.2.2.1)
          (readWord pWordMembers o.2.2.2) tile bpp (scratch step.1 step.2) w.2 = v)
    (st st2 : (Nat → Pixel32) × (Nat → Pixel32))
    (hrun : steps.foldlM (decompressBlock PVRTCII pWordMembers width bpp numX numY scratch) st =
      some st2)
    (h : (idx ∈ steps.flatMap fun step =>
      (mapDecompressedDataWrites width (wordIndices numX numY step.1 step.2) bpp).map Prod.fst) ∨
      st.1 idx = v) :
    st2.1 idx = v := by
  induction steps generalizing st with
  | nil =>
    simp only [List.foldlM_nil] at hrun
    cases hrun
    rcases h with h | h
    · cases h
    · exact h
  | cons s steps ih =>
    rw [List.foldlM_cons] at hrun
    cases hb : decompressBlock PVRTCII pWordMembers width bpp numX numY scratch st s with
    | none => rw [hb] at hrun; cases hrun
    | some st1 =>
      rw [hb] at hrun
      apply ih (fun tile step o hs => htile tile step o (List.mem_cons_of_mem _ hs)) st1 hrun
      unfold decompressBlock at hb
      dsimp only at hb
      cases ho : wordOffsets PVRTCII numX numY (wordIndices numX numY s.1 s.2) with
      | none => rw [ho] at hb; cases hb
      | some o =>
        rw [ho] at hb
        cases hb
        rw [List.flatMap_cons, List.mem_append] at h
        by_cases hin : idx ∈ (mapDecompressedDataWrites width
            (wordIndices numX numY s.1 s.2) bpp).map Prod.fst
        · right
          exact foldl_setAt_at _ _ idx v
            (htile st.2 s o (List.mem_cons_self _ _) ho) st.1 (Or.inl hin)
        · rcases h with (h | h) | h
          · exact absurd h hin
          · exact Or.inl h
          · right
            exact foldl_setAt_at _ _ idx v
              (htile st.2 s o (List.mem_cons_self _ _) ho) st.1 (Or.inr h)

/-- Every texel of the tile is written by `pvrtcGetDecompressedPixels`: the tile does not
depend on the previous content of the tile buffer. -/
theorem tile_buffer_agree (PVRTCII : Bool) (P Q R S : PVRTCWord) (t1 t2 : Nat → Pixel32)
    (bpp : Nat) (s : Scratch) (hb : bpp = 2 ∨ bpp = 4) (k : Nat)
    (hk : k < (if bpp = 2 then 8 else 4) * 4) :
    pvrtcGetDecompressedPixels PVRTCII P Q R S t1 bpp s k =
      pvrtcGetDecompressedPixels PVRTCII P Q R S t2 bpp s k := by
  rcases hb with rfl | rfl
  · have hk2 : k < 32 := hk
    have e : k = k / 8 * 8 + k % 8 := by omega
    rw [e, compositor_two PVRTCII P Q R S t1 s (k % 8) (k / 8) (by omega) (by omega),
      compositor_two PVRTCII P Q R S t2 s (k % 8) (k / 8) (by omega) (by omega)]
  · have hk2 : k < 16 := hk
    have e : k = k % 4 + k / 4 * 4 := by omega
    rw [e, compositor_four PVRTCII P Q R S t1 s (k / 4) (k % 4) (by omega) (by omega),
      compositor_four PVRTCII P Q R S t2 s (k / 4) (k % 4) (by omega) (by omega)]

/-- The word indices of an iteration of the walker, written from the block `P`. -/
theorem wordIndices_step (W H i j : Nat) (hW : W ≤ 2 ^ 31) (hH : H ≤ 2 ^ 31) (hi : i < W)
    (hj : j < H) :
    ∃ px py, px < W ∧ py < H ∧
      wordIndices W H ((i : Int) - 1) ((j : Int) - 1) =
        ⟨(px, py), ((px + 1) % W, py), (px, (py + 1) % H), ((px + 1) % W, (py + 1) % H)⟩ := by
  have hwrap : ∀ n k : Nat, k < n → (if k = 0 then n - 1 else k - 1) < n ∧
      ((if k = 0 then n - 1 else k - 1) + 1) % n = k := by
    intro n k hk
    by_cases h0 : k = 0
    · rw [if_pos h0, h0]
      refine ⟨by omega, ?_⟩
      have : n - 1 + 1 = n := by omega
      rw [this, Nat.mod_self]
    · rw [if_neg h0]
      refine ⟨by omega, ?_⟩
      have : k - 1 + 1 = k := by omega
      rw [this, Nat.mod_eq_of_lt hk]
  obtain ⟨h1, h2⟩ := hwrap W i hi
  obtain ⟨h3, h4⟩ := hwrap H j hj
  refine ⟨_, _, h1, h3, ?_⟩
  rw [wordIndices_walker W H i j hW hH hi hj, h2, h4]

/-- The iteration of the walker that has the block `(px, py)` as its word `P`. -/
theorem wordIndices_of_block (W H px py : Nat) (hW : W ≤ 2 ^ 31) (hH : H ≤ 2 ^ 31)
    (hpx : px < W) (hpy : py < H) :
    ∃ i j, i < W ∧ j < H ∧
      wordIndices W H ((i : Int) - 1) ((j : Int) - 1) =
        ⟨(px, py), ((px + 1) % W, py), (px, (py + 1) % H), ((px + 1) % W, (py + 1) % H)⟩ := by
  have hwrap : ∀ n p : Nat, p < n → (p + 1) % n < n ∧
      (if (p + 1) % n = 0 then n - 1 else (p + 1) % n - 1) = p := by
    intro n p hp
    refine ⟨Nat.mod_lt _ (by omega), ?_⟩
    by_cases h : p + 1 = n
    · rw [h, Nat.mod_self, if_pos rfl]
      omega
    · have hlt : p + 1 < n := by omega
      rw [Nat.mod_eq_of_lt hlt, if_neg (by omega)]
      omega
  obtain ⟨h1, h2⟩ := hwrap W px hpx
  obtain ⟨h3, h4⟩ := hwrap H py hpy
  refine ⟨(px + 1) % W, (py + 1) % H, h1, h3, ?_⟩
  rw [wordIndices_walker W H _ _ hW hH h1 h3, h2, h4]

/-- A pixel of the raster belongs to the window of one block, at one texel. -/
theorem window_unique (W H b px py r c px2 py2 r2 c2 : Nat) (hb : b = 8 ∨ b = 4)
    (hpx : px < W) (hpy : py < H) (hr : r < 4) (hc : c < b)
    (hpx2 : px2 < W) (hpy2 : py2 < H) (hr2 : r2 < 4) (hc2 : c2 < b)
    (h : (py * 4 + 2 + r) % (H * 4) * (W * b) + (px * b + b / 2 + c) % (W * b) =
      (py2 * 4 + 2 + r2) % (H * 4) * (W * b) + (px2 * b + b / 2 + c2) % (W * b)) :
    px = px2 ∧ py = py2 ∧ r = r2 ∧ c = c2 := by
  have hb0 : 0 < b := by rcases hb with rfl | rfl <;> decide
  have hWb : 0 < W * b := Nat.mul_pos (by omega) hb0
  have hH4 : 0 < H * 4 := by omega
  obtain ⟨hcol, hrow⟩ := linear_inj (W * b) _ _ _ _ (Nat.mod_lt _ hWb) (Nat.mod_lt _ hWb) h
  have hin : ∀ p t : Nat, p < W → t < b → p * b + t < W * b := by
    intro p t hp ht
    have : (p + 1) * b ≤ W * b := Nat.mul_le_mul_right _ hp
    have e : (p + 1) * b = p * b + b := by ring
    omega
  have e1 : py * 4 + 2 + r = 2 + (py * 4 + r) := by omega
  have e2 : py2 * 4 + 2 + r2 = 2 + (py2 * 4 + r2) := by omega
  rw [e1, e2] at hrow
  have hr3 := add_mod_inj 2 (H * 4) _ _ (by omega) (by omega) hrow
  have e3 : px * b + b / 2 + c = b / 2 + (px * b + c) := by omega
  have e4 : px2 * b + b / 2 + c2 = b / 2 + (px2 * b + c2) := by omega
  rw [e3, e4] at hcol
  have hc3 := add_mod_inj (b / 2) (W * b) _ _ (hin px c hpx hc) (hin px2 c2 hpx2 hc2) hcol
  rcases hb with rfl | rfl <;> exact ⟨by omega, by omega, by omega, by omega⟩


/-- C18 (amended): for every width and height at or above the format minimum that are
multiples of the block size and give a power-of-two block grid (`width = 2^a*blockWidth`,
`height = 2^b*4`, the grids `TwiddleUV` asserts) with at most `2^32` pixels, the entry
point returns, with the assertions compiled in or out, and every one of the
`width*height` texels of the output raster has been written with decoded data: every
pixel lies in the window of a block `(px, py)` at a texel `(r, c)`, and the raster holds
there the texel `r*blockWidth + c` of the tile that `pvrtcGetDecompressedPixels` decodes
from the four words of the block and its right, below and diagonal neighbours, which are
read inside the compressed data. -/
theorem raster_fully_written (PVRTCII NDEBUG : Bool) (pCompressedData : Nat → Nat)
    (Do2bitMode a b : Nat) (img fresh : Nat → Pixel32) (scratch : Int → Int → Scratch)
    (ha : 1 ≤ a) (hb : 1 ≤ b)
    (hN : (2 ^ a * (if Do2bitMode = 1 then 8 else 4)) * (2 ^ b * 4) ≤ 2 ^ 32) :
    let blockWidth := if Do2bitMode = 1 then 8 else 4
    let bpp := if Do2bitMode = 1 then 2 else 4
    let width := 2 ^ a * blockWidth
    let height := 2 ^ b * 4
    ∃ out ret,
      PVRTDecompressPVRTC_int PVRTCII NDEBUG pCompressedData Do2bitMode width height img fresh
        scratch = some (out, ret) ∧
      (∀ idx, idx < width * height →
        ∃ px py r c, px < 2 ^ a ∧ py < 2 ^ b ∧ r < 4 ∧ c < blockWidth ∧
          idx = (py * 4 + 2 + r) % height * width +
            (px * blockWidth + blockWidth / 2 + c) % width) ∧
      (∀ px py r c, px < 2 ^ a → py < 2 ^ b → r < 4 → c < blockWidth →
        ∃ o, wordOffsets PVRTCII (2 ^ a) (2 ^ b)
            ⟨(px, py), ((px + 1) % 2 ^ a, py), (px, (py + 1) % 2 ^ b),
              ((px + 1) % 2 ^ a, (py + 1) % 2 ^ b)⟩ = some o ∧
          (o.1 < 2 * 2 ^ a * 2 ^ b ∧ u32 (o.1 + 1) < 2 * 2 ^ a * 2 ^ b ∧
            o.2.1 < 2 * 2 ^ a * 2 ^ b ∧ u32 (o.2.1 + 1) < 2 * 2 ^ a * 2 ^ b ∧
            o.2.2.1 < 2 * 2 ^ a * 2 ^ b ∧ u32 (o.2.2.1 + 1) < 2 * 2 ^ a * 2 ^ b ∧
            o.2.2.2 < 2 * 2 ^ a * 2 ^ b ∧ u32 (o.2.2.2 + 1) < 2 * 2 ^ a * 2 ^ b) ∧
          ∀ (tile : Nat → Pixel32) (sc : Scratch),
            out ((py * 4 + 2 + r) % height * width +
                (px * blockWidth + blockWidth / 2 + c) % width) =
              pvrtcGetDecompressedPixels PVRTCII (readWord pCompressedData o.1)
                (readWord pCompressedData o.2.1) (readWord pCompressedData o.2.2.1)
                (readWord pCompressedData o.2.2.2) tile bpp sc (r * blockWidth + c)) := by
  intro blockWidth bpp width height
  have hbw : (if bpp = 2 then 8 else 4) = blockWidth := by
    show (if (if Do2bitMode = 1 then 2 else 4) = 2 then 8 else 4) =
      (if Do2bitMode = 1 then 8 else 4)
    split <;> rfl
  have hb8 : blockWidth = 8 ∨ blockWidth = 4 := by
    show (if Do2bitMode = 1 then 8 else 4) = 8 ∨ (if Do2bitMode = 1 then 8 else 4) = 4
    split
    · exact Or.inl rfl
    · exact Or.inr rfl
  have hbpp : bpp = 2 ∨ bpp = 4 := by
    show (if Do2bitMode = 1 then 2 else 4) = 2 ∨ (if Do2bitMode = 1 then 2 else 4) = 4
    split
    · exact Or.inl rfl
    · exact Or.inr rfl
  have hW : 0 < 2 ^ a := pow_pos (by decide) _
  have hH : 0 < 2 ^ b := pow_pos (by decide) _
  have h2a : 2 ≤ 2 ^ a := by
    calc 2 = 2 ^ 1 := rfl
      _ ≤ 2 ^ a := Nat.pow_le_pow_right (by decide) ha
  have h2b : 2 ≤ 2 ^ b := by
    calc 2 = 2 ^ 1 := rfl
      _ ≤ 2 ^ b := Nat.pow_le_pow_right (by decide) hb
  have hN2 : width * height ≤ 2 ^ 32 := hN
  have hminx : (if Do2bitMode = 1 then 16 else 8) ≤ width := by
    show _ ≤ 2 ^ a * (if Do2bitMode = 1 then 8 else 4)
    split <;> omega
  have hminy : 8 ≤ height := by
    show 8 ≤ 2 ^ b * 4
    omega
  have hwl : width < 2 ^ 32 := by
    have : width * 8 ≤ width * height := Nat.mul_le_mul_left _ hminy
    omega
  have hhl : height < 2 ^ 32 := by
    have h8 : 8 ≤ width := le_trans (by split <;> decide) hminx
    have : 8 * height ≤ width * height := Nat.mul_le_mul_right _ h8
    omega
  have h8w : 8 ≤ width := le_trans (by split <;> decide) hminx
  have hb4 : 4 ≤ blockWidth := by rcases hb8 with h | h <;> omega
  have ha29 : a ≤ 29 := grid_exponent_le a blockWidth hb4 hwl
  have hb29 : b ≤ 29 := grid_exponent_le b 4 (le_refl _) hhl
  have hW31 : 2 ^ a ≤ 2 ^ 31 := Nat.pow_le_pow_right (by decide) (by omega)
  have hH31 : 2 ^ b ≤ 2 ^ 31 := Nat.pow_le_pow_right (by decide) (by omega)
  have e1 : width / (if bpp = 2 then 8 else 4) = 2 ^ a := by
    rw [hbw]
    exact Nat.mul_div_cancel _ (by omega)
  have e2 : height / 4 = 2 ^ b := Nat.mul_div_cancel _ (by decide)
  obtain ⟨out, hout⟩ := pvrtcDecompress_total PVRTCII pCompressedData img width height bpp
    scratch hwl hhl
  obtain ⟨st, hst, hst1⟩ := pvrtcDecompress_run _ _ _ _ _ _ _ _ hout
  rw [e1, e2] at hst
  have hst2 : st.1 = out := hst1
  have hcover : ∀ idx, idx < width * height →
      idx ∈ (walkerSteps (2 ^ a) (2 ^ b)).flatMap fun step =>
        (mapDecompressedDataWrites width (wordIndices (2 ^ a) (2 ^ b) step.1 step.2)
          bpp).map Prod.fst := by
    intro idx hidx
    have hmem := walker_covers (2 ^ a) (2 ^ b) blockWidth bpp idx hbw hb8 hW hH hN hidx
    unfold pvrtcDecompressWrites at hmem
    dsimp only at hmem
    rw [e1, e2] at hmem
    exact hmem
  refine ⟨out, _,
    (PVRTDecompressPVRTC_int_direct PVRTCII NDEBUG pCompressedData Do2bitMode width height img
      fresh scratch hminx hminy).trans hout, ?_, ?_⟩
  · intro idx hidx
    have hmem := hcover idx hidx
    rw [List.mem_flatMap] at hmem
    obtain ⟨step, hstep, hw⟩ := hmem
    rw [List.mem_map] at hw
    obtain ⟨w, hw, rfl⟩ := hw
    obtain ⟨j, hj, i, hi, rfl⟩ := (mem_walkerSteps _ _ step).1 hstep
    obtain ⟨px, py, hpx, hpy, hwi⟩ := wordIndices_step (2 ^ a) (2 ^ b) i j hW31 hH31 hi hj
    dsimp only at hw
    rw [hwi] at hw
    obtain ⟨r, hr, c, hc, rfl⟩ :=
      (window_stores (2 ^ a) (2 ^ b) bpp blockWidth px py hbw hb8 hW hH hN hpx hpy w).1 hw
    exact ⟨px, py, r, c, hpx, hpy, hr, hc, rfl⟩
  · intro px py r c hpx hpy hr hc
    obtain ⟨i, j, hi, hj, hwi⟩ := wordIndices_of_block (2 ^ a) (2 ^ b) px py hW31 hH31 hpx hpy
    obtain ⟨p, q, r2, s, ho, hp0, hp1, hq0, hq1, hr0, hr1, hs0, hs1⟩ :=
      wordOffsets_some PVRTCII a b ha29 hb29 ((i : Int) - 1) ((j : Int) - 1)
    rw [hwi] at ho
    refine ⟨_, ho, ⟨hp0, hp1, hq0, hq1, hr0, hr1, hs0, hs1⟩, fun tile sc => ?_⟩
    dsimp only
    rw [← hst2]
    have hlt : (py * 4 + 2 + r) % height * width +
        (px * blockWidth + blockWidth / 2 + c) % width < width * height :=
      row_col_lt _ _ width height (Nat.mod_lt _ (lt_of_lt_of_le (by decide) hminy))
        (Nat.mod_lt _ (lt_of_lt_of_le (by decide) h8w))
    apply foldlM_decompressBlock_at PVRTCII pCompressedData width bpp (2 ^ a) (2 ^ b) scratch
      (walkerSteps (2 ^ a) (2 ^ b)) _ _ ?_ (img, fun _ => ⟨0, 0, 0, 0⟩) st hst
      (Or.inl (hcover _ hlt))
    intro tile2 step o2 hstep ho2 w hw hw1
    obtain ⟨j2, hj2, i2, hi2, rfl⟩ := (mem_walkerSteps _ _ step).1 hstep
    obtain ⟨px2, py2, hpx2, hpy2, hwi2⟩ :=
      wordIndices_step (2 ^ a) (2 ^ b) i2 j2 hW31 hH31 hi2 hj2
    dsimp only at hw ho2 ⊢
    rw [hwi2] at hw ho2
    obtain ⟨r3, hr3, c3, hc3, rfl⟩ :=
      (window_stores (2 ^ a) (2 ^ b) bpp blockWidth px2 py2 hbw hb8 hW hH hN hpx2 hpy2 w).1 hw
    dsimp only at hw1 ⊢
    obtain ⟨rfl, rfl, rfl, rfl⟩ := window_unique (2 ^ a) (2 ^ b) blockWidth px2 py2 r3 c3
      px py r c hb8 hpx2 hpy2 hr3 hc3 hpx hpy hr hc hw1
    rw [ho] at ho2
    cases ho2
    dsimp only
    rw [tile_buffer_agree PVRTCII _ _ _ _ tile2 tile bpp _ hbpp _ (by
        rw [hbw]
        have : r3 * blockWidth + c3 < 4 * blockWidth := by
          have := Nat.mul_le_mul_right blockWidth (show r3 + 1 ≤ 4 by omega)
          have e : (r3 + 1) * blockWidth = r3 * blockWidth + blockWidth := by ring
          omega
        omega),
      tile_scratch_agree PVRTCII _ _ _ _ tile bpp _ sc hbpp]

/-- Witness of C18 (amended): the 4bpp image of 8 x 8 pixels, a grid of 2 x 2 blocks.  The
pixel at index 9 (row 1, column 1) is the texel `(3, 3)` of the tile of the block
`(1, 1)`, whose words are read at the elements `6, 2, 4, 0` of the compressed data. -/
theorem raster_fully_written_witness :
    (2 ^ 1 * 4) * (2 ^ 1 * 4) ≤ 2 ^ 32 ∧
    ∃ out ret,
      PVRTDecompressPVRTC_int false false (fun i => i * 0x11111111 % 2 ^ 32) 0 8 8
        (fun _ => ⟨1, 1, 1, 1⟩) (fun _ => ⟨0, 0, 0, 0⟩)
        (fun _ _ => ⟨fun _ _ => 0, fun _ _ => 0, fun _ => ⟨0, 0, 0, 0⟩, fun _ => ⟨0, 0, 0, 0⟩⟩) =
        some (out, ret) ∧
      out 9 = pvrtcGetDecompressedPixels false
        (readWord (fun i => i * 0x11111111 % 2 ^ 32) 6)
        (readWord (fun i => i * 0x11111111 % 2 ^ 32) 2)
        (readWord (fun i => i * 0x11111111 % 2 ^ 32) 4)
        (readWord (fun i => i * 0x11111111 % 2 ^ 32) 0) (fun _ => ⟨0, 0, 0, 0⟩) 4
        ⟨fun _ _ => 0, fun _ _ => 0, fun _ => ⟨0, 0, 0, 0⟩, fun _ => ⟨0, 0, 0, 0⟩⟩ 15 := by
  refine ⟨by decide, ?_⟩
  obtain ⟨out, ret, h1, _, h3⟩ := raster_fully_written false false
    (fun i => i * 0x11111111 % 2 ^ 32) 0 1 1
    (fun _ => ⟨1, 1, 1, 1⟩) (fun _ => ⟨0, 0, 0, 0⟩)
    (fun _ _ => ⟨fun _ _ => 0, fun _ _ => 0, fun _ => ⟨0, 0, 0, 0⟩, fun _ => ⟨0, 0, 0, 0⟩⟩)
    (by decide) (by decide) (by decide)
  obtain ⟨o, ho, _, hval⟩ := h3 1 1 3 3 (by decide) (by decide) (by decide) (by decide)
  have e : wordOffsets false (2 ^ 1) (2 ^ 1)
      ⟨(1, 1), ((1 + 1) % 2 ^ 1, 1), (1, (1 + 1) % 2 ^ 1), ((1 + 1) % 2 ^ 1, (1 + 1) % 2 ^ 1)⟩ =
      some (6, 2, 4, 0) := by decide
  rw [e] at ho
  cases ho
  exact ⟨out, ret, h1, hval (fun _ => ⟨0, 0, 0, 0⟩)
    ⟨fun _ _ => 0, fun _ _ => 0, fun _ => ⟨0, 0, 0, 0⟩, fun _ => ⟨0, 0, 0, 0⟩⟩⟩

/-- Counterexample to C18 as stated: the 4bpp size 9 x 8 is at or above the minimum 8 x 8
and `9` is not a multiple of the block width.  The decoder neither pads nor crops: it
walks the `9/4 = 2` by `8/4 = 2` block grid with the row stride 9, no iteration stores
the index `8` (the texel `(8, 0)`), and that element of the raster keeps its previous
content, `(1,1,1,1)` or `(2,2,2,2)`, with the assertions compiled in or out. -/
theorem raster_not_multiple :
    ((8 : Nat) ≤ 9 ∧ (8 : Nat) ≤ 8 ∧ (8 : Nat) < 9 * 8) ∧
    8 ∉ pvrtcDecompressWrites 9 8 4 ∧
    (PVRTDecompressPVRTC_int false false (fun _ => 0) 0 9 8 (fun _ => ⟨1, 1, 1, 1⟩)
        (fun _ => ⟨0, 0, 0, 0⟩)
        (fun _ _ => ⟨fun _ _ => 0, fun _ _ => 0, fun _ => ⟨0, 0, 0, 0⟩,
          fun _ => ⟨0, 0, 0, 0⟩⟩)).map (fun r => r.1 8) = some ⟨1, 1, 1, 1⟩ ∧
    (PVRTDecompressPVRTC_int false false (fun _ => 0) 0 9 8 (fun _ => ⟨2, 2, 2, 2⟩)
        (fun _ => ⟨0, 0, 0, 0⟩)
        (fun _ _ => ⟨fun _ _ => 0, fun _ _ => 0, fun _ => ⟨0, 0, 0, 0⟩,
          fun _ => ⟨0, 0, 0, 0⟩⟩)).map (fun r => r.1 8) = some ⟨2, 2, 2, 2⟩ ∧
    (PVRTDecompressPVRTC_int false true (fun _ => 0) 0 9 8 (fun _ => ⟨1, 1, 1, 1⟩)
        (fun _ => ⟨0, 0, 0, 0⟩)
        (fun _ _ => ⟨fun _ _ => 0, fun _ _ => 0, fun _ => ⟨0, 0, 0, 0⟩,
          fun _ => ⟨0, 0, 0, 0⟩⟩)).map (fun r => r.1 8) = some ⟨1, 1, 1, 1⟩ := by
  refine ⟨by decide, by decide, by decide, by decide, by decide⟩


/-! ## The Morton offset as a `uint32_t` value -/

theorem or_mod_two_pow (a b n : Nat) : (a ||| b) % 2 ^ n = a % 2 ^ n ||| b % 2 ^ n := by
  apply Nat.eq_of_testBit_eq
  intro i
  simp only [Nat.testBit_mod_two_pow, Nat.testBit_or, Bool.and_or_distrib_left]

/-- One more bit pair of the interleaving, written with `|||`. -/
theorem mortonBits_succ_or (n x y : Nat) :
    mortonBits (n + 1) x y =
      (mortonBits n x y ||| (if y.testBit n then 4 ^ n else 0)) |||
        (if x.testBit n then 2 * 4 ^ n else 0) := by
  have hT := mortonBits_lt n x y
  have h4 := four_pow_eq n
  have h2 : (2 : Nat) ^ (2 * n + 1) = 2 * 4 ^ n := by rw [pow_succ, h4]; ring
  have e1 : (mortonBits n x y ||| (if y.testBit n then 4 ^ n else 0)) =
      mortonBits n x y + (if y.testBit n then 4 ^ n else 0) := by
    by_cases hb : y.testBit n = true
    · rw [if_pos hb, h4]
      exact or_two_pow_eq_add _ _ (h4 ▸ hT)
    · rw [if_neg hb, Nat.or_zero, Nat.add_zero]
  rw [e1]
  show _ = _
  rw [mortonBits]
  by_cases hb : x.testBit n = true
  · rw [if_pos hb, ← h2]
    symm
    apply or_two_pow_eq_add
    rw [h2]
    split_ifs <;> omega
  · rw [if_neg hb, Nat.or_zero, Nat.add_zero]

/-- One iteration of the loop of `TwiddleUV` in `uint32_t`: the interleaved bits and
`DstBitPos` are kept modulo `2 ^ 32`. -/
theorem twiddleLoop_step32 (k x y n fuel : Nat) (hn : n < k) (hk : k ≤ 31) :
    twiddleLoop (2 ^ k) x y (fuel + 1) ⟨mortonBits n x y % 2 ^ 32, 2 ^ n, 4 ^ n % 2 ^ 32, n⟩ =
      twiddleLoop (2 ^ k) x y fuel
        ⟨mortonBits (n + 1) x y % 2 ^ 32, 2 ^ (n + 1), 4 ^ (n + 1) % 2 ^ 32, n + 1⟩ := by
  have hlt : (2 : Nat) ^ n < 2 ^ k := Nat.pow_lt_pow_right (by decide) hn
  have hsrc : u32 (2 ^ n <<< 1) = 2 ^ (n + 1) := by
    rw [Nat.shiftLeft_eq, ← pow_succ]
    exact u32_of_lt _ (pow_lt_u32 _ (by omega))
  have hdst : u32 ((4 ^ n % 2 ^ 32) <<< 2) = 4 ^ (n + 1) % 2 ^ 32 := by
    unfold u32
    rw [Nat.shiftLeft_eq, pow_succ 4 n]
    generalize 4 ^ n = q
    omega
  have hdst1 : u32 ((4 ^ n % 2 ^ 32) <<< 1) = (2 * 4 ^ n) % 2 ^ 32 := by
    unfold u32
    rw [Nat.shiftLeft_eq]
    generalize 4 ^ n = q
    omega
  have hy : (y &&& 2 ^ n ≠ 0) ↔ y.testBit n = true := and_two_pow_ne_zero y n
  have hx : (x &&& 2 ^ n ≠ 0) ↔ x.testBit n = true := and_two_pow_ne_zero x n
  have hT : (if x &&& 2 ^ n ≠ 0 then
        (if y &&& 2 ^ n ≠ 0 then mortonBits n x y % 2 ^ 32 ||| 4 ^ n % 2 ^ 32
          else mortonBits n x y % 2 ^ 32) ||| 2 * 4 ^ n % 2 ^ 32
      else (if y &&& 2 ^ n ≠ 0 then mortonBits n x y % 2 ^ 32 ||| 4 ^ n % 2 ^ 32
          else mortonBits n x y % 2 ^ 32)) = mortonBits (n + 1) x y % 2 ^ 32 := by
    rw [mortonBits_succ_or, or_mod_two_pow, or_mod_two_pow]
    by_cases hby : y.testBit n = true <;> by_cases hbx : x.testBit n = true
    · rw [if_pos (hx.2 hbx), if_pos (hy.2 hby), if_pos hby, if_pos hbx]
    · rw [if_neg (fun h => hbx (hx.1 h)), if_pos (hy.2 hby), if_pos hby, if_neg hbx,
        Nat.zero_mod, Nat.or_zero]
    · rw [if_pos (hx.2 hbx), if_neg (fun h => hby (hy.1 h)), if_neg hby, if_pos hbx,
        Nat.zero_mod, Nat.or_zero]
    · rw [if_neg (fun h => hbx (hx.1 h)), if_neg (fun h => hby (hy.1 h)), if_neg hby,
        if_neg hbx, Nat.zero_mod, Nat.or_zero, Nat.or_zero]
  rw [twiddleLoop]
  simp only [hlt, if_true, hsrc, hdst, hdst1, hT]

theorem twiddleLoop_run32 (k x y : Nat) (hk : k ≤ 31) (d : Nat) :
    ∀ n fuel, n + d = k → d ≤ fuel →
      twiddleLoop (2 ^ k) x y fuel ⟨mortonBits n x y % 2 ^ 32, 2 ^ n, 4 ^ n % 2 ^ 32, n⟩ =
        some ⟨mortonBits k x y % 2 ^ 32, 2 ^ k, 4 ^ k % 2 ^ 32, k⟩ := by
  induction d with
  | zero =>
    intro n fuel hnk _
    have : n = k := by omega
    subst this
    exact twiddleLoop_done _ _ _ _ _ (by simp)
  | succ d ih =>
    intro n fuel hnk hf
    obtain ⟨f, rfl⟩ : ∃ f, fuel = f + 1 := ⟨fuel - 1, by omega⟩
    rw [twiddleLoop_step32 k x y n f (by omega) hk]
    exact ih (n + 1) f (by omega) (by omega)

/-- The value of `TwiddleUV` in Morton order on any power-of-two grid of `uint32_t`
sizes: the interleaved bits plus the prepended bits, reduced modulo `2 ^ 32`.  For
`min a b ≥ 16` the final shift count is 32 or more and the value is the convention of
the embedding. -/
theorem TwiddleUV_morton32 (a b x y : Nat) (ha : a ≤ 31) (hb : b ≤ 31) :
    TwiddleUV false (2 ^ a) (2 ^ b) x y =
      some (u32 (mortonBits (min a b) x y +
        (((if b < a then x else y) >>> (min a b)) <<< (2 * min a b)))) := by
  have hlt : (2 : Nat) ^ b < 2 ^ a ↔ b < a := Nat.pow_lt_pow_iff_right (by decide)
  have hmin : (if b < a then (2 : Nat) ^ b else 2 ^ a) = 2 ^ (min a b) := by
    by_cases hba : b < a
    · rw [if_pos hba, Nat.min_eq_right (by omega)]
    · rw [if_neg hba, Nat.min_eq_left (by omega)]
  have hrun := twiddleLoop_run32 (min a b) x y (by omega) (min a b) 0 64 (by omega) (by omega)
  have h0 : mortonBits 0 x y % 2 ^ 32 = 0 := rfl
  have h1 : (4 : Nat) ^ 0 % 2 ^ 32 = 1 := rfl
  rw [h0, h1, pow_zero] at hrun
  unfold TwiddleUV
  simp only [Bool.false_eq_true, if_false, hlt, hmin, hrun]
  congr 1
  generalize (if b < a then x else y) >>> (min a b) = q
  have hmb := mortonBits_lt (min a b) x y
  rw [four_pow_eq] at hmb
  have e : mortonBits (min a b) x y + q <<< (2 * min a b) =
      q <<< (2 * min a b) ||| mortonBits (min a b) x y := by
    rw [Nat.shiftLeft_eq, Nat.mul_comm q, Nat.add_comm]
    exact Nat.mul_add_lt_is_or hmb q
  rw [e]
  unfold u32
  rw [or_mod_two_pow, Nat.or_comm]


theorem bit_term (v n s : Nat) (p : Nat) (hp : p = 2 ^ s) :
    (if v.testBit n then p else 0) = ((v >>> n) % 2) <<< s := by
  rw [Nat.testBit_to_div_mod, Nat.shiftRight_eq_div_pow, Nat.shiftLeft_eq, hp]
  rcases Nat.mod_two_eq_zero_or_one (v / 2 ^ n) with h | h
  · simp [h]
  · simp [h]

/-- The interleaved bits as the sum of the shifted bits of `y` and `x`. -/
theorem mortonBits_eq_sum (n x y : Nat) :
    mortonBits n x y =
      ((List.range n).map
        (fun i => ((y >>> i) % 2) <<< (2 * i) + ((x >>> i) % 2) <<< (2 * i + 1))).sum := by
  induction n with
  | zero => rfl
  | succ n ih =>
    rw [List.range_succ, List.map_append, List.sum_append, ← ih, mortonBits]
    simp only [List.map_cons, List.map_nil, List.sum_cons, List.sum_nil, Nat.add_zero]
    rw [bit_term y n (2 * n) (4 ^ n) (four_pow_eq n),
      bit_term x n (2 * n + 1) (2 * 4 ^ n) (by rw [pow_succ, four_pow_eq]; ring)]
    ring

theorem mortonBits_one_zero (k : Nat) (hk : 1 ≤ k) : mortonBits k 1 0 = 2 := by
  induction k with
  | zero => omega
  | succ n ih =>
    rw [mortonBits]
    by_cases h0 : n = 0
    · subst h0
      rfl
    · have hx : (1 : Nat).testBit n = false := by
        rw [Nat.testBit_to_div_mod, Nat.div_eq_of_lt (Nat.one_lt_two_pow h0)]
        rfl
      rw [ih (by omega), Nat.zero_testBit, hx]
      rfl

theorem mortonBits_zero_one (k : Nat) (hk : 1 ≤ k) : mortonBits k 0 1 = 1 := by
  induction k with
  | zero => omega
  | succ n ih =>
    rw [mortonBits]
    by_cases h0 : n = 0
    · subst h0
      rfl
    · have hx : (1 : Nat).testBit n = false := by
        rw [Nat.testBit_to_div_mod, Nat.div_eq_of_lt (Nat.one_lt_two_pow h0)]
        rfl
      rw [ih (by omega), Nat.zero_testBit, hx]
      rfl

/-- The Morton offset of a position inside a grid of at most `2 ^ 32` cells is below
the number of cells. -/
theorem morton_total_lt (a b x y : Nat) (hx : x < 2 ^ a) (hy : y < 2 ^ b) :
    mortonBits (min a b) x y +
      (((if b < a then x else y) >>> (min a b)) <<< (2 * min a b)) < 2 ^ (a + b) := by
  have hmb := mortonBits_lt (min a b) x y
  rw [four_pow_eq] at hmb
  rw [Nat.shiftLeft_eq, Nat.shiftRight_eq_div_pow]
  have hM : (if b < a then x else y) < 2 ^ (max a b) := by
    by_cases hba : b < a
    · rw [if_pos hba, Nat.max_eq_left (by omega)]
      exact hx
    · rw [if_neg hba, Nat.max_eq_right (by omega)]
      exact hy
  have hsplit : (2 : Nat) ^ (max a b) = 2 ^ (max a b - min a b) * 2 ^ (min a b) := by
    rw [← pow_add]
    congr 1
    omega
  have hq : (if b < a then x else y) / 2 ^ (min a b) < 2 ^ (max a b - min a b) := by
    rw [Nat.div_lt_iff_lt_mul (Nat.two_pow_pos _), ← hsplit]
    exact hM
  have htot : (2 : Nat) ^ (a + b) = 2 ^ (max a b - min a b) * 2 ^ (2 * min a b) := by
    rw [← pow_add]
    congr 1
    omega
  rw [htot]
  generalize (if b < a then x else y) / 2 ^ (min a b) = q at hq
  generalize (2 : Nat) ^ (max a b - min a b) = A at hq
  generalize (2 : Nat) ^ (2 * min a b) = B at hmb
  have : (q + 1) * B ≤ A * B := Nat.mul_le_mul_right B hq
  rw [Nat.add_mul, Nat.one_mul] at this
  omega

/-- C24 (amended): for PVRTC-I on a grid of `2 ^ a` by `2 ^ b` words (`uint32_t` sizes)
with `k = min a b ≤ 15`, the loop of `TwiddleUV` ends with `ShiftCount = k`, so the final
shift count `2*k` is below 32, and `TwiddleUV` returns the `uint32_t` value of the sum
over `i < k` of `(bit i of YPos) << (2*i)` plus `(bit i of XPos) << (2*i + 1)`, plus
`(M >> k) << (2*k)` with `M` the coordinate along the larger dimension, that is, the
sum reduced modulo `2 ^ 32`; it is the sum itself for a position inside a grid of at
most `2 ^ 32` words; and on a square grid of size at least 2 the offset of `(1, 0)` is
2 and that of `(0, 1)` is 1. -/
theorem TwiddleUV_closed_form (a b x y : Nat) (ha : a ≤ 31) (hb : b ≤ 31)
    (hk : min a b ≤ 15) :
    (∃ st, twiddleLoop (if 2 ^ b < 2 ^ a then 2 ^ b else 2 ^ a) x y 64 ⟨0, 1, 1, 0⟩ = some st ∧
      st.ShiftCount = min a b ∧ 2 * st.ShiftCount < 32) ∧
    TwiddleUV false (2 ^ a) (2 ^ b) x y =
      some ((((List.range (min a b)).map
          (fun i => ((y >>> i) % 2) <<< (2 * i) + ((x >>> i) % 2) <<< (2 * i + 1))).sum +
        (((if 2 ^ b < 2 ^ a then x else y) >>> (min a b)) <<< (2 * min a b))) % 2 ^ 32) ∧
    (a + b ≤ 32 → x < 2 ^ a → y < 2 ^ b →
      TwiddleUV false (2 ^ a) (2 ^ b) x y =
        some (((List.range (min a b)).map
            (fun i => ((y >>> i) % 2) <<< (2 * i) + ((x >>> i) % 2) <<< (2 * i + 1))).sum +
          (((if 2 ^ b < 2 ^ a then x else y) >>> (min a b)) <<< (2 * min a b)))) ∧
    (a = b → 1 ≤ a →
      TwiddleUV false (2 ^ a) (2 ^ b) 1 0 = some 2 ∧
      TwiddleUV false (2 ^ a) (2 ^ b) 0 1 = some 1) := by
  have hlt : (2 : Nat) ^ b < 2 ^ a ↔ b < a := Nat.pow_lt_pow_iff_right (by decide)
  have hM : (if (2 : Nat) ^ b < 2 ^ a then x else y) = if b < a then x else y := by
    by_cases hba : b < a
    · rw [if_pos hba, if_pos (hlt.2 hba)]
    · rw [if_neg hba, if_neg (fun h => hba (hlt.1 h))]
  have hmin : (if (2 : Nat) ^ b < 2 ^ a then (2 : Nat) ^ b else 2 ^ a) = 2 ^ (min a b) := by
    by_cases hba : b < a
    · rw [if_pos (hlt.2 hba), Nat.min_eq_right (by omega)]
    · rw [if_neg (fun h => hba (hlt.1 h)), Nat.min_eq_left (by omega)]
  have hrun := twiddleLoop_run32 (min a b) x y (by omega) (min a b) 0 64 (by omega) (by omega)
  have h0 : mortonBits 0 x y % 2 ^ 32 = 0 := rfl
  have h1 : (4 : Nat) ^ 0 % 2 ^ 32 = 1 := rfl
  rw [h0, h1, pow_zero] at hrun
  refine ⟨⟨_, hmin ▸ hrun, rfl, by show 2 * min a b < 32; omega⟩, ?_⟩
  rw [← mortonBits_eq_sum, hM]
  have hmain := TwiddleUV_morton32 a b x y ha hb
  refine ⟨hmain, ?_, ?_⟩
  · intro hab hx hy
    rw [hmain]
    have h1 := morton_total_lt a b x y hx hy
    have h2 : (2 : Nat) ^ (a + b) ≤ 2 ^ 32 := Nat.pow_le_pow_right (by decide) hab
    rw [u32_of_lt _ (by omega)]
  · intro hab h1
    subst hab
    have e1 := TwiddleUV_morton32 a a 1 0 ha ha
    have e2 := TwiddleUV_morton32 a a 0 1 ha ha
    have hk : min a a = a := Nat.min_self a
    have hs : (1 : Nat) >>> a = 0 := by
      rw [Nat.shiftRight_eq_div_pow]
      exact Nat.div_eq_of_lt (Nat.one_lt_two_pow (by omega))
    rw [hk, if_neg (Nat.lt_irrefl a), mortonBits_one_zero a h1, Nat.zero_shiftRight,
      Nat.zero_shiftLeft] at e1
    rw [hk, if_neg (Nat.lt_irrefl a), mortonBits_zero_one a h1, hs, Nat.zero_shiftLeft] at e2
    exact ⟨e1, e2⟩

/-- Witness of C24 (amended): the grid of 4 by 8 words and the position `(3, 6)`. -/
theorem TwiddleUV_closed_form_witness :
    (2 : Nat) ≤ 31 ∧ (3 : Nat) ≤ 31 ∧ min 2 3 ≤ 15 ∧
    TwiddleUV false (2 ^ 2) (2 ^ 3) 3 6 = some 30 ∧
    (((List.range 2).map
        (fun i => ((6 >>> i) % 2) <<< (2 * i) + ((3 >>> i) % 2) <<< (2 * i + 1))).sum +
      ((6 >>> 2) <<< (2 * 2))) = 30 :=
  ⟨by decide, by decide, by decide,
    ((TwiddleUV_closed_form 2 3 3 6 (by decide) (by decide) (by decide)).2.2.1
      (by decide) (by decide) (by decide)).trans (by decide), by decide⟩

/-- Counterexample to C24 as stated: on the grid of `2 ^ 15` by `2 ^ 18` words the
position `(x, y) = (0, 2 ^ 17)` lies inside the grid, the final shift count is 30, the
sum of the claim is `2 ^ 32` (the term `(YPos >> 15) << 30`), and `TwiddleUV` returns
0. -/
theorem TwiddleUV_closed_form_wrap :
    TwiddleUV false (2 ^ 15) (2 ^ 18) 0 (2 ^ 17) = some 0 ∧
    (0 < 2 ^ 15 ∧ 2 ^ 17 < 2 ^ 18) ∧
    ((List.range 15).map
        (fun i => ((2 ^ 17 >>> i) % 2) <<< (2 * i) + ((0 >>> i) % 2) <<< (2 * i + 1))).sum +
      (((if 2 ^ 18 < 2 ^ 15 then 0 else 2 ^ 17) >>> 15) <<< (2 * 15)) = 2 ^ 32 := by
  decide


/-! ## The adjusted modulation word of the 2bpp interpolated mode -/

/-- Copying bit `s` of a `uint32_t` into its bit `j` by the set-or-clear idiom of
`unpackModulations`. -/
theorem copyBit_testBit (v s j ms mj i : Nat) (hms : ms = 2 ^ s) (hmj : mj = 2 ^ j)
    (hj : j < 32) (hv : v < 2 ^ 32) :
    (if v &&& ms ≠ 0 then v ||| mj else v &&& not32 mj).testBit i =
      if i = j then v.testBit s else v.testBit i := by
  subst hms hmj
  by_cases hs : v.testBit s = true
  · rw [if_pos ((and_two_pow_ne_zero v s).2 hs), Nat.testBit_or, Nat.testBit_two_pow]
    by_cases hij : i = j
    · subst hij
      simp [hs]
    · have : ¬ j = i := fun h => hij h.symm
      simp [hij, this]
  · rw [if_neg (fun h => hs ((and_two_pow_ne_zero v s).1 h)), Nat.testBit_and]
    unfold not32
    have hff : (0xFFFFFFFF : Nat) = 2 ^ 32 - 1 := by decide
    rw [Nat.testBit_xor, hff, Nat.testBit_two_pow_sub_one, Nat.testBit_two_pow]
    have hs2 : v.testBit s = false := by simpa using hs
    by_cases hij : i = j
    · subst hij
      simp [hs2, hj]
    · have : ¬ j = i := fun h => hij h.symm
      by_cases hi : i < 32
      · simp [hij, this, hi]
      · have hvi : v.testBit i = false :=
          Nat.testBit_lt_two_pow (Nat.lt_of_lt_of_le hv (Nat.pow_le_pow_right (by decide)
            (by omega)))
        simp [hij, hvi]

theorem copyBit_lt (v j ms mj : Nat) (hmj : mj = 2 ^ j) (hj : j < 32) (hv : v < 2 ^ 32) :
    (if v &&& ms ≠ 0 then v ||| mj else v &&& not32 mj) < 2 ^ 32 := by
  subst hmj
  split_ifs
  · exact Nat.or_lt_two_pow hv (Nat.pow_lt_pow_right (by decide) hj)
  · exact Nat.lt_of_le_of_lt Nat.and_le_left hv

/-- The bits of the adjusted modulation word: bit 0 is a copy of bit 1, bit 20 is a
copy of bit 21 when bit 0 of the stored word is set, every other bit is unchanged. -/
theorem selectModulationMode_snd_testBit (m i : Nat) (hm : m < 2 ^ 32) :
    (selectModulationMode m).2.testBit i =
      if i = 0 then m.testBit 1
      else if i = 20 ∧ m.testBit 0 = true then m.testBit 21 else m.testBit i := by
  unfold selectModulationMode
  by_cases h0 : m.testBit 0 = true
  · have hne := (and_one_ne_zero m).2 h0
    rw [if_pos hne]
    dsimp only
    rw [copyBit_testBit _ 1 0 2 1 i rfl rfl (by decide)
      (copyBit_lt m 20 (1 <<< 21) (1 <<< 20) (by decide) (by decide) hm)]
    by_cases hi0 : i = 0
    · rw [if_pos hi0, if_pos hi0,
        copyBit_testBit m 21 20 (1 <<< 21) (1 <<< 20) 1 (by decide) (by decide) (by decide) hm]
      rfl
    · rw [if_neg hi0, if_neg hi0,
        copyBit_testBit m 21 20 (1 <<< 21) (1 <<< 20) i (by decide) (by decide) (by decide) hm]
      by_cases hi20 : i = 20
      · rw [if_pos hi20, if_pos ⟨hi20, h0⟩]
      · rw [if_neg hi20, if_neg (fun h => hi20 h.1)]
  · have hne : ¬ (m &&& 1 ≠ 0) := fun h => h0 ((and_one_ne_zero m).1 h)
    rw [if_neg hne]
    dsimp only
    rw [copyBit_testBit m 1 0 2 1 i rfl rfl (by decide) hm]
    by_cases hi0 : i = 0
    · rw [if_pos hi0, if_pos hi0]
    · rw [if_neg hi0, if_neg hi0, if_neg (fun h => h0 h.2)]

/-- A 2-bit field of a word in terms of its two bits. -/
theorem field_two_bits (v k : Nat) :
    (v >>> (2 * k)) &&& 3 =
      (if v.testBit (2 * k + 1) = true then 2 else 0) +
        (if v.testBit (2 * k) = true then 1 else 0) := by
  have h3 : (3 : Nat) = 2 ^ 2 - 1 := by decide
  have e : (2 : Nat) ^ (2 * k + 1) = 2 ^ (2 * k) * 2 := pow_succ _ _
  rw [h3, Nat.and_pow_two_sub_one_eq_mod, Nat.shiftRight_eq_div_pow, Nat.testBit_to_div_mod,
    Nat.testBit_to_div_mod, e, ← Nat.div_div_eq_div_mul]
  generalize v / 2 ^ (2 * k) = q
  simp only [decide_eq_true_eq]
  split_ifs <;> omega

/-- A 2-bit field whose two bits are equal is 0 or 3. -/
theorem field_equal_bits (v k : Nat) (h : v.testBit (2 * k) = v.testBit (2 * k + 1)) :
    (v >>> (2 * k)) &&& 3 = 0 ∨ (v >>> (2 * k)) &&& 3 = 3 := by
  rw [field_two_bits, h]
  by_cases hb : v.testBit (2 * k + 1) = true
  · right
    rw [if_pos hb, if_pos hb]
  · left
    rw [if_neg hb, if_neg hb]

theorem selectModulationMode_hv (m : Nat) :
    ((selectModulationMode m).1 = 2 ∨ (selectModulationMode m).1 = 3) ↔ m.testBit 0 = true := by
  rw [selectModulationMode_fst]
  by_cases h0 : m.testBit 0 = true
  · have h0f : ¬ m.testBit 0 = false := by simp [h0]
    rw [if_neg h0f]
    split_ifs <;> simp [h0]
  · have h0f : m.testBit 0 = false := by simpa using h0
    rw [if_pos h0f]
    simp [h0f]


/-- C25: in the 2bpp interpolated mode (mode flag of the word set) `unpackModulations`
leaves `modulationValues` unchanged outside the 16 even-checkerboard texels
(`(x ^ y) & 1 = 0`) of the word; the stored texel `(x, y)` receives the 2-bit field at
bits `2*k+1..2*k` of the adjusted modulation word, `k = 4*y + x/2`; the adjusted word
is the stored word with bit 0 replaced by a copy of bit 1 and, in the H-only and V-only
modes, bit 20 replaced by a copy of bit 21; hence texel `(0, 0)` gets code 0 or 3 and,
in the H-only and V-only modes, so does the centre texel `(4, 2)`. -/
theorem interpolated_stores (word : PVRTCWord) (offsetX offsetY : Nat) (grids : Grid × Grid)
    (hflag : word.colorData &&& 1 ≠ 0) (hm : word.modulationData < 2 ^ 32) :
    let out := unpackModulations word offsetX offsetY grids 2
    let mode := (selectModulationMode word.modulationData).1
    let adjusted := (selectModulationMode word.modulationData).2
    (∀ a b, (¬ ∃ x y, x < 8 ∧ y < 4 ∧ (x ^^^ y) &&& 1 = 0 ∧ a = x + offsetX ∧ b = y + offsetY) →
      out.1 a b = grids.1 a b) ∧
    ((List.range 4).map
      (fun y => ((List.range 8).filter (fun x => decide ((x ^^^ y) &&& 1 = 0))).length)).sum
      = 16 ∧
    (∀ x y, x < 8 → y < 4 → (x ^^^ y) &&& 1 = 0 →
      out.1 (x + offsetX) (y + offsetY) =
        (((adjusted >>> (2 * (4 * y + x / 2))) &&& 3 : Nat) : Int)) ∧
    (∀ x y, x < 8 → y < 4 → out.2 (x + offsetX) (y + offsetY) = (mode : Int)) ∧
    (∀ i, adjusted.testBit i =
      if i = 0 then word.modulationData.testBit 1
      else if i = 20 ∧ (mode = 2 ∨ mode = 3) then word.modulationData.testBit 21
      else word.modulationData.testBit i) ∧
    (out.1 (0 + offsetX) (0 + offsetY) = 0 ∨ out.1 (0 + offsetX) (0 + offsetY) = 3) ∧
    ((mode = 2 ∨ mode = 3) →
      out.1 (4 + offsetX) (2 + offsetY) = 0 ∨ out.1 (4 + offsetX) (2 + offsetY) = 3) := by
  intro out mode adjusted
  have hout : out = _ := unpackModulations_two_interp word offsetX offsetY grids hflag
  have hbits : ∀ i, adjusted.testBit i =
      if i = 0 then word.modulationData.testBit 1
      else if i = 20 ∧ (mode = 2 ∨ mode = 3) then word.modulationData.testBit 21
      else word.modulationData.testBit i := by
    intro i
    show (selectModulationMode word.modulationData).2.testBit i = _
    rw [selectModulationMode_snd_testBit _ i hm]
    by_cases hi0 : i = 0
    · rw [if_pos hi0, if_pos hi0]
    · rw [if_neg hi0, if_neg hi0]
      by_cases hc : i = 20 ∧ word.modulationData.testBit 0 = true
      · rw [if_pos hc, if_pos ⟨hc.1, (selectModulationMode_hv _).2 hc.2⟩]
      · rw [if_neg hc, if_neg (fun h => hc ⟨h.1, (selectModulationMode_hv _).1 h.2⟩)]
  have hstore : ∀ x y, x < 8 → y < 4 → (x ^^^ y) &&& 1 = 0 →
      out.1 (x + offsetX) (y + offsetY) =
        (((adjusted >>> (2 * (4 * y + x / 2))) &&& 3 : Nat) : Int) := by
    intro x y hx hy hxy
    rw [hout]
    have hc : offsetX ≤ x + offsetX ∧ x + offsetX < offsetX + 8 ∧ offsetY ≤ y + offsetY ∧
        y + offsetY < offsetY + 4 ∧
        ((x + offsetX - offsetX) ^^^ (y + offsetY - offsetY)) &&& 1 = 0 := by
      rw [Nat.add_sub_cancel, Nat.add_sub_cancel]
      exact ⟨by omega, by omega, by omega, by omega, hxy⟩
    show (if _ then _ else _) = _
    rw [if_pos hc, Nat.add_sub_cancel, Nat.add_sub_cancel]
  refine ⟨?_, by decide, hstore, ?_, hbits, ?_, ?_⟩
  · intro a b hnot
    rw [hout]
    show (if _ then _ else _) = _
    rw [if_neg]
    rintro ⟨h1, h2, h3, h4, h5⟩
    exact hnot ⟨a - offsetX, b - offsetY, by omega, by omega, h5, by omega, by omega⟩
  · intro x y hx hy
    rw [hout]
    show (if _ then _ else _) = _
    rw [if_pos ⟨by omega, by omega, by omega, by omega⟩]
  · rw [hstore 0 0 (by decide) (by decide) (by decide)]
    have h := field_equal_bits adjusted 0 (by
      rw [hbits 0, hbits 1]
      rfl)
    rcases h with h | h
    · left
      exact_mod_cast h
    · right
      exact_mod_cast h
  · intro hmode
    rw [hstore 4 2 (by decide) (by decide) (by decide)]
    have h := field_equal_bits adjusted 10 (by
      rw [hbits 20, hbits 21, if_neg (by decide), if_pos ⟨rfl, hmode⟩, if_neg (by decide),
        if_neg (fun h => absurd h.1 (by decide))])
    rcases h with h | h
    · left
      exact_mod_cast h
    · right
      exact_mod_cast h

theorem interpolated_stores_witness :
    (1 : Nat) &&& 1 ≠ 0 ∧ (0x200001 : Nat) < 2 ^ 32 ∧
    (selectModulationMode 0x200001 = (2, 0x300000)) ∧
    (unpackModulations ⟨0x200001, 1⟩ 0 0 (fun _ _ => 7, fun _ _ => 7) 2).1 4 2 = 3 ∧
    (unpackModulations ⟨0x200001, 1⟩ 0 0 (fun _ _ => 7, fun _ _ => 7) 2).1 5 2 = 7 :=
  ⟨by decide, by decide, by decide,
    ((interpolated_stores ⟨0x200001, 1⟩ 0 0 (fun _ _ => 7, fun _ _ => 7) (by decide)
      (by decide)).2.2.1 4 2 (by decide) (by decide) (by decide)).trans (by decide),
    by decide⟩


/-- C26: in 4bpp mode the tile texel written at `pColorData[r*4 + c]` (row `r`, column
`c`) is the blend of the two interpolated colours with weights
`t = (4-r)*((4-c)*P + c*Q) + r*((4-c)*R + c*S)` by the modulation value decoded from
the 2-bit field at bits `2*(4*ly + lx)+1..2*(4*ly + lx)` of the modulationData of the
owning word, where `lx = (c + 2) mod 4`, `ly = (r + 2) mod 4` and the owning word is `P`
for `r < 2, c < 2`, `Q` for `r < 2, c ≥ 2`, `R` for `r ≥ 2, c < 2` and `S` otherwise;
this value is the one `unpackModulations` stored at `modulationValues[r + 2][c + 2]`. -/
theorem four_bpp_transposed (PVRTCII : Bool) (P Q R S : PVRTCWord)
    (pColorData : Nat → Pixel32) (scratch : Scratch) (r c : Nat) (hr : r < 4) (hc : c < 4) :
    let word := if r < 2 then (if c < 2 then P else Q) else (if c < 2 then R else S)
    let lx := (c + 2) % 4
    let ly := (r + 2) % 4
    let code := (word.modulationData >>> (2 * (4 * ly + lx))) &&& 3
    let mod := if word.colorData &&& 1 ≠ 0 then code4Flagged code else code4Plain code
    let t : Pixel32 → Pixel32 → Pixel32 → Pixel32 → Pixel128S := fun p q r2 s =>
      ⟨(4 - (r : Int)) * ((4 - (c : Int)) * p.red + c * q.red) +
          r * ((4 - (c : Int)) * r2.red + c * s.red),
        (4 - (r : Int)) * ((4 - (c : Int)) * p.green + c * q.green) +
          r * ((4 - (c : Int)) * r2.green + c * s.green),
        (4 - (r : Int)) * ((4 - (c : Int)) * p.blue + c * q.blue) +
          r * ((4 - (c : Int)) * r2.blue + c * s.blue),
        (4 - (r : Int)) * ((4 - (c : Int)) * p.alpha + c * q.alpha) +
          r * ((4 - (c : Int)) * r2.alpha + c * s.alpha)⟩
    (unpackedGrids P Q R S 4 scratch).1 (r + 2) (c + 2) = mod ∧
    getModulationValues (unpackedGrids P Q R S 4 scratch).1 (unpackedGrids P Q R S 4 scratch).2
      (r + 2) (c + 2) 4 = mod ∧
    upscaledColorA PVRTCII P Q R S 4 scratch (c * 4 + r) =
      shiftOut4 (t (getColorA PVRTCII P.colorData) (getColorA PVRTCII Q.colorData)
        (getColorA PVRTCII R.colorData) (getColorA PVRTCII S.colorData)) ∧
    upscaledColorB PVRTCII P Q R S 4 scratch (c * 4 + r) =
      shiftOut4 (t (getColorB PVRTCII P.colorData) (getColorB PVRTCII Q.colorData)
        (getColorB PVRTCII R.colorData) (getColorB PVRTCII S.colorData)) ∧
    pvrtcGetDecompressedPixels PVRTCII P Q R S pColorData 4 scratch (r * 4 + c) =
      (blendTexel PVRTCII
        (shiftOut4 (t (getColorA PVRTCII P.colorData) (getColorA PVRTCII Q.colorData)
          (getColorA PVRTCII R.colorData) (getColorA PVRTCII S.colorData)))
        (shiftOut4 (t (getColorB PVRTCII P.colorData) (getColorB PVRTCII Q.colorData)
          (getColorB PVRTCII R.colorData) (getColorB PVRTCII S.colorData))) mod).narrow := by
  intro word lx ly code mod t
  have hmod := texelModulation_four P Q R S scratch r c hr hc
  have hA : upscaledColorA PVRTCII P Q R S 4 scratch (c * 4 + r) = _ :=
    interpolateColors_four (getColorA PVRTCII P.colorData) (getColorA PVRTCII Q.colorData)
      (getColorA PVRTCII R.colorData) (getColorA PVRTCII S.colorData) scratch.upscaledColorA
      c r hc hr
  have hB : upscaledColorB PVRTCII P Q R S 4 scratch (c * 4 + r) = _ :=
    interpolateColors_four (getColorB PVRTCII P.colorData) (getColorB PVRTCII Q.colorData)
      (getColorB PVRTCII R.colorData) (getColorB PVRTCII S.colorData) scratch.upscaledColorB
      c r hc hr
  have hg : getModulationValues (unpackedGrids P Q R S 4 scratch).1
      (unpackedGrids P Q R S 4 scratch).2 (r + 2) (c + 2) 4 =
      (unpackedGrids P Q R S 4 scratch).1 (r + 2) (c + 2) := by
    unfold getModulationValues
    simp only [(by decide : (4 : Nat) ≠ 2), if_false, if_true]
  refine ⟨hg ▸ hmod, hmod, hA, hB, ?_⟩
  rw [Nat.add_comm (r * 4) c, compositor_four PVRTCII P Q R S pColorData scratch r c hr hc,
    hmod, hA, hB]

theorem four_bpp_transposed_witness :
    (1 : Nat) < 4 ∧ (2 : Nat) < 4 ∧
    pvrtcGetDecompressedPixels false ⟨0, 0x80008000⟩ ⟨0x03000000, 0xFFFE801E⟩
      ⟨0, 0x80008000⟩ ⟨0, 0x80008000⟩ (fun _ => ⟨0, 0, 0, 0⟩) 4
      ⟨fun _ _ => 0, fun _ _ => 0, fun _ => ⟨0, 0, 0, 0⟩, fun _ => ⟨0, 0, 0, 0⟩⟩ (1 * 4 + 2) =
      ⟨95, 95, 92, 255⟩ :=
  ⟨by decide, by decide,
    ((four_bpp_transposed false ⟨0, 0x80008000⟩ ⟨0x03000000, 0xFFFE801E⟩
      ⟨0, 0x80008000⟩ ⟨0, 0x80008000⟩ (fun _ => ⟨0, 0, 0, 0⟩)
      ⟨fun _ _ => 0, fun _ _ => 0, fun _ => ⟨0, 0, 0, 0⟩, fun _ => ⟨0, 0, 0, 0⟩⟩ 1 2
      (by decide) (by decide)).2.2.2.2).trans (by decide)⟩


/-! ## Ranges of the blended channels -/

/-- The weight of a texel of the tile is in `[0, 8]` or the punch-through value 14. -/
theorem texelModulation_cases (P Q R S : PVRTCWord) (scratch : Scratch) (bpp x y : Nat)
    (hb : bpp = 2 ∨ bpp = 4) (hx : x < (if bpp = 2 then 8 else 4)) (hy : y < 4) :
    (0 ≤ getModulationValues (unpackedGrids P Q R S bpp scratch).1
        (unpackedGrids P Q R S bpp scratch).2 (x + (if bpp = 2 then 8 else 4) / 2) (y + 2) bpp ∧
      getModulationValues (unpackedGrids P Q R S bpp scratch).1
        (unpackedGrids P Q R S bpp scratch).2 (x + (if bpp = 2 then 8 else 4) / 2) (y + 2) bpp
        ≤ 8) ∨
    getModulationValues (unpackedGrids P Q R S bpp scratch).1
      (unpackedGrids P Q R S bpp scratch).2 (x + (if bpp = 2 then 8 else 4) / 2) (y + 2) bpp
      = 14 := by
  rcases hb with rfl | rfl
  · exact Or.inl (getModulationValues_two_range _ _ _ _)
  · have h4 : (4 : Nat) ≠ 2 := by decide
    simp only [h4, if_false] at hx ⊢
    have e : (4 : Nat) / 2 = 2 := by decide
    rw [e, texelModulation_four P Q R S scratch x y hx hy]
    have hc : ((if x < 2 then (if y < 2 then P else Q)
        else (if y < 2 then R else S)).modulationData
        >>> (2 * (4 * ((x + 2) % 4) + (y + 2) % 4))) &&& 3 < 4 := by
      have : ((if x < 2 then (if y < 2 then P else Q)
        else (if y < 2 then R else S)).modulationData
        >>> (2 * (4 * ((x + 2) % 4) + (y + 2) % 4))) &&& 3 ≤ 3 := Nat.and_le_right
      omega
    exact code4_range ((if x < 2 then (if y < 2 then P else Q)
        else (if y < 2 then R else S)).colorData &&& 1 ≠ 0) _ hc

/-- The blend of two colours with channels in `[0, 255]` by a weight in `[0, 8]` or by
the punch-through value 14 has channels in `[0, 255]`. -/
theorem blendTexel_inByte (PVRTCII : Bool) (A B : Pixel128S) (w : Int) (hA : A.inByte)
    (hB : B.inByte) (hw : (0 ≤ w ∧ w ≤ 8) ∨ w = 14) : (blendTexel PVRTCII A B w).inByte := by
  obtain ⟨a1, a2, a3, a4, a5, a6, a7, a8⟩ := hA
  obtain ⟨b1, b2, b3, b4, b5, b6, b7, b8⟩ := hB
  rcases hw with hw | rfl
  · rw [blendTexel_plain PVRTCII A B w (by omega)]
    have c1 := blend_channel A.red B.red w a1 a2 b1 b2 hw.1 hw.2
    have c2 := blend_channel A.green B.green w a3 a4 b3 b4 hw.1 hw.2
    have c3 := blend_channel A.blue B.blue w a5 a6 b5 b6 hw.1 hw.2
    have c4 := blend_channel A.alpha B.alpha w a7 a8 b7 b8 hw.1 hw.2
    unfold Pixel128S.inByte
    dsimp only
    rw [c1.1, c2.1, c3.1, c4.1]
    exact ⟨c1.2.1, c1.2.2, c2.2.1, c2.2.2, c3.2.1, c3.2.2, c4.2.1, c4.2.2⟩
  · cases PVRTCII
    · rw [blendTexel_punch_one]
      have c1 := blend_channel A.red B.red 4 a1 a2 b1 b2 (by decide) (by decide)
      have c2 := blend_channel A.green B.green 4 a3 a4 b3 b4 (by decide) (by decide)
      have c3 := blend_channel A.blue B.blue 4 a5 a6 b5 b6 (by decide) (by decide)
      have e4 : (8 : Int) - 4 = 4 := by norm_num
      rw [e4] at c1 c2 c3
      unfold Pixel128S.inByte
      dsimp only
      rw [c1.1, c2.1, c3.1]
      exact ⟨c1.2.1, c1.2.2, c2.2.1, c2.2.2, c3.2.1, c3.2.2, le_refl 0, by decide⟩
    · have e : blendTexel true A B 14 = ⟨0, 0, 0, 0⟩ := by
        simp only [blendTexel]
        simp only [show decide ((14 : Int) > 10) = true from by decide, Bool.and_self, if_true]
      rw [e]
      decide

theorem narrow_cast (p : Pixel128S) (h : p.inByte) :
    ((p.narrow.red : Nat) : Int) = p.red ∧ ((p.narrow.green : Nat) : Int) = p.green ∧
    ((p.narrow.blue : Nat) : Int) = p.blue ∧ ((p.narrow.alpha : Nat) : Int) = p.alpha := by
  obtain ⟨a1, a2, a3, a4, a5, a6, a7, a8⟩ := h
  exact ⟨toU8_cast _ a1 a2, toU8_cast _ a3 a4, toU8_cast _ a5 a6, toU8_cast _ a7 a8⟩


/-- C27: for every four words `P, Q, R, S`, either format and `bpp` in `{2, 4}`: every
channel returned by `getColorA` and `getColorB` is at most 31 for red, green, blue and
at most 15 for alpha; at every texel `(x, y)` of the tile the channels that
`interpolateColors` produced from these colours lie in `[0, 255]`; the channels of the
blended `result` lie in `[0, 255]`; and the texel stored by `pvrtcGetDecompressedPixels`
is the narrowed `result` with every channel unchanged by the cast to `uint8_t`. -/
theorem channel_ranges (PVRTCII : Bool) (P Q R S : PVRTCWord) (pColorData : Nat → Pixel32)
    (scratch : Scratch) (bpp x y : Nat) (hb : bpp = 2 ∨ bpp = 4)
    (hx : x < (if bpp = 2 then 8 else 4)) (hy : y < 4) :
    let wordWidth := if bpp = 2 then 8 else 4
    let w := getModulationValues (unpackedGrids P Q R S bpp scratch).1
      (unpackedGrids P Q R S bpp scratch).2 (x + wordWidth / 2) (y + 2) bpp
    let A := upscaledColorA PVRTCII P Q R S bpp scratch (y * wordWidth + x)
    let B := upscaledColorB PVRTCII P Q R S bpp scratch (y * wordWidth + x)
    let result := blendTexel PVRTCII A B w
    let out := pvrtcGetDecompressedPixels PVRTCII P Q R S pColorData bpp scratch
      (if bpp = 2 then y * wordWidth + x else y + x * 4)
    (∀ c : Nat,
      ((getColorA PVRTCII c).red ≤ 31 ∧ (getColorA PVRTCII c).green ≤ 31 ∧
        (getColorA PVRTCII c).blue ≤ 31 ∧ (getColorA PVRTCII c).alpha ≤ 15) ∧
      ((getColorB PVRTCII c).red ≤ 31 ∧ (getColorB PVRTCII c).green ≤ 31 ∧
        (getColorB PVRTCII c).blue ≤ 31 ∧ (getColorB PVRTCII c).alpha ≤ 15)) ∧
    A.inByte ∧ B.inByte ∧ result.inByte ∧ out = result.narrow ∧
    ((out.red : Int) = result.red ∧ (out.green : Int) = result.green ∧
      (out.blue : Int) = result.blue ∧ (out.alpha : Int) = result.alpha) := by
  intro wordWidth w A B result out
  have hA : A.inByte := upscaledColorA_inByte PVRTCII P Q R S scratch bpp x y hb hx hy
  have hB : B.inByte := upscaledColorB_inByte PVRTCII P Q R S scratch bpp x y hb hx hy
  have hw : (0 ≤ w ∧ w ≤ 8) ∨ w = 14 := texelModulation_cases P Q R S scratch bpp x y hb hx hy
  have hres : result.inByte := blendTexel_inByte PVRTCII A B w hA hB hw
  have hout : out = result.narrow := by
    rcases hb with rfl | rfl
    · have h := compositor_two PVRTCII P Q R S pColorData scratch x y hx hy
      simp only [out, result, A, B, w, wordWidth, if_true]
      exact h
    · have h4 : (4 : Nat) ≠ 2 := by decide
      have h := compositor_four PVRTCII P Q R S pColorData scratch x y hx hy
      simp only [out, result, A, B, w, wordWidth, h4, if_false]
      exact h
  refine ⟨fun c => ⟨getColorA_le PVRTCII c, getColorB_le PVRTCII c⟩, hA, hB, hres, hout, ?_⟩
  rw [hout]
  exact narrow_cast result hres

/-- Witness of C27: a punch-through texel of a 4bpp PVRTC-I tile (weight 14). -/
theorem channel_ranges_witness :
    getModulationValues
      (unpackedGrids ⟨0xAAAAAAAA, 0xFFFF801F⟩ ⟨0xAAAAAAAA, 0xFFFF801F⟩
        ⟨0xAAAAAAAA, 0xFFFF801F⟩ ⟨0xAAAAAAAA, 0xFFFF801F⟩ 4
        ⟨fun _ _ => 0, fun _ _ => 0, fun _ => ⟨0, 0, 0, 0⟩, fun _ => ⟨0, 0, 0, 0⟩⟩).1
      (unpackedGrids ⟨0xAAAAAAAA, 0xFFFF801F⟩ ⟨0xAAAAAAAA, 0xFFFF801F⟩
        ⟨0xAAAAAAAA, 0xFFFF801F⟩ ⟨0xAAAAAAAA, 0xFFFF801F⟩ 4
        ⟨fun _ _ => 0, fun _ _ => 0, fun _ => ⟨0, 0, 0, 0⟩, fun _ => ⟨0, 0, 0, 0⟩⟩).2
      (1 + 2) (2 + 2) 4 = 14 ∧
    (pvrtcGetDecompressedPixels false ⟨0xAAAAAAAA, 0xFFFF801F⟩ ⟨0xAAAAAAAA, 0xFFFF801F⟩
      ⟨0xAAAAAAAA, 0xFFFF801F⟩ ⟨0xAAAAAAAA, 0xFFFF801F⟩ (fun _ => ⟨0, 0, 0, 0⟩) 4
      ⟨fun _ _ => 0, fun _ _ => 0, fun _ => ⟨0, 0, 0, 0⟩, fun _ => ⟨0, 0, 0, 0⟩⟩ (2 + 1 * 4)) =
      ⟨127, 127, 255, 0⟩ :=
  ⟨by decide,
    ((channel_ranges false ⟨0xAAAAAAAA, 0xFFFF801F⟩ ⟨0xAAAAAAAA, 0xFFFF801F⟩
      ⟨0xAAAAAAAA, 0xFFFF801F⟩ ⟨0xAAAAAAAA, 0xFFFF801F⟩ (fun _ => ⟨0, 0, 0, 0⟩)
      ⟨fun _ _ => 0, fun _ _ => 0, fun _ => ⟨0, 0, 0, 0⟩, fun _ => ⟨0, 0, 0, 0⟩⟩ 4 1 2
      (Or.inr rfl) (by decide) (by decide)).2.2.2.2.1).trans (by decide)⟩


/-! ## The cells read by `getModulationValues` -/

/-- The result of `getModulationValues` depends on `modulationValues` only through the
cells listed by `getModulationValuesReads`. -/
theorem getModulationValues_reads (mv mv2 mm : Grid) (xPos yPos bpp : Nat)
    (h : ∀ p, p ∈ getModulationValuesReads mm xPos yPos bpp → mv p.1 p.2 = mv2 p.1 p.2) :
    getModulationValues mv mm xPos yPos bpp = getModulationValues mv2 mm xPos yPos bpp := by
  unfold getModulationValuesReads at h
  unfold getModulationValues
  dsimp only at h ⊢
  split_ifs at h ⊢
  all_goals first
    | rfl
    | simp only [List.mem_cons, List.mem_singleton, List.not_mem_nil, or_false,
        forall_eq_or_imp, forall_eq] at h
      first
        | rw [h]
        | rw [h.1, h.2]
        | rw [h.1, h.2.1, h.2.2.1, h.2.2.2]


/-- C28: during compositing every index used by `getModulationValues` is in bounds.  For
a texel `(x, y)` of the tile: in 2bpp the position `(x + 4, y + 2)` and its four
neighbours, computed in `uint32_t`, lie in `[0, 16) x [0, 8)`, and every cell of
`modulationValues` that is read holds a value in `[0, 3]`, which is the index into the
4-entry table `RepVals0`; in 4bpp the position `(x + 2, y + 2)` lies in
`[0, 8) x [0, 8)`. -/
theorem modulation_indices (P Q R S : PVRTCWord) (scratch : Scratch) (bpp x y : Nat)
    (hb : bpp = 2 ∨ bpp = 4) (hx : x < (if bpp = 2 then 8 else 4)) (hy : y < 4) :
    let wordWidth := if bpp = 2 then 8 else 4
    let xPos := x + wordWidth / 2
    let yPos := y + 4 / 2
    let g := unpackedGrids P Q R S bpp scratch
    (bpp = 2 →
      (xPos = x + 4 ∧ yPos = y + 2) ∧ (xPos < 16 ∧ yPos < 8) ∧
      (u32 (xPos + (2 ^ 32 - 1)) = xPos - 1 ∧ 1 ≤ xPos ∧ u32 (xPos + 1) = xPos + 1 ∧
        xPos + 1 < 16) ∧
      (u32 (yPos + (2 ^ 32 - 1)) = yPos - 1 ∧ 1 ≤ yPos ∧ u32 (yPos + 1) = yPos + 1 ∧
        yPos + 1 < 8) ∧
      (∀ p, p ∈ getModulationValuesReads g.2 xPos yPos bpp →
        (p.1 < 16 ∧ p.2 < 8) ∧ (0 ≤ g.1 p.1 p.2 ∧ g.1 p.1 p.2 ≤ 3))) ∧
    (bpp = 4 →
      (xPos = x + 2 ∧ yPos = y + 2) ∧ (xPos < 8 ∧ yPos < 8) ∧
      (∀ p, p ∈ getModulationValuesReads g.2 xPos yPos bpp → p.1 < 8 ∧ p.2 < 8)) := by
  intro wordWidth xPos yPos g
  constructor
  · intro h2
    subst h2
    have hx8 : x < 8 := hx
    have eX : xPos = x + 4 := by simp [xPos, wordWidth]
    have eY : yPos = y + 2 := by simp [yPos]
    have e1 : u32 (xPos + (2 ^ 32 - 1)) = xPos - 1 := by rw [eX]; unfold u32; omega
    have e2 : u32 (xPos + 1) = xPos + 1 := by rw [eX]; unfold u32; omega
    have e3 : u32 (yPos + (2 ^ 32 - 1)) = yPos - 1 := by rw [eY]; unfold u32; omega
    have e4 : u32 (yPos + 1) = yPos + 1 := by rw [eY]; unfold u32; omega
    refine ⟨⟨eX, eY⟩, ⟨by omega, by omega⟩, ⟨e1, by omega, e2, by omega⟩,
      ⟨e3, by omega, e4, by omega⟩, ?_⟩
    intro p hp
    have codes := unpackedGrids_two_codes P Q R S scratch
    have par := xor_parity
    unfold getModulationValuesReads at hp
    simp only [e1, e2, e3, e4, if_true] at hp
    have hself : ((xPos ^^^ yPos) &&& 1 = 0 ∨ g.2 xPos yPos = 0) →
        (xPos < 16 ∧ yPos < 8) ∧ (0 ≤ g.1 xPos yPos ∧ g.1 xPos yPos ≤ 3) := fun h =>
      ⟨⟨by omega, by omega⟩, codes xPos yPos (by omega) (by omega) h⟩
    have hnb : ¬ (xPos ^^^ yPos) &&& 1 = 0 → ∀ a b, a < 16 → b < 8 →
        (a + b + 1) % 2 = (xPos + yPos) % 2 →
        (a < 16 ∧ b < 8) ∧ (0 ≤ g.1 a b ∧ g.1 a b ≤ 3) := by
      intro hodd a b ha hb8 hab
      rw [par] at hodd
      exact ⟨⟨ha, hb8⟩, codes a b ha hb8 (Or.inl (by rw [par]; omega))⟩
    split_ifs at hp with c0 c1 c2 c3
    · rw [List.mem_singleton] at hp
      subst hp
      exact hself (Or.inr c0)
    · rw [List.mem_singleton] at hp
      subst hp
      exact hself (Or.inl c1)
    · simp only [List.mem_cons, List.mem_singleton, List.not_mem_nil, or_false] at hp
      rcases hp with rfl | rfl | rfl | rfl
      · exact hnb c1 xPos (yPos - 1) (by omega) (by omega) (by omega)
      · exact hnb c1 xPos (yPos + 1) (by omega) (by omega) (by omega)
      · exact hnb c1 (xPos - 1) yPos (by omega) (by omega) (by omega)
      · exact hnb c1 (xPos + 1) yPos (by omega) (by omega) (by omega)
    · simp only [List.mem_cons, List.mem_singleton, List.not_mem_nil, or_false] at hp
      rcases hp with rfl | rfl
      · exact hnb c1 (xPos - 1) yPos (by omega) (by omega) (by omega)
      · exact hnb c1 (xPos + 1) yPos (by omega) (by omega) (by omega)
    · simp only [List.mem_cons, List.mem_singleton, List.not_mem_nil, or_false] at hp
      rcases hp with rfl | rfl
      · exact hnb c1 xPos (yPos - 1) (by omega) (by omega) (by omega)
      · exact hnb c1 xPos (yPos + 1) (by omega) (by omega) (by omega)
  · intro h4
    subst h4
    have hx4 : x < 4 := hx
    have eX : xPos = x + 2 := by simp [xPos, wordWidth]
    have eY : yPos = y + 2 := by simp [yPos]
    refine ⟨⟨eX, eY⟩, ⟨by omega, by omega⟩, ?_⟩
    intro p hp
    unfold getModulationValuesReads at hp
    simp only [(by decide : (4 : Nat) ≠ 2), if_false, if_true, List.mem_singleton] at hp
    subst hp
    exact ⟨by omega, by omega⟩

/-- Witness of C28: a 2bpp tile of four interpolated words in H-and-V mode; the texel
`(0, 1)` is averaged from its four neighbours. -/
theorem modulation_indices_witness :
    getModulationValuesReads
      (unpackedGrids ⟨0x12345678, 0x801FFC01⟩ ⟨0x12345678, 0x801FFC01⟩
        ⟨0x12345678, 0x801FFC01⟩ ⟨0x12345678, 0x801FFC01⟩ 2
        ⟨fun _ _ => 77, fun _ _ => 77, fun _ => ⟨0, 0, 0, 0⟩, fun _ => ⟨0, 0, 0, 0⟩⟩).2
      (0 + 4) (1 + 2) 2 = [(4, 2), (4, 4), (3, 3), (5, 3)] ∧
    (unpackedGrids ⟨0x12345678, 0x801FFC01⟩ ⟨0x12345678, 0x801FFC01⟩
        ⟨0x12345678, 0x801FFC01⟩ ⟨0x12345678, 0x801FFC01⟩ 2
        ⟨fun _ _ => 77, fun _ _ => 77, fun _ => ⟨0, 0, 0, 0⟩, fun _ => ⟨0, 0, 0, 0⟩⟩).1 3 3
      ≤ 3 :=
  ⟨by decide,
    ((((modulation_indices ⟨0x12345678, 0x801FFC01⟩ ⟨0x12345678, 0x801FFC01⟩
      ⟨0x12345678, 0x801FFC01⟩ ⟨0x12345678, 0x801FFC01⟩
      ⟨fun _ _ => 77, fun _ _ => 77, fun _ => ⟨0, 0, 0, 0⟩, fun _ => ⟨0, 0, 0, 0⟩⟩ 2 0 1
      (Or.inl rfl) (by decide) (by decide)).1 rfl).2.2.2.2 (3, 3) (by decide)).2).2⟩


/-- The two formats extract the same colour A from a word with bits 31 and 15 set. -/
theorem getColorA_formats (c : Nat) (h31 : c.testBit 31 = true) (h15 : c.testBit 15 = true) :
    getColorA true c = getColorA false c := by
  rw [getColorA_opaqueMode true c h31, getColorA_opaqueMode false c h15]

/-- The two formats extract the same colour B from a word with bit 31 set. -/
theorem getColorB_formats (c : Nat) (h31 : c.testBit 31 = true) :
    getColorB true c = getColorB false c := by
  rw [getColorB_opaqueMode true c h31, getColorB_opaqueMode false c h31]

/-- C29: for every `bpp` (in particular 2 and 4) and words `P, Q, R, S` whose colorData has both bit 31
and bit 15 set, when no texel of the tile is punch-through (no modulation value above
10), `pvrtcGetDecompressedPixels<true>` and `pvrtcGetDecompressedPixels<false>` produce
identical tiles. -/
theorem formats_agree (P Q R S : PVRTCWord) (pColorData : Nat → Pixel32) (scratch : Scratch)
    (bpp : Nat)
    (hP : P.colorData.testBit 31 = true ∧ P.colorData.testBit 15 = true)
    (hQ : Q.colorData.testBit 31 = true ∧ Q.colorData.testBit 15 = true)
    (hR : R.colorData.testBit 31 = true ∧ R.colorData.testBit 15 = true)
    (hS : S.colorData.testBit 31 = true ∧ S.colorData.testBit 15 = true)
    (hnp : ∀ x, x < (if bpp = 2 then 8 else 4) → ∀ y, y < 4 →
      ¬ getModulationValues (unpackedGrids P Q R S bpp scratch).1
        (unpackedGrids P Q R S bpp scratch).2 (x + (if bpp = 2 then 8 else 4) / 2) (y + 4 / 2)
        bpp > 10) :
    pvrtcGetDecompressedPixels true P Q R S pColorData bpp scratch =
      pvrtcGetDecompressedPixels false P Q R S pColorData bpp scratch := by
  have hA : upscaledColorA true P Q R S bpp scratch = upscaledColorA false P Q R S bpp scratch := by
    unfold upscaledColorA
    rw [getColorA_formats _ hP.1 hP.2, getColorA_formats _ hQ.1 hQ.2,
      getColorA_formats _ hR.1 hR.2, getColorA_formats _ hS.1 hS.2]
  have hB : upscaledColorB true P Q R S bpp scratch = upscaledColorB false P Q R S bpp scratch := by
    unfold upscaledColorB
    rw [getColorB_formats _ hP.1, getColorB_formats _ hQ.1, getColorB_formats _ hR.1,
      getColorB_formats _ hS.1]
  unfold pvrtcGetDecompressedPixels
  dsimp only
  rw [hA, hB]
  apply forLoop_congr
  intro y out hy
  apply forLoop_congr
  intro x out2 hx
  have hw := hnp x hx y hy
  rw [blendTexel_plain true _ _ _ hw, blendTexel_plain false _ _ _ hw]

/-- Witness of C29: a 4bpp tile of four words with both flags set and plain modulation
codes. -/
theorem formats_agree_witness :
    ((0x801FFC00 : Nat).testBit 31 = true ∧ (0x801FFC00 : Nat).testBit 15 = true) ∧
    pvrtcGetDecompressedPixels true ⟨0x1B1B1B1B, 0x801FFC00⟩ ⟨0x1B1B1B1B, 0x801FFC00⟩
      ⟨0x1B1B1B1B, 0x801FFC00⟩ ⟨0x1B1B1B1B, 0x801FFC00⟩ (fun _ => ⟨0, 0, 0, 0⟩) 4
      ⟨fun _ _ => 0, fun _ _ => 0, fun _ => ⟨0, 0, 0, 0⟩, fun _ => ⟨0, 0, 0, 0⟩⟩ 6 =
    pvrtcGetDecompressedPixels false ⟨0x1B1B1B1B, 0x801FFC00⟩ ⟨0x1B1B1B1B, 0x801FFC00⟩
      ⟨0x1B1B1B1B, 0x801FFC00⟩ ⟨0x1B1B1B1B, 0x801FFC00⟩ (fun _ => ⟨0, 0, 0, 0⟩) 4
      ⟨fun _ _ => 0, fun _ _ => 0, fun _ => ⟨0, 0, 0, 0⟩, fun _ => ⟨0, 0, 0, 0⟩⟩ 6 :=
  ⟨by decide,
    congrFun (formats_agree ⟨0x1B1B1B1B, 0x801FFC00⟩ ⟨0x1B1B1B1B, 0x801FFC00⟩
      ⟨0x1B1B1B1B, 0x801FFC00⟩ ⟨0x1B1B1B1B, 0x801FFC00⟩ (fun _ => ⟨0, 0, 0, 0⟩)
      ⟨fun _ _ => 0, fun _ _ => 0, fun _ => ⟨0, 0, 0, 0⟩, fun _ => ⟨0, 0, 0, 0⟩⟩ 4
      (by decide) (by decide) (by decide) (by decide) (by decide)) 6⟩


/-! ## Bits of colorData read by the colour extraction -/

/-- A mask with bits only in positions `lo..hi` selects the same field from two words
that agree on these positions. -/
theorem and_mask_range (c c2 m lo hi : Nat)
    (hagree : ∀ i, lo ≤ i → i ≤ hi → c.testBit i = c2.testBit i)
    (h1 : m < 2 ^ (hi + 1)) (h2 : m % 2 ^ lo = 0) : c &&& m = c2 &&& m := by
  apply Nat.eq_of_testBit_eq
  intro i
  rw [Nat.testBit_and, Nat.testBit_and]
  by_cases hlo : lo ≤ i
  · by_cases hhi : i ≤ hi
    · rw [hagree i hlo hhi]
    · have : m.testBit i = false :=
        Nat.testBit_lt_two_pow (Nat.lt_of_lt_of_le h1 (Nat.pow_le_pow_right (by decide)
          (by omega)))
      rw [this, Bool.and_false, Bool.and_false]
  · have h3 : (m % 2 ^ lo).testBit i = false := by rw [h2]; exact Nat.zero_testBit i
    rw [Nat.testBit_mod_two_pow] at h3
    have : m.testBit i = false := by simpa [Nat.lt_of_not_le hlo] using h3
    rw [this, Bool.and_false, Bool.and_false]

/-- The function `getColorB` reads only bits 31..16 of colorData. -/
theorem getColorB_bits (PVRTCII : Bool) (c c2 : Nat)
    (h : ∀ i, 16 ≤ i → i ≤ 31 → c.testBit i = c2.testBit i) :
    getColorB PVRTCII c = getColorB PVRTCII c2 := by
  unfold getColorB
  rw [and_mask_range c c2 0x80000000 16 31 h (by decide) (by decide),
    and_mask_range c c2 0x7c000000 16 31 h (by decide) (by decide),
    and_mask_range c c2 0x3e00000 16 31 h (by decide) (by decide),
    and_mask_range c c2 0x1f0000 16 31 h (by decide) (by decide),
    and_mask_range c c2 0x70000000 16 31 h (by decide) (by decide),
    and_mask_range c c2 0xf000000 16 31 h (by decide) (by decide),
    and_mask_range c c2 0xf00000 16 31 h (by decide) (by decide),
    and_mask_range c c2 0xf0000 16 31 h (by decide) (by decide)]

/-- The fields of `getColorA` lie in bits 14..1 of colorData. -/
theorem getColorA_fields (c c2 : Nat) (h : ∀ i, 1 ≤ i → i ≤ 14 → c.testBit i = c2.testBit i) :
    c &&& 0x7c00 = c2 &&& 0x7c00 ∧ c &&& 0x3e0 = c2 &&& 0x3e0 ∧ c &&& 0x1e = c2 &&& 0x1e ∧
    c &&& 0xf00 = c2 &&& 0xf00 ∧ c &&& 0xf0 = c2 &&& 0xf0 ∧ c &&& 0xe = c2 &&& 0xe ∧
    c &&& 0x7000 = c2 &&& 0x7000 :=
  ⟨and_mask_range c c2 0x7c00 1 14 h (by decide) (by decide),
    and_mask_range c c2 0x3e0 1 14 h (by decide) (by decide),
    and_mask_range c c2 0x1e 1 14 h (by decide) (by decide),
    and_mask_range c c2 0xf00 1 14 h (by decide) (by decide),
    and_mask_range c c2 0xf0 1 14 h (by decide) (by decide),
    and_mask_range c c2 0xe 1 14 h (by decide) (by decide),
    and_mask_range c c2 0x7000 1 14 h (by decide) (by decide)⟩

/-- The function `getColorA` reads only its flag bit (bit 31 in PVRTC-II, bit 15 in
PVRTC-I) and bits 14..1 of colorData. -/
theorem getColorA_bits (PVRTCII : Bool) (c c2 : Nat)
    (hflag : c.testBit (if PVRTCII then 31 else 15) = c2.testBit (if PVRTCII then 31 else 15))
    (h : ∀ i, 1 ≤ i → i ≤ 14 → c.testBit i = c2.testBit i) :
    getColorA PVRTCII c = getColorA PVRTCII c2 := by
  obtain ⟨f1, f2, f3, f4, f5, f6, f7⟩ := getColorA_fields c c2 h
  have hf : c &&& (if PVRTCII then 0x80000000 else 0x8000) =
      c2 &&& (if PVRTCII then 0x80000000 else 0x8000) := by
    cases PVRTCII
    · exact and_mask_range c c2 0x8000 15 15
        (fun i h1 h2 => by
          have : i = 15 := by omega
          subst this
          exact hflag) (by decide) (by decide)
    · exact and_mask_range c c2 0x80000000 31 31
        (fun i h1 h2 => by
          have : i = 31 := by omega
          subst this
          exact hflag) (by decide) (by decide)
  unfold getColorA
  dsimp only
  rw [hf, f1, f2, f3, f4, f5, f6, f7]

theorem xor_one_testBit (c i : Nat) (hi : 1 ≤ i) : (c ^^^ 1).testBit i = c.testBit i := by
  have h1 : (1 : Nat).testBit i = false := by
    have e : (1 : Nat) = 2 ^ 0 := rfl
    rw [e, Nat.testBit_two_pow]
    simp
    omega
  rw [Nat.testBit_xor, h1, Bool.xor_false]

/-- C30: the colour fields and the modulation-mode flag of colorData do not interfere.
In both formats `getColorB` depends only on bits 31..16 of colorData; in PVRTC-I
`getColorA` depends only on bits 15..1; and in either format flipping bit 0, the
modulation-mode flag read by `unpackModulations`, changes neither `getColorA` nor
`getColorB`, while it does change the flag. -/
theorem colour_fields_independent :
    (∀ (PVRTCII : Bool) (c c2 : Nat), (∀ i, 16 ≤ i → i ≤ 31 → c.testBit i = c2.testBit i) →
      getColorB PVRTCII c = getColorB PVRTCII c2) ∧
    (∀ c c2 : Nat, (∀ i, 1 ≤ i → i ≤ 15 → c.testBit i = c2.testBit i) →
      getColorA false c = getColorA false c2) ∧
    (∀ (PVRTCII : Bool) (c : Nat),
      getColorA PVRTCII (c ^^^ 1) = getColorA PVRTCII c ∧
      getColorB PVRTCII (c ^^^ 1) = getColorB PVRTCII c ∧
      ((c ^^^ 1) &&& 0x1 ≠ 0 ↔ ¬ (c &&& 0x1 ≠ 0))) := by
  refine ⟨getColorB_bits, ?_, ?_⟩
  · intro c c2 h
    exact getColorA_bits false c c2 (h 15 (by decide) (by decide))
      (fun i h1 h2 => h i h1 (by omega))
  · intro PVRTCII c
    refine ⟨?_, ?_, ?_⟩
    · apply getColorA_bits
      · cases PVRTCII
        · exact xor_one_testBit c 15 (by decide)
        · exact xor_one_testBit c 31 (by decide)
      · intro i h1 _
        exact xor_one_testBit c i h1
    · apply getColorB_bits
      intro i h1 _
      exact xor_one_testBit c i (by omega)
    · rw [and_one_ne_zero, and_one_ne_zero, Nat.testBit_xor]
      cases c.testBit 0 <;> decide

/-- Witness of C30: two colorData words that agree on bits 31..16 and differ below. -/
theorem colour_fields_independent_witness :
    getColorB true 0x1234FFFF = getColorB true 0x12340000 ∧
    getColorA false 0x8ACF = getColorA false 0x8ACE :=
  ⟨colour_fields_independent.1 true 0x1234FFFF 0x12340000
      (fun i h1 h2 => by interval_cases i <;> decide),
    (colour_fields_independent.2.2 false 0x8ACE).1⟩

end PVRTC
